import Mathlib

/-!
# Beater: scheduler, transport, sampler and time utilities

A shallow embedding of the core of the drum machine
(`src/domain/*.hpp`, `src/domain/TimeTypes.cpp`, `src/domain/TempoMap.cpp`,
`src/domain/MeterMap.cpp`, `src/domain/Pattern.cpp`, `src/domain/Track.cpp`,
`src/domain/Project.cpp`, `src/domain/Instrument.cpp`, `src/engine/Scheduler.cpp`, `src/engine/Transport.cpp`,
`src/engine/Sampler.cpp`, `src/engine/Engine.cpp`) together with the properties proved
about it.

Conventions of the embedding.

* `Tick` (`int64_t`) is `Int`; 64-bit signed overflow (undefined behaviour in
  the source) is outside the model.  The one explicit narrowing in the
  scheduler, `int numRepeats = ...`, is modelled by `wrapInt32`.
* C++ `/` on integers truncates toward zero: it is `Int.tdiv`.
* `float` payloads (`velocity`, `probability`) are carried as rationals; the
  scheduler only copies them.
* `std::sort(first, last)` with `CompiledEvent::operator<` (which compares
  `tick` only) is modelled as an insertion sort on `tick`; the order it gives to events of
  equal tick is one of those `std::sort` may produce, and results about returned lists are
  stated up to that order (as a permutation that is sorted by tick).
* `double` tick/frame conversion is modelled with exact rational arithmetic
  and `std::round` as rounding half away from zero; the `Rounded` versions of the
  conversions round every operation to `double`.
* `int` arithmetic in `TimeUtils` (`ts.numerator * 4 * PPQ`, `static_cast<int>`) wraps to
  32 bits (`wrapInt32`).
* A `std::shared_ptr<Sample>` is an `Option Sample`; sample data and mix buffers are lists
  of rationals, and a write past the end of a buffer is dropped.
* A loop that does not terminate in the source yields `none`.
* `SampleLibrary::loadSample` is a parameter `String → Option Sample` of the sample loading
  loop; the instrument to sample map is an association list with the newest entry first.
-/

namespace Beater

/-! ## Domain model (`src/domain`) -/

/-- Musical time in ticks (`using Tick = int64_t`); the embedding writes `Int` for it. -/
abbrev Tick := Int

/-- Pulses per quarter note (`constexpr int PPQ = 960`). -/
def PPQ : Int := 960

/-- Time signature (`struct TimeSignature`). -/
structure TimeSignature where
  numerator : Int := 4
  denominator : Int := 4
deriving DecidableEq

/-- A note hit within a pattern (`struct StepNote`). -/
structure StepNote where
  instrumentId : Int := 0
  offsetTick : Int := 0
  velocity : ℚ := 4 / 5
  probability : ℚ := 1
deriving DecidableEq

/-- A reusable sequence of note events (`class Pattern`). -/
structure Pattern where
  id : String := ""
  name : String := ""
  lengthTicks : Int := PPQ * 4
  notes : List StepNote := []
deriving DecidableEq

/-- Pattern library (`class PatternLibrary`): a vector of patterns. -/
structure PatternLibrary where
  patterns : List Pattern := []
deriving DecidableEq

/-- The lookup `PatternLibrary::getPattern`: `std::find_if` on the id, `nullptr` when absent. -/
def PatternLibrary.getPattern (lib : PatternLibrary) (id : String) : Option Pattern :=
  lib.patterns.find? (fun p => p.id == id)

/-- Region type classification (`enum class RegionType`). -/
inductive RegionType where
  | Groove
  | Fill
  | Signature
  | Tempo
deriving DecidableEq

/-- How a region responds to length changes (`enum class StretchMode`). -/
inductive StretchMode where
  | Repeat
  | Truncate
  | VariantSelect
deriving DecidableEq

/-- A block on the timeline referencing a pattern (`class Region`). -/
structure Region where
  id : String := ""
  type : RegionType := RegionType.Groove
  startTick : Int := 0
  lengthTicks : Int := PPQ * 4
  patternId : String := ""
  stretchMode : StretchMode := StretchMode.Repeat
  snapToBars : Bool := true
deriving DecidableEq

/-- The accessor `Region::getEndTick`. -/
def Region.getEndTick (r : Region) : Int := r.startTick + r.lengthTicks

/-- A lane of regions (`class Track`). -/
structure Track where
  id : String := ""
  name : String := "Track"
  muted : Bool := false
  soloed : Bool := false
  regions : List Region := []
deriving DecidableEq

/-- The mutator `Track::setMuted`. -/
def Track.setMuted (t : Track) (m : Bool) : Track := { t with muted := m }

/-- The mutator `Track::setSoloed`. -/
def Track.setSoloed (t : Track) (s : Bool) : Track := { t with soloed := s }

/-- The query `Track::getRegionsInRange`: regions with `start < endTick` and `startTick < end`,
in the order of the track. -/
def Track.getRegionsInRange (t : Track) (startTick endTick : Int) : List Region :=
  t.regions.filter (fun region => decide (region.startTick < endTick ∧ startTick < region.getEndTick))

/-- An instrument of the rack (`class Instrument`). -/
structure Instrument where
  id : Int := 0
  name : String := "Instrument"
  gain : ℚ := 1
  pan : ℚ := 0
  samplePath : String := ""
deriving DecidableEq

/-- Instrument rack (`class InstrumentRack`): a vector of instruments. -/
structure InstrumentRack where
  instruments : List Instrument := []
deriving DecidableEq

/-- The part of `class Project` the scheduler and the sample loader read: the pattern library,
the instrument rack and the tracks (the tempo map and the meter map are not consulted by
them). -/
structure Project where
  name : String := "Untitled"
  revision : Nat := 0
  patterns : PatternLibrary := {}
  instruments : InstrumentRack := {}
  tracks : List Track := []
deriving DecidableEq

/-! ## Scheduler (`src/engine/Scheduler.cpp`) -/

/-- Compiled event ready for scheduling (`struct CompiledEvent`). -/
structure CompiledEvent where
  tick : Int
  instrumentId : Int
  velocity : ℚ
deriving DecidableEq

/-- Negation of `CompiledEvent::operator<` with swapped arguments: `a` may stay before `b`. -/
def tickLe (a b : CompiledEvent) : Prop := a.tick ≤ b.tick

instance tickLeDecidable : DecidableRel tickLe := fun a b => Int.decLe a.tick b.tick

instance tickLeTotal : IsTotal CompiledEvent tickLe := ⟨fun a b => Int.le_total a.tick b.tick⟩

instance tickLeTrans : IsTrans CompiledEvent tickLe := ⟨fun _ _ _ h1 h2 => Int.le_trans h1 h2⟩

/-- Model of `std::sort(events.begin(), events.end())`: an insertion sort on `tick`.
`std::sort` promises a permutation of its input that is sorted by `operator<` and leaves the
order of events with equal `tick` open; this model keeps their input order.  The properties
proved of scheduler results speak of the events returned and of their order by tick only. -/
def sortEvents (l : List CompiledEvent) : List CompiledEvent := l.insertionSort tickLe

/-- Conversion of a 64-bit value to `int` (two's complement wrap to 32 bits). -/
def wrapInt32 (x : Int) : Int := (x + 2 ^ 31) % 2 ^ 32 - 2 ^ 31

/-- Scheduler state (`class Scheduler`); the two pointers are options. -/
structure Scheduler where
  project_ : Option Project := none
  pattern_ : Option Pattern := none
  loopLengthTicks_ : Int := 0
  looping_ : Bool := true
deriving DecidableEq

/-- The setter `Scheduler::setProject`. -/
def Scheduler.setProject (s : Scheduler) (project : Option Project) : Scheduler :=
  { s with project_ := project, pattern_ := none }

/-- The setter `Scheduler::setPattern`. -/
def Scheduler.setPattern (s : Scheduler) (pattern : Option Pattern) : Scheduler :=
  match pattern with
  | some p =>
    if s.loopLengthTicks_ = 0 then
      { s with pattern_ := some p, project_ := none, loopLengthTicks_ := p.lengthTicks }
    else { s with pattern_ := some p, project_ := none }
  | none => { s with pattern_ := none, project_ := none }

/-- The setter `Scheduler::setLoopLength`. -/
def Scheduler.setLoopLength (s : Scheduler) (ticks : Int) : Scheduler :=
  { s with loopLengthTicks_ := ticks }

/-- The setter `Scheduler::setLooping`. -/
def Scheduler.setLooping (s : Scheduler) (enabled : Bool) : Scheduler :=
  { s with looping_ := enabled }

/-- The method `Scheduler::clear`. -/
def Scheduler.clear (s : Scheduler) : Scheduler :=
  { s with pattern_ := none, project_ := none }

/-- Inner note loop of `getEventsFromRegion` for one repetition starting at `repeatStart`. -/
def regionNoteEvents (notes : List StepNote) (regionStart regionEnd startTick endTick repeatStart : Int) :
    List CompiledEvent :=
  notes.filterMap (fun note =>
    let eventTick := repeatStart + note.offsetTick
    if startTick ≤ eventTick ∧ eventTick < endTick ∧ regionStart ≤ eventTick ∧ eventTick < regionEnd then
      some { tick := eventTick, instrumentId := note.instrumentId, velocity := note.velocity }
    else none)

/-- The method `Scheduler::getEventsFromRegion`. -/
def getEventsFromRegion (region : Region) (pattern : Pattern) (startTick endTick : Int) :
    List CompiledEvent :=
  let regionStart := region.startTick
  let regionEnd := regionStart + region.lengthTicks
  if regionEnd ≤ startTick ∨ endTick ≤ regionStart then []
  else
    let patternLength := pattern.lengthTicks
    if patternLength = 0 then []
    else
      let regionLength := region.lengthTicks
      let numRepeats := wrapInt32 ((regionLength + patternLength - 1).tdiv patternLength)
      (List.range numRepeats.toNat).flatMap (fun (rep : Nat) =>
        let repeatStart := regionStart + (rep : Int) * patternLength
        let repeatEnd := repeatStart + patternLength
        if repeatEnd ≤ startTick ∨ endTick ≤ repeatStart then []
        else regionNoteEvents pattern.notes regionStart regionEnd startTick endTick repeatStart)

/-- The method `Scheduler::getEventsFromTimeline`. -/
def getEventsFromTimeline (project : Project) (startTick endTick : Int) : List CompiledEvent :=
  sortEvents (project.tracks.flatMap (fun track =>
    (track.getRegionsInRange startTick endTick).flatMap (fun region =>
      match project.patterns.getPattern region.patternId with
      | none => []
      | some pattern => getEventsFromRegion region pattern startTick endTick)))

/-- Note loop of `getEventsFromSinglePattern` for one base tick (`loopTick`, or 0 for one-shot). -/
def patternNoteEvents (notes : List StepNote) (startTick endTick base : Int) : List CompiledEvent :=
  notes.filterMap (fun note =>
    let eventTick := base + note.offsetTick
    if startTick ≤ eventTick ∧ eventTick < endTick then
      some { tick := eventTick, instrumentId := note.instrumentId, velocity := note.velocity }
    else none)

/-- The loop `for (loopTick = loopStart; loopTick < loopEnd; loopTick += loopLengthTicks_)`,
run for at most `fuel` iterations; `none` when the loop has not exited by then. -/
def loopIterations (notes : List StepNote) (loopLength startTick endTick loopEnd : Int) :
    Nat → Int → Option (List CompiledEvent)
  | 0, loopTick => if loopTick < loopEnd then none else some []
  | fuel + 1, loopTick =>
    if loopTick < loopEnd then
      (loopIterations notes loopLength startTick endTick loopEnd fuel (loopTick + loopLength)).map
        (fun rest => patternNoteEvents notes startTick endTick loopTick ++ rest)
    else some []

/-- The method `Scheduler::getEventsFromSinglePattern` for a non-null pattern.  With a positive
loop length the loop runs `(loopEnd - loopStart) / loopLength` times; with a negative one it
never exits once entered, which is `none`. -/
def getEventsFromSinglePattern (pattern : Pattern) (loopLengthTicks : Int) (looping : Bool)
    (startTick endTick : Int) : Option (List CompiledEvent) :=
  if pattern.notes.isEmpty then some []
  else if loopLengthTicks = 0 then some []
  else if looping then
    let loopStart := (startTick.tdiv loopLengthTicks) * loopLengthTicks
    let loopEnd := ((endTick + loopLengthTicks - 1).tdiv loopLengthTicks) * loopLengthTicks
    let fuel := ((loopEnd - loopStart).tdiv loopLengthTicks).toNat
    (loopIterations pattern.notes loopLengthTicks startTick endTick loopEnd fuel loopStart).map
      sortEvents
  else some (sortEvents (patternNoteEvents pattern.notes startTick endTick 0))

/-- The method `Scheduler::getEventsInRange`. -/
def Scheduler.getEventsInRange (s : Scheduler) (startTick endTick : Int) :
    Option (List CompiledEvent) :=
  match s.project_ with
  | some project => some (getEventsFromTimeline project startTick endTick)
  | none =>
    match s.pattern_ with
    | some pattern =>
      getEventsFromSinglePattern pattern s.loopLengthTicks_ s.looping_ startTick endTick
    | none => some []

/-! ## Time conversion (`src/domain/TimeTypes.cpp`) -/

/-- The function `std::round`: nearest integer, halfway cases away from zero. -/
def roundHalfAway (x : ℚ) : Int := if 0 ≤ x then ⌊x + 1 / 2⌋ else -⌊-x + 1 / 2⌋

/-- The function `TimeUtils::framesPerTick`: `(sampleRate * 60.0) / (bpm * PPQ)`. -/
def framesPerTick (bpm : ℚ) (sampleRate : Nat) : ℚ :=
  ((sampleRate : ℚ) * 60) / (bpm * (PPQ : ℚ))

/-- The function `TimeUtils::ticksToFrames`; the cast to `uint64_t` of a negative value
(undefined in the source) is taken as 0. -/
def ticksToFrames (ticks : Int) (bpm : ℚ) (sampleRate : Nat) : Nat :=
  (roundHalfAway ((ticks : ℚ) * framesPerTick bpm sampleRate)).toNat

/-- The function `TimeUtils::framesToTicks`. -/
def framesToTicks (frames : Nat) (bpm : ℚ) (sampleRate : Nat) : Int :=
  roundHalfAway ((frames : ℚ) / framesPerTick bpm sampleRate)

/-! ## Transport (`src/engine/Transport.cpp`) -/

/-- Transport state (`struct TransportState`). -/
structure TransportState where
  rolling : Bool := false
  frame : Nat := 0
  tick : Int := 0
  bpm : ℚ := 120
  signature : TimeSignature := {}
  sampleRate : Nat := 48000
deriving DecidableEq

/-- The method `Transport::updateInternal`; `frame` is a `uint64_t`, so the sum wraps. -/
def Transport.updateInternal (st : TransportState) (nframes sampleRate : Nat) : TransportState :=
  if st.rolling = false then st
  else
    let frame := (st.frame + nframes) % 2 ^ 64
    { st with sampleRate := sampleRate, frame := frame,
              tick := framesToTicks frame st.bpm sampleRate }

/-- The method `Transport::setPosition`. -/
def Transport.setPosition (st : TransportState) (tick : Int) : TransportState :=
  { st with tick := tick, frame := ticksToFrames tick st.bpm st.sampleRate }

/-- The method `Transport::setTempo`. -/
def Transport.setTempo (st : TransportState) (bpm : ℚ) : TransportState := { st with bpm := bpm }

/-- The method `Transport::play`. -/
def Transport.play (st : TransportState) : TransportState := { st with rolling := true }

/-- The method `Transport::stop`. -/
def Transport.stop (st : TransportState) : TransportState := { st with rolling := false }

/-! ## Engine (`src/engine/Engine.cpp`) -/

/-- The state of `class Engine` that the audio callback reads and writes.  `instrumentSamples`
lists the keys of the `instrumentSamples_` map (the instruments that have a loaded sample);
the sampler is represented by the `noteOn` calls the callback issues. -/
structure Engine where
  backendSampleRate : Nat := 48000
  transport : TransportState := {}
  scheduler : Scheduler := {}
  instrumentSamples : List Int := []
  lastProcessedTick : Int := 0
deriving DecidableEq

/-- What one run of `Engine::audioCallback` did: the window passed to `getEventsInRange`
(`none` when the transport is not rolling) and the events for which `noteOn` was called. -/
structure CallbackRecord where
  window : Option (Int × Int)
  triggered : List CompiledEvent
deriving DecidableEq

/-- The method `Engine::audioCallback`. -/
def Engine.audioCallback (e : Engine) (nframes : Nat) : Option (Engine × CallbackRecord) :=
  let state := Transport.updateInternal e.transport nframes e.backendSampleRate
  if state.rolling = true then
    let startTick := state.tick
    let endFrame := (state.frame + nframes) % 2 ^ 64
    let endTick := framesToTicks endFrame state.bpm state.sampleRate
    match e.scheduler.getEventsInRange startTick endTick with
    | none => none
    | some events =>
      some ({ e with transport := state, lastProcessedTick := endTick },
            { window := some (startTick, endTick),
              triggered := events.filter (fun event => decide (event.instrumentId ∈ e.instrumentSamples)) })
  else some ({ e with transport := state }, { window := none, triggered := [] })

/-- The method `Engine::playPattern` for a non-null pattern. -/
def Engine.playPattern (e : Engine) (pattern : Pattern) : Engine :=
  { e with
    scheduler := ((e.scheduler.setPattern (some pattern)).setLoopLength pattern.lengthTicks).setLooping true,
    transport := Transport.play (Transport.setPosition e.transport 0),
    lastProcessedTick := 0 }

/-- The method `Engine::playTimeline`, binding the given project to the scheduler. -/
def Engine.playTimeline (e : Engine) (project : Project) : Engine :=
  { e with
    scheduler := e.scheduler.setProject (some project),
    transport := Transport.play (Transport.setPosition e.transport 0),
    lastProcessedTick := 0 }

/-! ## Definitions used to state the properties -/

/-- An event lies in the half-open window `[startTick, endTick)`. -/
def inWindow (startTick endTick : Int) (ev : CompiledEvent) : Bool :=
  decide (startTick ≤ ev.tick ∧ ev.tick < endTick)

/-- The event a note produces when its pattern copy starts at `base`. -/
def noteEvent (base : Int) (n : StepNote) : CompiledEvent :=
  { tick := base + n.offsetTick, instrumentId := n.instrumentId, velocity := n.velocity }

/-- Every note offset of the list lies in `[0, len)`. -/
def NotesWithin (notes : List StepNote) (len : Int) : Prop :=
  ∀ n ∈ notes, 0 ≤ n.offsetTick ∧ n.offsetTick < len

/-- Every pattern of the project's library keeps its notes inside `[0, lengthTicks)`. -/
def Project.PatternsInRange (project : Project) : Prop :=
  ∀ p ∈ project.patterns.patterns, NotesWithin p.notes p.lengthTicks

/-- Window-independent enumeration of a region: every repetition and every note, kept when the
tick lies inside the region. -/
def allRegionEvents (region : Region) (pattern : Pattern) : List CompiledEvent :=
  if pattern.lengthTicks = 0 then []
  else
    (List.range (wrapInt32 ((region.lengthTicks + pattern.lengthTicks - 1).tdiv
        pattern.lengthTicks)).toNat).flatMap (fun (rep : Nat) =>
      (pattern.notes.map (noteEvent (region.startTick + (rep : Int) * pattern.lengthTicks))).filter
        (inWindow region.startTick (region.startTick + region.lengthTicks)))

/-- Window-independent enumeration of a project: all regions of all tracks, in track order. -/
def allTimelineEvents (project : Project) : List CompiledEvent :=
  project.tracks.flatMap (fun track =>
    track.regions.flatMap (fun region =>
      match project.patterns.getPattern region.patternId with
      | none => []
      | some pattern => allRegionEvents region pattern))

/-- Window-independent enumeration of a looped pattern: iterations `0 .. K-1`, every note. -/
def allLoopEvents (notes : List StepNote) (L : Int) (K : Nat) : List CompiledEvent :=
  (List.range K).flatMap (fun (k : Nat) => notes.map (noteEvent ((k : Int) * L)))

/-- Configurations on which the scheduler's window is exact from tick `a` on: in timeline mode
every library pattern keeps its notes inside `[0, lengthTicks)`; in looping single-pattern mode
the loop length is 0 (nothing is ever returned), or it is positive, `a` is not negative and
every note lies inside `[0, loopLength)`; one-shot mode and the empty scheduler always are. -/
def Scheduler.WindowSafe (s : Scheduler) (a : Int) : Prop :=
  match s.project_ with
  | some project => project.PatternsInRange
  | none =>
    match s.pattern_ with
    | some pattern =>
      s.looping_ = true →
        s.loopLengthTicks_ = 0 ∨
          (0 < s.loopLengthTicks_ ∧ 0 ≤ a ∧ NotesWithin pattern.notes s.loopLengthTicks_)
    | none => True

/-- Window monotonicity at `a ≤ b ≤ c`: the three queries return, the list for `[a,b)`
followed by the list for `[b,c)` holds the events of the list for `[a,c)` (each as often),
and both are in ascending tick order; they can differ only in the order of events that share
a tick. -/
def Scheduler.WindowMonotoneAt (s : Scheduler) (a b c : Int) : Prop :=
  ∃ x y z, s.getEventsInRange a b = some x ∧ s.getEventsInRange b c = some y ∧
    s.getEventsInRange a c = some z ∧ (x ++ y).Perm z ∧
    (x ++ y).Pairwise (fun e1 e2 => e1.tick ≤ e2.tick) ∧
    z.Pairwise (fun e1 e2 => e1.tick ≤ e2.tick)

/-- A pattern of length 960 holding one note at offset 1000, beyond its end. -/
def overhangPattern : Pattern :=
  { id := "p", name := "p", lengthTicks := 960,
    notes := [{ instrumentId := 0, offsetTick := 1000, velocity := 1 }] }

/-- One track with the region `[0, 1920)` playing `overhangPattern` twice. -/
def overhangProject : Project :=
  { patterns := { patterns := [overhangPattern] },
    tracks := [{ id := "t", regions := [{ id := "r", startTick := 0, lengthTicks := 1920,
                                          patternId := "p" }] }] }

/-- Timeline-mode scheduler on `overhangProject`. -/
def overhangScheduler : Scheduler := { project_ := some overhangProject }

/-- Looping scheduler, loop length 10, whose single note sits at offset 12. -/
def lateNoteScheduler : Scheduler :=
  { pattern_ := some { id := "q", lengthTicks := 10,
                       notes := [{ instrumentId := 0, offsetTick := 12, velocity := 1 }] },
    loopLengthTicks_ := 10, looping_ := true }

/-- Looping scheduler, loop length 10, one note at offset 7 (inside the loop). -/
def shortLoopScheduler : Scheduler :=
  { pattern_ := some { id := "q", lengthTicks := 10,
                       notes := [{ instrumentId := 0, offsetTick := 7, velocity := 1 }] },
    loopLengthTicks_ := 10, looping_ := true }

/-- The groove of `TestPattern.cpp` / `TestTimeline.cpp`: kick on 1 and 3, snare on 2 and 4,
hi-hat eighth notes, in the offset order `Pattern::addNote` keeps. -/
def groovePattern : Pattern :=
  { id := "groove1", name := "Basic Groove", lengthTicks := 3840,
    notes := [
      { instrumentId := 0, offsetTick := 0, velocity := 9 / 10 },
      { instrumentId := 2, offsetTick := 0, velocity := 3 / 5 },
      { instrumentId := 2, offsetTick := 480, velocity := 3 / 5 },
      { instrumentId := 1, offsetTick := 960, velocity := 4 / 5 },
      { instrumentId := 2, offsetTick := 960, velocity := 3 / 5 },
      { instrumentId := 2, offsetTick := 1440, velocity := 3 / 5 },
      { instrumentId := 0, offsetTick := 1920, velocity := 17 / 20 },
      { instrumentId := 2, offsetTick := 1920, velocity := 3 / 5 },
      { instrumentId := 2, offsetTick := 2400, velocity := 3 / 5 },
      { instrumentId := 1, offsetTick := 2880, velocity := 4 / 5 },
      { instrumentId := 2, offsetTick := 2880, velocity := 3 / 5 },
      { instrumentId := 2, offsetTick := 3360, velocity := 3 / 5 }] }

/-- The groove played as a loop, as `Engine::playPattern` configures the scheduler. -/
def grooveLoopScheduler : Scheduler :=
  (((({} : Scheduler).setPattern (some groovePattern)).setLoopLength groovePattern.lengthTicks).setLooping
    true)

/-! ### Timeline mode as the specification words it -/

/-- Events of one region as the specification states them: `⌈regionLength / patternLength⌉`
repetitions, every note, kept iff the tick lies in the window and in the region. -/
def specRegionEvents (region : Region) (pattern : Pattern) (startTick endTick : Int) :
    List CompiledEvent :=
  (List.range (⌈(region.lengthTicks : ℚ) / (pattern.lengthTicks : ℚ)⌉).toNat).flatMap (fun (r : Nat) =>
    pattern.notes.filterMap (fun n =>
      let eventTick := region.startTick + (r : Int) * pattern.lengthTicks + n.offsetTick
      if startTick ≤ eventTick ∧ eventTick < endTick ∧
          region.startTick ≤ eventTick ∧ eventTick < region.startTick + region.lengthTicks then
        some { tick := eventTick, instrumentId := n.instrumentId, velocity := n.velocity }
      else none))

/-- Events of a project as the specification states them: every track, every region whose
pattern id resolves to a pattern of positive length. -/
def specTimelineEvents (project : Project) (startTick endTick : Int) : List CompiledEvent :=
  project.tracks.flatMap (fun track =>
    track.regions.flatMap (fun region =>
      match project.patterns.getPattern region.patternId with
      | none => []
      | some pattern =>
        if 0 < pattern.lengthTicks then specRegionEvents region pattern startTick endTick else []))

/-- The scheduler returns, and returns the specified events as a multiset. -/
def Scheduler.EmitsSpecified (s : Scheduler) (project : Project) (startTick endTick : Int) : Prop :=
  ∃ out, s.getEventsInRange startTick endTick = some out ∧
    out.Perm (specTimelineEvents project startTick endTick)

/-- The repetition count of every resolvable region fits the `int` it is stored in. -/
def Project.RepeatsFitInt (project : Project) : Prop :=
  ∀ track ∈ project.tracks, ∀ region ∈ track.regions, ∀ pattern,
    project.patterns.getPattern region.patternId = some pattern → 0 < pattern.lengthTicks →
      ⌈(region.lengthTicks : ℚ) / (pattern.lengthTicks : ℚ)⌉ < 2 ^ 31

/-- A one-tick pattern with a single note at offset 0. -/
def tickPattern : Pattern :=
  { id := "p", name := "p", lengthTicks := 1,
    notes := [{ instrumentId := 0, offsetTick := 0, velocity := 1 }] }

/-- One track with the region `[0, 2^31)` repeating `tickPattern`. -/
def wideProject : Project :=
  { patterns := { patterns := [tickPattern] },
    tracks := [{ id := "t", regions := [{ id := "r", startTick := 0, lengthTicks := 2 ^ 31,
                                          patternId := "p" }] }] }

/-- Timeline-mode scheduler on `wideProject`. -/
def wideScheduler : Scheduler := { project_ := some wideProject }

/-- The fill of `TestTimeline.cpp`: sixteen snare hits in a crescendo and a crash ten ticks
before the end of the bar. -/
def fillPattern : Pattern :=
  { id := "fill1", name := "Drum Fill", lengthTicks := 3840,
    notes := (List.range 16).map (fun (i : Nat) =>
        ({ instrumentId := 1, offsetTick := (i : Int) * 240,
           velocity := 3 / 5 + (i : ℚ) / 50 } : StepNote))
      ++ [{ instrumentId := 3, offsetTick := 3840 - 10, velocity := 9 / 10 }] }

/-- The groove region `[0, 3·3840)` of scenario 3. -/
def grooveRegion : Region :=
  { id := "region1", type := RegionType.Groove, startTick := 0, lengthTicks := 3 * 3840,
    patternId := "groove1" }

/-- The fill region `[3·3840, 4·3840)` of scenario 3. -/
def fillRegion : Region :=
  { id := "region2", type := RegionType.Fill, startTick := 3 * 3840, lengthTicks := 3840,
    patternId := "fill1" }

/-- The drum track of scenario 3. -/
def drumTrack : Track := { id := "track1", name := "Drums", regions := [grooveRegion, fillRegion] }

/-- Scenario 3 of the specification: the groove in `[0, 3·3840)` followed by the fill in
`[3·3840, 4·3840)` on one track. -/
def grooveFillProject : Project :=
  { patterns := { patterns := [groovePattern, fillPattern] }, tracks := [drumTrack] }

/-- Timeline-mode scheduler on `grooveFillProject`. -/
def grooveFillScheduler : Scheduler := ({} : Scheduler).setProject (some grooveFillProject)

/-! ### Single-pattern mode as the specification words it -/

/-- Looping mode as the specification states it: for every loop iteration `k` whose span
`[k·L, (k+1)·L)` intersects the window `[startTick, endTick)` and every note, an event at
`k·L + offsetTick` iff that tick lies in the window.  For a window inside the non-negative
ticks the intersecting iterations are among `0 .. endTick / L`. -/
def specLoopEvents (pattern : Pattern) (L startTick endTick : Int) : List CompiledEvent :=
  ((List.range ((endTick / L).toNat + 1)).filter (fun (k : Nat) =>
      decide ((k : Int) * L < endTick ∧ startTick < ((k : Int) + 1) * L ∧ startTick < endTick))).flatMap
    (fun (k : Nat) => pattern.notes.filterMap (fun n =>
      let eventTick := (k : Int) * L + n.offsetTick
      if startTick ≤ eventTick ∧ eventTick < endTick then
        some { tick := eventTick, instrumentId := n.instrumentId, velocity := n.velocity }
      else none))

/-- One-shot mode as the specification states it: the notes whose offset lies in the window,
each at `tick = offsetTick`. -/
def specOneShotEvents (pattern : Pattern) (startTick endTick : Int) : List CompiledEvent :=
  (pattern.notes.filter (fun n => decide (startTick ≤ n.offsetTick ∧ n.offsetTick < endTick))).map
    (fun n => { tick := n.offsetTick, instrumentId := n.instrumentId, velocity := n.velocity })

/-- The scheduler returns a list sorted by tick that holds exactly the events of `expected`. -/
def Scheduler.ReturnsSorted (s : Scheduler) (startTick endTick : Int)
    (expected : List CompiledEvent) : Prop :=
  ∃ out, s.getEventsInRange startTick endTick = some out ∧
    out.Pairwise (fun x y => x.tick ≤ y.tick) ∧ out.Perm expected

/-- A zero-length pattern with one note at offset 0. -/
def emptyLengthPattern : Pattern :=
  { id := "z", name := "z", lengthTicks := 0,
    notes := [{ instrumentId := 0, offsetTick := 0, velocity := 1 }] }

/-- The scheduler after `setPattern(&emptyLengthPattern); setLooping(false)`: one-shot mode
with loop length 0. -/
def zeroLengthOneShot : Scheduler :=
  ((({} : Scheduler).setPattern (some emptyLengthPattern)).setLooping false)

/-! ### Whole repetitions -/

/-- The query over `[S, S + k·P + Q)` returns a list in ascending tick order that consists
of the events of `k` copies of the first pattern's notes (copy `r` shifted by `S + r·P`)
followed by the events of the second pattern's notes shifted by `S + k·P`; the order of
events that share a tick is left open. -/
def Scheduler.WholeRepetitions (sched : Scheduler) (p1 p2 : Pattern) (S P : Int) (k : Nat)
    (Q : Int) : Prop :=
  ∃ first second,
    sched.getEventsInRange S (S + (k : Int) * P + Q) = some (first ++ second) ∧
    first.Perm ((List.range k).flatMap (fun (r : Nat) =>
      p1.notes.map (noteEvent (S + (r : Int) * P)))) ∧
    second.Perm (p2.notes.map (noteEvent (S + (k : Int) * P))) ∧
    (first ++ second).Pairwise (fun e1 e2 => e1.tick ≤ e2.tick)

/-- A pattern of length 960 with notes at offsets 0 and 1000; the second one overhangs. -/
def overhangFill : Pattern :=
  { id := "b", name := "b", lengthTicks := 960,
    notes := [{ instrumentId := 1, offsetTick := 0, velocity := 1 },
              { instrumentId := 1, offsetTick := 1000, velocity := 1 }] }

/-- A pattern of length 960 with one note at offset 0. -/
def downbeatPattern : Pattern :=
  { id := "a", name := "a", lengthTicks := 960,
    notes := [{ instrumentId := 0, offsetTick := 0, velocity := 1 }] }

/-- Region `[0, 960)` playing `downbeatPattern`, then region `[960, 1920)` playing
`overhangFill`. -/
def overhangFillScheduler : Scheduler :=
  { project_ := some
      { patterns := { patterns := [downbeatPattern, overhangFill] },
        tracks := [{ id := "t", regions := [
          { id := "r1", startTick := 0, lengthTicks := 960, patternId := "a" },
          { id := "r2", startTick := 960, lengthTicks := 960, patternId := "b" }] }] } }

/-- A one-tick pattern with id `f` and a single note at offset 0. -/
def tickFill : Pattern :=
  { id := "f", name := "f", lengthTicks := 1,
    notes := [{ instrumentId := 1, offsetTick := 0, velocity := 1 }] }

/-- Region `[0, 2^31)` repeating `tickPattern`, then region `[2^31, 2^31 + 1)` playing
`tickFill`. -/
def wideFillScheduler : Scheduler :=
  { project_ := some
      { patterns := { patterns := [tickPattern, tickFill] },
        tracks := [{ id := "t", regions := [
          { id := "r1", startTick := 0, lengthTicks := 2 ^ 31, patternId := "p" },
          { id := "r2", startTick := 2 ^ 31, lengthTicks := 1, patternId := "f" }] }] } }

/-! ### Projects that differ in ignored data -/

/-- Two tracks that agree on everything except the `muted` and `soloed` flags. -/
def Track.SameUpToFlags (t u : Track) : Prop :=
  t.id = u.id ∧ t.name = u.name ∧ t.regions = u.regions

/-- Two projects that agree on everything except the `muted` and `soloed` flags of their
tracks. -/
def Project.SameUpToFlags (p q : Project) : Prop :=
  p.name = q.name ∧ p.revision = q.revision ∧ p.patterns = q.patterns ∧
    List.Forall₂ Track.SameUpToFlags p.tracks q.tracks

/-- A region whose pattern id `ghost` is not in the library. -/
def ghostRegion : Region :=
  { id := "region3", type := RegionType.Groove, startTick := 0, lengthTicks := 3840,
    patternId := "ghost" }

/-- The drum track of scenario 3 with `ghostRegion` between its two regions. -/
def danglingTrack : Track :=
  { id := "track1", name := "Drums", regions := [grooveRegion, ghostRegion, fillRegion] }

/-- The groove-and-fill arrangement with the additional region `ghostRegion`. -/
def danglingProject : Project :=
  { patterns := { patterns := [groovePattern, fillPattern] }, tracks := [danglingTrack] }

/-- Timeline-mode scheduler on `danglingProject`. -/
def danglingScheduler : Scheduler := ({} : Scheduler).setProject (some danglingProject)

/-- The groove-and-fill arrangement with its drum track muted and soloed. -/
def mutedGrooveFillProject : Project :=
  { grooveFillProject with
    tracks := grooveFillProject.tracks.map (fun t => (t.setMuted true).setSoloed true) }

/-- Timeline-mode scheduler on `mutedGrooveFillProject`. -/
def mutedGrooveFillScheduler : Scheduler :=
  ({} : Scheduler).setProject (some mutedGrooveFillProject)

/-! ### Audio callback scenarios -/

/-- An engine at 48 kHz with samples loaded for the kick, snare and hi-hat, right after
`playPattern(&groove)`: looping scheduler, transport rolling at position 0, 120 BPM. -/
def groovePlayingEngine : Engine :=
  ({ backendSampleRate := 48000, instrumentSamples := [0, 1, 2] } : Engine).playPattern groovePattern

/-- The control-thread seek `transport.setPosition(tick)` applied to an engine. -/
def Engine.seek (e : Engine) (tick : Int) : Engine :=
  { e with transport := Transport.setPosition e.transport tick }

/-- Scenario 4 of the specification: the looped groove plays for 200 ms (one callback of 9600
frames at 48 kHz), the transport is sought to tick 0, and the next callback of 256 frames
runs.  The result is what that last callback did. -/
def seekWhileRolling : Option CallbackRecord :=
  match groovePlayingEngine.audioCallback 9600 with
  | none => none
  | some (playing, _) => ((playing.seek 0).audioCallback 256).map Prod.snd

/-- Maximum number of simultaneous voices (`constexpr size_t MAX_VOICES = 64`). -/
def MAX_VOICES : Nat := 64

/-- Audio sample data (`struct Sample`); the `float` frames are rationals. -/
structure Sample where
  dataLeft : List ℚ := []
  dataRight : List ℚ := []
  sampleRate : Nat := 48000
  channels : Nat := 2
  lengthFrames : Nat := 0
  filePath : String := ""
deriving DecidableEq

/-- Voice state for sample playback (`struct Voice`); the shared pointer is an option. -/
structure Voice where
  sample : Option Sample := none
  playbackPosition : Nat := 0
  velocity : ℚ := 1
  gain : ℚ := 1
  pan : ℚ := 0
  active : Bool := false
deriving DecidableEq

/-- The method `Voice::reset`: every field back to its default. -/
def Voice.reset (_v : Voice) : Voice := {}

/-- Sampler state (`class Sampler`): the fixed array `voices_`, every slot reset by the
constructor.  The class has no other data member. -/
structure Sampler where
  voices : List Voice := List.replicate MAX_VOICES {}
deriving DecidableEq

/-- The method `Sampler::allocateVoice`: index of the first inactive slot, `none` for
`nullptr`. -/
def Sampler.allocateVoice (s : Sampler) : Option Nat :=
  s.voices.findIdx? (fun voice => !voice.active)

/-- The voice initialisation of `Sampler::noteOn`: sample, position 0, the three parameters,
active. -/
def Voice.start (smp : Sample) (velocity gain pan : ℚ) : Voice :=
  { sample := some smp, playbackPosition := 0, velocity := velocity, gain := gain, pan := pan,
    active := true }

/-- The method `Sampler::noteOn`. -/
def Sampler.noteOn (s : Sampler) (sample : Option Sample) (velocity gain pan : ℚ)
    (_offsetFrames : Nat) : Sampler :=
  match sample with
  | none => s
  | some smp =>
    if smp.lengthFrames = 0 then s
    else
      match s.allocateVoice with
      | none => s
      | some i => { s with voices := s.voices.set i (Voice.start smp velocity gain pan) }

/-- The method `Sampler::allNotesOff`. -/
def Sampler.allNotesOff (s : Sampler) : Sampler :=
  { s with voices := s.voices.map Voice.reset }

/-- The method `Sampler::getActiveVoiceCount`. -/
def Sampler.getActiveVoiceCount (s : Sampler) : Nat :=
  s.voices.countP (fun voice => voice.active)

/-- Left gain of `renderVoice`: `velocity * gain * panL`, where `panL` is `1 - pan` for a
voice panned right and 1 otherwise. -/
def renderGainL (voice : Voice) : ℚ :=
  voice.velocity * voice.gain * (if voice.pan < 0 then 1 else if 0 < voice.pan then 1 - voice.pan else 1)

/-- Right gain of `renderVoice`: `velocity * gain * panR`, where `panR` is `1 + pan` for a
voice panned left and 1 otherwise. -/
def renderGainR (voice : Voice) : ℚ :=
  voice.velocity * voice.gain * (if voice.pan < 0 then 1 + voice.pan else 1)

/-- The frame loop of `renderVoice`, `for (i = startFrame; i < nframes; ++i)`, with `count`
iterations left: stop and reset the voice once `playbackPosition >= lengthFrames`, otherwise
accumulate one frame into both buffers and advance.  Reads and writes outside a buffer
(undefined in the source) read 0 and write nothing. -/
def renderFrames (sample : Sample) (gainL gainR : ℚ) :
    Nat → Nat → Voice → List ℚ → List ℚ → Voice × List ℚ × List ℚ
  | 0, _, voice, outL, outR => (voice, outL, outR)
  | count + 1, i, voice, outL, outR =>
    if sample.lengthFrames ≤ voice.playbackPosition then (voice.reset, outL, outR)
    else
      let pos := voice.playbackPosition
      renderFrames sample gainL gainR count (i + 1)
        { voice with playbackPosition := pos + 1 }
        (outL.set i (outL.getD i 0 + sample.dataLeft.getD pos 0 * gainL))
        (outR.set i (outR.getD i 0 + sample.dataRight.getD pos 0 * gainR))

/-- The method `Sampler::renderVoice`. -/
def renderVoice (voice : Voice) (outL outR : List ℚ) (startFrame nframes : Nat) :
    Voice × List ℚ × List ℚ :=
  if voice.active = false then (voice, outL, outR)
  else
    match voice.sample with
    | none => (voice, outL, outR)
    | some sample =>
      renderFrames sample (renderGainL voice) (renderGainR voice) (nframes - startFrame)
        startFrame voice outL outR

/-- The voice loop of `Sampler::render`: every active voice is rendered from frame 0. -/
def renderVoices : List Voice → List ℚ → List ℚ → Nat → List Voice × List ℚ × List ℚ
  | [], outL, outR, _ => ([], outL, outR)
  | voice :: rest, outL, outR, nframes =>
    let step := if voice.active = true then renderVoice voice outL outR 0 nframes
                else (voice, outL, outR)
    let tail := renderVoices rest step.2.1 step.2.2 nframes
    (step.1 :: tail.1, tail.2.1, tail.2.2)

/-- The method `Sampler::render`: the new sampler and the two output buffers. -/
def Sampler.render (s : Sampler) (outL outR : List ℚ) (nframes : Nat) :
    Sampler × List ℚ × List ℚ :=
  let r := renderVoices s.voices outL outR nframes
  ({ s with voices := r.1 }, r.2.1, r.2.2)

/-- The method `Engine::stopPlayback`; the `sampler_` member is carried next to the engine
record. -/
def Engine.stopPlayback (e : Engine) (sampler : Sampler) : Engine × Sampler :=
  ({ e with transport := Transport.stop e.transport, scheduler := e.scheduler.clear },
   sampler.allNotesOff)

/-- The arguments of one `noteOn` call. -/
structure NoteOnArgs where
  sample : Option Sample
  velocity : ℚ
  gain : ℚ
  pan : ℚ
  offsetFrames : Nat

/-- A run of `noteOn` calls with no `render` in between. -/
def Sampler.noteOnAll (s : Sampler) (calls : List NoteOnArgs) : Sampler :=
  calls.foldl (fun acc c => acc.noteOn c.sample c.velocity c.gain c.pan c.offsetFrames) s

/-- The call carries a non-null sample with at least one frame. -/
def NoteOnArgs.NonEmpty (c : NoteOnArgs) : Prop :=
  ∃ smp, c.sample = some smp ∧ smp.lengthFrames ≠ 0

/-- A one-frame sample. -/
def clickSample : Sample := { dataLeft := [1], dataRight := [1], lengthFrames := 1 }

/-- A kick call: the click sample at full velocity, unit gain, centred. -/
def clickCall : NoteOnArgs :=
  { sample := some clickSample, velocity := 1, gain := 1, pan := 0, offsetFrames := 0 }

/-- The sampler after 64 `noteOn` calls on a fresh sampler: every slot is taken. -/
def fullSampler : Sampler := ({} : Sampler).noteOnAll (List.replicate 64 clickCall)

/-- The voice a `renderVoice` call over `n` frames (from frame 0) leaves behind; it does not
depend on the buffers. -/
def advanceVoice (voice : Voice) (n : Nat) : Voice :=
  if voice.active = false then voice
  else
    match voice.sample with
    | none => voice
    | some smp =>
      if voice.playbackPosition + n ≤ smp.lengthFrames ∨ n = 0 then
        { voice with playbackPosition := voice.playbackPosition + n }
      else voice.reset

/-- A run of `render` calls, one per block `(outL, outR, nframes)`; only the sampler is
kept. -/
def Sampler.renderBlocks (s : Sampler) (blocks : List (List ℚ × List ℚ × Nat)) : Sampler :=
  blocks.foldl (fun acc b => (acc.render b.1 b.2.1 b.2.2).1) s

/-- Total number of frames of a run of blocks. -/
def totalFrames (blocks : List (List ℚ × List ℚ × Nat)) : Nat :=
  (blocks.map (fun b => b.2.2)).sum


/-! ## Bars, beats and snapping (`src/domain/TimeTypes.cpp`) -/

/-- The function `TimeUtils::ticksPerBar`.  The product `ts.numerator * 4 * PPQ` is computed
in `int`, so each multiplication is reduced to 32 bits; the quotient is then widened to
`Tick`. -/
def ticksPerBar (ts : TimeSignature) : Int :=
  (wrapInt32 (wrapInt32 (ts.numerator * 4) * PPQ)).tdiv ts.denominator

/-- The function `TimeUtils::ticksPerBeat`. -/
def ticksPerBeat (ts : TimeSignature) : Int :=
  (wrapInt32 (4 * PPQ)).tdiv ts.denominator

/-- Bar, beat and tick of a position (`struct MusicalPosition`); `bar` and `beat` are `int`
fields. -/
structure MusicalPosition where
  bar : Int := 0
  beat : Int := 0
  tick : Int := 0
deriving DecidableEq

/-- The function `TimeUtils::tickToPosition`; the two `static_cast<int>` narrow to 32 bits. -/
def tickToPosition (tick : Int) (ts : TimeSignature) : MusicalPosition :=
  let barLength := ticksPerBar ts
  let beatLength := ticksPerBeat ts
  let remainder := tick.tmod barLength
  { bar := wrapInt32 (tick.tdiv barLength),
    beat := wrapInt32 (remainder.tdiv beatLength),
    tick := remainder.tmod beatLength }

/-- The function `TimeUtils::positionToTick`. -/
def positionToTick (pos : MusicalPosition) (ts : TimeSignature) : Int :=
  let barLength := ticksPerBar ts
  let beatLength := ticksPerBeat ts
  pos.bar * barLength + pos.beat * beatLength + pos.tick

/-- The function `TimeUtils::snapToBar`. -/
def snapToBar (tick : Int) (ts : TimeSignature) : Int :=
  let barLength := ticksPerBar ts
  let remainder := tick.tmod barLength
  if remainder < barLength.tdiv 2 then tick - remainder
  else tick + (barLength - remainder)

/-- The function `TimeUtils::snapToBeat`. -/
def snapToBeat (tick : Int) (ts : TimeSignature) : Int :=
  let beatLength := ticksPerBeat ts
  let remainder := tick.tmod beatLength
  if remainder < beatLength.tdiv 2 then tick - remainder
  else tick + (beatLength - remainder)

/-- The function `TimeUtils::snapToGrid`; `PPQ / subdivision` is an `int` division. -/
def snapToGrid (tick : Int) (subdivision : Int) : Int :=
  let gridSize := PPQ.tdiv subdivision
  let remainder := tick.tmod gridSize
  if remainder < gridSize.tdiv 2 then tick - remainder
  else tick + (gridSize - remainder)

/-- The value `x` fits the 32-bit `int` type. -/
def FitsInt32 (x : Int) : Prop := -2 ^ 31 ≤ x ∧ x < 2 ^ 31

instance (x : Int) : Decidable (FitsInt32 x) := by unfold FitsInt32; infer_instance

/-- The multiple `r` of `unit` is nearest to `t`, and no multiple at the same distance is
larger: the reading of "snaps to the nearest grid line, the exact midpoint going up". -/
def IsNearestMultipleUp (unit t r : Int) : Prop :=
  unit ∣ r ∧ ∀ m : Int, unit ∣ m → |t - r| < |t - m| ∨ (|t - r| = |t - m| ∧ m ≤ r)

/-- The common time signatures of the tests. -/
def sig_4_4 : TimeSignature := { numerator := 4, denominator := 4 }

/-- Three quarter notes to the bar. -/
def sig_3_4 : TimeSignature := { numerator := 3, denominator := 4 }

/-- Six eighth notes to the bar. -/
def sig_6_8 : TimeSignature := { numerator := 6, denominator := 8 }

/-! ## Tempo and meter maps (`src/domain/TempoMap.cpp`, `src/domain/MeterMap.cpp`) -/

/-- Tempo change at a tick (`struct TempoChange`). -/
structure TempoChange where
  atTick : Int := 0
  bpm : ℚ := 120
deriving DecidableEq

/-- Negation of `TempoChange::operator<` with swapped arguments: `a` may stay before `b`. -/
def tempoLe (a b : TempoChange) : Prop := a.atTick ≤ b.atTick

instance tempoLeDecidable : DecidableRel tempoLe := fun a b => Int.decLe a.atTick b.atTick

instance tempoLeTotal : IsTotal TempoChange tempoLe :=
  ⟨fun a b => Int.le_total a.atTick b.atTick⟩

instance tempoLeTrans : IsTrans TempoChange tempoLe := ⟨fun _ _ _ h1 h2 => Int.le_trans h1 h2⟩

/-- The class `TempoMap`; the default constructor puts 120 BPM at tick 0. -/
structure TempoMap where
  changes_ : List TempoChange := [{ atTick := 0, bpm := 120 }]
deriving DecidableEq

/-- The constructor `TempoMap::TempoMap(double initialBpm)`. -/
def TempoMap.withBpm (initialBpm : ℚ) : TempoMap :=
  { changes_ := [{ atTick := 0, bpm := initialBpm }] }

/-- The method `TempoMap::sortChanges` (`std::sort` with `operator<`), as a stable insertion
sort on `atTick`. -/
def TempoMap.sortChanges (m : TempoMap) : TempoMap :=
  { changes_ := m.changes_.insertionSort tempoLe }

/-- The method `TempoMap::removeChangeAt`. -/
def TempoMap.removeChangeAt (m : TempoMap) (tick : Int) : TempoMap :=
  { changes_ := m.changes_.filter (fun tc => !decide (tc.atTick = tick)) }

/-- The method `TempoMap::addChange`. -/
def TempoMap.addChange (m : TempoMap) (atTick : Int) (bpm : ℚ) : TempoMap :=
  let removed := m.removeChangeAt atTick
  TempoMap.sortChanges { changes_ := removed.changes_ ++ [{ atTick := atTick, bpm := bpm }] }

/-- The method `TempoMap::clear`. -/
def TempoMap.clear (_m : TempoMap) : TempoMap := { changes_ := [] }

/-- The method `TempoMap::setConstantTempo`. -/
def TempoMap.setConstantTempo (_m : TempoMap) (bpm : ℚ) : TempoMap :=
  { changes_ := [{ atTick := 0, bpm := bpm }] }

/-- Meter change at a tick (`struct MeterChange`). -/
structure MeterChange where
  atTick : Int := 0
  signature : TimeSignature := {}
deriving DecidableEq

/-- Negation of `MeterChange::operator<` with swapped arguments. -/
def meterLe (a b : MeterChange) : Prop := a.atTick ≤ b.atTick

instance meterLeDecidable : DecidableRel meterLe := fun a b => Int.decLe a.atTick b.atTick

instance meterLeTotal : IsTotal MeterChange meterLe :=
  ⟨fun a b => Int.le_total a.atTick b.atTick⟩

instance meterLeTrans : IsTrans MeterChange meterLe := ⟨fun _ _ _ h1 h2 => Int.le_trans h1 h2⟩

/-- The class `MeterMap`; the default constructor puts 4/4 at tick 0. -/
structure MeterMap where
  changes_ : List MeterChange := [{ atTick := 0, signature := {} }]
deriving DecidableEq

/-- The constructor `MeterMap::MeterMap(const TimeSignature&)`. -/
def MeterMap.withSignature (initialSignature : TimeSignature) : MeterMap :=
  { changes_ := [{ atTick := 0, signature := initialSignature }] }

/-- The method `MeterMap::sortChanges`, as a stable insertion sort on `atTick`. -/
def MeterMap.sortChanges (m : MeterMap) : MeterMap :=
  { changes_ := m.changes_.insertionSort meterLe }

/-- The method `MeterMap::removeChangeAt`. -/
def MeterMap.removeChangeAt (m : MeterMap) (tick : Int) : MeterMap :=
  { changes_ := m.changes_.filter (fun mc => !decide (mc.atTick = tick)) }

/-- The method `MeterMap::addChange`. -/
def MeterMap.addChange (m : MeterMap) (atTick : Int) (signature : TimeSignature) : MeterMap :=
  let removed := m.removeChangeAt atTick
  MeterMap.sortChanges
    { changes_ := removed.changes_ ++ [{ atTick := atTick, signature := signature }] }

/-- The method `MeterMap::clear`. -/
def MeterMap.clear (_m : MeterMap) : MeterMap := { changes_ := [] }

/-- The method `MeterMap::setConstantMeter`. -/
def MeterMap.setConstantMeter (_m : MeterMap) (signature : TimeSignature) : MeterMap :=
  { changes_ := [{ atTick := 0, signature := signature }] }

/-- The entries of a tempo map are in strictly ascending `atTick` order. -/
def TempoMap.StrictlyAscending (m : TempoMap) : Prop :=
  m.changes_.Pairwise (fun a b => a.atTick < b.atTick)

/-- The entries of a meter map are in strictly ascending `atTick` order. -/
def MeterMap.StrictlyAscending (m : MeterMap) : Prop :=
  m.changes_.Pairwise (fun a b => a.atTick < b.atTick)

/-- A call of one of the public mutators of `TempoMap`. -/
inductive TempoOp where
  | addChange (atTick : Int) (bpm : ℚ)
  | removeChangeAt (tick : Int)
  | clear
  | setConstantTempo (bpm : ℚ)
deriving DecidableEq

/-- Run one mutator on a tempo map. -/
def TempoMap.apply (m : TempoMap) : TempoOp → TempoMap
  | .addChange atTick bpm => m.addChange atTick bpm
  | .removeChangeAt tick => m.removeChangeAt tick
  | .clear => m.clear
  | .setConstantTempo bpm => m.setConstantTempo bpm

/-- A call of one of the public mutators of `MeterMap`. -/
inductive MeterOp where
  | addChange (atTick : Int) (signature : TimeSignature)
  | removeChangeAt (tick : Int)
  | clear
  | setConstantMeter (signature : TimeSignature)
deriving DecidableEq

/-- Run one mutator on a meter map. -/
def MeterMap.apply (m : MeterMap) : MeterOp → MeterMap
  | .addChange atTick signature => m.addChange atTick signature
  | .removeChangeAt tick => m.removeChangeAt tick
  | .clear => m.clear
  | .setConstantMeter signature => m.setConstantMeter signature

/-- A tempo map with changes at ticks 0, 960 and 3840. -/
def threeTempoMap : TempoMap :=
  { changes_ := [{ atTick := 0, bpm := 120 }, { atTick := 960, bpm := 90 },
                 { atTick := 3840, bpm := 140 }] }

/-- A meter map with changes at ticks 0 and 3840. -/
def twoMeterMap : MeterMap :=
  { changes_ := [{ atTick := 0, signature := sig_4_4 }, { atTick := 3840, signature := sig_3_4 }] }

/-! ## Time conversion in `double` arithmetic

The conversions of `src/domain/TimeTypes.cpp` once more, with every `double` operation and
every integer-to-`double` conversion followed by a rounding `fl`.  With `fl = id` these are
`framesPerTick`, `ticksToFrames` and `framesToTicks` above. -/

/-- Nearest integer, halfway cases to the even neighbour. -/
def roundHalfEven (x : ℚ) : Int :=
  if x - ⌊x⌋ < 1 / 2 then ⌊x⌋
  else if 1 / 2 < x - ⌊x⌋ then ⌊x⌋ + 1
  else if ⌊x⌋ % 2 = 0 then ⌊x⌋ else ⌊x⌋ + 1

/-- Spacing of the binary64 numbers around `x`: `2 ^ (e - 52)` where `2 ^ e ≤ |x| < 2 ^ (e + 1)`. -/
def ulpDouble (x : ℚ) : ℚ := (2 : ℚ) ^ (Int.log 2 |x| - 52)

/-- Rounding to IEEE-754 binary64 (53-bit significand, round to nearest, ties to even); the
exponent range is not bounded, so overflow and subnormal numbers are left out. -/
def roundDouble (x : ℚ) : ℚ :=
  if x = 0 then 0 else (roundHalfEven (x / ulpDouble x) : ℚ) * ulpDouble x

/-- The standard model of a rounding to `double`: relative error at most `2 ^ -53`. -/
def IsDoubleRounding (fl : ℚ → ℚ) : Prop := ∀ x : ℚ, |fl x - x| ≤ |x| / 2 ^ 53

/-- The function `TimeUtils::framesPerTick` with rounded operations:
`(sampleRate * 60.0) / (bpm * PPQ)`. -/
def Rounded.framesPerTick (fl : ℚ → ℚ) (bpm : ℚ) (sampleRate : Nat) : ℚ :=
  fl (fl ((sampleRate : ℚ) * 60) / fl (bpm * (PPQ : ℚ)))

/-- The function `TimeUtils::ticksToFrames` with rounded operations: `ticks` is converted to
`double`, multiplied, passed to `std::round` and cast to `uint64_t`. -/
def Rounded.ticksToFrames (fl : ℚ → ℚ) (ticks : Int) (bpm : ℚ) (sampleRate : Nat) : Nat :=
  (roundHalfAway (fl (fl (ticks : ℚ) * Rounded.framesPerTick fl bpm sampleRate))).toNat

/-- The function `TimeUtils::framesToTicks` with rounded operations. -/
def Rounded.framesToTicks (fl : ℚ → ℚ) (frames : Nat) (bpm : ℚ) (sampleRate : Nat) : Int :=
  roundHalfAway (fl (fl (frames : ℚ) / Rounded.framesPerTick fl bpm sampleRate))

/-! ## Tempo and meter lookup (`TempoMap::getBpmAt`, `MeterMap::getSignatureAt`,
`MeterMap::getBarStartAt`, `MeterMap::getBarIndexAt`) -/

/-- The scan of `TempoMap::getBpmAt`: take the value of each change at or before `tick`, stop
at the first later change. -/
def scanBpm (tick : Int) : List TempoChange → ℚ → ℚ
  | [], bpm => bpm
  | change :: rest, bpm => if change.atTick ≤ tick then scanBpm tick rest change.bpm else bpm

/-- The method `TempoMap::getBpmAt`. -/
def TempoMap.getBpmAt (m : TempoMap) (tick : Int) : ℚ :=
  match m.changes_ with
  | [] => 120
  | first :: rest => scanBpm tick (first :: rest) first.bpm

/-- The scan of `MeterMap::getSignatureAt`. -/
def scanSignature (tick : Int) : List MeterChange → TimeSignature → TimeSignature
  | [], sig => sig
  | change :: rest, sig =>
    if change.atTick ≤ tick then scanSignature tick rest change.signature else sig

/-- The method `MeterMap::getSignatureAt`. -/
def MeterMap.getSignatureAt (m : MeterMap) (tick : Int) : TimeSignature :=
  match m.changes_ with
  | [] => { numerator := 4, denominator := 4 }
  | first :: rest => scanSignature tick (first :: rest) first.signature

/-- The end of the range of a change in the two bar walks: the tick of the next change, or
`tick + 1` for the last change. -/
def rangeEndOf (tick : Int) (rest : List MeterChange) : Int :=
  match rest with
  | next :: _ => next.atTick
  | [] => tick + 1

/-- The loop of `MeterMap::getBarStartAt` over the remaining changes; `fallback` is the value
returned after the loop (bar start under the last signature). -/
def barStartWalk (tick fallback : Int) : List MeterChange → Int
  | [] => fallback
  | change :: rest =>
    let rangeStart := change.atTick
    let rangeEnd := rangeEndOf tick rest
    if tick < rangeStart then fallback
    else if rangeStart ≤ tick ∧ tick < rangeEnd then
      let barLength := ticksPerBar change.signature
      let offsetInSection := tick - rangeStart
      let barStartInSection := (offsetInSection.tdiv barLength) * barLength
      rangeStart + barStartInSection
    else barStartWalk tick fallback rest

/-- The method `MeterMap::getBarStartAt`. -/
def MeterMap.getBarStartAt (m : MeterMap) (tick : Int) : Int :=
  match m.changes_ with
  | [] =>
    let barLength := ticksPerBar { numerator := 4, denominator := 4 }
    (tick.tdiv barLength) * barLength
  | first :: rest =>
    let barLength := ticksPerBar ((first :: rest).getLast (List.cons_ne_nil first rest)).signature
    barStartWalk tick ((tick.tdiv barLength) * barLength) (first :: rest)

/-- The loop of `MeterMap::getBarIndexAt` over the remaining changes; `barCount` is an `int`,
so the cast of each quotient and each addition are reduced to 32 bits. -/
def barIndexWalk (tick : Int) : List MeterChange → Int → Int
  | [], barCount => barCount
  | change :: rest, barCount =>
    let rangeStart := change.atTick
    let rangeEnd := rangeEndOf tick rest
    if tick < rangeStart then barCount
    else
      let barLength := ticksPerBar change.signature
      let effectiveEnd := if tick < rangeEnd then tick else rangeEnd
      let ticksInSection := effectiveEnd - rangeStart
      let barsInSection := wrapInt32 (ticksInSection.tdiv barLength)
      let barCount' := wrapInt32 (barCount + barsInSection)
      if tick < rangeEnd then barCount' else barIndexWalk tick rest barCount'

/-- The method `MeterMap::getBarIndexAt`. -/
def MeterMap.getBarIndexAt (m : MeterMap) (tick : Int) : Int :=
  match m.changes_ with
  | [] => wrapInt32 (tick.tdiv (ticksPerBar { numerator := 4, denominator := 4 }))
  | first :: rest => barIndexWalk tick (first :: rest) 0

/-- The entries of a tempo map are in non-decreasing `atTick` order. -/
def TempoMap.Sorted (m : TempoMap) : Prop := m.changes_.Pairwise (fun a b => a.atTick ≤ b.atTick)

/-- The entries of a meter map are in non-decreasing `atTick` order. -/
def MeterMap.Sorted (m : MeterMap) : Prop := m.changes_.Pairwise (fun a b => a.atTick ≤ b.atTick)

/-- Start of the meter segment of the change with index `j`. -/
def segmentStart (changes : List MeterChange) (j : Nat) : Int := (changes.getD j {}).atTick

/-- End of the meter segment with index `j`: the tick of the next change, `none` (no end) for
the last change. -/
def segmentEnd (changes : List MeterChange) (j : Nat) : Option Int :=
  (changes.get? (j + 1)).map (fun c => c.atTick)

/-- Signature of the meter segment with index `j`. -/
def segmentSignature (changes : List MeterChange) (j : Nat) : TimeSignature :=
  (changes.getD j {}).signature

/-- The tick `t` lies in the meter segment with index `j`. -/
def InSegment (changes : List MeterChange) (t : Int) (j : Nat) : Prop :=
  j < changes.length ∧ segmentStart changes j ≤ t ∧ ∀ e, segmentEnd changes j = some e → t < e

/-- The full bars of segment `j` elapsed at `t`:
`⌊(min(rangeEnd, t) - rangeStart) / ticksPerBar(sig)⌋`. -/
def segmentBars (changes : List MeterChange) (t : Int) (j : Nat) : Int :=
  ⌊((((match segmentEnd changes j with
        | some e => min e t
        | none => t) - segmentStart changes j : Int) : ℚ)
      / ((ticksPerBar (segmentSignature changes j) : Int) : ℚ))⌋

/-- The sum of `segmentBars` over the segments with index `0, ..., i`. -/
def barsUpTo (changes : List MeterChange) (t : Int) (i : Nat) : Int :=
  ((List.range (i + 1)).map (segmentBars changes t)).sum

/-- A call of a mutator that leaves an entry at tick 0 in place: anything but `clear` and
`removeChangeAt 0`. -/
def TempoOp.KeepsOrigin : TempoOp → Bool
  | .clear => false
  | .removeChangeAt tick => !decide (tick = 0)
  | _ => true

/-- A call of a mutator that leaves an entry at tick 0 in place: anything but `clear` and
`removeChangeAt 0`. -/
def MeterOp.KeepsOrigin : MeterOp → Bool
  | .clear => false
  | .removeChangeAt tick => !decide (tick = 0)
  | _ => true

/-- A meter map with 4/4 from tick 0, 3/4 from tick 7680 and 6/8 from tick 13440. -/
def threeMeterMap : MeterMap :=
  { changes_ := [{ atTick := 0, signature := sig_4_4 }, { atTick := 7680, signature := sig_3_4 },
                 { atTick := 13440, signature := sig_6_8 }] }

/-- A meter map whose only entry, at tick 0, has the signature -1/1, so a bar length of
-3840 ticks. -/
def negativeBarMap : MeterMap :=
  { changes_ := [{ atTick := 0, signature := { numerator := -1, denominator := 1 } }] }

/-- A meter map whose only entry, at tick 0, has the signature 1/3840, so a bar length of one
tick. -/
def oneTickBarMap : MeterMap :=
  { changes_ := [{ atTick := 0, signature := { numerator := 1, denominator := 3840 } }] }

/-! ## Patterns, regions and tracks (`src/domain/Pattern.cpp`, `src/domain/Region.hpp`,
`src/domain/Track.cpp`) -/

/-- Negation of the comparator of `Pattern::addNote` with swapped arguments: `a` may stay
before `b`. -/
def noteLe (a b : StepNote) : Prop := a.offsetTick ≤ b.offsetTick

instance noteLeDecidable : DecidableRel noteLe := fun a b => Int.decLe a.offsetTick b.offsetTick

instance noteLeTotal : IsTotal StepNote noteLe :=
  ⟨fun a b => Int.le_total a.offsetTick b.offsetTick⟩

instance noteLeTrans : IsTrans StepNote noteLe := ⟨fun _ _ _ h1 h2 => Int.le_trans h1 h2⟩

/-- The method `Pattern::addNote`: `push_back`, then `std::sort` on `offsetTick` (as a stable
insertion sort). -/
def Pattern.addNote (p : Pattern) (note : StepNote) : Pattern :=
  { p with notes := (p.notes ++ [note]).insertionSort noteLe }

/-- The method `Pattern::removeNote`. -/
def Pattern.removeNote (p : Pattern) (index : Nat) : Pattern :=
  if index < p.notes.length then { p with notes := p.notes.eraseIdx index } else p

/-- The method `Pattern::clearNotes`. -/
def Pattern.clearNotes (p : Pattern) : Pattern := { p with notes := [] }

/-- A run of `addNote` calls. -/
def Pattern.addNotes (p : Pattern) (notes : List StepNote) : Pattern :=
  notes.foldl Pattern.addNote p

/-- The method `PatternLibrary::removePattern`. -/
def PatternLibrary.removePattern (lib : PatternLibrary) (id : String) : PatternLibrary :=
  { patterns := lib.patterns.filter (fun p => !(p.id == id)) }

/-- The method `PatternLibrary::addPattern`. -/
def PatternLibrary.addPattern (lib : PatternLibrary) (pattern : Pattern) : PatternLibrary :=
  { patterns := (lib.removePattern pattern.id).patterns ++ [pattern] }

/-- The method `PatternLibrary::hasPattern`. -/
def PatternLibrary.hasPattern (lib : PatternLibrary) (id : String) : Bool :=
  (lib.getPattern id).isSome

/-- The method `PatternLibrary::clear`. -/
def PatternLibrary.clear (_lib : PatternLibrary) : PatternLibrary := { patterns := [] }

/-- A call of `addPattern` or `removePattern`. -/
inductive LibraryOp where
  | addPattern (pattern : Pattern)
  | removePattern (id : String)
deriving DecidableEq

/-- Run one call on a pattern library. -/
def PatternLibrary.apply (lib : PatternLibrary) : LibraryOp → PatternLibrary
  | .addPattern pattern => lib.addPattern pattern
  | .removePattern id => lib.removePattern id

/-- The method `Region::contains`. -/
def Region.contains (r : Region) (tick : Int) : Bool :=
  decide (r.startTick ≤ tick ∧ tick < r.getEndTick)

/-- The method `Region::overlaps`. -/
def Region.overlaps (r other : Region) : Bool :=
  decide (r.startTick < other.getEndTick ∧ other.startTick < r.getEndTick)

/-- Negation of the comparator of `Track::addRegion` with swapped arguments. -/
def regionLe (a b : Region) : Prop := a.startTick ≤ b.startTick

instance regionLeDecidable : DecidableRel regionLe := fun a b => Int.decLe a.startTick b.startTick

instance regionLeTotal : IsTotal Region regionLe :=
  ⟨fun a b => Int.le_total a.startTick b.startTick⟩

instance regionLeTrans : IsTrans Region regionLe := ⟨fun _ _ _ h1 h2 => Int.le_trans h1 h2⟩

/-- The method `Track::addRegion`: `push_back`, then `std::sort` on the start tick (as a stable
insertion sort). -/
def Track.addRegion (t : Track) (region : Region) : Track :=
  { t with regions := (t.regions ++ [region]).insertionSort regionLe }

/-- The method `Track::removeRegion`. -/
def Track.removeRegion (t : Track) (regionId : String) : Track :=
  { t with regions := t.regions.filter (fun r => !(r.id == regionId)) }

/-- The method `Track::getRegion`. -/
def Track.getRegion (t : Track) (regionId : String) : Option Region :=
  t.regions.find? (fun r => r.id == regionId)

/-- The method `Track::wouldOverlap`. -/
def Track.wouldOverlap (t : Track) (newRegion : Region) : Bool :=
  t.regions.any (fun existing => newRegion.overlaps existing)

/-- The method `Track::clearRegions`. -/
def Track.clearRegions (t : Track) : Track := { t with regions := [] }

/-- A call of `addRegion` or `removeRegion`. -/
inductive TrackOp where
  | addRegion (region : Region)
  | removeRegion (regionId : String)
deriving DecidableEq

/-- Run one call on a track. -/
def Track.apply (t : Track) : TrackOp → Track
  | .addRegion region => t.addRegion region
  | .removeRegion regionId => t.removeRegion regionId

/-- The regions added by a run of calls and not removed by a later call of it. -/
def survivingRegions : List TrackOp → List Region
  | [] => []
  | .addRegion region :: rest =>
    (if rest.any (fun op => decide (op = TrackOp.removeRegion region.id)) then [] else [region])
      ++ survivingRegions rest
  | .removeRegion _ :: rest => survivingRegions rest

/-- The caller protocol of `wouldOverlap`: the region is passed to `addRegion` only when
`wouldOverlap` returned false for it. -/
def Track.addRegionIfFree (t : Track) (region : Region) : Track :=
  if t.wouldOverlap region then t else t.addRegion region

/-- The three notes of the pattern test: kick at 0, snare at 960, hi-hat at 480. -/
def kickNote : StepNote := { instrumentId := 1, offsetTick := 0, velocity := 9 / 10, probability := 1 }

/-- The snare of the pattern test. -/
def snareNote : StepNote :=
  { instrumentId := 2, offsetTick := 960, velocity := 4 / 5, probability := 1 }

/-- The hi-hat of the pattern test. -/
def hatNote : StepNote := { instrumentId := 3, offsetTick := 480, velocity := 3 / 5, probability := 1 }

/-- A groove region with the given id, start and length (the constructor `Region::Region`). -/
def Region.groove (id : String) (startTick lengthTicks : Int) : Region :=
  { id := id, type := RegionType.Groove, startTick := startTick, lengthTicks := lengthTicks }

/-- The track of the range-query test: regions `[0,1000)`, `[2000,3000)`, `[4000,5000)`. -/
def rangeTestTrack : Track :=
  (({ id := "track_1", name := "Test Track" } : Track).addRegion (Region.groove "r1" 0 1000)
    |>.addRegion (Region.groove "r2" 2000 1000)
    |>.addRegion (Region.groove "r3" 4000 1000))

/-! ## Scheduler enumeration without the skip tests, loop ticks, project edits, sample
loading and sampler accesses -/

/-- The naive enumeration of a region: every repetition `rep` in `[0, numRepeats)` and every
note, an event kept iff its tick lies in `[startTick, endTick)` and in
`[regionStart, regionEnd)`; no early exit and no per-repetition skip. -/
def naiveRegionEvents (region : Region) (pattern : Pattern) (startTick endTick : Int) :
    List CompiledEvent :=
  let regionStart := region.startTick
  let regionEnd := regionStart + region.lengthTicks
  let patternLength := pattern.lengthTicks
  let numRepeats := wrapInt32 ((region.lengthTicks + patternLength - 1).tdiv patternLength)
  (List.range numRepeats.toNat).flatMap (fun (rep : Nat) =>
    pattern.notes.filterMap (fun note =>
      let eventTick := regionStart + (rep : Int) * patternLength + note.offsetTick
      if startTick ≤ eventTick ∧ eventTick < endTick ∧
          regionStart ≤ eventTick ∧ eventTick < regionEnd then
        some { tick := eventTick, instrumentId := note.instrumentId, velocity := note.velocity }
      else none))

/-- The values `loopTick` takes in the loop
`for (loopTick = loopStart; loopTick < loopEnd; loopTick += loopLengthTicks_)` of
`getEventsFromSinglePattern`, run for at most `fuel` iterations; `none` when the loop has not
exited by then. -/
def loopTicks (loopLength loopEnd : Int) : Nat → Int → Option (List Int)
  | 0, loopTick => if loopTick < loopEnd then none else some []
  | fuel + 1, loopTick =>
    if loopTick < loopEnd then
      (loopTicks loopLength loopEnd fuel (loopTick + loopLength)).map (fun rest => loopTick :: rest)
    else some []

/-- The loop ticks of a call of `getEventsFromSinglePattern` in looping mode with a non-zero
loop length: `loopStart`, `loopEnd` and the loop as in the source. -/
def singlePatternLoopTicks (loopLengthTicks startTick endTick : Int) : Option (List Int) :=
  let loopStart := (startTick.tdiv loopLengthTicks) * loopLengthTicks
  let loopEnd := ((endTick + loopLengthTicks - 1).tdiv loopLengthTicks) * loopLengthTicks
  let fuel := ((loopEnd - loopStart).tdiv loopLengthTicks).toNat
  loopTicks loopLengthTicks loopEnd fuel loopStart

/-- A pattern with one note at offset 7. -/
def offbeatPattern : Pattern :=
  { id := "offbeat", name := "Offbeat", lengthTicks := 10,
    notes := [{ instrumentId := 1, offsetTick := 7, velocity := 1 }] }

/-- The method `Project::addTrack`. -/
def Project.addTrack (p : Project) (track : Track) : Project :=
  { p with tracks := p.tracks ++ [track] }

/-- The method `Project::removeTrack`. -/
def Project.removeTrack (p : Project) (trackId : String) : Project :=
  { p with tracks := p.tracks.filter (fun t => !(t.id == trackId)) }

/-- The method `Project::incrementRevision` (`++revision_` on a `uint64_t`). -/
def Project.incrementRevision (p : Project) : Project :=
  { p with revision := (p.revision + 1) % 2 ^ 64 }

/-- The accessor `Project::getRevision`. -/
def Project.getRevision (p : Project) : Nat := p.revision

/-- An edit of the pattern library made through the reference that
`Project::getPatternLibrary` returns. -/
def Project.editPatternLibrary (p : Project) (edit : PatternLibrary → PatternLibrary) : Project :=
  { p with patterns := edit p.patterns }

/-- An edit of a track made through the pointer that `Project::getTrack(trackId)` returns: the
first track with the id is edited, nothing happens when there is none. -/
def Project.editTrack (p : Project) (trackId : String) (edit : Track → Track) : Project :=
  match p.tracks.findIdx? (fun t => t.id == trackId) with
  | some i => { p with tracks := p.tracks.modify edit i }
  | none => p

/-- Negation of the comparator of `InstrumentRack::addInstrument` with swapped arguments. -/
def instrumentLe (a b : Instrument) : Prop := a.id ≤ b.id

instance instrumentLeDecidable : DecidableRel instrumentLe := fun a b => Int.decLe a.id b.id

instance instrumentLeTotal : IsTotal Instrument instrumentLe :=
  ⟨fun a b => Int.le_total a.id b.id⟩

instance instrumentLeTrans : IsTrans Instrument instrumentLe :=
  ⟨fun _ _ _ h1 h2 => Int.le_trans h1 h2⟩

/-- The method `InstrumentRack::removeInstrument`. -/
def InstrumentRack.removeInstrument (rack : InstrumentRack) (id : Int) : InstrumentRack :=
  { instruments := rack.instruments.filter (fun i => !decide (i.id = id)) }

/-- The method `InstrumentRack::addInstrument`: remove the id, `push_back`, `std::sort` on the
id (as a stable insertion sort). -/
def InstrumentRack.addInstrument (rack : InstrumentRack) (instrument : Instrument) :
    InstrumentRack :=
  { instruments :=
      ((rack.removeInstrument instrument.id).instruments ++ [instrument]).insertionSort
        instrumentLe }

/-- An edit of the instrument rack made through the reference that
`Project::getInstrumentRack` returns. -/
def Project.editInstrumentRack (p : Project) (edit : InstrumentRack → InstrumentRack) : Project :=
  { p with instruments := edit p.instruments }

/-- An editing operation made on or through a project. -/
inductive ProjectEdit where
  | addTrack (track : Track)
  | removeTrack (trackId : String)
  | addPattern (pattern : Pattern)
  | removePattern (id : String)
  | addInstrument (instrument : Instrument)
  | removeInstrument (id : Int)
  | addRegion (trackId : String) (region : Region)
  | removeRegion (trackId : String) (regionId : String)
deriving DecidableEq

/-- Run one editing operation. -/
def Project.applyEdit (p : Project) : ProjectEdit → Project
  | .addTrack track => p.addTrack track
  | .removeTrack trackId => p.removeTrack trackId
  | .addPattern pattern => p.editPatternLibrary (fun lib => lib.addPattern pattern)
  | .removePattern id => p.editPatternLibrary (fun lib => lib.removePattern id)
  | .addInstrument instrument => p.editInstrumentRack (fun rack => rack.addInstrument instrument)
  | .removeInstrument id => p.editInstrumentRack (fun rack => rack.removeInstrument id)
  | .addRegion trackId region => p.editTrack trackId (fun t => t.addRegion region)
  | .removeRegion trackId regionId => p.editTrack trackId (fun t => t.removeRegion regionId)

/-- A freshly constructed project (`Project::createDefault`): one track `track_0` named
"Drums", the instruments Kick, Snare and Hi-Hat with ids 1, 2, 3, revision 0. -/
def defaultProject : Project :=
  { name := "Untitled", revision := 0,
    instruments := (({} : InstrumentRack).addInstrument { id := 1, name := "Kick" }
      |>.addInstrument { id := 2, name := "Snare" }
      |>.addInstrument { id := 3, name := "Hi-Hat" }),
    tracks := [{ id := "track_0", name := "Drums" }] }

/-! ### Sample loading (`Engine::loadInstrumentSamples`) -/

/-- The assignment `instrumentSamples_[id] = sample` on the map, kept as a list of entries with
distinct keys. -/
def assignSample (samples : List (Int × Sample)) (id : Int) (sample : Sample) :
    List (Int × Sample) :=
  (id, sample) :: samples.filter (fun entry => !decide (entry.1 = id))

/-- The lookup `Engine::getSampleForInstrument`: `find` on the map, `none` for `nullptr`. -/
def getSampleForInstrument (samples : List (Int × Sample)) (instrumentId : Int) : Option Sample :=
  (samples.find? (fun entry => decide (entry.1 = instrumentId))).map (fun entry => entry.2)

/-- The loop of `Engine::loadInstrumentSamples`; `loadSample` gives the outcome of
`SampleLibrary::loadSample` for each path (`none` for `nullptr`).  An instrument without a
path is skipped (`continue`); a failed load ends the call (`return false`). -/
def loadSamplesLoop (loadSample : String → Option Sample) :
    List Instrument → List (Int × Sample) → List (Int × Sample) × Bool
  | [], samples => (samples, true)
  | instrument :: rest, samples =>
    if instrument.samplePath.isEmpty then loadSamplesLoop loadSample rest samples
    else
      match loadSample instrument.samplePath with
      | some sample => loadSamplesLoop loadSample rest (assignSample samples instrument.id sample)
      | none => (samples, false)

/-- The body of `Engine::loadInstrumentSamples`: the map is cleared, then filled from the
project's rack; returns the new map and the result of the call. -/
def loadProjectSamples (loadSample : String → Option Sample) (project : Project) :
    List (Int × Sample) × Bool :=
  loadSamplesLoop loadSample project.instruments.instruments []

/-- The method `Engine::loadInstrumentSamples` on the engine record, which keeps the keys of the
map. -/
def Engine.loadInstrumentSamples (e : Engine) (loadSample : String → Option Sample)
    (project : Project) : Engine × Bool :=
  ({ e with instrumentSamples := (loadProjectSamples loadSample project).1.map (fun x => x.1) },
   (loadProjectSamples loadSample project).2)

/-- The instruments up to the first one whose non-empty path fails to load. -/
def instrumentsBeforeFailure (loadSample : String → Option Sample)
    (instruments : List Instrument) : List Instrument :=
  instruments.takeWhile (fun i => i.samplePath.isEmpty || (loadSample i.samplePath).isSome)

/-- A rack whose first instrument points to a missing file and whose second one loads. -/
def brokenKickProject : Project :=
  { instruments := { instruments := [{ id := 1, name := "Kick", samplePath := "missing.wav" },
                                     { id := 2, name := "Snare", samplePath := "snare.wav" }] } }

/-- The outcome of the sample library where only `snare.wav` can be read. -/
def onlySnareLoads (path : String) : Option Sample :=
  if path = "snare.wav" then some clickSample else none

/-! ## Memory accesses of the sampler (`src/engine/Sampler.cpp`) -/

/-- One executed iteration of the frame loop of `renderVoice`: the sample read, the index
`pos` read from `sampleL` and `sampleR`, the index `i` written in `outL` and `outR`, and the
two gains of the accumulation. -/
structure FrameAccess where
  sample : Sample
  readIndex : Nat
  writeIndex : Nat
  gainL : ℚ
  gainR : ℚ
deriving DecidableEq

/-- The accesses of the frame loop of `renderVoice`, with the control flow of `renderFrames`:
nothing once `playbackPosition >= lengthFrames`, otherwise one read at `pos` and one write at
`i`, then the next frame. -/
def renderFramesAccesses (sample : Sample) (gainL gainR : ℚ) :
    Nat → Nat → Voice → List FrameAccess
  | 0, _, _ => []
  | count + 1, i, voice =>
    if sample.lengthFrames ≤ voice.playbackPosition then []
    else
      let pos := voice.playbackPosition
      { sample := sample, readIndex := pos, writeIndex := i, gainL := gainL, gainR := gainR }
        :: renderFramesAccesses sample gainL gainR count (i + 1)
            { voice with playbackPosition := pos + 1 }

/-- The accesses of one `Sampler::renderVoice` call. -/
def renderVoiceAccesses (voice : Voice) (startFrame nframes : Nat) : List FrameAccess :=
  if voice.active = false then []
  else
    match voice.sample with
    | none => []
    | some sample =>
      renderFramesAccesses sample (renderGainL voice) (renderGainR voice) (nframes - startFrame)
        startFrame voice

/-- The accesses of the voice loop of `Sampler::render`, voice after voice. -/
def renderVoicesAccesses : List Voice → Nat → List FrameAccess
  | [], _ => []
  | voice :: rest, nframes =>
    (if voice.active = true then renderVoiceAccesses voice 0 nframes else [])
      ++ renderVoicesAccesses rest nframes

/-- The accesses of one `Sampler::render` call. -/
def Sampler.renderAccesses (s : Sampler) (nframes : Nat) : List FrameAccess :=
  renderVoicesAccesses s.voices nframes

/-- The effect of one access on the two output buffers: `outL[i] += sampleL[pos] * gainL` and
`outR[i] += sampleR[pos] * gainR`. -/
def applyAccess (out : List ℚ × List ℚ) (a : FrameAccess) : List ℚ × List ℚ :=
  (out.1.set a.writeIndex (out.1.getD a.writeIndex 0 + a.sample.dataLeft.getD a.readIndex 0 * a.gainL),
   out.2.set a.writeIndex (out.2.getD a.writeIndex 0 + a.sample.dataRight.getD a.readIndex 0 * a.gainR))

/-- The bound on a voice: an active voice has a non-null sample and a playback position of
at most `lengthFrames`. -/
def Voice.inBounds (voice : Voice) : Bool :=
  !voice.active ||
    match voice.sample with
    | none => false
    | some sample => decide (voice.playbackPosition ≤ sample.lengthFrames)

/-- Every voice of the sampler is within its bound. -/
def Sampler.inBounds (s : Sampler) : Bool := s.voices.all Voice.inBounds

/-! ## Pan law of the mix (`Sampler::render`) -/

/-- The left gain of a voice as the pan law states it:
`velocity * gain * (pan ≤ 0 ? 1 : 1 - pan)`. -/
def panGainL (voice : Voice) : ℚ :=
  voice.velocity * voice.gain * (if voice.pan ≤ 0 then 1 else 1 - voice.pan)

/-- The right gain of a voice as the pan law states it:
`velocity * gain * (pan ≥ 0 ? 1 : 1 + pan)`. -/
def panGainR (voice : Voice) : ℚ :=
  voice.velocity * voice.gain * (if 0 ≤ voice.pan then 1 else 1 + voice.pan)

/-- What the pan law lets a voice add to frame `j` of the left buffer in a block of `nframes`
frames: the sample frame at `playbackPosition + j` times the left gain while the block and
the sample last, nothing for an inactive voice or one without a sample. -/
def voiceMixL (voice : Voice) (nframes j : Nat) : ℚ :=
  if voice.active = true then
    match voice.sample with
    | none => 0
    | some sample =>
      if j < min nframes (sample.lengthFrames - voice.playbackPosition) then
        sample.dataLeft.getD (voice.playbackPosition + j) 0 * panGainL voice
      else 0
  else 0

/-- What the pan law lets a voice add to frame `j` of the right buffer. -/
def voiceMixR (voice : Voice) (nframes j : Nat) : ℚ :=
  if voice.active = true then
    match voice.sample with
    | none => 0
    | some sample =>
      if j < min nframes (sample.lengthFrames - voice.playbackPosition) then
        sample.dataRight.getD (voice.playbackPosition + j) 0 * panGainR voice
      else 0
  else 0

/-- A fresh sampler playing the click sample at full velocity and unit gain with the given
pan. -/
def pannedClick (pan : ℚ) : Sampler := ({} : Sampler).noteOn (some clickSample) 1 1 pan 0
/-! ## Sorting and normal-form lemmas -/


theorem sortEvents_perm (l : List CompiledEvent) : (sortEvents l).Perm l :=
  List.perm_insertionSort tickLe l

theorem sortEvents_sorted (l : List CompiledEvent) : (sortEvents l).Sorted tickLe :=
  List.sorted_insertionSort tickLe l

theorem mem_sortEvents {l : List CompiledEvent} {x : CompiledEvent} : x ∈ sortEvents l ↔ x ∈ l :=
  List.mem_insertionSort tickLe

theorem orderedInsert_append_left (x : CompiledEvent) (A B : List CompiledEvent)
    (h : ∀ y ∈ B, tickLe x y) :
    (A ++ B).orderedInsert tickLe x = A.orderedInsert tickLe x ++ B := by
  induction A with
  | nil =>
    cases B with
    | nil => rfl
    | cons b B => simp [List.orderedInsert, h b (List.mem_cons_self _ _)]
  | cons a A ih =>
    by_cases hxa : tickLe x a
    · simp [List.orderedInsert, hxa]
    · simp [List.orderedInsert, hxa, ih]

theorem orderedInsert_append_right (x : CompiledEvent) (A B : List CompiledEvent)
    (h : ∀ y ∈ A, ¬ tickLe x y) :
    (A ++ B).orderedInsert tickLe x = A ++ B.orderedInsert tickLe x := by
  induction A with
  | nil => rfl
  | cons a A ih =>
    have hxa : ¬ tickLe x a := h a (List.mem_cons_self _ _)
    simp [List.orderedInsert, hxa, ih (fun y hy => h y (List.mem_cons_of_mem _ hy))]

theorem sortEvents_append (A B : List CompiledEvent)
    (h : ∀ x ∈ A, ∀ y ∈ B, x.tick ≤ y.tick) :
    sortEvents (A ++ B) = sortEvents A ++ sortEvents B := by
  induction A with
  | nil => rfl
  | cons a A ih =>
    have ih' := ih (fun x hx => h x (List.mem_cons_of_mem _ hx))
    show (sortEvents (A ++ B)).orderedInsert tickLe a = (sortEvents A).orderedInsert tickLe a ++ _
    rw [ih', orderedInsert_append_left]
    intro y hy
    exact h a (List.mem_cons_self _ _) y (mem_sortEvents.mp hy)

theorem sortEvents_split (b : Tick) (l : List CompiledEvent) :
    sortEvents l = sortEvents (l.filter (fun ev => decide (ev.tick < b)))
      ++ sortEvents (l.filter (fun ev => decide (b ≤ ev.tick))) := by
  induction l with
  | nil => rfl
  | cons x l ih =>
    have hstep : sortEvents (x :: l) = (sortEvents l).orderedInsert tickLe x := rfl
    rw [hstep, ih]
    by_cases hx : x.tick < b
    · have hx' : ¬ b ≤ x.tick := not_le.mpr hx
      have e1 : (x :: l).filter (fun ev => decide (ev.tick < b))
          = x :: l.filter (fun ev => decide (ev.tick < b)) := by simp [hx]
      have e2 : (x :: l).filter (fun ev => decide (b ≤ ev.tick))
          = l.filter (fun ev => decide (b ≤ ev.tick)) := by simp [hx]
      have hstep2 : ∀ m, sortEvents (x :: m) = (sortEvents m).orderedInsert tickLe x :=
        fun _ => rfl
      rw [e1, e2, hstep2, orderedInsert_append_left]
      intro y hy
      have := (List.mem_filter.mp (mem_sortEvents.mp hy)).2
      simp at this
      exact le_of_lt (lt_of_lt_of_le hx this)
    · have hx' : b ≤ x.tick := not_lt.mp hx
      have e1 : (x :: l).filter (fun ev => decide (ev.tick < b))
          = l.filter (fun ev => decide (ev.tick < b)) := by simp [hx]
      have e2 : (x :: l).filter (fun ev => decide (b ≤ ev.tick))
          = x :: l.filter (fun ev => decide (b ≤ ev.tick)) := by simp [hx']
      have hstep2 : ∀ m, sortEvents (x :: m) = (sortEvents m).orderedInsert tickLe x :=
        fun _ => rfl
      rw [e1, e2, hstep2, orderedInsert_append_right]
      intro y hy
      have := (List.mem_filter.mp (mem_sortEvents.mp hy)).2
      simp at this
      exact not_le.mpr (lt_of_lt_of_le this hx')

theorem filterMap_ite {α β : Type} (p : α → Prop) [DecidablePred p] (g : α → β) (l : List α) :
    l.filterMap (fun a => if p a then some (g a) else none) = (l.filter (fun a => decide (p a))).map g := by
  induction l with
  | nil => rfl
  | cons a l ih =>
    by_cases h : p a
    · simp [List.filterMap_cons, List.filter_cons, h, ih]
    · simp [List.filterMap_cons, List.filter_cons, h, ih]

theorem regionNoteEvents_eq (notes : List StepNote) (rS rE s e base : Int) :
    regionNoteEvents notes rS rE s e base
      = ((notes.map (noteEvent base)).filter (inWindow rS rE)).filter (inWindow s e) := by
  unfold regionNoteEvents
  rw [filterMap_ite (fun note : StepNote => s ≤ base + note.offsetTick ∧ base + note.offsetTick < e ∧
        rS ≤ base + note.offsetTick ∧ base + note.offsetTick < rE)
      (fun note => ({ tick := base + note.offsetTick, instrumentId := note.instrumentId,
                      velocity := note.velocity } : CompiledEvent)),
    List.filter_filter, List.filter_map]
  show List.map (noteEvent base) _ = List.map (noteEvent base) _
  congr 1
  apply List.filter_congr
  intro n _
  simp only [inWindow, noteEvent, Function.comp, Bool.decide_and, Bool.and_assoc]

theorem patternNoteEvents_eq (notes : List StepNote) (s e base : Int) :
    patternNoteEvents notes s e base = (notes.map (noteEvent base)).filter (inWindow s e) := by
  unfold patternNoteEvents
  rw [filterMap_ite (fun note : StepNote => s ≤ base + note.offsetTick ∧ base + note.offsetTick < e)
      (fun note => ({ tick := base + note.offsetTick, instrumentId := note.instrumentId,
                      velocity := note.velocity } : CompiledEvent)),
    List.filter_map]
  show List.map (noteEvent base) _ = List.map (noteEvent base) _
  congr 1

theorem filter_inWindow_eq_nil (l : List CompiledEvent) (s e : Int)
    (h : ∀ ev ∈ l, ev.tick < s ∨ e ≤ ev.tick) : l.filter (inWindow s e) = [] := by
  rw [List.filter_eq_nil_iff]
  intro ev hev
  simp only [inWindow, decide_eq_true_eq, not_and, not_lt]
  intro h1
  rcases h ev hev with h2 | h2
  · exact absurd h1 (not_le.mpr h2)
  · exact h2

theorem mem_filter_inWindow {l : List CompiledEvent} {s e : Int} {ev : CompiledEvent} :
    ev ∈ l.filter (inWindow s e) ↔ ev ∈ l ∧ s ≤ ev.tick ∧ ev.tick < e := by
  simp [List.mem_filter, inWindow]

/-- Under the in-range hypothesis the two skip tests of `getEventsFromRegion` drop nothing. -/
theorem getEventsFromRegion_eq_filter (region : Region) (pattern : Pattern) (s e : Int)
    (h : NotesWithin pattern.notes pattern.lengthTicks) :
    getEventsFromRegion region pattern s e = (allRegionEvents region pattern).filter (inWindow s e) := by
  unfold getEventsFromRegion allRegionEvents
  simp only
  by_cases hP : pattern.lengthTicks = 0
  · simp [hP]
  by_cases hov : region.startTick + region.lengthTicks ≤ s ∨ e ≤ region.startTick
  · simp only [if_pos hov, if_neg hP]
    symm
    apply filter_inWindow_eq_nil
    intro ev hev
    rw [List.mem_flatMap] at hev
    obtain ⟨rep, _, hev⟩ := hev
    have := (mem_filter_inWindow.mp hev).2
    omega
  · simp only [if_neg hov, if_neg hP, List.filter_flatMap]
    congr 1
    funext rep
    by_cases hskip : region.startTick + (rep : Int) * pattern.lengthTicks + pattern.lengthTicks ≤ s
        ∨ e ≤ region.startTick + (rep : Int) * pattern.lengthTicks
    · rw [if_pos hskip]
      symm
      apply filter_inWindow_eq_nil
      intro ev hev
      obtain ⟨n, hn, rfl⟩ := List.mem_map.mp (List.mem_filter.mp hev).1
      have := h n hn
      simp only [noteEvent]
      omega
    · rw [if_neg hskip, regionNoteEvents_eq]

theorem flatMap_filter_of_nil {α β : Type} (q : α → Bool) (f : α → List β) (l : List α)
    (h : ∀ a, q a = false → f a = []) : (l.filter q).flatMap f = l.flatMap f := by
  induction l with
  | nil => rfl
  | cons a l ih =>
    cases hq : q a
    · simp [List.filter_cons, hq, ih, h a hq]
    · simp [List.filter_cons, hq, ih]

theorem getEventsFromRegion_of_not_inRange (region : Region) (pattern : Pattern) (s e : Int)
    (h : decide (region.startTick < e ∧ s < region.getEndTick) = false) :
    getEventsFromRegion region pattern s e = [] := by
  unfold getEventsFromRegion
  simp only [Region.getEndTick, decide_eq_false_iff_not, not_and, not_lt] at h
  have : region.startTick + region.lengthTicks ≤ s ∨ e ≤ region.startTick := by
    by_cases h1 : region.startTick < e
    · exact Or.inl (h h1)
    · exact Or.inr (not_lt.mp h1)
  simp only [if_pos this]

theorem getPattern_mem {lib : PatternLibrary} {id : String} {p : Pattern}
    (h : lib.getPattern id = some p) : p ∈ lib.patterns :=
  List.mem_of_find?_eq_some h

/-- Timeline mode in normal form: sort the window-filtered enumeration of the project. -/
theorem getEventsFromTimeline_eq (project : Project) (s e : Int) (h : project.PatternsInRange) :
    getEventsFromTimeline project s e
      = sortEvents ((allTimelineEvents project).filter (inWindow s e)) := by
  unfold getEventsFromTimeline allTimelineEvents
  congr 1
  rw [List.filter_flatMap]
  congr 1
  funext track
  unfold Track.getRegionsInRange
  rw [flatMap_filter_of_nil, List.filter_flatMap]
  · congr 1
    funext region
    cases hp : project.patterns.getPattern region.patternId with
    | none => rfl
    | some pattern => exact getEventsFromRegion_eq_filter region pattern s e (h pattern (getPattern_mem hp))
  · intro region hq
    cases hp : project.patterns.getPattern region.patternId with
    | none => rfl
    | some pattern => exact getEventsFromRegion_of_not_inRange region pattern s e hq

/-- Stable sorting splits at any tick `b` between the ends of the window. -/
theorem sort_filter_split (X : List CompiledEvent) (a b c : Int) (hab : a ≤ b) (hbc : b ≤ c) :
    sortEvents (X.filter (inWindow a b)) ++ sortEvents (X.filter (inWindow b c))
      = sortEvents (X.filter (inWindow a c)) := by
  rw [sortEvents_split b (X.filter (inWindow a c)), List.filter_filter, List.filter_filter]
  have e1 : X.filter (fun ev => decide (ev.tick < b) && inWindow a c ev) = X.filter (inWindow a b) := by
    apply List.filter_congr
    intro ev _
    rw [Bool.eq_iff_iff]
    simp only [inWindow, Bool.and_eq_true, decide_eq_true_eq]
    constructor
    · rintro ⟨h1, h2, _⟩; exact ⟨h2, h1⟩
    · rintro ⟨h1, h2⟩; exact ⟨h2, h1, lt_of_lt_of_le h2 hbc⟩
  have e2 : X.filter (fun ev => decide (b ≤ ev.tick) && inWindow a c ev) = X.filter (inWindow b c) := by
    apply List.filter_congr
    intro ev _
    rw [Bool.eq_iff_iff]
    simp only [inWindow, Bool.and_eq_true, decide_eq_true_eq]
    constructor
    · rintro ⟨h1, _, h3⟩; exact ⟨h1, h3⟩
    · rintro ⟨h1, h2⟩; exact ⟨h1, le_trans hab h1, h2⟩
  rw [e1, e2]

theorem loopIterations_eq (notes : List StepNote) (L s e : Int) (hL : 0 < L) :
    ∀ (fuel : Nat) (t : Int),
      loopIterations notes L s e (t + fuel * L) fuel t
        = some ((List.range fuel).flatMap (fun i => patternNoteEvents notes s e (t + (i : Int) * L))) := by
  intro fuel
  induction fuel with
  | zero => intro t; simp [loopIterations]
  | succ n ih =>
    intro t
    have hlt : t < t + ((n + 1 : Nat) : Int) * L := by
      have : 0 < ((n + 1 : Nat) : Int) * L := by positivity
      omega
    have hend : t + ((n + 1 : Nat) : Int) * L = (t + L) + (n : Int) * L := by push_cast; ring
    rw [loopIterations, if_pos hlt, hend, ih (t + L)]
    simp only [Option.map_some', List.range_succ_eq_map, List.flatMap_cons, List.flatMap_map]
    have h0 : t + ((0 : Nat) : Int) * L = t := by simp
    have h1 : ∀ a : Nat, t + ((a.succ : Nat) : Int) * L = t + L + (a : Int) * L := by
      intro a; push_cast; ring
    simp only [h0, h1]

theorem loopIterations_exit (notes : List StepNote) (L s e loopEnd : Int) (fuel : Nat) (t : Int)
    (h : ¬ t < loopEnd) : loopIterations notes L s e loopEnd fuel t = some [] := by
  cases fuel <;> simp [loopIterations, h]

theorem flatMap_nil_of_forall {α β : Type} (l : List α) (f : α → List β) (h : ∀ a ∈ l, f a = []) :
    l.flatMap f = [] := by
  rw [List.flatMap_eq_nil_iff]; exact h

/-- Looping mode with a positive loop length always returns: the loop runs `k1 - k0` times. -/
theorem getEventsFromSinglePattern_loop (pattern : Pattern) (L s e : Int) (hL : 0 < L) :
    getEventsFromSinglePattern pattern L true s e
      = some (sortEvents ((List.range ((e + L - 1).tdiv L - s.tdiv L).toNat).flatMap
          (fun i => patternNoteEvents pattern.notes s e (s.tdiv L * L + (i : Int) * L)))) := by
  unfold getEventsFromSinglePattern
  by_cases hn : pattern.notes.isEmpty = true
  · rw [if_pos hn]
    have : pattern.notes = [] := List.isEmpty_iff.mp hn
    rw [flatMap_nil_of_forall]
    · rfl
    · intro i _; simp [this, patternNoteEvents]
  · have hL0 : ¬ L = 0 := by omega
    simp only [if_neg hn, if_neg hL0, if_true]
    have hfuel : ((e + L - 1).tdiv L * L - s.tdiv L * L).tdiv L = (e + L - 1).tdiv L - s.tdiv L := by
      rw [← sub_mul, Int.mul_tdiv_cancel _ hL0]
    rw [hfuel]
    by_cases hk : s.tdiv L ≤ (e + L - 1).tdiv L
    · have hend : (e + L - 1).tdiv L * L
          = s.tdiv L * L + (((e + L - 1).tdiv L - s.tdiv L).toNat : Int) * L := by
        rw [Int.toNat_of_nonneg (by omega)]; ring
      rw [hend, loopIterations_eq _ _ _ _ hL]
      rfl
    · have h0 : ((e + L - 1).tdiv L - s.tdiv L).toNat = 0 := by
        apply Int.toNat_of_nonpos; omega
      rw [h0, loopIterations_exit]
      · rfl
      · have : (e + L - 1).tdiv L * L ≤ s.tdiv L * L :=
          Int.mul_le_mul_of_nonneg_right (by omega) (le_of_lt hL)
        omega

theorem flatMap_range_restrict {β : Type} (F : Nat → List β) (K k0 n : Nat) (hle : k0 + n ≤ K)
    (hlo : ∀ k, k < k0 → F k = []) (hhi : ∀ k, k0 + n ≤ k → F k = []) :
    (List.range K).flatMap F = (List.range n).flatMap (fun i => F (k0 + i)) := by
  obtain ⟨r, rfl⟩ : ∃ r, K = k0 + n + r := ⟨K - (k0 + n), by omega⟩
  rw [List.range_add, List.range_add, List.flatMap_append, List.flatMap_append,
    List.flatMap_map, List.flatMap_map]
  rw [flatMap_nil_of_forall (List.range k0) F (fun k hk => hlo k (List.mem_range.mp hk))]
  rw [flatMap_nil_of_forall (List.range r) _ (fun k _ => hhi (k0 + n + k) (by omega))]
  simp [Function.comp]

theorem patternNoteEvents_nil (notes : List StepNote) (L s e base : Int)
    (hn : NotesWithin notes L) (h : base + L ≤ s ∨ e ≤ base) :
    patternNoteEvents notes s e base = [] := by
  rw [patternNoteEvents_eq]
  apply filter_inWindow_eq_nil
  intro ev hev
  obtain ⟨n, hmem, rfl⟩ := List.mem_map.mp hev
  have := hn n hmem
  simp only [noteEvent]
  omega

/-- Looping mode in normal form, for a window inside the non-negative ticks. -/
theorem loop_normal_form (pattern : Pattern) (L s e : Int) (hL : 0 < L) (hs : 0 ≤ s) (hse : s ≤ e)
    (hn : NotesWithin pattern.notes L) (K : Nat) (hK : e ≤ (K : Int) * L) :
    getEventsFromSinglePattern pattern L true s e
      = some (sortEvents ((allLoopEvents pattern.notes L K).filter (inWindow s e))) := by
  rw [getEventsFromSinglePattern_loop pattern L s e hL]
  congr 2
  have hk0 : s.tdiv L = s / L := Int.tdiv_eq_ediv hs (le_of_lt hL)
  have hk1 : (e + L - 1).tdiv L = (e + L - 1) / L := Int.tdiv_eq_ediv (by omega) (le_of_lt hL)
  rw [hk0, hk1]
  have a0 := Int.emod_add_ediv s L
  have a1 := Int.emod_nonneg s (ne_of_gt hL)
  have a2 := Int.emod_lt_of_pos s hL
  have b0 := Int.emod_add_ediv (e + L - 1) L
  have b1 := Int.emod_nonneg (e + L - 1) (ne_of_gt hL)
  have b2 := Int.emod_lt_of_pos (e + L - 1) hL
  have hk0nn : 0 ≤ s / L := Int.ediv_nonneg hs (le_of_lt hL)
  have hk01 : s / L ≤ (e + L - 1) / L := Int.ediv_le_ediv hL (by omega)
  have hk1K : (e + L - 1) / L ≤ (K : Int) := by
    have : (e + L - 1) / L < (K : Int) + 1 := by
      rw [Int.ediv_lt_iff_lt_mul hL]
      have : ((K : Int) + 1) * L = (K : Int) * L + L := by ring
      omega
    omega
  unfold allLoopEvents
  rw [List.filter_flatMap]
  have hF : (fun k : Nat => (pattern.notes.map (noteEvent ((k : Int) * L))).filter (inWindow s e))
      = (fun k : Nat => patternNoteEvents pattern.notes s e ((k : Int) * L)) := by
    funext k; rw [patternNoteEvents_eq]
  rw [hF]
  have hmulk0 : L * (s / L) = (s / L) * L := mul_comm _ _
  have hmulk1 : L * ((e + L - 1) / L) = ((e + L - 1) / L) * L := mul_comm _ _
  rw [flatMap_range_restrict _ K (s / L).toNat ((e + L - 1) / L - s / L).toNat]
  · congr 1
    funext i
    congr 1
    push_cast
    rw [Int.toNat_of_nonneg hk0nn]
    ring
  · have := Int.toNat_of_nonneg hk0nn
    have := Int.toNat_of_nonneg (sub_nonneg.mpr hk01)
    omega
  · intro k hk
    apply patternNoteEvents_nil _ L _ _ _ hn
    left
    have hk' : (k : Int) + 1 ≤ s / L := by
      have := Int.toNat_of_nonneg hk0nn
      omega
    have : ((k : Int) + 1) * L ≤ (s / L) * L := Int.mul_le_mul_of_nonneg_right hk' (le_of_lt hL)
    have : ((k : Int) + 1) * L = (k : Int) * L + L := by ring
    omega
  · intro k hk
    apply patternNoteEvents_nil _ L _ _ _ hn
    right
    have hk' : (e + L - 1) / L ≤ (k : Int) := by
      have := Int.toNat_of_nonneg hk0nn
      have := Int.toNat_of_nonneg (sub_nonneg.mpr hk01)
      omega
    have : ((e + L - 1) / L) * L ≤ (k : Int) * L := Int.mul_le_mul_of_nonneg_right hk' (le_of_lt hL)
    omega

theorem one_shot_normal_form (pattern : Pattern) (L p q : Int) :
    getEventsFromSinglePattern pattern L false p q
      = some (sortEvents ((if L = 0 then [] else pattern.notes.map (noteEvent 0)).filter
          (inWindow p q))) := by
  unfold getEventsFromSinglePattern
  by_cases hn : pattern.notes.isEmpty = true
  · have : pattern.notes = [] := List.isEmpty_iff.mp hn
    rw [if_pos hn, this]
    by_cases hL : L = 0 <;> simp [hL, sortEvents]
  · by_cases hL : L = 0
    · simp [hn, hL, sortEvents]
    · simp only [if_neg hn, if_neg hL, Bool.false_eq_true, if_false, patternNoteEvents_eq]

/-- Every safe configuration has a window-independent enumeration `X` of which each query
inside `[a, c)` returns the sorted window filter. -/
theorem normal_form_exists (s : Scheduler) (a c : Int) (hs : s.WindowSafe a) :
    ∃ X : List CompiledEvent, ∀ p q, a ≤ p → p ≤ q → q ≤ c →
      s.getEventsInRange p q = some (sortEvents (X.filter (inWindow p q))) := by
  unfold Scheduler.WindowSafe at hs
  unfold Scheduler.getEventsInRange
  cases hproj : s.project_ with
  | some project =>
    rw [hproj] at hs
    exact ⟨allTimelineEvents project, fun p q _ _ _ => by
      simp only; rw [getEventsFromTimeline_eq project p q hs]⟩
  | none =>
    rw [hproj] at hs
    cases hpat : s.pattern_ with
    | none => exact ⟨[], fun p q _ _ _ => rfl⟩
    | some pattern =>
      rw [hpat] at hs
      simp only at hs ⊢
      cases hloop : s.looping_ with
      | false => exact ⟨_, fun p q _ _ _ => one_shot_normal_form pattern _ p q⟩
      | true =>
        rcases hs hloop with h0 | ⟨hL, ha, hn⟩
        · refine ⟨[], fun p q _ _ _ => ?_⟩
          unfold getEventsFromSinglePattern
          rw [h0]
          split <;> rfl
        · refine ⟨allLoopEvents pattern.notes s.loopLengthTicks_ c.toNat,
            fun p q hap hpq hqc => ?_⟩
          apply loop_normal_form pattern _ p q hL (le_trans ha hap) hpq hn
          have hc : 0 ≤ c := by omega
          rw [Int.toNat_of_nonneg hc]
          have : c * 1 ≤ c * s.loopLengthTicks_ := Int.mul_le_mul_of_nonneg_left (by omega) hc
          omega

theorem mem_getEventsFromRegion_window {region : Region} {pattern : Pattern} {s e : Int}
    {ev : CompiledEvent} (h : ev ∈ getEventsFromRegion region pattern s e) :
    s ≤ ev.tick ∧ ev.tick < e := by
  unfold getEventsFromRegion at h
  simp only at h
  split at h
  · cases h
  · split at h
    · cases h
    · obtain ⟨rep, _, hrep⟩ := List.mem_flatMap.mp h
      split at hrep
      · cases hrep
      · rw [regionNoteEvents_eq] at hrep
        exact (mem_filter_inWindow.mp hrep).2

theorem mem_getEventsFromTimeline_window {project : Project} {s e : Int} {ev : CompiledEvent}
    (h : ev ∈ getEventsFromTimeline project s e) : s ≤ ev.tick ∧ ev.tick < e := by
  unfold getEventsFromTimeline at h
  rw [mem_sortEvents] at h
  obtain ⟨track, _, h⟩ := List.mem_flatMap.mp h
  obtain ⟨region, _, h⟩ := List.mem_flatMap.mp h
  split at h
  · cases h
  · exact mem_getEventsFromRegion_window h

theorem mem_patternNoteEvents_window {notes : List StepNote} {s e base : Int} {ev : CompiledEvent}
    (h : ev ∈ patternNoteEvents notes s e base) : s ≤ ev.tick ∧ ev.tick < e := by
  rw [patternNoteEvents_eq] at h
  exact (mem_filter_inWindow.mp h).2

theorem mem_loopIterations_window (notes : List StepNote) (L s e loopEnd : Int) :
    ∀ (fuel : Nat) (t : Int) (out : List CompiledEvent),
      loopIterations notes L s e loopEnd fuel t = some out →
      ∀ ev ∈ out, s ≤ ev.tick ∧ ev.tick < e := by
  intro fuel
  induction fuel with
  | zero =>
    intro t out h ev hev
    unfold loopIterations at h
    split at h
    · cases h
    · cases h; cases hev
  | succ n ih =>
    intro t out h ev hev
    unfold loopIterations at h
    split at h
    · cases hrest : loopIterations notes L s e loopEnd n (t + L) with
      | none => rw [hrest] at h; cases h
      | some rest =>
        rw [hrest] at h
        simp only [Option.map_some', Option.some.injEq] at h
        subst h
        rcases List.mem_append.mp hev with h1 | h1
        · exact mem_patternNoteEvents_window h1
        · exact ih (t + L) rest hrest ev h1
    · cases h; cases hev

theorem mem_getEventsFromSinglePattern_window {pattern : Pattern} {L : Int} {looping : Bool}
    {s e : Int} {out : List CompiledEvent}
    (h : getEventsFromSinglePattern pattern L looping s e = some out) :
    ∀ ev ∈ out, s ≤ ev.tick ∧ ev.tick < e := by
  intro ev hev
  unfold getEventsFromSinglePattern at h
  split at h
  · cases h; cases hev
  · split at h
    · cases h; cases hev
    · split at h
      · simp only at h
        cases hraw : loopIterations pattern.notes L s e (((e + L - 1).tdiv L) * L)
            ((((e + L - 1).tdiv L) * L - (s.tdiv L) * L).tdiv L).toNat ((s.tdiv L) * L) with
        | none => rw [hraw] at h; cases h
        | some raw =>
          rw [hraw] at h
          simp only [Option.map_some', Option.some.injEq] at h
          subst h
          exact mem_loopIterations_window _ _ _ _ _ _ _ _ hraw ev (mem_sortEvents.mp hev)
      · cases h
        exact mem_patternNoteEvents_window (mem_sortEvents.mp hev)

/-- Every returned event lies in the queried window, in every mode. -/
theorem mem_getEventsInRange_window {s : Scheduler} {a b : Int} {out : List CompiledEvent}
    (h : s.getEventsInRange a b = some out) : ∀ ev ∈ out, a ≤ ev.tick ∧ ev.tick < b := by
  intro ev hev
  unfold Scheduler.getEventsInRange at h
  split at h
  · cases h; exact mem_getEventsFromTimeline_window hev
  · split at h
    · exact mem_getEventsFromSinglePattern_window h ev hev
    · cases h; cases hev

theorem getEventsFromSinglePattern_sorted {pattern : Pattern} {L : Int} {looping : Bool}
    {s e : Int} {out : List CompiledEvent}
    (h : getEventsFromSinglePattern pattern L looping s e = some out) :
    out.Sorted tickLe := by
  unfold getEventsFromSinglePattern at h
  split at h
  · cases h; exact List.sorted_nil
  · split at h
    · cases h; exact List.sorted_nil
    · split at h
      · simp only at h
        obtain ⟨raw, _, rfl⟩ := Option.map_eq_some'.mp h
        exact sortEvents_sorted raw
      · cases h; exact sortEvents_sorted _

theorem getEventsInRange_sorted {s : Scheduler} {a b : Int} {out : List CompiledEvent}
    (h : s.getEventsInRange a b = some out) : out.Sorted tickLe := by
  unfold Scheduler.getEventsInRange at h
  split at h
  · cases h; exact sortEvents_sorted _
  · split at h
    · exact getEventsFromSinglePattern_sorted h
    · cases h; exact List.sorted_nil

/-- The scheduler returns in timeline mode, in one-shot mode and whenever the loop length is
not negative. -/
theorem getEventsInRange_isSome (s : Scheduler) (a b : Int)
    (h : s.project_ ≠ none ∨ s.looping_ = false ∨ 0 ≤ s.loopLengthTicks_) :
    ∃ out, s.getEventsInRange a b = some out := by
  unfold Scheduler.getEventsInRange
  cases hproj : s.project_ with
  | some project => exact ⟨_, rfl⟩
  | none =>
    cases hpat : s.pattern_ with
    | none => exact ⟨_, rfl⟩
    | some pattern =>
      simp only
      cases hloop : s.looping_ with
      | false => exact ⟨_, one_shot_normal_form pattern _ a b⟩
      | true =>
        have hL : 0 ≤ s.loopLengthTicks_ := by
          rcases h with h | h | h
          · exact absurd hproj h
          · rw [hloop] at h; cases h
          · exact h
        rcases eq_or_lt_of_le hL with h0 | hpos
        · refine ⟨[], ?_⟩
          unfold getEventsFromSinglePattern
          rw [← h0]
          split <;> simp
        · exact ⟨_, getEventsFromSinglePattern_loop pattern _ a b hpos⟩

theorem flatMap_congr_mem {α β : Type} (l : List α) (f g : α → List β)
    (h : ∀ a ∈ l, f a = g a) : l.flatMap f = l.flatMap g := by
  induction l with
  | nil => rfl
  | cons a l ih =>
    simp only [List.flatMap_cons]
    rw [h a (List.mem_cons_self _ _), ih (fun b hb => h b (List.mem_cons_of_mem _ hb))]

theorem ceil_div_eq (a b : Int) (hb : 0 < b) : ⌈(a : ℚ) / (b : ℚ)⌉ = (a + b - 1) / b := by
  have hbq : (0 : ℚ) < (b : ℚ) := by exact_mod_cast hb
  have e0 := Int.emod_add_ediv (a + b - 1) b
  have e1 := Int.emod_nonneg (a + b - 1) (ne_of_gt hb)
  have e2 := Int.emod_lt_of_pos (a + b - 1) hb
  rw [Int.ceil_eq_iff]
  constructor
  · rw [lt_div_iff₀ hbq]
    have : ((a + b - 1) / b - 1) * b < a := by
      have : ((a + b - 1) / b - 1) * b = b * ((a + b - 1) / b) - b := by ring
      omega
    exact_mod_cast this
  · rw [div_le_iff₀ hbq]
    have : a ≤ ((a + b - 1) / b) * b := by
      have : ((a + b - 1) / b) * b = b * ((a + b - 1) / b) := by ring
      omega
    exact_mod_cast this

theorem wrapInt32_of_fits (x : Int) (h0 : 0 ≤ x) (h1 : x < 2 ^ 31) : wrapInt32 x = x := by
  unfold wrapInt32
  omega

theorem specRegionEvents_eq (region : Region) (pattern : Pattern) (s e : Int)
    (hP : 0 < pattern.lengthTicks)
    (hfit : ⌈(region.lengthTicks : ℚ) / (pattern.lengthTicks : ℚ)⌉ < 2 ^ 31) :
    specRegionEvents region pattern s e = (allRegionEvents region pattern).filter (inWindow s e) := by
  unfold specRegionEvents allRegionEvents
  rw [if_neg (ne_of_gt hP), List.filter_flatMap]
  have hinner : ∀ r : Nat,
      pattern.notes.filterMap (fun n =>
        let eventTick := region.startTick + (r : Int) * pattern.lengthTicks + n.offsetTick
        if s ≤ eventTick ∧ eventTick < e ∧
            region.startTick ≤ eventTick ∧ eventTick < region.startTick + region.lengthTicks then
          some { tick := eventTick, instrumentId := n.instrumentId, velocity := n.velocity }
        else none)
      = ((pattern.notes.map (noteEvent (region.startTick + (r : Int) * pattern.lengthTicks))).filter
          (inWindow region.startTick (region.startTick + region.lengthTicks))).filter (inWindow s e) :=
    fun r => regionNoteEvents_eq pattern.notes _ _ s e _
  simp only [hinner]
  rw [ceil_div_eq _ _ hP] at hfit ⊢
  by_cases hlen : 0 < region.lengthTicks
  · have hnn : 0 ≤ region.lengthTicks + pattern.lengthTicks - 1 := by omega
    rw [Int.tdiv_eq_ediv hnn (le_of_lt hP),
      wrapInt32_of_fits _ (Int.ediv_nonneg hnn (le_of_lt hP)) hfit]
  · have hnil : ∀ r : Nat,
        ((pattern.notes.map (noteEvent (region.startTick + (r : Int) * pattern.lengthTicks))).filter
          (inWindow region.startTick (region.startTick + region.lengthTicks))) = [] := by
      intro r
      apply filter_inWindow_eq_nil
      intro ev _
      omega
    simp only [hnil, List.filter_nil]
    rw [flatMap_nil_of_forall _ _ (fun _ _ => rfl), flatMap_nil_of_forall _ _ (fun _ _ => rfl)]

theorem allRegionEvents_of_nonpos (region : Region) (pattern : Pattern)
    (hn : NotesWithin pattern.notes pattern.lengthTicks) (hP : ¬ 0 < pattern.lengthTicks) :
    allRegionEvents region pattern = [] := by
  have : pattern.notes = [] := by
    cases hnotes : pattern.notes with
    | nil => rfl
    | cons n rest =>
      have := hn n (by rw [hnotes]; exact List.mem_cons_self _ _)
      omega
  unfold allRegionEvents
  split
  · rfl
  · apply flatMap_nil_of_forall
    intro r _
    simp [this]

theorem specTimelineEvents_eq (project : Project) (s e : Int) (hpat : project.PatternsInRange)
    (hfit : project.RepeatsFitInt) :
    specTimelineEvents project s e = (allTimelineEvents project).filter (inWindow s e) := by
  unfold specTimelineEvents allTimelineEvents
  rw [List.filter_flatMap]
  apply flatMap_congr_mem
  intro track htrack
  rw [List.filter_flatMap]
  apply flatMap_congr_mem
  intro region hregion
  cases hp : project.patterns.getPattern region.patternId with
  | none => rfl
  | some pattern =>
    simp only
    by_cases hP : 0 < pattern.lengthTicks
    · rw [if_pos hP]
      exact specRegionEvents_eq region pattern s e hP (hfit track htrack region hregion pattern hp hP)
    · rw [if_neg hP, allRegionEvents_of_nonpos region pattern (hpat pattern (getPattern_mem hp)) hP]
      rfl

theorem repeatsFitInt_of_short_regions (project : Project)
    (h : ∀ track ∈ project.tracks, ∀ region ∈ track.regions, region.lengthTicks < 2 ^ 31) :
    project.RepeatsFitInt := by
  intro track htrack region hregion pattern _ hP
  have hlen := h track htrack region hregion
  rw [ceil_div_eq _ _ hP, Int.ediv_lt_iff_lt_mul hP]
  have : (2 : Int) ^ 31 * 1 ≤ 2 ^ 31 * pattern.lengthTicks :=
    Int.mul_le_mul_of_nonneg_left (by omega) (by norm_num)
  have h31 : (2 : Int) ^ 31 = 2147483648 := by norm_num
  rw [h31] at hlen this ⊢
  nlinarith

theorem grooveFill_patternsInRange : grooveFillProject.PatternsInRange := by
  unfold Project.PatternsInRange NotesWithin
  decide

theorem loop_index_perm (L s e : Int) (hL : 0 < L) (hs : 0 ≤ s) (hse : s < e) :
    (List.range' (s / L).toNat ((e + L - 1) / L - s / L).toNat).Perm
      ((List.range ((e / L).toNat + 1)).filter (fun k =>
        decide ((k : Int) * L < e ∧ s < ((k : Int) + 1) * L ∧ s < e))) := by
  rw [List.perm_ext_iff_of_nodup (List.nodup_range' _ _) ((List.nodup_range _).filter _)]
  intro k
  have hk0nn : 0 ≤ s / L := Int.ediv_nonneg hs (le_of_lt hL)
  have hk01 : s / L ≤ (e + L - 1) / L := Int.ediv_le_ediv hL (by omega)
  have henn : 0 ≤ e / L := Int.ediv_nonneg (by omega) (le_of_lt hL)
  have t0 := Int.toNat_of_nonneg hk0nn
  have t1 := Int.toNat_of_nonneg (sub_nonneg.mpr hk01)
  have t2 := Int.toNat_of_nonneg henn
  have hsucc : ((k : Int) + 1) * L = (k : Int) * L + L := by ring
  have c1 : s / L ≤ (k : Int) ↔ s < ((k : Int) + 1) * L := by
    rw [← Int.ediv_lt_iff_lt_mul hL]; omega
  have c2 : (k : Int) < (e + L - 1) / L ↔ (k : Int) * L < e := by
    have : (k : Int) + 1 ≤ (e + L - 1) / L ↔ ((k : Int) + 1) * L ≤ e + L - 1 :=
      Int.le_ediv_iff_mul_le hL
    omega
  have c3 : (k : Int) * L < e → (k : Int) ≤ e / L := by
    intro h
    rw [Int.le_ediv_iff_mul_le hL]; omega
  simp only [List.mem_range'_1, List.mem_filter, List.mem_range, decide_eq_true_eq]
  constructor
  · rintro ⟨h1, h2⟩
    have hk1 : (k : Int) * L < e := c2.mp (by omega)
    exact ⟨by have := c3 hk1; omega, hk1, c1.mp (by omega), hse⟩
  · rintro ⟨_, h2, h3, _⟩
    have := c1.mpr h3
    have := c2.mpr h2
    omega

theorem loop_events_perm_spec (pattern : Pattern) (L s e : Int) (hL : 0 < L) (hs : 0 ≤ s)
    (hse : s ≤ e) :
    ((List.range ((e + L - 1).tdiv L - s.tdiv L).toNat).flatMap
        (fun i => patternNoteEvents pattern.notes s e (s.tdiv L * L + (i : Int) * L))).Perm
      (specLoopEvents pattern L s e) := by
  have hk0 : s.tdiv L = s / L := Int.tdiv_eq_ediv hs (le_of_lt hL)
  have hk1 : (e + L - 1).tdiv L = (e + L - 1) / L := Int.tdiv_eq_ediv (by omega) (le_of_lt hL)
  rw [hk0, hk1]
  have hspec : specLoopEvents pattern L s e
      = ((List.range ((e / L).toNat + 1)).filter (fun (k : Nat) =>
          decide ((k : Int) * L < e ∧ s < ((k : Int) + 1) * L ∧ s < e))).flatMap
        (fun (k : Nat) => patternNoteEvents pattern.notes s e ((k : Int) * L)) := rfl
  rw [hspec]
  rcases eq_or_lt_of_le hse with heq | hlt
  · subst heq
    have hnil : ∀ base, patternNoteEvents pattern.notes s s base = [] := by
      intro base
      rw [patternNoteEvents_eq]
      apply filter_inWindow_eq_nil
      intro ev _
      omega
    simp only [hnil]
    rw [flatMap_nil_of_forall _ _ (fun _ _ => rfl), flatMap_nil_of_forall _ _ (fun _ _ => rfl)]
  · have hk0nn : 0 ≤ s / L := Int.ediv_nonneg hs (le_of_lt hL)
    have hre : (List.range ((e + L - 1) / L - s / L).toNat).flatMap
          (fun i => patternNoteEvents pattern.notes s e (s / L * L + (i : Int) * L))
        = (List.range' (s / L).toNat ((e + L - 1) / L - s / L).toNat).flatMap
          (fun k => patternNoteEvents pattern.notes s e ((k : Int) * L)) := by
      rw [List.range'_eq_map_range, List.flatMap_map]
      congr 1
      funext i
      show patternNoteEvents _ _ _ _ = patternNoteEvents _ _ _ _
      congr 1
      push_cast
      rw [Int.toNat_of_nonneg hk0nn]
      ring
    rw [hre]
    exact List.Perm.flatMap_right _ (loop_index_perm L s e hL hs hlt)

theorem one_shot_events_eq_spec (pattern : Pattern) (s e : Int) :
    (pattern.notes.map (noteEvent 0)).filter (inWindow s e) = specOneShotEvents pattern s e := by
  unfold specOneShotEvents
  rw [List.filter_map]
  have hf : (inWindow s e ∘ noteEvent 0)
      = (fun n : StepNote => decide (s ≤ n.offsetTick ∧ n.offsetTick < e)) := by
    funext n
    simp only [Function.comp, inWindow, noteEvent, zero_add]
  rw [hf]
  apply List.map_congr_left
  intro n _
  simp only [noteEvent, zero_add]

theorem filter_inWindow_eq_self (l : List CompiledEvent) (s e : Int)
    (h : ∀ ev ∈ l, s ≤ ev.tick ∧ ev.tick < e) : l.filter (inWindow s e) = l := by
  rw [List.filter_eq_self]
  intro ev hev
  simp only [inWindow, decide_eq_true_eq]
  exact h ev hev

theorem whole_repeat_count (n : Nat) (P : Int) (hP : 0 < P) (hn : (n : Int) < 2 ^ 31) :
    (wrapInt32 (((n : Int) * P + P - 1).tdiv P)).toNat = n := by
  have hnn : 0 ≤ (n : Int) * P := Int.mul_nonneg (Int.ofNat_nonneg n) (le_of_lt hP)
  rw [Int.tdiv_eq_ediv (by omega) (le_of_lt hP)]
  have h1 : (n : Int) * P + P - 1 = (P - 1) + (n : Int) * P := by ring
  rw [h1, Int.add_mul_ediv_right _ _ (ne_of_gt hP), Int.ediv_eq_zero_of_lt (by omega) (by omega),
    zero_add, wrapInt32_of_fits _ (Int.ofNat_nonneg n) hn, Int.toNat_ofNat]

/-- A region made of `n` whole copies of an in-range pattern enumerates exactly those copies. -/
theorem allRegionEvents_whole (region : Region) (pattern : Pattern) (n : Nat)
    (hP : 0 < pattern.lengthTicks) (hlen : region.lengthTicks = (n : Int) * pattern.lengthTicks)
    (hn : (n : Int) < 2 ^ 31) (hnotes : NotesWithin pattern.notes pattern.lengthTicks) :
    allRegionEvents region pattern
      = (List.range n).flatMap (fun (r : Nat) =>
          pattern.notes.map (noteEvent (region.startTick + (r : Int) * pattern.lengthTicks))) := by
  unfold allRegionEvents
  rw [if_neg (ne_of_gt hP), hlen, whole_repeat_count n _ hP hn]
  apply flatMap_congr_mem
  intro r hr
  apply filter_inWindow_eq_self
  intro ev hev
  obtain ⟨note, hnote, rfl⟩ := List.mem_map.mp hev
  have hoff := hnotes note hnote
  have hr' : (r : Int) + 1 ≤ (n : Int) := by
    have := List.mem_range.mp hr
    omega
  have hmul : ((r : Int) + 1) * pattern.lengthTicks ≤ (n : Int) * pattern.lengthTicks :=
    Int.mul_le_mul_of_nonneg_right hr' (le_of_lt hP)
  have hexp : ((r : Int) + 1) * pattern.lengthTicks
      = (r : Int) * pattern.lengthTicks + pattern.lengthTicks := by ring
  have hrnn : 0 ≤ (r : Int) * pattern.lengthTicks :=
    Int.mul_nonneg (Int.ofNat_nonneg r) (le_of_lt hP)
  simp only [noteEvent]
  omega

/-- The unsorted timeline list of a single track with two resolvable regions. -/
theorem timeline_two_regions (project : Project) (track : Track) (r1 r2 : Region)
    (p1 p2 : Pattern) (s e : Int) (htracks : project.tracks = [track])
    (hregions : track.regions = [r1, r2])
    (hp1 : project.patterns.getPattern r1.patternId = some p1)
    (hp2 : project.patterns.getPattern r2.patternId = some p2) :
    getEventsFromTimeline project s e
      = sortEvents (getEventsFromRegion r1 p1 s e ++ getEventsFromRegion r2 p2 s e) := by
  unfold getEventsFromTimeline Track.getRegionsInRange
  rw [htracks]
  simp only [List.flatMap_cons, List.flatMap_nil, List.append_nil]
  rw [flatMap_filter_of_nil, hregions]
  · simp only [List.flatMap_cons, List.flatMap_nil, List.append_nil, hp1, hp2]
  · intro region hq
    cases hp : project.patterns.getPattern region.patternId with
    | none => rfl
    | some pattern => exact getEventsFromRegion_of_not_inRange region pattern s e hq

/-- Events one track contributes to the unsorted timeline list. -/
theorem getEventsFromTimeline_unfold (project : Project) (s e : Int) :
    getEventsFromTimeline project s e
      = sortEvents (project.tracks.flatMap (fun track =>
          track.regions.flatMap (fun region =>
            match project.patterns.getPattern region.patternId with
            | none => []
            | some pattern => getEventsFromRegion region pattern s e))) := by
  unfold getEventsFromTimeline Track.getRegionsInRange
  congr 1
  apply flatMap_congr_mem
  intro track _
  apply flatMap_filter_of_nil
  intro region hq
  cases hp : project.patterns.getPattern region.patternId with
  | none => rfl
  | some pattern => exact getEventsFromRegion_of_not_inRange region pattern s e hq

theorem forall₂_flatMap_eq {α β : Type} (R : α → α → Prop) (f : α → List β)
    (hR : ∀ a b, R a b → f a = f b) :
    ∀ l1 l2 : List α, List.Forall₂ R l1 l2 → l1.flatMap f = l2.flatMap f := by
  intro l1 l2 h
  induction h with
  | nil => rfl
  | cons hab _ ih => simp only [List.flatMap_cons, hR _ _ hab, ih]

/-- On a safe configuration adjacent windows concatenate. -/
theorem windowMonotoneAt_of_safe (s : Scheduler) (a b c : Int) (hab : a ≤ b) (hbc : b ≤ c)
    (hs : s.WindowSafe a) : s.WindowMonotoneAt a b c := by
  obtain ⟨X, hX⟩ := normal_form_exists s a c hs
  have hz := hX a c le_rfl (le_trans hab hbc) le_rfl
  have hsplit := sort_filter_split X a b c hab hbc
  refine ⟨_, _, _, hX a b le_rfl hab hbc, hX b c hab hbc le_rfl, hz, ?_, ?_, ?_⟩
  · rw [hsplit]
  · rw [hsplit]; exact sortEvents_sorted _
  · exact sortEvents_sorted _

/-- C1 (amended): scheduler window monotonicity.  In timeline mode with every library pattern
keeping its notes inside `[0, lengthTicks)`, in one-shot single-pattern mode, and in looping
single-pattern mode with loop length 0, or with positive loop length, `0 ≤ a` and every note
inside `[0, loopLength)`: for all ticks `a ≤ b ≤ c` the three queries return, the list for
`[a,b)` followed by the list for `[b,c)` holds exactly the events of the list for `[a,c)`
(a permutation of it), and both are in ascending tick order, so they agree up to the order
of events that share a tick. -/
theorem window_monotonicity (s : Scheduler) (a b c : Int) (hab : a ≤ b) (hbc : b ≤ c)
    (hs : s.WindowSafe a) : s.WindowMonotoneAt a b c :=
  windowMonotoneAt_of_safe s a b c hab hbc hs

/-- Witness for C1: the looped one-note pattern of length 10, windows `[0,8)`, `[8,25)`. -/
theorem window_monotonicity_witness :
    (0 : Int) ≤ 8 ∧ (8 : Int) ≤ 25 ∧ shortLoopScheduler.WindowSafe 0 ∧
      shortLoopScheduler.WindowMonotoneAt 0 8 25 :=
  have hs : shortLoopScheduler.WindowSafe 0 := by
    intro _
    refine Or.inr ⟨by decide, by decide, ?_⟩
    intro n hn
    simp only [List.mem_singleton] at hn
    subst hn
    decide
  ⟨by decide, by decide, hs, window_monotonicity shortLoopScheduler 0 8 25 (by decide) (by decide) hs⟩

/-- C1 (as stated) fails: a note beyond the pattern end in timeline mode, a note beyond the
loop length in looping mode, and a window starting at a negative tick in looping mode each
break the concatenation property, already as to which events are returned; the three
returned lists are given in each case. -/
theorem window_monotonicity_counterexample :
    (overhangScheduler.getEventsInRange 0 960 = some [] ∧
      overhangScheduler.getEventsInRange 960 1920 = some [] ∧
      overhangScheduler.getEventsInRange 0 1920 = some [⟨1000, 0, 1⟩] ∧
      ¬ overhangScheduler.WindowMonotoneAt 0 960 1920) ∧
    (lateNoteScheduler.getEventsInRange 0 10 = some [] ∧
      lateNoteScheduler.getEventsInRange 10 20 = some [] ∧
      lateNoteScheduler.getEventsInRange 0 20 = some [⟨12, 0, 1⟩] ∧
      ¬ lateNoteScheduler.WindowMonotoneAt 0 10 20) ∧
    (shortLoopScheduler.getEventsInRange (-10) (-5) = some [] ∧
      shortLoopScheduler.getEventsInRange (-5) 10 = some [⟨7, 0, 1⟩] ∧
      shortLoopScheduler.getEventsInRange (-10) 10 = some [⟨-3, 0, 1⟩, ⟨7, 0, 1⟩] ∧
      ¬ shortLoopScheduler.WindowMonotoneAt (-10) (-5) 10) := by
  have a1 : overhangScheduler.getEventsInRange 0 960 = some [] := by decide
  have a2 : overhangScheduler.getEventsInRange 960 1920 = some [] := by decide
  have a3 : overhangScheduler.getEventsInRange 0 1920 = some [⟨1000, 0, 1⟩] := by decide
  have b1 : lateNoteScheduler.getEventsInRange 0 10 = some [] := by decide
  have b2 : lateNoteScheduler.getEventsInRange 10 20 = some [] := by decide
  have b3 : lateNoteScheduler.getEventsInRange 0 20 = some [⟨12, 0, 1⟩] := by decide
  have c1 : shortLoopScheduler.getEventsInRange (-10) (-5) = some [] := by decide
  have c2 : shortLoopScheduler.getEventsInRange (-5) 10 = some [⟨7, 0, 1⟩] := by decide
  have c3 : shortLoopScheduler.getEventsInRange (-10) 10 = some [⟨-3, 0, 1⟩, ⟨7, 0, 1⟩] := by
    decide
  refine ⟨⟨a1, a2, a3, ?_⟩, ⟨b1, b2, b3, ?_⟩, ⟨c1, c2, c3, ?_⟩⟩
  · rintro ⟨x, y, z, hx, hy, hz, hperm, _, _⟩
    rw [a1] at hx; rw [a2] at hy; rw [a3] at hz
    cases hx; cases hy; cases hz
    exact absurd hperm.length_eq (by decide)
  · rintro ⟨x, y, z, hx, hy, hz, hperm, _, _⟩
    rw [b1] at hx; rw [b2] at hy; rw [b3] at hz
    cases hx; cases hy; cases hz
    exact absurd hperm.length_eq (by decide)
  · rintro ⟨x, y, z, hx, hy, hz, hperm, _, _⟩
    rw [c1] at hx; rw [c2] at hy; rw [c3] at hz
    cases hx; cases hy; cases hz
    exact absurd hperm.length_eq (by decide)

/-- C2: the scheduler window is half-open.  Every event returned by
`getEventsInRange(a, b)`, in either mode, has `a ≤ tick < b`; hence no event of the list for
`[a,b)` appears in the list for `[b,c)`. -/
theorem half_open_window (s : Scheduler) (a b c : Int) (x : List CompiledEvent)
    (hx : s.getEventsInRange a b = some x) :
    (∀ ev ∈ x, a ≤ ev.tick ∧ ev.tick < b) ∧
      ∀ y, s.getEventsInRange b c = some y → ∀ ev ∈ x, ev ∉ y := by
  refine ⟨mem_getEventsInRange_window hx, ?_⟩
  intro y hy ev hev hev'
  have h1 := (mem_getEventsInRange_window hx ev hev).2
  have h2 := (mem_getEventsInRange_window hy ev hev').1
  omega

/-- Witness for C2: the looped groove over the window `[0, 960)` returns the kick and two
hi-hats. -/
theorem half_open_window_witness :
    grooveLoopScheduler.getEventsInRange 0 960
        = some [⟨0, 0, 9 / 10⟩, ⟨0, 2, 3 / 5⟩, ⟨480, 2, 3 / 5⟩] ∧
      ((∀ ev ∈ [(⟨0, 0, 9 / 10⟩ : CompiledEvent), ⟨0, 2, 3 / 5⟩, ⟨480, 2, 3 / 5⟩],
          (0 : Int) ≤ ev.tick ∧ ev.tick < 960) ∧
        ∀ y, grooveLoopScheduler.getEventsInRange 960 1920 = some y →
          ∀ ev ∈ [(⟨0, 0, 9 / 10⟩ : CompiledEvent), ⟨0, 2, 3 / 5⟩, ⟨480, 2, 3 / 5⟩], ev ∉ y) :=
  ⟨by rfl, half_open_window grooveLoopScheduler 0 960 1920 _ (by rfl)⟩

/-- C3: the list returned by `getEventsInRange` is sorted ascending (non-decreasing) by tick,
for every scheduler configuration and window; and a list is returned in timeline mode, in
one-shot mode and whenever the loop length is not negative. -/
theorem events_sorted_by_tick (s : Scheduler) (a b : Int) :
    (∀ out, s.getEventsInRange a b = some out →
        out.Pairwise (fun x y => x.tick ≤ y.tick)) ∧
      (s.project_ ≠ none ∨ s.looping_ = false ∨ 0 ≤ s.loopLengthTicks_ →
        ∃ out, s.getEventsInRange a b = some out) :=
  ⟨fun _ h => getEventsInRange_sorted h, getEventsInRange_isSome s a b⟩

/-- Witness for C3: the looped groove over `[0, 960)` returns a list, and it is sorted. -/
theorem events_sorted_by_tick_witness :
    [(⟨0, 0, 9 / 10⟩ : CompiledEvent), ⟨0, 2, 3 / 5⟩, ⟨480, 2, 3 / 5⟩].Pairwise
        (fun x y => x.tick ≤ y.tick) ∧
      ∃ out, grooveLoopScheduler.getEventsInRange 0 960 = some out :=
  ⟨(events_sorted_by_tick grooveLoopScheduler 0 960).1 _ (by rfl),
   (events_sorted_by_tick grooveLoopScheduler 0 960).2 (Or.inr (Or.inr (by decide)))⟩

/-! ## Timeline mode against the specification -/

/-- C4 (amended): timeline mode emits exactly the specified events.  When every library
pattern keeps its notes inside `[0, lengthTicks)` and every repetition count
`⌈regionLength / patternLength⌉` is below `2^31`, `getEventsInRange` returns, as a multiset,
one event `(repeatStart + n.offsetTick, n.instrumentId, n.velocity)` for every track, every
region whose pattern id resolves to a pattern of positive length, every repetition
`0 ≤ r < ⌈regionLength / patternLength⌉` and every note `n`, iff the tick lies in
`[startTick, endTick)` and in `[regionStart, regionEnd)`; nothing else is returned. -/
theorem timeline_emits_specified (sched : Scheduler) (project : Project) (s e : Int)
    (hproj : sched.project_ = some project) (hpat : project.PatternsInRange)
    (hfit : project.RepeatsFitInt) : sched.EmitsSpecified project s e := by
  refine ⟨getEventsFromTimeline project s e, ?_, ?_⟩
  · unfold Scheduler.getEventsInRange; rw [hproj]
  · rw [getEventsFromTimeline_eq project s e hpat, specTimelineEvents_eq project s e hpat hfit]
    exact sortEvents_perm _


/-- Witness for C4: the groove-and-fill arrangement over the window `[0, 4·3840)`. -/
theorem timeline_emits_specified_witness :
    grooveFillScheduler.project_ = some grooveFillProject ∧ grooveFillProject.PatternsInRange ∧
      grooveFillProject.RepeatsFitInt ∧
      grooveFillScheduler.EmitsSpecified grooveFillProject 0 (4 * 3840) :=
  have h1 : grooveFillProject.PatternsInRange := grooveFill_patternsInRange
  have h2 : grooveFillProject.RepeatsFitInt :=
    repeatsFitInt_of_short_regions _ (by decide)
  ⟨rfl, h1, h2, timeline_emits_specified grooveFillScheduler grooveFillProject 0 (4 * 3840) rfl h1 h2⟩

/-- C4 (as stated) fails: a note beyond the pattern end is dropped by the per-repetition skip
although its tick lies in the window and the region, and a repetition count of `2^31` wraps
to a negative `int`, so that nothing is emitted.  In both cases the scheduler returns the empty
list while the specified list holds an event. -/
theorem timeline_emits_specified_counterexample :
    (overhangScheduler.getEventsInRange 960 1920 = some [] ∧
      (⟨1000, 0, 1⟩ : CompiledEvent) ∈ specTimelineEvents overhangProject 960 1920 ∧
      ¬ overhangScheduler.EmitsSpecified overhangProject 960 1920) ∧
    (wideScheduler.getEventsInRange 0 1 = some [] ∧
      (⟨0, 0, 1⟩ : CompiledEvent) ∈ specTimelineEvents wideProject 0 1 ∧
      ¬ wideScheduler.EmitsSpecified wideProject 0 1) := by
  have h1 : overhangScheduler.getEventsInRange 960 1920 = some [] := by decide
  have hmem1 : (⟨1000, 0, 1⟩ : CompiledEvent) ∈ specTimelineEvents overhangProject 960 1920 := by
    have hc : ⌈((1920 : Int) : ℚ) / ((960 : Int) : ℚ)⌉ = 2 := by
      rw [ceil_div_eq _ _ (by decide)]; decide
    simp only [specTimelineEvents, overhangProject, List.flatMap_cons, List.flatMap_nil,
      List.append_nil]
    have hp : ({ patterns := [overhangPattern] } : PatternLibrary).getPattern "p"
        = some overhangPattern := by decide
    simp only [hp]
    rw [if_pos (by decide)]
    simp only [specRegionEvents, overhangPattern, hc]
    decide
  have h2 : wideScheduler.getEventsInRange 0 1 = some [] := by decide
  have hmem2 : (⟨0, 0, 1⟩ : CompiledEvent) ∈ specTimelineEvents wideProject 0 1 := by
    have hc : ⌈(((2 : Int) ^ 31 : Int) : ℚ) / ((1 : Int) : ℚ)⌉ = 2 ^ 31 := by
      rw [ceil_div_eq _ _ (by decide)]; decide
    simp only [specTimelineEvents, wideProject, List.flatMap_cons, List.flatMap_nil,
      List.append_nil]
    have hp : ({ patterns := [tickPattern] } : PatternLibrary).getPattern "p"
        = some tickPattern := by decide
    simp only [hp]
    rw [if_pos (by decide)]
    simp only [specRegionEvents, tickPattern]
    rw [List.mem_flatMap]
    refine ⟨0, ?_, ?_⟩
    · rw [List.mem_range, hc]; decide
    · decide
  refine ⟨⟨h1, hmem1, ?_⟩, ⟨h2, hmem2, ?_⟩⟩
  · rintro ⟨out, hout, hperm⟩
    rw [h1] at hout
    cases hout
    have := hperm.symm.subset hmem1
    cases this
  · rintro ⟨out, hout, hperm⟩
    rw [h2] at hout
    cases hout
    have := hperm.symm.subset hmem2
    cases this

/-! ## Single-pattern mode against the specification -/

/-- C5 (amended): single-pattern mode.  With looping enabled, `loopLengthTicks = L > 0` and
a window `0 ≤ startTick ≤ endTick`, `getEventsInRange` returns exactly, sorted by tick, one
event at `k·L + n.offsetTick` for every loop iteration `k` whose span `[k·L, (k+1)·L)`
intersects the window and every note `n` such that the tick lies in `[startTick, endTick)`
(every integer `k` with an intersecting span is among the enumerated `0 .. endTick / L`); with
looping disabled and `loopLengthTicks ≠ 0` it returns exactly the notes with `offsetTick` in
`[startTick, endTick)`, at `tick = offsetTick`. -/
theorem single_pattern_events (sched : Scheduler) (pattern : Pattern) (s e : Int)
    (hproj : sched.project_ = none) (hpat : sched.pattern_ = some pattern) :
    (sched.looping_ = true → 0 < sched.loopLengthTicks_ → 0 ≤ s → s ≤ e →
      sched.ReturnsSorted s e (specLoopEvents pattern sched.loopLengthTicks_ s e) ∧
      ∀ k : Int, k * sched.loopLengthTicks_ < e ∧ s < (k + 1) * sched.loopLengthTicks_ →
        0 ≤ k ∧ k.toNat ∈ List.range ((e / sched.loopLengthTicks_).toNat + 1)) ∧
    (sched.looping_ = false → sched.loopLengthTicks_ ≠ 0 →
      sched.ReturnsSorted s e (specOneShotEvents pattern s e)) := by
  have hget : sched.getEventsInRange s e
      = getEventsFromSinglePattern pattern sched.loopLengthTicks_ sched.looping_ s e := by
    unfold Scheduler.getEventsInRange; rw [hproj, hpat]
  constructor
  · intro hloop hL hs hse
    constructor
    · refine ⟨_, (by rw [hget, hloop]; exact getEventsFromSinglePattern_loop pattern _ s e hL),
        sortEvents_sorted _, ?_⟩
      · exact (sortEvents_perm _).trans (loop_events_perm_spec pattern _ s e hL hs hse)
    · rintro k ⟨h1, h2⟩
      have hk : 0 ≤ k := by
        by_contra hneg
        have : (k + 1) * sched.loopLengthTicks_ ≤ 0 :=
          Int.mul_nonpos_of_nonpos_of_nonneg (by omega) (le_of_lt hL)
        omega
      have hle : k ≤ e / sched.loopLengthTicks_ := by
        rw [Int.le_ediv_iff_mul_le hL]; omega
      have henn : 0 ≤ e / sched.loopLengthTicks_ := le_trans hk hle
      refine ⟨hk, ?_⟩
      rw [List.mem_range]
      have := Int.toNat_of_nonneg hk
      have := Int.toNat_of_nonneg henn
      omega
  · intro hloop hL
    refine ⟨_, (by rw [hget, hloop]; exact one_shot_normal_form pattern _ s e),
      sortEvents_sorted _, ?_⟩
    rw [if_neg hL, one_shot_events_eq_spec]
    exact sortEvents_perm _

/-- Witness for C5: the groove looped over `[0, 960)` and played once over `[0, 3840)`. -/
theorem single_pattern_events_witness :
    grooveLoopScheduler.ReturnsSorted 0 960 (specLoopEvents groovePattern 3840 0 960) ∧
      (grooveLoopScheduler.setLooping false).ReturnsSorted 0 3840
        (specOneShotEvents groovePattern 0 3840) :=
  ⟨((single_pattern_events grooveLoopScheduler groovePattern 0 960 rfl rfl).1 rfl (by decide)
      (by decide) (by decide)).1,
   (single_pattern_events (grooveLoopScheduler.setLooping false) groovePattern 0 3840 rfl rfl).2
      rfl (by decide)⟩

/-- C5 (as stated) fails for one-shot mode with loop length 0: the guard
`if (loopLengthTicks_ == 0) return events;` returns the empty list although the note at
offset 0 lies in the window `[0, 10)`. -/
theorem single_pattern_events_counterexample :
    zeroLengthOneShot.project_ = none ∧ zeroLengthOneShot.pattern_ = some emptyLengthPattern ∧
      zeroLengthOneShot.looping_ = false ∧
      zeroLengthOneShot.getEventsInRange 0 10 = some [] ∧
      specOneShotEvents emptyLengthPattern 0 10 = [⟨0, 0, 1⟩] ∧
      ¬ zeroLengthOneShot.ReturnsSorted 0 10 (specOneShotEvents emptyLengthPattern 0 10) := by
  have h1 : zeroLengthOneShot.getEventsInRange 0 10 = some [] := by decide
  have h2 : specOneShotEvents emptyLengthPattern 0 10 = [⟨0, 0, 1⟩] := by decide
  refine ⟨rfl, rfl, rfl, h1, h2, ?_⟩
  rintro ⟨out, hout, _, hperm⟩
  rw [h1] at hout
  cases hout
  rw [h2] at hperm
  exact absurd hperm.length_eq (by decide)

/-! ## Whole repetitions -/

/-- C6 (amended): whole repetitions in timeline mode.  For a project whose single track holds
a region `[S, S + k·P)` (with `k < 2^31`) referencing a pattern of length `P > 0` whose notes
all have `0 ≤ offsetTick < P`, followed by an adjacent region `[S + k·P, S + k·P + Q)`
referencing a second pattern of length `Q ≥ 0` whose notes all have `0 ≤ offsetTick < Q`,
the query over `[S, S + k·P + Q)` returns, in ascending tick order, exactly the events of `k`
copies of the first pattern's notes (copy `r` shifted by `S + r·P`) followed by exactly the
events of the second pattern's notes shifted by `S + k·P`; the order of events that share a
tick is left open. -/
theorem whole_repetitions (sched : Scheduler) (project : Project) (track : Track)
    (r1 r2 : Region) (p1 p2 : Pattern) (S P Q : Int) (k : Nat)
    (hproj : sched.project_ = some project) (htracks : project.tracks = [track])
    (hregions : track.regions = [r1, r2])
    (hr1s : r1.startTick = S) (hr1l : r1.lengthTicks = (k : Int) * P)
    (hr2s : r2.startTick = S + (k : Int) * P) (hr2l : r2.lengthTicks = Q)
    (hp1 : project.patterns.getPattern r1.patternId = some p1)
    (hp2 : project.patterns.getPattern r2.patternId = some p2)
    (hP : p1.lengthTicks = P) (hQ : p2.lengthTicks = Q) (hPpos : 0 < P) (hQnn : 0 ≤ Q)
    (hn1 : NotesWithin p1.notes P) (hn2 : NotesWithin p2.notes Q) (hk : (k : Int) < 2 ^ 31) :
    sched.WholeRepetitions p1 p2 S P k Q := by
  subst hP hQ
  have hkP : 0 ≤ (k : Int) * p1.lengthTicks :=
    Int.mul_nonneg (Int.ofNat_nonneg k) (le_of_lt hPpos)
  have hreturn : sched.getEventsInRange S (S + (k : Int) * p1.lengthTicks + p2.lengthTicks)
      = some (sortEvents ((List.range k).flatMap (fun (r : Nat) =>
                p1.notes.map (noteEvent (S + (r : Int) * p1.lengthTicks))))
              ++ sortEvents (p2.notes.map (noteEvent (S + (k : Int) * p1.lengthTicks)))) := by
    unfold Scheduler.getEventsInRange
    rw [hproj]
    simp only
    rw [timeline_two_regions project track r1 r2 p1 p2 _ _ htracks hregions hp1 hp2,
      getEventsFromRegion_eq_filter r1 p1 _ _ hn1, getEventsFromRegion_eq_filter r2 p2 _ _ hn2,
      allRegionEvents_whole r1 p1 k hPpos hr1l hk hn1, hr1s]
    have hin1 : ∀ ev ∈ (List.range k).flatMap (fun (r : Nat) =>
          p1.notes.map (noteEvent (S + (r : Int) * p1.lengthTicks))),
        S ≤ ev.tick ∧ ev.tick < S + (k : Int) * p1.lengthTicks := by
      intro ev hev
      obtain ⟨r, hr, hev⟩ := List.mem_flatMap.mp hev
      obtain ⟨note, hnote, rfl⟩ := List.mem_map.mp hev
      have hoff := hn1 note hnote
      have hr' : (r : Int) + 1 ≤ (k : Int) := by
        have := List.mem_range.mp hr
        omega
      have hmul : ((r : Int) + 1) * p1.lengthTicks ≤ (k : Int) * p1.lengthTicks :=
        Int.mul_le_mul_of_nonneg_right hr' (le_of_lt hPpos)
      have hexp : ((r : Int) + 1) * p1.lengthTicks
          = (r : Int) * p1.lengthTicks + p1.lengthTicks := by ring
      have hrnn : 0 ≤ (r : Int) * p1.lengthTicks :=
        Int.mul_nonneg (Int.ofNat_nonneg r) (le_of_lt hPpos)
      simp only [noteEvent]
      omega
    have hsecond : (allRegionEvents r2 p2).filter
          (inWindow S (S + (k : Int) * p1.lengthTicks + p2.lengthTicks))
        = p2.notes.map (noteEvent (S + (k : Int) * p1.lengthTicks)) := by
      rcases eq_or_lt_of_le hQnn with h0 | hpos
      · have hnil : p2.notes = [] := by
          cases hnotes : p2.notes with
          | nil => rfl
          | cons n rest =>
            have := hn2 n (by rw [hnotes]; exact List.mem_cons_self _ _)
            omega
        unfold allRegionEvents
        rw [if_pos h0.symm, hnil]
        rfl
      · rw [allRegionEvents_whole r2 p2 1 hpos (by rw [hr2l]; simp) (by norm_num) hn2, hr2s]
        have hr1 : List.range 1 = [0] := rfl
        rw [hr1]
        simp only [List.flatMap_cons, List.flatMap_nil, List.append_nil,
          Nat.cast_zero, zero_mul, add_zero]
        apply filter_inWindow_eq_self
        intro ev hev
        obtain ⟨note, hnote, rfl⟩ := List.mem_map.mp hev
        have hoff := hn2 note hnote
        simp only [noteEvent]
        omega
    rw [hsecond, filter_inWindow_eq_self _ _ _ (fun ev hev => by
      have := hin1 ev hev
      omega)]
    rw [sortEvents_append]
    intro x hx y hy
    have h1 := hin1 x hx
    obtain ⟨note, hnote, rfl⟩ := List.mem_map.mp hy
    have hoff := hn2 note hnote
    simp only [noteEvent]
    omega
  exact ⟨_, _, hreturn, (sortEvents_perm _), (sortEvents_perm _),
    getEventsInRange_sorted hreturn⟩

/-- Witness for C6 (scenario 3 of the specification): the 12-note groove of length 3840 in
region `[0, 3·3840)` and the fill in `[3·3840, 4·3840)` give exactly three repetitions of the
groove followed by the fill's events. -/
theorem whole_repetitions_witness :
    NotesWithin groovePattern.notes 3840 ∧ NotesWithin fillPattern.notes 3840 ∧
      grooveFillScheduler.WholeRepetitions groovePattern fillPattern 0 3840 3 3840 :=
  have h1 : NotesWithin groovePattern.notes 3840 := by unfold NotesWithin; decide
  have h2 : NotesWithin fillPattern.notes 3840 := by unfold NotesWithin; decide
  ⟨h1, h2,
   whole_repetitions grooveFillScheduler grooveFillProject drumTrack grooveRegion fillRegion
     groovePattern fillPattern 0 3840 3840 3
     (by rfl) (by rfl) (by rfl) (by rfl) (by decide) (by decide) (by rfl) (by rfl) (by rfl) (by rfl) (by rfl) (by decide)
     (by decide) h1 h2 (by decide)⟩

/-- C6 (as stated) fails: a note of the second pattern beyond its length is clipped by the
region end (the query returns the events at 0 and 960 only, not the one at 1960), and
`k = 2^31` repetitions wrap to a negative `int` so that no copy of the first pattern is
emitted (the query returns the fill's event only). -/
theorem whole_repetitions_counterexample :
    (NotesWithin downbeatPattern.notes 960 ∧
      overhangFillScheduler.getEventsInRange 0 1920 = some [⟨0, 0, 1⟩, ⟨960, 1, 1⟩] ∧
      ¬ overhangFillScheduler.WholeRepetitions downbeatPattern overhangFill 0 960 1 960) ∧
    (NotesWithin tickPattern.notes 1 ∧ NotesWithin tickFill.notes 1 ∧
      wideFillScheduler.getEventsInRange 0 (2 ^ 31 + 1) = some [⟨2 ^ 31, 1, 1⟩] ∧
      ¬ wideFillScheduler.WholeRepetitions tickPattern tickFill 0 1 (2 ^ 31) 1) := by
  refine ⟨⟨by unfold NotesWithin; decide, by decide, ?_⟩,
    ⟨by unfold NotesWithin; decide, by unfold NotesWithin; decide, by decide, ?_⟩⟩
  · rintro ⟨first, second, h, hp1, hp2, _⟩
    have h1 : overhangFillScheduler.getEventsInRange 0 (0 + ((1 : Nat) : Int) * 960 + 960)
        = some [⟨0, 0, 1⟩, ⟨960, 1, 1⟩] := by decide
    rw [h1] at h
    have hlen := congrArg List.length (Option.some.inj h)
    have hl1 := hp1.length_eq
    have hl2 := hp2.length_eq
    have e1 : ((List.range 1).flatMap (fun (r : Nat) =>
        downbeatPattern.notes.map (noteEvent (0 + (r : Int) * 960)))).length = 1 := by decide
    have e2 : (overhangFill.notes.map (noteEvent (0 + ((1 : Nat) : Int) * 960))).length = 2 := by
      decide
    rw [List.length_append] at hlen
    simp only [List.length_cons, List.length_nil] at hlen
    omega
  · rintro ⟨first, second, h, hp1, hp2, _⟩
    have h1 : wideFillScheduler.getEventsInRange 0 (0 + ((2 ^ 31 : Nat) : Int) * 1 + 1)
        = some [⟨2 ^ 31, 1, 1⟩] := by decide
    rw [h1] at h
    have hmem : (⟨0, 0, 1⟩ : CompiledEvent) ∈ first := by
      rw [hp1.mem_iff, List.mem_flatMap]
      exact ⟨0, List.mem_range.mpr (by norm_num), by decide⟩
    have hmem2 : (⟨2 ^ 31, 1, 1⟩ : CompiledEvent) ∈ second := by
      rw [hp2.mem_iff]
      decide
    have hlen := congrArg List.length (Option.some.inj h)
    have hA := List.length_pos_of_mem hmem
    have hB := List.length_pos_of_mem hmem2
    rw [List.length_append, List.length_singleton] at hlen
    omega
/-! ## Skipped regions and ignored flags -/

/-- C7: a region whose pattern id is absent from the pattern library is skipped silently.
For every project and window, `getEventsInRange` returns (it does not fail), and it returns
the same list as for the project with that region removed. -/
theorem missing_pattern_region_skipped (sched : Scheduler) (project : Project)
    (ts1 ts2 : List Track) (track : Track) (rs1 rs2 : List Region) (region : Region) (s e : Int)
    (hproj : sched.project_ = some project)
    (htracks : project.tracks = ts1 ++ track :: ts2)
    (hregions : track.regions = rs1 ++ region :: rs2)
    (hmissing : project.patterns.getPattern region.patternId = none) :
    (∃ out, sched.getEventsInRange s e = some out) ∧
      sched.getEventsInRange s e
        = ({ sched with project_ := some { project with
              tracks := ts1 ++ { track with regions := rs1 ++ rs2 } :: ts2 } }
            : Scheduler).getEventsInRange s e := by
  have hget : sched.getEventsInRange s e = some (getEventsFromTimeline project s e) := by
    unfold Scheduler.getEventsInRange; rw [hproj]
  refine ⟨⟨_, hget⟩, ?_⟩
  rw [hget]
  unfold Scheduler.getEventsInRange
  simp only
  rw [getEventsFromTimeline_unfold, getEventsFromTimeline_unfold, htracks]
  simp only [List.flatMap_append, List.flatMap_cons, hregions, hmissing, List.nil_append]

/-- Witness for C7: the region `ghostRegion` of `danglingProject` references the unknown
pattern `ghost`; removing it gives `grooveFillProject`. -/
theorem missing_pattern_region_skipped_witness :
    danglingProject.patterns.getPattern ghostRegion.patternId = none ∧
      (∃ out, danglingScheduler.getEventsInRange 0 15360 = some out) ∧
      danglingScheduler.getEventsInRange 0 15360
        = grooveFillScheduler.getEventsInRange 0 15360 :=
  have hm : danglingProject.patterns.getPattern ghostRegion.patternId = none := by decide
  have h := missing_pattern_region_skipped danglingScheduler danglingProject [] [] danglingTrack
    [grooveRegion] [fillRegion] ghostRegion 0 15360 (by rfl) (by rfl) (by rfl) hm
  ⟨hm, h.1, h.2.trans (by rfl)⟩

/-- C8: the scheduler ignores mute/solo.  Two schedulers in timeline mode whose projects
differ only in the `muted` and `soloed` flags of their tracks return the same event list for
every window (and they do return one). -/
theorem mute_solo_ignored (s1 s2 : Scheduler) (p q : Project) (a b : Int)
    (h1 : s1.project_ = some p) (h2 : s2.project_ = some q) (hsame : p.SameUpToFlags q) :
    s1.getEventsInRange a b = s2.getEventsInRange a b ∧
      ∃ out, s1.getEventsInRange a b = some out := by
  have hget1 : s1.getEventsInRange a b = some (getEventsFromTimeline p a b) := by
    unfold Scheduler.getEventsInRange; rw [h1]
  have hget2 : s2.getEventsInRange a b = some (getEventsFromTimeline q a b) := by
    unfold Scheduler.getEventsInRange; rw [h2]
  refine ⟨?_, _, hget1⟩
  rw [hget1, hget2]
  obtain ⟨_, _, hpat, htracks⟩ := hsame
  unfold getEventsFromTimeline
  rw [hpat]
  congr 2
  apply forall₂_flatMap_eq Track.SameUpToFlags _ _ _ _ htracks
  intro t u htu
  unfold Track.getRegionsInRange
  rw [htu.2.2]

/-- Witness for C8: muting and soloing the drum track of the groove-and-fill arrangement
leaves the events of `[0, 4·3840)` unchanged. -/
theorem mute_solo_ignored_witness :
    grooveFillProject.SameUpToFlags mutedGrooveFillProject ∧
      grooveFillScheduler.getEventsInRange 0 15360
        = mutedGrooveFillScheduler.getEventsInRange 0 15360 :=
  have hs : grooveFillProject.SameUpToFlags mutedGrooveFillProject :=
    ⟨rfl, rfl, rfl, List.Forall₂.cons ⟨rfl, rfl, rfl⟩ List.Forall₂.nil⟩
  ⟨hs, (mute_solo_ignored grooveFillScheduler mutedGrooveFillScheduler grooveFillProject
    mutedGrooveFillProject 0 15360 (by rfl) (by rfl) hs).1⟩

/-! ## Audio callback windows -/

/-- C9 (evaluation at the failing input): with the looped groove playing at 120 BPM and
48 kHz, after `setPosition(0)` the next callback of 256 frames queries the window `[10, 20)`
and triggers nothing, although the scheduler holds the kick and a hi-hat at tick 0: the
callback advances the transport by one block before it reads the window start. -/
theorem seek_while_rolling_skips_tick_zero :
    seekWhileRolling = some { window := some (10, 20), triggered := [] } ∧
      groovePlayingEngine.scheduler.getEventsInRange 0 10
        = some [⟨0, 0, 9 / 10⟩, ⟨0, 2, 3 / 5⟩] :=
  ⟨by with_unfolding_all rfl, by rfl⟩


theorem allocateVoice_eq_none_iff (s : Sampler) :
    s.allocateVoice = none ↔ ∀ v ∈ s.voices, v.active = true := by
  unfold Sampler.allocateVoice
  rw [List.findIdx?_eq_none_iff]
  constructor
  · intro h v hv
    have := h v hv
    simpa using this
  · intro h v hv
    simp [h v hv]

theorem allocateVoice_eq_some {s : Sampler} {i : Nat} (h : s.allocateVoice = some i) :
    ∃ hi : i < s.voices.length, (s.voices.get ⟨i, hi⟩).active = false := by
  unfold Sampler.allocateVoice at h
  obtain ⟨hi, hp, _⟩ := List.findIdx?_eq_some_iff_getElem.mp h
  refine ⟨hi, ?_⟩
  simpa using hp

theorem count_eq_length_iff (s : Sampler) :
    s.getActiveVoiceCount = s.voices.length ↔ ∀ v ∈ s.voices, v.active = true := by
  unfold Sampler.getActiveVoiceCount
  exact List.countP_eq_length

theorem count_le_length (s : Sampler) : s.getActiveVoiceCount ≤ s.voices.length :=
  List.countP_le_length _

/-- A `noteOn` issued while every slot is active changes nothing. -/
theorem noteOn_of_all_active (s : Sampler) (sample : Option Sample) (velocity gain pan : ℚ)
    (offsetFrames : Nat) (h : ∀ v ∈ s.voices, v.active = true) :
    s.noteOn sample velocity gain pan offsetFrames = s := by
  unfold Sampler.noteOn
  cases sample with
  | none => rfl
  | some smp =>
    simp only
    split
    · rfl
    · rw [(allocateVoice_eq_none_iff s).mpr h]

/-- A `noteOn` with a non-empty sample issued while some slot is free takes the first free
slot and leaves the others alone. -/
theorem noteOn_of_free (s : Sampler) (smp : Sample) (velocity gain pan : ℚ)
    (offsetFrames : Nat) (hs : smp.lengthFrames ≠ 0)
    (h : s.getActiveVoiceCount < s.voices.length) :
    ∃ i, ∃ hi : i < s.voices.length, (s.voices.get ⟨i, hi⟩).active = false ∧
      s.noteOn (some smp) velocity gain pan offsetFrames
        = { s with voices := s.voices.set i (Voice.start smp velocity gain pan) } ∧
      (s.noteOn (some smp) velocity gain pan offsetFrames).getActiveVoiceCount
        = s.getActiveVoiceCount + 1 ∧
      (s.noteOn (some smp) velocity gain pan offsetFrames).voices.length = s.voices.length := by
  cases halloc : s.allocateVoice with
  | none =>
    have := (count_eq_length_iff s).mpr ((allocateVoice_eq_none_iff s).mp halloc)
    omega
  | some i =>
    obtain ⟨hi, hfree⟩ := allocateVoice_eq_some halloc
    have hstep : s.noteOn (some smp) velocity gain pan offsetFrames
        = { s with voices := s.voices.set i (Voice.start smp velocity gain pan) } := by
      unfold Sampler.noteOn
      simp only [if_neg hs, halloc]
    refine ⟨i, hi, hfree, hstep, ?_, ?_⟩
    · rw [hstep]
      unfold Sampler.getActiveVoiceCount
      simp only
      rw [List.countP_set _ _ _ _ hi]
      have hfree' : (s.voices[i]).active = false := by simpa using hfree
      simp [hfree', Voice.start]
    · rw [hstep]; simp

theorem noteOn_length (s : Sampler) (c : NoteOnArgs) :
    (s.noteOn c.sample c.velocity c.gain c.pan c.offsetFrames).voices.length = s.voices.length := by
  unfold Sampler.noteOn
  cases c.sample with
  | none => rfl
  | some smp =>
    simp only
    split
    · rfl
    · split
      · rfl
      · simp

/-- After a run of non-empty `noteOn` calls the active count is the old count plus the number
of calls, capped by the number of slots. -/
theorem noteOnAll_count (calls : List NoteOnArgs) (hne : ∀ c ∈ calls, c.NonEmpty) :
    ∀ s : Sampler, (s.noteOnAll calls).getActiveVoiceCount
        = min (s.getActiveVoiceCount + calls.length) s.voices.length ∧
      (s.noteOnAll calls).voices.length = s.voices.length := by
  induction calls with
  | nil =>
    intro s
    have := count_le_length s
    simp only [Sampler.noteOnAll, List.foldl_nil, List.length_nil, Nat.add_zero]
    exact ⟨by omega, trivial⟩
  | cons c rest ih =>
    intro s
    have hrest := ih (fun c' hc' => hne c' (List.mem_cons_of_mem _ hc'))
      (s.noteOn c.sample c.velocity c.gain c.pan c.offsetFrames)
    have hunfold : s.noteOnAll (c :: rest)
        = (s.noteOn c.sample c.velocity c.gain c.pan c.offsetFrames).noteOnAll rest := rfl
    rw [hunfold, hrest.1, hrest.2, noteOn_length]
    refine ⟨?_, rfl⟩
    obtain ⟨smp, hsmp, hlen⟩ := hne c (List.mem_cons_self _ _)
    have hle := count_le_length s
    rcases Nat.lt_or_ge s.getActiveVoiceCount s.voices.length with hlt | hge
    · obtain ⟨_, _, _, _, hcount, _⟩ := noteOn_of_free s smp c.velocity c.gain c.pan c.offsetFrames hlen hlt
      rw [hsmp, hcount, List.length_cons]
      omega
    · have hall := (count_eq_length_iff s).mp (by omega)
      rw [noteOn_of_all_active s _ _ _ _ _ hall, List.length_cons]
      omega


theorem renderFrames_voice (smp : Sample) (gL gR : ℚ) :
    ∀ (count i : Nat) (voice : Voice) (outL outR : List ℚ),
      (renderFrames smp gL gR count i voice outL outR).1
        = if voice.playbackPosition + count ≤ smp.lengthFrames ∨ count = 0 then
            { voice with playbackPosition := voice.playbackPosition + count }
          else voice.reset := by
  intro count
  induction count with
  | zero =>
    intro i voice outL outR
    simp [renderFrames]
  | succ n ih =>
    intro i voice outL outR
    unfold renderFrames
    by_cases hdone : smp.lengthFrames ≤ voice.playbackPosition
    · rw [if_pos hdone, if_neg (by omega)]
    · rw [if_neg hdone]
      simp only
      rw [ih]
      simp only [Voice.reset]
      by_cases h2 : voice.playbackPosition + 1 + n ≤ smp.lengthFrames
      · rw [if_pos (Or.inl h2), if_pos (by omega)]
        simp only [Nat.add_assoc, Nat.add_comm 1 n]
      · by_cases hn : n = 0
        · subst hn
          rw [if_pos (Or.inr rfl), if_pos (by omega)]
        · rw [if_neg (by omega), if_neg (by omega)]

theorem renderVoice_voice (voice : Voice) (outL outR : List ℚ) (n : Nat) :
    (renderVoice voice outL outR 0 n).1 = advanceVoice voice n := by
  rcases voice with ⟨sample, pos, vel, gain, pan, active⟩
  unfold renderVoice advanceVoice
  by_cases ha : active = false
  · simp only [if_pos ha]
  · simp only [if_neg ha]
    cases sample with
    | none => rfl
    | some smp => simp only [Nat.sub_zero, renderFrames_voice]

theorem renderVoices_voices :
    ∀ (vs : List Voice) (outL outR : List ℚ) (n : Nat),
      (renderVoices vs outL outR n).1 = vs.map (fun v => advanceVoice v n) := by
  intro vs
  induction vs with
  | nil => intro outL outR n; rfl
  | cons v rest ih =>
    intro outL outR n
    unfold renderVoices
    simp only [List.map_cons, ih]
    congr 1
    by_cases ha : v.active = true
    · rw [if_pos ha, renderVoice_voice]
    · rw [if_neg ha]
      unfold advanceVoice
      rw [if_pos (by simpa using ha)]

theorem render_voices (s : Sampler) (outL outR : List ℚ) (n : Nat) :
    (s.render outL outR n).1.voices = s.voices.map (fun v => advanceVoice v n) := by
  unfold Sampler.render
  exact renderVoices_voices _ _ _ _

theorem advanceVoice_reset (n : Nat) : advanceVoice {} n = {} := rfl

/-- A started voice at position `p ≤ N` is, after blocks with `total` frames, at `p + total`
when that does not exceed `N`, and reset otherwise. -/
theorem advance_blocks (smp : Sample) (velocity gain pan : ℚ) :
    ∀ (blocks : List (List ℚ × List ℚ × Nat)) (p : Nat), p ≤ smp.lengthFrames →
      blocks.foldl (fun v b => advanceVoice v b.2.2)
          { Voice.start smp velocity gain pan with playbackPosition := p }
        = if p + totalFrames blocks ≤ smp.lengthFrames then
            { Voice.start smp velocity gain pan with playbackPosition := p + totalFrames blocks }
          else {} := by
  intro blocks
  induction blocks with
  | nil =>
    intro p hp
    simp [totalFrames, hp]
  | cons b rest ih =>
    intro p hp
    have htot : totalFrames (b :: rest) = b.2.2 + totalFrames rest := by
      simp [totalFrames]
    rw [List.foldl_cons, htot]
    by_cases hb : p + b.2.2 ≤ smp.lengthFrames
    · have hstep : advanceVoice { Voice.start smp velocity gain pan with playbackPosition := p } b.2.2
          = { Voice.start smp velocity gain pan with playbackPosition := p + b.2.2 } := by
        simp [advanceVoice, Voice.start, hb]
      rw [hstep, ih (p + b.2.2) hb]
      simp only [Nat.add_assoc]
    · have hstep : advanceVoice { Voice.start smp velocity gain pan with playbackPosition := p } b.2.2
          = {} := by
        have hb0 : b.2.2 ≠ 0 := by omega
        simp [advanceVoice, Voice.start, hb, hb0, Voice.reset]
      rw [hstep, if_neg (by omega)]
      clear ih hstep htot hb
      induction rest with
      | nil => rfl
      | cons c rest ih2 => rw [List.foldl_cons, advanceVoice_reset]; exact ih2

theorem renderBlocks_voices (blocks : List (List ℚ × List ℚ × Nat)) :
    ∀ s : Sampler, (s.renderBlocks blocks).voices
      = s.voices.map (fun v => blocks.foldl (fun v b => advanceVoice v b.2.2) v) := by
  induction blocks with
  | nil => intro s; simp [Sampler.renderBlocks]
  | cons b rest ih =>
    intro s
    have hunfold : s.renderBlocks (b :: rest) = ((s.render b.1 b.2.1 b.2.2).1).renderBlocks rest := rfl
    rw [hunfold, ih, render_voices, List.map_map]
    rfl


theorem clickCall_nonEmpty (n : Nat) : ∀ c ∈ List.replicate n clickCall, c.NonEmpty := by
  intro c hc
  rw [List.eq_of_mem_replicate hc]
  exact ⟨clickSample, rfl, by decide⟩

theorem fullSampler_count : fullSampler.getActiveVoiceCount = 64 ∧ fullSampler.voices.length = 64 := by
  have h := noteOnAll_count (List.replicate 64 clickCall) (clickCall_nonEmpty 64) {}
  have h0 : ({} : Sampler).getActiveVoiceCount = 0 := by decide
  have h1 : ({} : Sampler).voices.length = 64 := by decide
  rw [h0, h1] at h
  exact ⟨h.1, h.2⟩

theorem fullSampler_all_active : ∀ v ∈ fullSampler.voices, v.active = true :=
  (count_eq_length_iff fullSampler).mp (by rw [fullSampler_count.1, fullSampler_count.2])

theorem fullSampler_allocate : fullSampler.allocateVoice = none :=
  (allocateVoice_eq_none_iff fullSampler).mpr fullSampler_all_active

theorem list_ext_getD {l₁ l₂ : List ℚ} (hlen : l₁.length = l₂.length)
    (h : ∀ j, l₁.getD j 0 = l₂.getD j 0) : l₁ = l₂ := by
  apply List.ext_getElem hlen
  intro j h1 h2
  have := h j
  rw [List.getD_eq_getElem _ _ h1, List.getD_eq_getElem _ _ h2] at this
  exact this

theorem getD_set (l : List ℚ) (i j : Nat) (x : ℚ) :
    (l.set i x).getD j 0 = if i = j ∧ j < l.length then x else l.getD j 0 := by
  by_cases hj : j < l.length
  · rw [List.getD_eq_getElem _ _ (by simpa using hj), List.getD_eq_getElem _ _ hj,
      List.getElem_set]
    by_cases hij : i = j
    · simp [hij, hj]
    · simp [hij]
  · rw [List.getD_eq_default _ _ (by simpa using hj), List.getD_eq_default _ _ (by omega)]
    simp [hj]

/-- What the frame loop leaves in the two buffers: frame `j` of the rendered span receives
the sample frame at the voice position times the channel gain; every other frame is
untouched. -/
theorem renderFrames_out (smp : Sample) (gL gR : ℚ) :
    ∀ (count i : Nat) (voice : Voice) (outL outR : List ℚ),
      (renderFrames smp gL gR count i voice outL outR).2.1.length = outL.length ∧
      (renderFrames smp gL gR count i voice outL outR).2.2.length = outR.length ∧
      (∀ j, (renderFrames smp gL gR count i voice outL outR).2.1.getD j 0
        = if i ≤ j ∧ j < i + min count (smp.lengthFrames - voice.playbackPosition)
              ∧ j < outL.length then
            outL.getD j 0 + smp.dataLeft.getD (voice.playbackPosition + (j - i)) 0 * gL
          else outL.getD j 0) ∧
      (∀ j, (renderFrames smp gL gR count i voice outL outR).2.2.getD j 0
        = if i ≤ j ∧ j < i + min count (smp.lengthFrames - voice.playbackPosition)
              ∧ j < outR.length then
            outR.getD j 0 + smp.dataRight.getD (voice.playbackPosition + (j - i)) 0 * gR
          else outR.getD j 0) := by
  intro count
  induction count with
  | zero =>
    intro i voice outL outR
    simp only [renderFrames, Nat.zero_min, Nat.add_zero]
    refine ⟨trivial, trivial, fun j => ?_, fun j => ?_⟩
    · rw [if_neg (by omega)]
    · rw [if_neg (by omega)]
  | succ n ih =>
    intro i voice outL outR
    unfold renderFrames
    by_cases hdone : smp.lengthFrames ≤ voice.playbackPosition
    · rw [if_pos hdone]
      refine ⟨rfl, rfl, fun j => ?_, fun j => ?_⟩
      · rw [if_neg (by omega)]
      · rw [if_neg (by omega)]
    · rw [if_neg hdone]
      simp only
      obtain ⟨h1, h2, h3, h4⟩ := ih (i + 1)
        { voice with playbackPosition := voice.playbackPosition + 1 }
        (outL.set i (outL.getD i 0 + smp.dataLeft.getD voice.playbackPosition 0 * gL))
        (outR.set i (outR.getD i 0 + smp.dataRight.getD voice.playbackPosition 0 * gR))
      refine ⟨by rw [h1, List.length_set], by rw [h2, List.length_set], fun j => ?_, fun j => ?_⟩
      · rw [h3 j, getD_set, List.length_set]
        simp only
        by_cases hij : i = j
        · subst hij
          rw [if_neg (by omega)]
          by_cases hlen : i < outL.length
          · rw [if_pos ⟨rfl, hlen⟩, if_pos ⟨le_refl _, by omega, hlen⟩]
            simp
          · rw [if_neg (by omega), if_neg (by omega)]
        · simp only [hij, false_and, if_false]
          by_cases hc : i + 1 ≤ j ∧ j < i + 1 + min n (smp.lengthFrames - (voice.playbackPosition + 1))
              ∧ j < outL.length
          · rw [if_pos hc, if_pos ⟨by omega, by omega, hc.2.2⟩]
            have : voice.playbackPosition + 1 + (j - (i + 1)) = voice.playbackPosition + (j - i) := by
              omega
            rw [this]
          · rw [if_neg hc, if_neg (by omega)]
      · rw [h4 j, getD_set, List.length_set]
        simp only
        by_cases hij : i = j
        · subst hij
          rw [if_neg (by omega)]
          by_cases hlen : i < outR.length
          · rw [if_pos ⟨rfl, hlen⟩, if_pos ⟨le_refl _, by omega, hlen⟩]
            simp
          · rw [if_neg (by omega), if_neg (by omega)]
        · simp only [hij, false_and, if_false]
          by_cases hc : i + 1 ≤ j ∧ j < i + 1 + min n (smp.lengthFrames - (voice.playbackPosition + 1))
              ∧ j < outR.length
          · rw [if_pos hc, if_pos ⟨by omega, by omega, hc.2.2⟩]
            have : voice.playbackPosition + 1 + (j - (i + 1)) = voice.playbackPosition + (j - i) := by
              omega
            rw [this]
          · rw [if_neg hc, if_neg (by omega)]

theorem renderVoice_eq (voice : Voice) (smp : Sample) (outL outR : List ℚ)
    (startFrame nframes : Nat) (hactive : voice.active = true) (hsample : voice.sample = some smp) :
    renderVoice voice outL outR startFrame nframes
      = renderFrames smp (renderGainL voice) (renderGainR voice) (nframes - startFrame)
          startFrame voice outL outR := by
  unfold renderVoice
  rw [if_neg (by simp [hactive])]
  simp only [hsample]


/-! ## Sampler claims -/

/-- C11. Voice saturation: starting from a fresh sampler, any 65 `noteOn` calls with a
non-empty sample (and no `render` in between) leave exactly 64 active voices; a `noteOn`
issued when every slot is active leaves the sampler, hence the voice array, unchanged; and a
`noteOn` with a non-empty sample issued when some slot is free writes exactly one slot, which
was inactive, and raises the active count by one. -/
theorem voice_saturation :
    (∀ calls : List NoteOnArgs, calls.length = MAX_VOICES + 1 → (∀ c ∈ calls, c.NonEmpty) →
      (({} : Sampler).noteOnAll calls).getActiveVoiceCount = 64) ∧
    (∀ (s : Sampler) (sample : Option Sample) (velocity gain pan : ℚ) (offsetFrames : Nat),
      (∀ v ∈ s.voices, v.active = true) →
      (s.noteOn sample velocity gain pan offsetFrames).voices = s.voices) ∧
    (∀ (s : Sampler) (smp : Sample) (velocity gain pan : ℚ) (offsetFrames : Nat),
      smp.lengthFrames ≠ 0 → (¬ ∀ v ∈ s.voices, v.active = true) →
      ∃ i, ∃ hi : i < s.voices.length, (s.voices.get ⟨i, hi⟩).active = false ∧
        (s.noteOn (some smp) velocity gain pan offsetFrames).voices
          = s.voices.set i (Voice.start smp velocity gain pan) ∧
        (s.noteOn (some smp) velocity gain pan offsetFrames).getActiveVoiceCount
          = s.getActiveVoiceCount + 1) := by
  refine ⟨?_, ?_, ?_⟩
  · intro calls hlen hne
    have h := (noteOnAll_count calls hne {}).1
    rw [h, hlen]
    have h0 : ({} : Sampler).getActiveVoiceCount = 0 := by decide
    have h1 : ({} : Sampler).voices.length = 64 := by decide
    rw [h0, h1]
    decide
  · intro s sample velocity gain pan offsetFrames hall
    rw [noteOn_of_all_active s sample velocity gain pan offsetFrames hall]
  · intro s smp velocity gain pan offsetFrames hs hfree
    have hlt : s.getActiveVoiceCount < s.voices.length := by
      have hle := count_le_length s
      have hne : s.getActiveVoiceCount ≠ s.voices.length :=
        fun h => hfree ((count_eq_length_iff s).mp h)
      omega
    obtain ⟨i, hi, hslot, hstep, hcount, _⟩ :=
      noteOn_of_free s smp velocity gain pan offsetFrames hs hlt
    exact ⟨i, hi, hslot, by rw [hstep], hcount⟩

/-- Sixty-five clicks on a fresh sampler leave 64 active voices. -/
theorem voice_saturation_witness :
    (List.replicate 65 clickCall).length = MAX_VOICES + 1 ∧
    (∀ c ∈ List.replicate 65 clickCall, c.NonEmpty) ∧
    (({} : Sampler).noteOnAll (List.replicate 65 clickCall)).getActiveVoiceCount = 64 :=
  ⟨by decide, clickCall_nonEmpty 65,
    voice_saturation.1 (List.replicate 65 clickCall) (by decide) (clickCall_nonEmpty 65)⟩

/-- C12, as stated, fails: a one-frame sample is started on a fresh sampler and one frame is
rendered, so the frames rendered total `N = 1` and the playback position has reached `N`; the
voice is still active.  It is reset by the next rendered frame. -/
theorem voice_lifecycle_counterexample :
    clickSample.lengthFrames = 1 ∧
    ((({} : Sampler).noteOn (some clickSample) 1 1 0 0).renderBlocks [([0], [0], 1)]).voices.get? 0
      = some { sample := some clickSample, playbackPosition := 1, velocity := 1, gain := 1,
               pan := 0, active := true } ∧
    ((({} : Sampler).noteOn (some clickSample) 1 1 0 0).renderBlocks
        [([0], [0], 1)]).getActiveVoiceCount = 1 ∧
    ((({} : Sampler).noteOn (some clickSample) 1 1 0 0).renderBlocks
        [([0], [0], 1), ([0], [0], 1)]).getActiveVoiceCount = 0 := by
  refine ⟨rfl, ?_, ?_, ?_⟩
  · decide
  · decide
  · decide

/-- C12, amended. Voice lifecycle: a `noteOn` with a sample of `N ≥ 1` frames that finds a free
slot `i` starts a voice there; after `render` calls totalling at most `N` frames that voice is
still active with `playbackPosition` equal to the frames rendered, and after `render` calls
totalling at least `N + 1` frames the slot is inactive (reset to its defaults). -/
theorem voice_lifecycle (s : Sampler) (smp : Sample) (velocity gain pan : ℚ) (offsetFrames i : Nat)
    (blocks : List (List ℚ × List ℚ × Nat))
    (hN : 1 ≤ smp.lengthFrames) (halloc : s.allocateVoice = some i) :
    ∃ v, ((s.noteOn (some smp) velocity gain pan offsetFrames).renderBlocks blocks).voices.get? i
        = some v ∧
      (totalFrames blocks ≤ smp.lengthFrames →
        v.active = true ∧ v.playbackPosition = totalFrames blocks) ∧
      (smp.lengthFrames + 1 ≤ totalFrames blocks → v.active = false ∧ v = {}) := by
  obtain ⟨hi, _⟩ := allocateVoice_eq_some halloc
  have hstep : s.noteOn (some smp) velocity gain pan offsetFrames
      = { s with voices := s.voices.set i (Voice.start smp velocity gain pan) } := by
    unfold Sampler.noteOn
    simp only [if_neg (show ¬ smp.lengthFrames = 0 by omega), halloc]
  have hstart : Voice.start smp velocity gain pan
      = { Voice.start smp velocity gain pan with playbackPosition := 0 } := rfl
  have hrun := advance_blocks smp velocity gain pan blocks 0 (Nat.zero_le _)
  rw [← hstart, Nat.zero_add] at hrun
  refine ⟨blocks.foldl (fun v b => advanceVoice v b.2.2) (Voice.start smp velocity gain pan),
    ?_, ?_, ?_⟩
  · rw [renderBlocks_voices, hstep]
    simp [List.getElem?_set, hi]
  · intro hle
    rw [hrun, if_pos hle]
    exact ⟨rfl, rfl⟩
  · intro hgt
    rw [hrun, if_neg (by omega)]
    exact ⟨rfl, rfl⟩

/-- A one-frame click on a fresh sampler is gone after two rendered frames. -/
theorem voice_lifecycle_witness :
    1 ≤ clickSample.lengthFrames ∧ ({} : Sampler).allocateVoice = some 0 ∧
    ∃ v, ((({} : Sampler).noteOn (some clickSample) 1 1 0 0).renderBlocks
          [([0], [0], 1), ([0], [0], 1)]).voices.get? 0 = some v ∧
      (totalFrames [([0], [0], 1), ([0], [0], 1)] ≤ clickSample.lengthFrames →
        v.active = true ∧ v.playbackPosition = totalFrames [([0], [0], 1), ([0], [0], 1)]) ∧
      (clickSample.lengthFrames + 1 ≤ totalFrames [([0], [0], 1), ([0], [0], 1)] →
        v.active = false ∧ v = {}) :=
  ⟨by decide, by decide,
    voice_lifecycle {} clickSample 1 1 0 0 0 [([0], [0], 1), ([0], [0], 1)] (by decide) (by decide)⟩

/-- C13, as stated, fails: on a sampler whose 64 slots are all active a further `noteOn` finds
no free slot and is dropped, and the sampler it leaves is the very same state, so no counter
read from the sampler state can have gone up. -/
theorem dropped_note_counter_counterexample :
    fullSampler.getActiveVoiceCount = 64 ∧ fullSampler.allocateVoice = none ∧
    fullSampler.noteOn (some clickSample) 1 1 0 0 = fullSampler ∧
    ¬ ∃ counter : Sampler → Nat,
        counter (fullSampler.noteOn (some clickSample) 1 1 0 0) = counter fullSampler + 1 := by
  have hsame := noteOn_of_all_active fullSampler (some clickSample) 1 1 0 0 fullSampler_all_active
  refine ⟨fullSampler_count.1, fullSampler_allocate, hsame, ?_⟩
  rintro ⟨counter, h⟩
  rw [hsame] at h
  omega

/-- C13, amended. Dropped notes leave no trace: a `noteOn` call that finds no free voice slot
returns the sampler unchanged, so the active voice count (the only quantity the sampler
exposes) and every other observation of the sampler are the same before and after the call. -/
theorem dropped_note_leaves_no_trace (s : Sampler) (sample : Option Sample)
    (velocity gain pan : ℚ) (offsetFrames : Nat) (hfull : s.allocateVoice = none) :
    s.noteOn sample velocity gain pan offsetFrames = s ∧
    (s.noteOn sample velocity gain pan offsetFrames).getActiveVoiceCount = s.getActiveVoiceCount ∧
    ∀ (β : Type) (observe : Sampler → β),
      observe (s.noteOn sample velocity gain pan offsetFrames) = observe s := by
  have hsame := noteOn_of_all_active s sample velocity gain pan offsetFrames
    ((allocateVoice_eq_none_iff s).mp hfull)
  refine ⟨hsame, by rw [hsame], ?_⟩
  intro β observe
  rw [hsame]

/-- The sixty-fifth click on a full sampler is dropped without a trace. -/
theorem dropped_note_leaves_no_trace_witness :
    fullSampler.allocateVoice = none ∧
    fullSampler.noteOn (some clickSample) 1 1 0 0 = fullSampler ∧
    (fullSampler.noteOn (some clickSample) 1 1 0 0).getActiveVoiceCount
      = fullSampler.getActiveVoiceCount ∧
    ∀ (β : Type) (observe : Sampler → β),
      observe (fullSampler.noteOn (some clickSample) 1 1 0 0) = observe fullSampler :=
  ⟨fullSampler_allocate,
    dropped_note_leaves_no_trace fullSampler (some clickSample) 1 1 0 0 fullSampler_allocate⟩

/-- C15. After `Engine::stopPlayback` the transport is not rolling, the scheduler returns the
empty list for every window, no voice is active, and every voice slot is back to its default
fields (the number of slots is unchanged). -/
theorem stop_playback_resets (e : Engine) (sampler : Sampler) :
    (e.stopPlayback sampler).1.transport.rolling = false ∧
    (∀ startTick endTick : Int,
      (e.stopPlayback sampler).1.scheduler.getEventsInRange startTick endTick = some []) ∧
    (e.stopPlayback sampler).2.getActiveVoiceCount = 0 ∧
    (∀ v ∈ (e.stopPlayback sampler).2.voices, v = {}) ∧
    (e.stopPlayback sampler).2.voices.length = sampler.voices.length := by
  refine ⟨rfl, fun _ _ => rfl, ?_, ?_, ?_⟩
  · simp [Engine.stopPlayback, Sampler.allNotesOff, Sampler.getActiveVoiceCount, Voice.reset]
  · intro v hv
    simp only [Engine.stopPlayback, Sampler.allNotesOff, List.mem_map] at hv
    obtain ⟨w, _, hw⟩ := hv
    rw [← hw]
    rfl
  · simp [Engine.stopPlayback, Sampler.allNotesOff]

/-- What `renderVoice` does for one active voice from any start frame: it adds to every frame
of the rendered span the sample frame times the gain of the channel, with
`gL = velocity * gain * (if pan ≤ 0 then 1 else 1 - pan)` on the left and
`gR = velocity * gain * (if 0 ≤ pan then 1 else 1 + pan)` on the right, and touches no other
frame; the special pans follow. -/
theorem renderVoice_pan_law (voice : Voice) (smp : Sample) (outL outR : List ℚ)
    (startFrame nframes : Nat) (hactive : voice.active = true)
    (hsample : voice.sample = some smp) :
    renderGainL voice
      = voice.velocity * voice.gain * (if voice.pan ≤ 0 then 1 else 1 - voice.pan) ∧
    renderGainR voice
      = voice.velocity * voice.gain * (if 0 ≤ voice.pan then 1 else 1 + voice.pan) ∧
    (∀ j, (renderVoice voice outL outR startFrame nframes).2.1.getD j 0
      = if startFrame ≤ j ∧
            j < startFrame + min (nframes - startFrame) (smp.lengthFrames - voice.playbackPosition) ∧
            j < outL.length then
          outL.getD j 0
            + smp.dataLeft.getD (voice.playbackPosition + (j - startFrame)) 0 * renderGainL voice
        else outL.getD j 0) ∧
    (∀ j, (renderVoice voice outL outR startFrame nframes).2.2.getD j 0
      = if startFrame ≤ j ∧
            j < startFrame + min (nframes - startFrame) (smp.lengthFrames - voice.playbackPosition) ∧
            j < outR.length then
          outR.getD j 0
            + smp.dataRight.getD (voice.playbackPosition + (j - startFrame)) 0 * renderGainR voice
        else outR.getD j 0) ∧
    (voice.pan = 0 → smp.dataLeft = smp.dataRight → outL = outR →
      (renderVoice voice outL outR startFrame nframes).2.1
        = (renderVoice voice outL outR startFrame nframes).2.2) ∧
    (voice.pan = -1 → (renderVoice voice outL outR startFrame nframes).2.2 = outR) ∧
    (voice.pan = 1 → (renderVoice voice outL outR startFrame nframes).2.1 = outL) ∧
    (voice.pan = -1 / 2 → renderGainR voice = 1 / 2 * renderGainL voice) := by
  have hgL : renderGainL voice
      = voice.velocity * voice.gain * (if voice.pan ≤ 0 then 1 else 1 - voice.pan) := by
    unfold renderGainL
    rcases lt_trichotomy voice.pan 0 with h | h | h
    · rw [if_pos h, if_pos h.le]
    · rw [h]; simp
    · rw [if_neg (not_lt.mpr h.le), if_pos h, if_neg (not_le.mpr h)]
  have hgR : renderGainR voice
      = voice.velocity * voice.gain * (if 0 ≤ voice.pan then 1 else 1 + voice.pan) := by
    unfold renderGainR
    by_cases h : voice.pan < 0
    · rw [if_pos h, if_neg (not_le.mpr h)]
    · rw [if_neg h, if_pos (not_lt.mp h)]
  have hrun := renderVoice_eq voice smp outL outR startFrame nframes hactive hsample
  obtain ⟨hlenL, hlenR, hL, hR⟩ := renderFrames_out smp (renderGainL voice) (renderGainR voice)
    (nframes - startFrame) startFrame voice outL outR
  rw [← hrun] at hlenL hlenR hL hR
  refine ⟨hgL, hgR, hL, hR, ?_, ?_, ?_, ?_⟩
  · intro hpan hdata hout
    apply list_ext_getD
    · rw [hlenL, hlenR, hout]
    · intro j
      rw [hL j, hR j, hgL, hgR, hpan, hdata, hout]
      simp
  · intro hpan
    apply list_ext_getD hlenR
    intro j
    rw [hR j, hgR, hpan]
    norm_num
  · intro hpan
    apply list_ext_getD hlenL
    intro j
    rw [hL j, hgL, hpan]
    norm_num
  · intro hpan
    rw [hgL, hgR, hpan]
    norm_num
    ring

/-- The left gain `renderVoice` computes is the one of the pan law. -/
theorem renderGainL_eq_pan (voice : Voice) : renderGainL voice = panGainL voice := by
  unfold renderGainL panGainL
  rcases lt_trichotomy voice.pan 0 with h | h | h
  · rw [if_pos h, if_pos h.le]
  · rw [h]; simp
  · rw [if_neg (not_lt.mpr h.le), if_pos h, if_neg (not_le.mpr h)]

/-- The right gain `renderVoice` computes is the one of the pan law. -/
theorem renderGainR_eq_pan (voice : Voice) : renderGainR voice = panGainR voice := by
  unfold renderGainR panGainR
  by_cases h : voice.pan < 0
  · rw [if_pos h, if_neg (not_le.mpr h)]
  · rw [if_neg h, if_pos (not_lt.mp h)]

/-- One step of the voice loop of `render`: the buffers keep their lengths and frame `j`
receives the voice's share. -/
theorem renderStep_out (voice : Voice) (outL outR : List ℚ) (n : Nat) :
    (if voice.active = true then renderVoice voice outL outR 0 n
      else (voice, outL, outR)).2.1.length = outL.length ∧
    (if voice.active = true then renderVoice voice outL outR 0 n
      else (voice, outL, outR)).2.2.length = outR.length ∧
    (∀ j, (if voice.active = true then renderVoice voice outL outR 0 n
        else (voice, outL, outR)).2.1.getD j 0
      = outL.getD j 0 + (if j < outL.length then voiceMixL voice n j else 0)) ∧
    (∀ j, (if voice.active = true then renderVoice voice outL outR 0 n
        else (voice, outL, outR)).2.2.getD j 0
      = outR.getD j 0 + (if j < outR.length then voiceMixR voice n j else 0)) := by
  by_cases ha : voice.active = true
  · simp only [if_pos ha]
    cases hs : voice.sample with
    | none =>
      have hrun : renderVoice voice outL outR 0 n = (voice, outL, outR) := by
        unfold renderVoice
        rw [if_neg (by simp [ha])]
        simp only [hs]
      rw [hrun]
      refine ⟨rfl, rfl, ?_, ?_⟩
      · intro j; simp [voiceMixL, ha, hs]
      · intro j; simp [voiceMixR, ha, hs]
    | some smp =>
      have hrun := renderVoice_eq voice smp outL outR 0 n ha hs
      obtain ⟨hlenL, hlenR, hL, hR⟩ := renderFrames_out smp (renderGainL voice)
        (renderGainR voice) (n - 0) 0 voice outL outR
      rw [← hrun] at hlenL hlenR hL hR
      refine ⟨hlenL, hlenR, ?_, ?_⟩
      · intro j
        rw [hL j, renderGainL_eq_pan]
        simp only [voiceMixL, if_pos ha, hs, Nat.sub_zero, Nat.zero_le, true_and, Nat.zero_add]
        by_cases h1 : j < min n (smp.lengthFrames - voice.playbackPosition)
        · by_cases h2 : j < outL.length
          · rw [if_pos ⟨h1, h2⟩, if_pos h2, if_pos h1]
          · rw [if_neg (fun h => h2 h.2), if_neg h2, add_zero]
        · rw [if_neg (fun h => h1 h.1), if_neg h1]
          simp
      · intro j
        rw [hR j, renderGainR_eq_pan]
        simp only [voiceMixR, if_pos ha, hs, Nat.sub_zero, Nat.zero_le, true_and, Nat.zero_add]
        by_cases h1 : j < min n (smp.lengthFrames - voice.playbackPosition)
        · by_cases h2 : j < outR.length
          · rw [if_pos ⟨h1, h2⟩, if_pos h2, if_pos h1]
          · rw [if_neg (fun h => h2 h.2), if_neg h2, add_zero]
        · rw [if_neg (fun h => h1 h.1), if_neg h1]
          simp
  · rw [if_neg ha]
    refine ⟨rfl, rfl, ?_, ?_⟩
    · intro j; simp [voiceMixL, ha]
    · intro j; simp [voiceMixR, ha]

/-- The buffers after the voice loop of `render`: same lengths, and every frame inside a
buffer has received the sum of the shares of all voices. -/
theorem renderVoices_out (n : Nat) :
    ∀ (vs : List Voice) (outL outR : List ℚ),
      (renderVoices vs outL outR n).2.1.length = outL.length ∧
      (renderVoices vs outL outR n).2.2.length = outR.length ∧
      (∀ j, (renderVoices vs outL outR n).2.1.getD j 0
        = outL.getD j 0
          + (if j < outL.length then (vs.map (fun v => voiceMixL v n j)).sum else 0)) ∧
      (∀ j, (renderVoices vs outL outR n).2.2.getD j 0
        = outR.getD j 0
          + (if j < outR.length then (vs.map (fun v => voiceMixR v n j)).sum else 0)) := by
  intro vs
  induction vs with
  | nil =>
    intro outL outR
    refine ⟨rfl, rfl, ?_, ?_⟩ <;> intro j <;> simp [renderVoices]
  | cons v rest ih =>
    intro outL outR
    obtain ⟨sL, sR, sgL, sgR⟩ := renderStep_out v outL outR n
    unfold renderVoices
    simp only
    obtain ⟨tL, tR, tgL, tgR⟩ := ih
      (if v.active = true then renderVoice v outL outR 0 n else (v, outL, outR)).2.1
      (if v.active = true then renderVoice v outL outR 0 n else (v, outL, outR)).2.2
    refine ⟨by rw [tL, sL], by rw [tR, sR], ?_, ?_⟩
    · intro j
      rw [tgL j, sgL j, sL, List.map_cons, List.sum_cons]
      by_cases h : j < outL.length
      · simp only [if_pos h]; ring
      · simp only [if_neg h, add_zero]
    · intro j
      rw [tgR j, sgR j, sR, List.map_cons, List.sum_cons]
      by_cases h : j < outR.length
      · simp only [if_pos h]; ring
      · simp only [if_neg h, add_zero]

theorem sum_map_eq_zero {α : Type} (l : List α) (f : α → ℚ) (h : ∀ a ∈ l, f a = 0) :
    (l.map f).sum = 0 := by
  induction l with
  | nil => rfl
  | cons a rest ih =>
    rw [List.map_cons, List.sum_cons, h a (List.mem_cons_self _ _),
      ih (fun b hb => h b (List.mem_cons_of_mem _ hb)), add_zero]

theorem sum_map_congr_mem {α : Type} (l : List α) (f g : α → ℚ) (h : ∀ a ∈ l, f a = g a) :
    (l.map f).sum = (l.map g).sum := by
  induction l with
  | nil => rfl
  | cons a rest ih =>
    rw [List.map_cons, List.sum_cons, List.map_cons, List.sum_cons, h a (List.mem_cons_self _ _),
      ih (fun b hb => h b (List.mem_cons_of_mem _ hb))]

/-- C14. Stereo pan law: `render` adds to every frame `j` of the left (right) buffer, for each
voice that is active and has a sample, the sample frame at `playbackPosition + j` times
`gL = velocity * gain * (if pan ≤ 0 then 1 else 1 - pan)` (resp.
`gR = velocity * gain * (if 0 ≤ pan then 1 else 1 + pan)`) while the block and the sample
last, and nothing else.  Hence when the samples have identical left and right data and the
two buffers start out equal, `pan = 0` on the active voices gives identical outputs;
`pan = -1` leaves the right buffer as it was; `pan = 1` leaves the left buffer as it was; and
`pan = -1/2` gives `gR = 1/2 * gL`. -/
theorem stereo_pan_law (s : Sampler) (outL outR : List ℚ) (nframes : Nat) :
    (∀ j, (s.render outL outR nframes).2.1.getD j 0
      = outL.getD j 0
        + (if j < outL.length then (s.voices.map (fun v => voiceMixL v nframes j)).sum else 0)) ∧
    (∀ j, (s.render outL outR nframes).2.2.getD j 0
      = outR.getD j 0
        + (if j < outR.length then (s.voices.map (fun v => voiceMixR v nframes j)).sum else 0)) ∧
    (s.render outL outR nframes).2.1.length = outL.length ∧
    (s.render outL outR nframes).2.2.length = outR.length ∧
    ((∀ v ∈ s.voices, v.active = true →
        v.pan = 0 ∧ ∀ smp, v.sample = some smp → smp.dataLeft = smp.dataRight) →
      outL = outR → (s.render outL outR nframes).2.1 = (s.render outL outR nframes).2.2) ∧
    ((∀ v ∈ s.voices, v.active = true → v.pan = -1) →
      (s.render outL outR nframes).2.2 = outR) ∧
    ((∀ v ∈ s.voices, v.active = true → v.pan = 1) →
      (s.render outL outR nframes).2.1 = outL) ∧
    (∀ v : Voice, v.pan = -1 / 2 → panGainR v = 1 / 2 * panGainL v) := by
  obtain ⟨hlenL, hlenR, hL, hR⟩ := renderVoices_out nframes s.voices outL outR
  have hrun : (s.render outL outR nframes).2 = (renderVoices s.voices outL outR nframes).2 := rfl
  have hrunL : (s.render outL outR nframes).2.1
      = (renderVoices s.voices outL outR nframes).2.1 := rfl
  have hrunR : (s.render outL outR nframes).2.2
      = (renderVoices s.voices outL outR nframes).2.2 := rfl
  rw [hrunL, hrunR]
  refine ⟨hL, hR, hlenL, hlenR, ?_, ?_, ?_, ?_⟩
  · intro hpan hout
    apply list_ext_getD
    · rw [hlenL, hlenR, hout]
    · intro j
      rw [hL j, hR j, hout]
      congr 1
      by_cases hj : j < outR.length
      · rw [if_pos hj, if_pos hj]
        apply sum_map_congr_mem
        intro v hv
        unfold voiceMixL voiceMixR
        by_cases ha : v.active = true
        · obtain ⟨h0, hdata⟩ := hpan v hv ha
          rw [if_pos ha, if_pos ha]
          cases hs : v.sample with
          | none => rfl
          | some smp =>
            simp only
            rw [hdata smp hs]
            have hg : panGainL v = panGainR v := by
              unfold panGainL panGainR
              rw [h0]
              simp
            rw [hg]
        · rw [if_neg ha, if_neg ha]
      · rw [if_neg hj, if_neg hj]
  · intro hpan
    apply list_ext_getD hlenR
    intro j
    rw [hR j]
    have hzero : (s.voices.map (fun v => voiceMixR v nframes j)).sum = 0 := by
      apply sum_map_eq_zero
      intro v hv
      unfold voiceMixR
      by_cases ha : v.active = true
      · rw [if_pos ha]
        have hg : panGainR v = 0 := by
          unfold panGainR
          rw [hpan v hv ha]
          norm_num
        cases hs : v.sample with
        | none => rfl
        | some smp => simp only [hg, mul_zero, ite_self]
      · rw [if_neg ha]
    rw [hzero]
    simp
  · intro hpan
    apply list_ext_getD hlenL
    intro j
    rw [hL j]
    have hzero : (s.voices.map (fun v => voiceMixL v nframes j)).sum = 0 := by
      apply sum_map_eq_zero
      intro v hv
      unfold voiceMixL
      by_cases ha : v.active = true
      · rw [if_pos ha]
        have hg : panGainL v = 0 := by
          unfold panGainL
          rw [hpan v hv ha]
          norm_num
        cases hs : v.sample with
        | none => rfl
        | some smp => simp only [hg, mul_zero, ite_self]
      · rw [if_neg ha]
    rw [hzero]
    simp
  · intro v hpan
    unfold panGainL panGainR
    rw [hpan]
    norm_num
    ring

/-- The voices of the one-click sampler: the click in slot 0, 63 free slots. -/
theorem pannedClick_voices (pan : ℚ) :
    (pannedClick pan).voices = Voice.start clickSample 1 1 pan :: List.replicate 63 {} := rfl

theorem pannedClick_pan (pan : ℚ) :
    ∀ v ∈ (pannedClick pan).voices, v.active = true → v.pan = pan := by
  intro v hv ha
  rw [pannedClick_voices, List.mem_cons] at hv
  rcases hv with rfl | hv
  · rfl
  · rw [(List.mem_replicate.mp hv).2] at ha
    exact absurd ha (by decide)

theorem pannedClick_sample (pan : ℚ) :
    ∀ v ∈ (pannedClick pan).voices, v.active = true →
      ∀ smp, v.sample = some smp → smp.dataLeft = smp.dataRight := by
  intro v hv ha smp hs
  rw [pannedClick_voices, List.mem_cons] at hv
  rcases hv with rfl | hv
  · have : smp = clickSample := (Option.some.inj hs).symm
    rw [this]
    rfl
  · rw [(List.mem_replicate.mp hv).2] at ha
    exact absurd ha (by decide)

/-- One click rendered into a silent one-frame block: panned hard left it reaches the left
buffer only, centred it reaches both alike, and panned half left the right gain is half the
left gain. -/
theorem stereo_pan_law_witness :
    ((pannedClick (-1)).render [0] [0] 1).2.1 = [1] ∧
    ((pannedClick (-1)).render [0] [0] 1).2.2 = [0] ∧
    ((pannedClick 0).render [0] [0] 1).2.1 = [1] ∧
    ((pannedClick 0).render [0] [0] 1).2.1 = ((pannedClick 0).render [0] [0] 1).2.2 ∧
    ((pannedClick (-1 / 2)).render [0] [0] 1).2.2 = [1 / 2] ∧
    panGainR (Voice.start clickSample 1 1 (-1 / 2))
      = 1 / 2 * panGainL (Voice.start clickSample 1 1 (-1 / 2)) :=
  ⟨by with_unfolding_all rfl,
   (stereo_pan_law (pannedClick (-1)) [0] [0] 1).2.2.2.2.2.1 (pannedClick_pan (-1)),
   by with_unfolding_all rfl,
   (stereo_pan_law (pannedClick 0) [0] [0] 1).2.2.2.2.1
     (fun v hv ha => ⟨pannedClick_pan 0 v hv ha, pannedClick_sample 0 v hv ha⟩) rfl,
   by with_unfolding_all rfl,
   (stereo_pan_law (pannedClick 0) [0] [0] 1).2.2.2.2.2.2.2
     (Voice.start clickSample 1 1 (-1 / 2)) rfl⟩

theorem wrapInt32_fits (x : Int) (h : FitsInt32 x) : wrapInt32 x = x := by
  unfold FitsInt32 at h
  unfold wrapInt32
  omega

theorem wrapInt32_mul4_mul960 (n : Int) : wrapInt32 (wrapInt32 (n * 4) * 960) = wrapInt32 (n * 3840) := by
  unfold wrapInt32
  omega

theorem ticksPerBar_eq (ts : TimeSignature) :
    ticksPerBar ts = (wrapInt32 (ts.numerator * 3840)).tdiv ts.denominator := by
  unfold ticksPerBar PPQ
  rw [wrapInt32_mul4_mul960]

theorem ticksPerBar_of_fits (ts : TimeSignature) (h : FitsInt32 (ts.numerator * 4 * 960)) :
    ticksPerBar ts = (ts.numerator * 4 * 960).tdiv ts.denominator := by
  rw [ticksPerBar_eq]
  have h2 : ts.numerator * 4 * 960 = ts.numerator * 3840 := by ring
  rw [h2] at h ⊢
  rw [wrapInt32_fits _ h]

theorem ticksPerBeat_eq (ts : TimeSignature) : ticksPerBeat ts = (3840 : Int).tdiv ts.denominator := by
  unfold ticksPerBeat PPQ
  rfl

/-- The body shared by the three snapping functions, for a non-negative tick and an even
positive unit. -/
theorem snap_nearest_of_even (u t : Int) (hu : 0 < u) (heven : 2 ∣ u) (ht : 0 ≤ t) :
    IsNearestMultipleUp u t
      (if t.tmod u < u.tdiv 2 then t - t.tmod u else t + (u - t.tmod u)) := by
  obtain ⟨h, rfl⟩ := heven
  have hh : 0 < h := by omega
  rw [Int.tmod_eq_emod ht (by omega), Int.tdiv_eq_ediv (by omega : (0:Int) ≤ 2 * h) (by omega)]
  have hhalf : (2 * h) / 2 = h := by omega
  rw [hhalf]
  have hr0 := Int.emod_nonneg t (by omega : (2 * h : Int) ≠ 0)
  have hr1 := Int.emod_lt_of_pos t (by omega : (0 : Int) < 2 * h)
  have hdecomp := Int.emod_add_ediv t (2 * h)
  generalize t % (2 * h) = r at *
  generalize t / (2 * h) = q at *
  subst hdecomp
  by_cases hlt : r < h
  · rw [if_pos hlt]
    refine ⟨⟨q, by ring⟩, ?_⟩
    rintro m ⟨k, rfl⟩
    have e1 : r + 2 * h * q - (r + 2 * h * q - r) = r := by ring
    have e2 : r + 2 * h * q - 2 * h * k = r + 2 * (h * (q - k)) := by ring
    have e3 : r + 2 * h * q - r - 2 * h * k = 2 * (h * (q - k)) := by ring
    have hP : (k ≤ q → 0 ≤ h * (q - k)) ∧ (q < k → h * (q - k) ≤ -h) := by
      constructor
      · intro hk; exact mul_nonneg hh.le (by omega)
      · intro hk; nlinarith
    rw [e1, e2, abs_of_nonneg hr0, abs_eq_max_neg]
    generalize h * (q - k) = P at *
    omega
  · rw [if_neg hlt]
    refine ⟨⟨q + 1, by ring⟩, ?_⟩
    rintro m ⟨k, rfl⟩
    have e1 : r + 2 * h * q - (r + 2 * h * q + (2 * h - r)) = -(2 * h - r) := by ring
    have e2 : r + 2 * h * q - 2 * h * k = r + 2 * (h * (q - k)) := by ring
    have e3 : r + 2 * h * q + (2 * h - r) - 2 * h * k = 2 * h + 2 * (h * (q - k)) := by ring
    have hP : (k ≤ q → 0 ≤ h * (q - k)) ∧ (q < k → h * (q - k) ≤ -h) := by
      constructor
      · intro hk; exact mul_nonneg hh.le (by omega)
      · intro hk; nlinarith
    rw [e1, e2, abs_neg, abs_of_nonneg (by omega : (0 : Int) ≤ 2 * h - r), abs_eq_max_neg]
    generalize h * (q - k) = P at *
    omega


/-! ## Bars, beats and snapping: claims -/

/-- C18, as stated, fails for a numerator beyond 559240: the product `numerator * 4 * 960` is
computed in `int` before it is widened, so for 559241/1 the source yields -2147481856 where
the stated quotient is 2147485440. -/
theorem ticks_per_bar_and_beat_counterexample :
    (0 : Int) < ({ numerator := 559241, denominator := 1 } : TimeSignature).denominator ∧
    ticksPerBar { numerator := 559241, denominator := 1 } = -2147481856 ∧
    (559241 * 4 * 960 : Int).tdiv 1 = 2147485440 ∧
    ticksPerBar { numerator := 559241, denominator := 1 }
      ≠ (({ numerator := 559241, denominator := 1 } : TimeSignature).numerator * 4 * 960).tdiv
          ({ numerator := 559241, denominator := 1 } : TimeSignature).denominator := by
  decide

/-- C18, amended. For every time signature with a positive denominator, `ticksPerBeat` is
`(4 * 960) / denominator`, and when the product `numerator * 4 * 960` fits the `int` type it
is computed in, `ticksPerBar` is `(numerator * 4 * 960) / denominator`, both with the
truncating integer division (which is the floor when the numerator is not negative);
`ticksPerBar` is 3840 for 4/4, 2880 for 3/4 and 2880 for 6/8, and `ticksPerBeat` is 960 for
4/4 and 480 for 6/8. -/
theorem ticks_per_bar_and_beat (ts : TimeSignature) (hden : 0 < ts.denominator) :
    (FitsInt32 (ts.numerator * 4 * 960) →
      ticksPerBar ts = (ts.numerator * 4 * 960).tdiv ts.denominator ∧
      (0 ≤ ts.numerator → ticksPerBar ts = (ts.numerator * 4 * 960) / ts.denominator)) ∧
    ticksPerBeat ts = (4 * 960 : Int).tdiv ts.denominator ∧
    ticksPerBeat ts = (4 * 960) / ts.denominator ∧
    ticksPerBar sig_4_4 = 3840 ∧ ticksPerBar sig_3_4 = 2880 ∧ ticksPerBar sig_6_8 = 2880 ∧
    ticksPerBeat sig_4_4 = 960 ∧ ticksPerBeat sig_6_8 = 480 := by
  refine ⟨?_, ticksPerBeat_eq ts, ?_, by decide, by decide, by decide, by decide, by decide⟩
  · intro hfit
    refine ⟨ticksPerBar_of_fits ts hfit, ?_⟩
    intro hnum
    rw [ticksPerBar_of_fits ts hfit, Int.tdiv_eq_ediv (by omega) (by omega)]
  · rw [ticksPerBeat_eq, Int.tdiv_eq_ediv (by omega) (by omega)]
    norm_num

/-- The 4/4 signature has a 3840-tick bar and a 960-tick beat. -/
theorem ticks_per_bar_and_beat_witness :
    0 < sig_4_4.denominator ∧ FitsInt32 (sig_4_4.numerator * 4 * 960) ∧
    ticksPerBar sig_4_4 = (sig_4_4.numerator * 4 * 960).tdiv sig_4_4.denominator ∧
    ticksPerBeat sig_4_4 = (4 * 960 : Int).tdiv sig_4_4.denominator :=
  ⟨by decide, by decide,
    ((ticks_per_bar_and_beat sig_4_4 (by decide)).1 (by decide)).1,
    (ticks_per_bar_and_beat sig_4_4 (by decide)).2.1⟩

/-- C17, as stated, fails for a numerator beyond 559240: in 559241/4 the bar length wraps to
the negative value -536870464, and the position bar 0, beat 559240, tick 959 (within the
stated ranges) comes back as bar -1, beat 0, tick 895. -/
theorem position_round_trip_counterexample :
    ticksPerBeat { numerator := 559241, denominator := 4 } = 960 ∧
    ticksPerBar { numerator := 559241, denominator := 4 } = -536870464 ∧
    (0 : Int) ≤ ({ bar := 0, beat := 559240, tick := 959 } : MusicalPosition).bar ∧
    ({ bar := 0, beat := 559240, tick := 959 } : MusicalPosition).beat
      < ({ numerator := 559241, denominator := 4 } : TimeSignature).numerator ∧
    ({ bar := 0, beat := 559240, tick := 959 } : MusicalPosition).tick
      < ticksPerBeat { numerator := 559241, denominator := 4 } ∧
    tickToPosition (positionToTick { bar := 0, beat := 559240, tick := 959 }
        { numerator := 559241, denominator := 4 }) { numerator := 559241, denominator := 4 }
      = { bar := -1, beat := 0, tick := 895 } ∧
    tickToPosition (positionToTick { bar := 0, beat := 559240, tick := 959 }
        { numerator := 559241, denominator := 4 }) { numerator := 559241, denominator := 4 }
      ≠ { bar := 0, beat := 559240, tick := 959 } := by
  decide

/-- C17, amended. Position round trip: for every meter whose product `numerator * 4 * 960`
fits the `int` type it is computed in, and every position with `0 ≤ bar` (within the `int`
range of the field), `0 ≤ beat < numerator` and `0 ≤ tick < ticksPerBeat ts`,
`tickToPosition (positionToTick p ts) ts = p`. -/
theorem position_round_trip (ts : TimeSignature) (p : MusicalPosition)
    (hbar : 0 ≤ p.bar) (hbarfit : p.bar < 2 ^ 31) (hbeat0 : 0 ≤ p.beat)
    (hbeat : p.beat < ts.numerator) (htick0 : 0 ≤ p.tick) (htick : p.tick < ticksPerBeat ts)
    (hfit : FitsInt32 (ts.numerator * 4 * 960)) :
    tickToPosition (positionToTick p ts) ts = p := by
  have hb := ticksPerBeat_eq ts
  have hB := ticksPerBar_of_fits ts hfit
  have hbpos : 0 < ticksPerBeat ts := by omega
  -- the denominator is positive
  have hden : 0 < ts.denominator := by
    by_contra hneg
    have hle : ts.denominator ≤ 0 := by omega
    have : (3840 : Int).tdiv ts.denominator ≤ 0 := by
      rcases eq_or_lt_of_le hle with h0 | hlt
      · rw [h0]; simp
      · obtain ⟨d, hd⟩ : ∃ d : Int, ts.denominator = -d := ⟨-ts.denominator, by ring⟩
        rw [hd, Int.tdiv_neg, Int.tdiv_eq_ediv (by omega) (by omega)]
        have : 0 ≤ (3840 : Int) / d := Int.ediv_nonneg (by omega) (by omega)
        omega
    omega
  rw [Int.tdiv_eq_ediv (by omega) (by omega)] at hb
  rw [Int.tdiv_eq_ediv (by unfold FitsInt32 at hfit; omega) (by omega)] at hB
  have hnum : ts.numerator * 4 * 960 = ts.numerator * 3840 := by ring
  rw [hnum] at hB hfit
  -- a bar holds at least `numerator` beats
  have hbd : (3840 / ts.denominator) * ts.denominator ≤ 3840 := Int.ediv_mul_le _ (by omega)
  have hle : ts.numerator * ticksPerBeat ts ≤ ticksPerBar ts := by
    rw [hB, hb]
    apply (Int.le_ediv_iff_mul_le hden).mpr
    have : ts.numerator * (3840 / ts.denominator) * ts.denominator
        = ts.numerator * ((3840 / ts.denominator) * ts.denominator) := by ring
    rw [this]
    exact mul_le_mul_of_nonneg_left hbd (by omega)
  generalize hTb : ticksPerBeat ts = b at *
  generalize hTB : ticksPerBar ts = B at *
  have hinner0 : 0 ≤ p.beat * b + p.tick := by
    have := mul_nonneg hbeat0 hbpos.le
    omega
  have hinner1 : p.beat * b + p.tick < B := by
    have h1 : (p.beat + 1) * b ≤ ts.numerator * b :=
      mul_le_mul_of_nonneg_right (by omega) hbpos.le
    have h2 : (p.beat + 1) * b = p.beat * b + b := by ring
    omega
  have hBpos : 0 < B := by omega
  have hT0 : 0 ≤ p.bar * B + p.beat * b + p.tick := by
    have := mul_nonneg hbar hBpos.le
    omega
  have hT : p.bar * B + p.beat * b + p.tick = (p.beat * b + p.tick) + p.bar * B := by ring
  have hdiv : (p.bar * B + p.beat * b + p.tick).tdiv B = p.bar := by
    rw [Int.tdiv_eq_ediv hT0 hBpos.le, hT, Int.add_mul_ediv_right _ _ (by omega),
      Int.ediv_eq_zero_of_lt hinner0 hinner1]
    omega
  have hmod : (p.bar * B + p.beat * b + p.tick).tmod B = p.beat * b + p.tick := by
    rw [Int.tmod_eq_emod hT0 hBpos.le, hT, Int.add_mul_emod_self,
      Int.emod_eq_of_lt hinner0 hinner1]
  have hinner : p.beat * b + p.tick = p.tick + p.beat * b := by ring
  have hdiv2 : (p.beat * b + p.tick).tdiv b = p.beat := by
    rw [Int.tdiv_eq_ediv hinner0 hbpos.le, hinner, Int.add_mul_ediv_right _ _ (by omega),
      Int.ediv_eq_zero_of_lt htick0 htick]
    omega
  have hmod2 : (p.beat * b + p.tick).tmod b = p.tick := by
    rw [Int.tmod_eq_emod hinner0 hbpos.le, hinner, Int.add_mul_emod_self,
      Int.emod_eq_of_lt htick0 htick]
  unfold FitsInt32 at hfit
  unfold tickToPosition positionToTick
  simp only [hTB, hTb, hdiv, hmod, hdiv2, hmod2]
  rw [wrapInt32_of_fits _ hbar hbarfit, wrapInt32_of_fits _ hbeat0 (by omega)]


/-- Bar 2, beat 3, tick 100 in 4/4 survives the round trip. -/
theorem position_round_trip_witness :
    positionToTick { bar := 2, beat := 3, tick := 100 } sig_4_4 = 10660 ∧
    tickToPosition (positionToTick { bar := 2, beat := 3, tick := 100 } sig_4_4) sig_4_4
      = { bar := 2, beat := 3, tick := 100 } :=
  ⟨by decide,
    position_round_trip sig_4_4 { bar := 2, beat := 3, tick := 100 } (by decide) (by decide)
      (by decide) (by decide) (by decide) (by decide) (by decide)⟩

/-- C19 (evaluation at the failing inputs): the snap functions, commented "Round to nearest
bar / beat / grid line", miss the nearest line in two ways.  For a negative tick the C++
remainder is negative, so `snapToBar (-3000)` in 4/4 returns 0 although -3840 is nearer; and
for an odd unit the truncated half makes the tick just below the midpoint go up, so
`snapToGrid 68 7` (grid `960 / 7 = 137`) returns 137 although 0 is nearer. -/
theorem snap_misses_nearest_line :
    ticksPerBar sig_4_4 = 3840 ∧ snapToBar (-3000) sig_4_4 = 0 ∧
    ¬ IsNearestMultipleUp (ticksPerBar sig_4_4) (-3000) (snapToBar (-3000) sig_4_4) ∧
    PPQ.tdiv 7 = 137 ∧ snapToGrid 68 7 = 137 ∧
    ¬ IsNearestMultipleUp (PPQ.tdiv 7) 68 (snapToGrid 68 7) := by
  refine ⟨by decide, by decide, ?_, by decide, by decide, ?_⟩
  · have h1 : ticksPerBar sig_4_4 = 3840 := by decide
    have h2 : snapToBar (-3000) sig_4_4 = 0 := by decide
    rw [h1, h2]
    rintro ⟨_, h⟩
    have := h (-3840) (by norm_num)
    norm_num at this
  · have h1 : PPQ.tdiv 7 = 137 := by decide
    have h2 : snapToGrid 68 7 = 137 := by decide
    rw [h1, h2]
    rintro ⟨_, h⟩
    have := h 0 (by norm_num)
    norm_num at this

/-- Where snapping does return the nearest grid line: for every tick `t ≥ 0`, whenever the
unit (`ticksPerBar ts`, `ticksPerBeat ts`, `960 / subdivision`) is positive and even,
`snapToBar`, `snapToBeat` and `snapToGrid` return the multiple of the unit nearest to `t`,
and the larger one when `t` is exactly midway between two multiples. -/
theorem snap_nearest (t : Int) (ts : TimeSignature) (subdivision : Int) (ht : 0 ≤ t) :
    (0 < ticksPerBar ts → 2 ∣ ticksPerBar ts →
      IsNearestMultipleUp (ticksPerBar ts) t (snapToBar t ts)) ∧
    (0 < ticksPerBeat ts → 2 ∣ ticksPerBeat ts →
      IsNearestMultipleUp (ticksPerBeat ts) t (snapToBeat t ts)) ∧
    (0 < PPQ.tdiv subdivision → 2 ∣ PPQ.tdiv subdivision →
      IsNearestMultipleUp (PPQ.tdiv subdivision) t (snapToGrid t subdivision)) :=
  ⟨fun hu heven => snap_nearest_of_even _ t hu heven ht,
   fun hu heven => snap_nearest_of_even _ t hu heven ht,
   fun hu heven => snap_nearest_of_even _ t hu heven ht⟩

/-- Tick 1920, the middle of the first 4/4 bar, snaps up to 3840; tick 240 snaps up to the
eighth-note line 480. -/
theorem snap_nearest_witness :
    snapToBar 1920 sig_4_4 = 3840 ∧ snapToGrid 240 2 = 480 ∧
    IsNearestMultipleUp (ticksPerBar sig_4_4) 1920 (snapToBar 1920 sig_4_4) ∧
    IsNearestMultipleUp (PPQ.tdiv 2) 240 (snapToGrid 240 2) :=
  ⟨by decide, by decide,
    (snap_nearest 1920 sig_4_4 2 (by decide)).1 (by decide) (by decide),
    (snap_nearest 240 sig_4_4 2 (by decide)).2.2 (by decide) (by decide)⟩

/-- Replacing the entries with key `t` by one new entry `x` and sorting by key: from a list
with strictly ascending keys, any sorted permutation of the result holds exactly `x` at key
`t`, the old entries at every other key, and has strictly ascending keys. -/
theorem keyed_replace_sorted {α : Type} (key : α → Int) (l out : List α) (x : α)
    (hasc : l.Pairwise (fun a b => key a < key b))
    (hperm : out.Perm (l.filter (fun c => !decide (key c = key x)) ++ [x]))
    (hsorted : out.Pairwise (fun a b => key a ≤ key b)) :
    out.filter (fun c => decide (key c = key x)) = [x] ∧
    (∀ c, key c ≠ key x → (c ∈ out ↔ c ∈ l)) ∧
    out.Pairwise (fun a b => key a < key b) := by
  refine ⟨?_, ?_, ?_⟩
  · have h1 := hperm.filter (fun c => decide (key c = key x))
    rw [List.filter_append, List.filter_filter] at h1
    have h2 : l.filter (fun c => decide (key c = key x) && !decide (key c = key x)) = [] := by
      rw [List.filter_eq_nil_iff]
      intro c _
      simp
    rw [h2] at h1
    simp only [List.nil_append, List.filter_cons, decide_True, if_true, List.filter_nil] at h1
    exact List.perm_singleton.mp h1
  · intro c hc
    rw [hperm.mem_iff]
    simp only [List.mem_append, List.mem_filter, List.mem_singleton, Bool.not_eq_true',
      decide_eq_false_iff_not]
    constructor
    · rintro (⟨h, _⟩ | h)
      · exact h
      · exact absurd (by rw [h]) hc
    · intro h
      exact Or.inl ⟨h, hc⟩
  · have hnodup : (out.map key).Nodup := by
      rw [(hperm.map key).nodup_iff, List.map_append, List.nodup_append]
      refine ⟨?_, by simp, ?_⟩
      · have hsub : (l.filter (fun c => !decide (key c = key x))).Pairwise
            (fun a b => key a < key b) := hasc.sublist (List.filter_sublist _)
        rw [List.Nodup, List.pairwise_map]
        exact hsub.imp (fun h => ne_of_lt h)
      · intro a ha hb
        simp only [List.map_cons, List.map_nil, List.mem_singleton] at hb
        simp only [List.mem_map, List.mem_filter, Bool.not_eq_true',
          decide_eq_false_iff_not] at ha
        obtain ⟨c, ⟨_, hne⟩, rfl⟩ := ha
        exact hne hb
    rw [List.Nodup, List.pairwise_map] at hnodup
    exact (hsorted.and hnodup).imp (fun h => lt_of_le_of_ne h.1 h.2)


theorem tempo_addChange_spec (m : TempoMap) (atTick : Int) (bpm : ℚ)
    (hasc : m.StrictlyAscending) :
    (m.addChange atTick bpm).changes_.filter (fun c => decide (c.atTick = atTick))
      = [{ atTick := atTick, bpm := bpm }] ∧
    (∀ c : TempoChange, c.atTick ≠ atTick →
      (c ∈ (m.addChange atTick bpm).changes_ ↔ c ∈ m.changes_)) ∧
    (m.addChange atTick bpm).StrictlyAscending :=
  keyed_replace_sorted (fun c : TempoChange => c.atTick) m.changes_
    (m.addChange atTick bpm).changes_ { atTick := atTick, bpm := bpm } hasc
    (List.perm_insertionSort tempoLe _) (List.sorted_insertionSort tempoLe _)

theorem meter_addChange_spec (m : MeterMap) (atTick : Int) (signature : TimeSignature)
    (hasc : m.StrictlyAscending) :
    (m.addChange atTick signature).changes_.filter (fun c => decide (c.atTick = atTick))
      = [{ atTick := atTick, signature := signature }] ∧
    (∀ c : MeterChange, c.atTick ≠ atTick →
      (c ∈ (m.addChange atTick signature).changes_ ↔ c ∈ m.changes_)) ∧
    (m.addChange atTick signature).StrictlyAscending :=
  keyed_replace_sorted (fun c : MeterChange => c.atTick) m.changes_
    (m.addChange atTick signature).changes_ { atTick := atTick, signature := signature } hasc
    (List.perm_insertionSort meterLe _) (List.sorted_insertionSort meterLe _)

/-- Every public mutator of `TempoMap` keeps the entries strictly ascending. -/
theorem tempo_apply_ascending (m : TempoMap) (op : TempoOp) (hasc : m.StrictlyAscending) :
    (m.apply op).StrictlyAscending := by
  cases op with
  | addChange atTick bpm => exact (tempo_addChange_spec m atTick bpm hasc).2.2
  | removeChangeAt tick => exact List.Pairwise.sublist (List.filter_sublist _) hasc
  | clear => exact List.Pairwise.nil
  | setConstantTempo bpm => exact List.pairwise_singleton _ _

/-- Every public mutator of `MeterMap` keeps the entries strictly ascending. -/
theorem meter_apply_ascending (m : MeterMap) (op : MeterOp) (hasc : m.StrictlyAscending) :
    (m.apply op).StrictlyAscending := by
  cases op with
  | addChange atTick signature => exact (meter_addChange_spec m atTick signature hasc).2.2
  | removeChangeAt tick => exact List.Pairwise.sublist (List.filter_sublist _) hasc
  | clear => exact List.Pairwise.nil
  | setConstantMeter signature => exact List.pairwise_singleton _ _

theorem tempo_foldl_ascending (ops : List TempoOp) :
    ∀ m : TempoMap, m.StrictlyAscending → (ops.foldl TempoMap.apply m).StrictlyAscending := by
  induction ops with
  | nil => intro m h; exact h
  | cons op rest ih => intro m h; exact ih _ (tempo_apply_ascending m op h)

theorem meter_foldl_ascending (ops : List MeterOp) :
    ∀ m : MeterMap, m.StrictlyAscending → (ops.foldl MeterMap.apply m).StrictlyAscending := by
  induction ops with
  | nil => intro m h; exact h
  | cons op rest ih => intro m h; exact ih _ (meter_apply_ascending m op h)

/-! ## Tempo and meter maps: claims -/

/-- C20. `TempoMap.addChange` and `MeterMap.addChange` replace and keep order: on a map whose
entries are in strictly ascending `atTick` order (which every map built by a constructor and
the public mutators is), after `addChange atTick v` the map has exactly one entry at `atTick`
and it carries `v`, the entries at every other tick are the same as before, and the entries
are in strictly ascending `atTick` order. -/
theorem add_change_replaces_and_keeps_order :
    (∀ (m : TempoMap) (atTick : Int) (bpm : ℚ), m.StrictlyAscending →
      (m.addChange atTick bpm).changes_.filter (fun c => decide (c.atTick = atTick))
        = [{ atTick := atTick, bpm := bpm }] ∧
      (∀ c : TempoChange, c.atTick ≠ atTick →
        (c ∈ (m.addChange atTick bpm).changes_ ↔ c ∈ m.changes_)) ∧
      (m.addChange atTick bpm).StrictlyAscending) ∧
    (∀ (m : MeterMap) (atTick : Int) (signature : TimeSignature), m.StrictlyAscending →
      (m.addChange atTick signature).changes_.filter (fun c => decide (c.atTick = atTick))
        = [{ atTick := atTick, signature := signature }] ∧
      (∀ c : MeterChange, c.atTick ≠ atTick →
        (c ∈ (m.addChange atTick signature).changes_ ↔ c ∈ m.changes_)) ∧
      (m.addChange atTick signature).StrictlyAscending) ∧
    (∀ (initialBpm : ℚ) (ops : List TempoOp),
      (ops.foldl TempoMap.apply (TempoMap.withBpm initialBpm)).StrictlyAscending) ∧
    (∀ (initialSignature : TimeSignature) (ops : List MeterOp),
      (ops.foldl MeterMap.apply (MeterMap.withSignature initialSignature)).StrictlyAscending) :=
  ⟨fun m atTick bpm hasc => tempo_addChange_spec m atTick bpm hasc,
   fun m atTick signature hasc => meter_addChange_spec m atTick signature hasc,
   fun _ ops => tempo_foldl_ascending ops _ (List.pairwise_singleton _ _),
   fun _ ops => meter_foldl_ascending ops _ (List.pairwise_singleton _ _)⟩

/-- Replacing the change at tick 960 of a three-entry tempo map, and adding a change at tick
1920 to a two-entry meter map. -/
theorem add_change_replaces_and_keeps_order_witness :
    threeTempoMap.StrictlyAscending ∧ twoMeterMap.StrictlyAscending ∧
    (threeTempoMap.addChange 960 100).changes_.filter (fun c => decide (c.atTick = 960))
      = [{ atTick := 960, bpm := 100 }] ∧
    (threeTempoMap.addChange 960 100).StrictlyAscending ∧
    (twoMeterMap.addChange 1920 sig_6_8).changes_.filter (fun c => decide (c.atTick = 1920))
      = [{ atTick := 1920, signature := sig_6_8 }] ∧
    (twoMeterMap.addChange 1920 sig_6_8).StrictlyAscending :=
  have ht : threeTempoMap.StrictlyAscending := by
    unfold TempoMap.StrictlyAscending threeTempoMap
    decide
  have hm : twoMeterMap.StrictlyAscending := by
    unfold MeterMap.StrictlyAscending twoMeterMap
    decide
  ⟨ht, hm,
    (add_change_replaces_and_keeps_order.1 threeTempoMap 960 100 ht).1,
    (add_change_replaces_and_keeps_order.1 threeTempoMap 960 100 ht).2.2,
    (add_change_replaces_and_keeps_order.2.1 twoMeterMap 1920 sig_6_8 hm).1,
    (add_change_replaces_and_keeps_order.2.1 twoMeterMap 1920 sig_6_8 hm).2.2⟩

theorem roundHalfAway_of_nonneg (x : ℚ) (h : 0 ≤ x) : roundHalfAway x = ⌊x + 1 / 2⌋ := by
  unfold roundHalfAway
  rw [if_pos h]

theorem framesPerTick_bounds (bpm : ℚ) (sampleRate : Nat) (hlo : 40 ≤ bpm) (hhi : bpm ≤ 300)
    (hsr : sampleRate = 44100 ∨ sampleRate = 48000 ∨ sampleRate = 96000) :
    147 / 16 ≤ framesPerTick bpm sampleRate ∧ framesPerTick bpm sampleRate ≤ 150 := by
  unfold framesPerTick PPQ
  have hb : (0 : ℚ) < bpm * ((960 : Int) : ℚ) := by
    have : (0 : ℚ) < bpm := by linarith
    positivity
  have hsr' : (44100 : ℚ) ≤ sampleRate ∧ (sampleRate : ℚ) ≤ 96000 := by
    rcases hsr with h | h | h <;> rw [h] <;> norm_num
  constructor
  · rw [le_div_iff₀ hb]
    push_cast
    nlinarith [hsr'.1]
  · rw [div_le_iff₀ hb]
    push_cast
    nlinarith [hsr'.2]

/-- In exact arithmetic the round trip returns the tick itself whenever a tick spans more than
one frame. -/
theorem round_trip_exact (t : Int) (bpm : ℚ) (sampleRate : Nat) (ht : 0 ≤ t)
    (hF : 1 < framesPerTick bpm sampleRate) :
    framesToTicks (ticksToFrames t bpm sampleRate) bpm sampleRate = t := by
  unfold framesToTicks ticksToFrames
  generalize framesPerTick bpm sampleRate = F at *
  have hF0 : (0 : ℚ) < F := by linarith
  have htF : (0 : ℚ) ≤ (t : ℚ) * F := mul_nonneg (by exact_mod_cast ht) hF0.le
  rw [roundHalfAway_of_nonneg _ htF]
  have hfl0 : 0 ≤ ⌊(t : ℚ) * F + 1 / 2⌋ := Int.floor_nonneg.mpr (by linarith)
  have hcast : ((⌊(t : ℚ) * F + 1 / 2⌋.toNat : Nat) : ℚ) = ((⌊(t : ℚ) * F + 1 / 2⌋ : Int) : ℚ) := by
    have := Int.toNat_of_nonneg hfl0
    exact_mod_cast this
  rw [hcast]
  have h1 := Int.floor_le ((t : ℚ) * F + 1 / 2)
  have h2 := Int.lt_floor_add_one ((t : ℚ) * F + 1 / 2)
  generalize (⌊(t : ℚ) * F + 1 / 2⌋ : Int) = f at *
  have hf0 : (0 : ℚ) ≤ (f : ℚ) := by exact_mod_cast hfl0
  rw [roundHalfAway_of_nonneg _ (div_nonneg hf0 hF0.le)]
  rw [Int.floor_eq_iff]
  constructor
  · have : (t : ℚ) - 1 / 2 ≤ (f : ℚ) / F := by
      rw [le_div_iff₀ hF0]
      nlinarith
    linarith
  · have : (f : ℚ) / F < (t : ℚ) + 1 / 2 := by
      rw [div_lt_iff₀ hF0]
      nlinarith
    linarith


theorem rounded_id (t : Int) (f : Nat) (bpm : ℚ) (sampleRate : Nat) :
    Rounded.framesPerTick id bpm sampleRate = framesPerTick bpm sampleRate ∧
    Rounded.ticksToFrames id t bpm sampleRate = ticksToFrames t bpm sampleRate ∧
    Rounded.framesToTicks id f bpm sampleRate = framesToTicks f bpm sampleRate :=
  ⟨rfl, rfl, rfl⟩

theorem roundHalfEven_error (x : ℚ) : |(roundHalfEven x : ℚ) - x| ≤ 1 / 2 := by
  have h1 := Int.floor_le x
  have h2 := Int.lt_floor_add_one x
  unfold roundHalfEven
  rw [abs_le]
  split_ifs with ha hb hc
  · constructor <;> linarith
  · push_cast; constructor <;> linarith
  · constructor <;> linarith
  · push_cast; constructor <;> linarith

theorem roundHalfEven_intCast (n : Int) : roundHalfEven (n : ℚ) = n := by
  unfold roundHalfEven
  simp

theorem ulpDouble_pos (x : ℚ) : 0 < ulpDouble x := by
  unfold ulpDouble
  positivity

theorem roundDouble_isDoubleRounding : IsDoubleRounding roundDouble := by
  intro x
  unfold roundDouble
  by_cases hx : x = 0
  · simp [hx]
  · rw [if_neg hx]
    have hU := ulpDouble_pos x
    have herr := roundHalfEven_error (x / ulpDouble x)
    have hlog : (2 : ℚ) ^ (Int.log 2 |x|) ≤ |x| :=
      Int.zpow_log_le_self (by norm_num) (abs_pos.mpr hx)
    have hU2 : ulpDouble x = (2 : ℚ) ^ (Int.log 2 |x|) / 2 ^ 52 := by
      unfold ulpDouble
      rw [zpow_sub₀ (by norm_num : (2 : ℚ) ≠ 0)]
      norm_num
    have hrew : (roundHalfEven (x / ulpDouble x) : ℚ) * ulpDouble x - x
        = ((roundHalfEven (x / ulpDouble x) : ℚ) - x / ulpDouble x) * ulpDouble x := by
      field_simp
    rw [hrew, abs_mul, abs_of_pos hU]
    calc |(roundHalfEven (x / ulpDouble x) : ℚ) - x / ulpDouble x| * ulpDouble x
        ≤ 1 / 2 * ulpDouble x := mul_le_mul_of_nonneg_right herr hU.le
      _ = (2 : ℚ) ^ (Int.log 2 |x|) / 2 ^ 53 := by rw [hU2]; ring
      _ ≤ |x| / 2 ^ 53 := by
        apply div_le_div_of_nonneg_right hlog
        positivity

theorem log_two_eq (x : ℚ) (e : Int) (h1 : (2 : ℚ) ^ e ≤ |x|) (h2 : |x| < (2 : ℚ) ^ (e + 1)) :
    Int.log 2 |x| = e := by
  have hpos : 0 < |x| := lt_of_lt_of_le (by positivity) h1
  have ha := Int.zpow_log_le_self (b := 2) (by norm_num) hpos
  have hb := Int.lt_zpow_succ_log_self (b := 2) (by norm_num) |x|
  push_cast at ha hb
  have hlt1 : e < Int.log 2 |x| + 1 :=
    (zpow_lt_zpow_iff_right₀ (by norm_num : (1 : ℚ) < 2)).mp (lt_of_le_of_lt h1 hb)
  have hlt2 : Int.log 2 |x| < e + 1 :=
    (zpow_lt_zpow_iff_right₀ (by norm_num : (1 : ℚ) < 2)).mp (lt_of_le_of_lt ha h2)
  omega

/-- Rounding of a value whose magnitude lies in the binade `[2 ^ e, 2 ^ (e + 1))`. -/
theorem roundDouble_binade (x : ℚ) (e : Int) (h1 : (2 : ℚ) ^ e ≤ |x|)
    (h2 : |x| < (2 : ℚ) ^ (e + 1)) :
    roundDouble x = (roundHalfEven (x / (2 : ℚ) ^ (e - 52)) : ℚ) * (2 : ℚ) ^ (e - 52) := by
  have hpos : 0 < |x| := lt_of_lt_of_le (by positivity) h1
  unfold roundDouble ulpDouble
  rw [if_neg (abs_pos.mp hpos), log_two_eq x e h1 h2]


theorem roundHalfEven_of_near (x : ℚ) (n : Int) (h : |x - n| < 1 / 2) : roundHalfEven x = n := by
  rw [abs_lt] at h
  unfold roundHalfEven
  by_cases hx : (n : ℚ) ≤ x
  · have hfl : ⌊x⌋ = n := by
      rw [Int.floor_eq_iff]
      constructor <;> linarith
    rw [hfl, if_pos (by linarith)]
  · have hfl : ⌊x⌋ = n - 1 := by
      rw [Int.floor_eq_iff]
      push_cast
      constructor <;> linarith
    rw [hfl]
    push_cast
    rw [if_neg (by linarith), if_pos (by linarith)]
    omega

/-- A value `m * 2 ^ k` with a significand below `2 ^ 53` is a `double`. -/
theorem roundDouble_mul_pow (m : Int) (k : Nat) (hm : |m| < 2 ^ 53) :
    roundDouble ((m : ℚ) * 2 ^ k) = (m : ℚ) * 2 ^ k := by
  by_cases hm0 : m = 0
  · simp [hm0, roundDouble]
  have hx : (m : ℚ) * 2 ^ k ≠ 0 := by
    have : (m : ℚ) ≠ 0 := by exact_mod_cast hm0
    positivity
  unfold roundDouble ulpDouble
  rw [if_neg hx]
  have hlog := Int.zpow_log_le_self (b := 2) (by norm_num) (abs_pos.mpr hx)
  push_cast at hlog
  generalize Int.log 2 |(m : ℚ) * 2 ^ k| = e at *
  have habs : |(m : ℚ) * 2 ^ k| < (2 : ℚ) ^ ((53 + k : Nat) : Int) := by
    rw [abs_mul, abs_of_pos (by positivity : (0 : ℚ) < 2 ^ k), zpow_natCast, pow_add]
    have : |(m : ℚ)| < 2 ^ 53 := by exact_mod_cast hm
    exact mul_lt_mul_of_pos_right this (by positivity)
  have he : e < ((53 + k : Nat) : Int) :=
    (zpow_lt_zpow_iff_right₀ (by norm_num : (1 : ℚ) < 2)).mp (lt_of_le_of_lt hlog habs)
  obtain ⟨j, hj⟩ : ∃ j : Nat, (j : Int) = (k : Int) + 52 - e := ⟨((k : Int) + 52 - e).toNat, by omega⟩
  have hdiv : (m : ℚ) * 2 ^ k / (2 : ℚ) ^ (e - 52) = ((m * 2 ^ j : Int) : ℚ) := by
    push_cast
    rw [← zpow_natCast (2 : ℚ) j, hj, div_eq_iff (by positivity), mul_assoc,
      ← zpow_add₀ (by norm_num : (2 : ℚ) ≠ 0)]
    have : (k : Int) + 52 - e + (e - 52) = k := by ring
    rw [this, zpow_natCast]
  rw [hdiv, roundHalfEven_intCast]
  push_cast
  rw [← zpow_natCast (2 : ℚ) j, hj, mul_assoc, ← zpow_add₀ (by norm_num : (2 : ℚ) ≠ 0)]
  have : (k : Int) + 52 - e + (e - 52) = k := by ring
  rw [this, zpow_natCast]

theorem roundDouble_int (m : Int) (hm : |m| < 2 ^ 53) : roundDouble (m : ℚ) = m := by
  have := roundDouble_mul_pow m 0 hm
  simpa using this

/-- The tick `2 ^ 55 + 3` is not a `double`: the conversion gives `2 ^ 55`. -/
theorem roundDouble_big : roundDouble (2 ^ 55 + 3) = 2 ^ 55 := by
  rw [roundDouble_binade (2 ^ 55 + 3) 55 (by norm_num [abs_of_pos]) (by norm_num [abs_of_pos])]
  have hn : roundHalfEven ((2 ^ 55 + 3) / (2 : ℚ) ^ ((55 : Int) - 52)) = 2 ^ 52 := by
    apply roundHalfEven_of_near
    norm_num [abs_of_pos]
  rw [hn]
  norm_num


theorem fl_bounds {fl : ℚ → ℚ} (H : IsDoubleRounding fl) (x : ℚ) (hx : 0 ≤ x) :
    x * (1 - 1 / 2 ^ 53) ≤ fl x ∧ fl x ≤ x * (1 + 1 / 2 ^ 53) ∧ 0 ≤ fl x := by
  have h := H x
  rw [abs_of_nonneg hx, abs_le] at h
  have h3 : x * (1 - 1 / 2 ^ 53) ≤ fl x := by linarith [h.1]
  refine ⟨h3, by linarith [h.2], le_trans (mul_nonneg hx (by norm_num)) h3⟩

theorem rounded_framesPerTick_ge {fl : ℚ → ℚ} (H : IsDoubleRounding fl) (bpm : ℚ)
    (sampleRate : Nat) (hlo : 40 ≤ bpm) (hhi : bpm ≤ 300)
    (hsr : sampleRate = 44100 ∨ sampleRate = 48000 ∨ sampleRate = 96000) :
    9 ≤ Rounded.framesPerTick fl bpm sampleRate := by
  unfold Rounded.framesPerTick PPQ
  have hsr' : (44100 : ℚ) ≤ sampleRate := by
    rcases hsr with h | h | h <;> rw [h] <;> norm_num
  have hA : (0 : ℚ) ≤ (sampleRate : ℚ) * 60 := by positivity
  have hB : (0 : ℚ) < bpm * ((960 : Int) : ℚ) := by
    have : (0 : ℚ) < bpm := by linarith
    positivity
  obtain ⟨ha, _, _⟩ := fl_bounds H _ hA
  obtain ⟨hb1, hb2, _⟩ := fl_bounds H _ hB.le
  have hbpos : 0 < fl (bpm * ((960 : Int) : ℚ)) :=
    lt_of_lt_of_le (mul_pos hB (by norm_num)) hb1
  have hr : (91 / 10 : ℚ) ≤ fl ((sampleRate : ℚ) * 60) / fl (bpm * ((960 : Int) : ℚ)) := by
    rw [le_div_iff₀ hbpos]
    push_cast at *
    nlinarith
  obtain ⟨hF, _, _⟩ := fl_bounds H _ (le_trans (by norm_num) hr)
  have : (9 : ℚ) ≤ 91 / 10 * (1 - 1 / 2 ^ 53) := by norm_num
  have h2 : (91 / 10 : ℚ) * (1 - 1 / 2 ^ 53)
      ≤ fl ((sampleRate : ℚ) * 60) / fl (bpm * ((960 : Int) : ℚ)) * (1 - 1 / 2 ^ 53) :=
    mul_le_mul_of_nonneg_right hr (by norm_num)
  linarith

theorem roundHalfAway_bounds (x : ℚ) (hx : 0 ≤ x) :
    0 ≤ roundHalfAway x ∧ x - 1 / 2 < (roundHalfAway x : ℚ) ∧ (roundHalfAway x : ℚ) ≤ x + 1 / 2 := by
  rw [roundHalfAway_of_nonneg x hx]
  have h1 := Int.floor_le (x + 1 / 2)
  have h2 := Int.lt_floor_add_one (x + 1 / 2)
  refine ⟨Int.floor_nonneg.mpr (by linarith), by linarith, h1⟩

/-- Error analysis of the round trip under any rounding with relative error `2 ^ -53`, for a
tick of at most `2 ^ 51` and a rounded `framesPerTick` of at least 9. -/
theorem round_trip_rounded_core {fl : ℚ → ℚ} (H : IsDoubleRounding fl) (t : Int) (F : ℚ)
    (ht0 : 0 ≤ t) (ht1 : t ≤ 2 ^ 51) (hF : 9 ≤ F) :
    |roundHalfAway (fl (fl (((roundHalfAway (fl (fl (t : ℚ) * F))).toNat : Nat) : ℚ) / F)) - t| ≤ 1 := by
  have hF0 : (0 : ℚ) < F := by linarith
  have ht0' : (0 : ℚ) ≤ (t : ℚ) := by exact_mod_cast ht0
  have ht1' : (t : ℚ) ≤ 2 ^ 51 := by exact_mod_cast ht1
  obtain ⟨hT1, hT2, hT0⟩ := fl_bounds H (t : ℚ) ht0'
  generalize fl (t : ℚ) = T at *
  obtain ⟨hP1, hP2, hP0⟩ := fl_bounds H (T * F) (mul_nonneg hT0 hF0.le)
  generalize fl (T * F) = P at *
  obtain ⟨hf0, hf1, hf2⟩ := roundHalfAway_bounds P hP0
  have hcast : (((roundHalfAway P).toNat : Nat) : ℚ) = ((roundHalfAway P : Int) : ℚ) := by
    have := Int.toNat_of_nonneg hf0
    exact_mod_cast this
  rw [hcast]
  have hf0' : (0 : ℚ) ≤ (roundHalfAway P : ℚ) := by exact_mod_cast hf0
  generalize (roundHalfAway P : ℚ) = f at *
  obtain ⟨hG1, hG2, hG0⟩ := fl_bounds H f hf0'
  generalize fl f = G at *
  obtain ⟨hQ1, hQ2, hQ0⟩ := fl_bounds H (G / F) (div_nonneg hG0 hF0.le)
  generalize fl (G / F) = Q at *
  obtain ⟨_, hr1, hr2⟩ := roundHalfAway_bounds Q hQ0
  -- products with the rounded frames-per-tick
  have hGF : G / F * F = G := div_mul_cancel₀ G hF0.ne'
  have hW0 : 0 ≤ (t : ℚ) * F := mul_nonneg ht0' hF0.le
  have hW1 : (t : ℚ) * F ≤ 2 ^ 51 * F := mul_le_mul_of_nonneg_right ht1' hF0.le
  have hTF1 : (t : ℚ) * (1 - 1 / 2 ^ 53) * F ≤ T * F := mul_le_mul_of_nonneg_right hT1 hF0.le
  have hTF2 : T * F ≤ (t : ℚ) * (1 + 1 / 2 ^ 53) * F := mul_le_mul_of_nonneg_right hT2 hF0.le
  have hQF1 : G / F * (1 - 1 / 2 ^ 53) * F ≤ Q * F := mul_le_mul_of_nonneg_right hQ1 hF0.le
  have hQF2 : Q * F ≤ G / F * (1 + 1 / 2 ^ 53) * F := mul_le_mul_of_nonneg_right hQ2 hF0.le
  have hQF1' : G * (1 - 1 / 2 ^ 53) ≤ Q * F := by
    have : G / F * (1 - 1 / 2 ^ 53) * F = G / F * F * (1 - 1 / 2 ^ 53) := by ring
    rw [this, hGF] at hQF1
    exact hQF1
  have hQF2' : Q * F ≤ G * (1 + 1 / 2 ^ 53) := by
    have : G / F * (1 + 1 / 2 ^ 53) * F = G / F * F * (1 + 1 / 2 ^ 53) := by ring
    rw [this, hGF] at hQF2
    exact hQF2
  have hupper : Q * F < ((t : ℚ) + 3 / 2) * F := by
    generalize hW : (t : ℚ) * F = W at *
    have e : ((t : ℚ) + 3 / 2) * F = W + 3 / 2 * F := by rw [← hW]; ring
    have e2 : (t : ℚ) * (1 + 1 / 2 ^ 53) * F = W * (1 + 1 / 2 ^ 53) := by rw [← hW]; ring
    rw [e]
    rw [e2] at hTF2
    linarith
  have hlower : ((t : ℚ) - 3 / 2) * F < Q * F := by
    generalize hW : (t : ℚ) * F = W at *
    have e : ((t : ℚ) - 3 / 2) * F = W - 3 / 2 * F := by rw [← hW]; ring
    have e2 : (t : ℚ) * (1 - 1 / 2 ^ 53) * F = W * (1 - 1 / 2 ^ 53) := by rw [← hW]; ring
    rw [e]
    rw [e2] at hTF1
    linarith
  have hQu : Q < (t : ℚ) + 3 / 2 := lt_of_mul_lt_mul_right hupper hF0.le
  have hQl : (t : ℚ) - 3 / 2 < Q := lt_of_mul_lt_mul_right hlower hF0.le
  have h1 : (roundHalfAway Q : ℚ) < ((t + 2 : Int) : ℚ) := by push_cast; linarith
  have h2 : ((t - 2 : Int) : ℚ) < (roundHalfAway Q : ℚ) := by push_cast; linarith
  have h1' : roundHalfAway Q < t + 2 := by exact_mod_cast h1
  have h2' : t - 2 < roundHalfAway Q := by exact_mod_cast h2
  rw [abs_le]
  constructor <;> omega


theorem roundHalfAway_intCast (n : Int) (h : 0 ≤ n) : roundHalfAway (n : ℚ) = n := by
  rw [roundHalfAway_of_nonneg _ (by exact_mod_cast h), Int.floor_eq_iff]
  constructor <;> linarith

theorem rounded_framesPerTick_120_48000 : Rounded.framesPerTick roundDouble 120 48000 = 25 := by
  unfold Rounded.framesPerTick PPQ
  have h1 : ((48000 : Nat) : ℚ) * 60 = ((2880000 : Int) : ℚ) := by norm_num
  have h2 : (120 : ℚ) * ((960 : Int) : ℚ) = ((115200 : Int) : ℚ) := by norm_num
  rw [h1, h2, roundDouble_int _ (by norm_num), roundDouble_int _ (by norm_num)]
  have h3 : ((2880000 : Int) : ℚ) / ((115200 : Int) : ℚ) = ((25 : Int) : ℚ) := by norm_num
  rw [h3, roundDouble_int _ (by norm_num)]
  norm_num

/-- With 120 BPM at 48 kHz a tick that converts to the `double` `m * 2 ^ k` gives
`25 * m * 2 ^ k` frames. -/
theorem rounded_ticksToFrames_of (t m : Int) (k : Nat) (hm0 : 0 ≤ m) (hm : 25 * m < 2 ^ 53)
    (ht : roundDouble (t : ℚ) = (m : ℚ) * 2 ^ k) :
    Rounded.ticksToFrames roundDouble t 120 48000 = (25 * m * 2 ^ k).toNat := by
  unfold Rounded.ticksToFrames
  rw [rounded_framesPerTick_120_48000, ht]
  have h1 : (m : ℚ) * 2 ^ k * 25 = ((25 * m : Int) : ℚ) * 2 ^ k := by push_cast; ring
  rw [h1, roundDouble_mul_pow _ k (by rw [abs_of_nonneg (by omega)]; exact hm)]
  have h2 : ((25 * m : Int) : ℚ) * 2 ^ k = ((25 * m * 2 ^ k : Int) : ℚ) := by push_cast; ring
  rw [h2, roundHalfAway_intCast _ (by positivity)]

/-- With 120 BPM at 48 kHz the frame count `25 * m * 2 ^ k` converts back to `m * 2 ^ k`. -/
theorem rounded_framesToTicks_of (m : Int) (k : Nat) (hm0 : 0 ≤ m) (hm : 25 * m < 2 ^ 53) :
    Rounded.framesToTicks roundDouble (25 * m * 2 ^ k).toNat 120 48000 = m * 2 ^ k := by
  unfold Rounded.framesToTicks
  rw [rounded_framesPerTick_120_48000]
  have h0 : (0 : Int) ≤ 25 * m * 2 ^ k := by positivity
  have h1 : (((25 * m * 2 ^ k : Int).toNat : Nat) : ℚ) = ((25 * m : Int) : ℚ) * 2 ^ k := by
    have := Int.toNat_of_nonneg h0
    have h' : (((25 * m * 2 ^ k : Int).toNat : Nat) : ℚ) = ((25 * m * 2 ^ k : Int) : ℚ) := by
      exact_mod_cast this
    rw [h']
    push_cast
    ring
  rw [h1, roundDouble_mul_pow _ k (by rw [abs_of_nonneg (by omega)]; exact hm)]
  have h2 : ((25 * m : Int) : ℚ) * 2 ^ k / 25 = (m : ℚ) * 2 ^ k := by push_cast; ring
  rw [h2, roundDouble_mul_pow _ k (by rw [abs_of_nonneg hm0]; omega)]
  have h3 : (m : ℚ) * 2 ^ k = ((m * 2 ^ k : Int) : ℚ) := by push_cast; ring
  rw [h3, roundHalfAway_intCast _ (by positivity)]


/-! ## Tick and frame conversion: claims -/

/-- C16, as stated, fails in `double` arithmetic: the tick `2 ^ 55 + 3` (with 120 BPM at
48 kHz, so 25 frames per tick) is converted to the `double` `2 ^ 55` before it is multiplied,
`ticksToFrames` returns `25 * 2 ^ 55` frames and `framesToTicks` returns `2 ^ 55`, three ticks
away from the tick that went in. -/
theorem tick_frame_round_trip_counterexample :
    (0 : Int) ≤ 2 ^ 55 + 3 ∧ (40 : ℚ) ≤ 120 ∧ (120 : ℚ) ≤ 300 ∧
    roundDouble (((2 ^ 55 + 3 : Int) : ℚ)) = 2 ^ 55 ∧
    Rounded.ticksToFrames roundDouble (2 ^ 55 + 3) 120 48000 = 25 * 2 ^ 55 ∧
    Rounded.framesToTicks roundDouble (25 * 2 ^ 55) 120 48000 = 2 ^ 55 ∧
    ¬ |Rounded.framesToTicks roundDouble
          (Rounded.ticksToFrames roundDouble (2 ^ 55 + 3) 120 48000) 120 48000
        - (2 ^ 55 + 3)| ≤ 1 := by
  have hfl : roundDouble (((2 ^ 55 + 3 : Int) : ℚ)) = 2 ^ 55 := by
    have e : (((2 ^ 55 + 3 : Int)) : ℚ) = 2 ^ 55 + 3 := by norm_num
    rw [e]
    exact roundDouble_big
  have h1 : Rounded.ticksToFrames roundDouble (2 ^ 55 + 3) 120 48000 = 25 * 2 ^ 55 := by
    rw [rounded_ticksToFrames_of (2 ^ 55 + 3) 1 55 (by decide) (by decide)
      (by rw [hfl]; norm_num)]
    decide
  have h2 : Rounded.framesToTicks roundDouble (25 * 2 ^ 55) 120 48000 = 2 ^ 55 := by
    have h := rounded_framesToTicks_of 1 55 (by decide) (by decide)
    have e : (25 * 1 * 2 ^ 55 : Int).toNat = 25 * 2 ^ 55 := by decide
    rw [e] at h
    rw [h]
    decide
  refine ⟨by decide, by norm_num, by norm_num, hfl, h1, h2, ?_⟩
  rw [h1, h2]
  decide

/-- C16, amended. Tick/frame conversions are inverses within rounding: for every BPM in
[40, 300] and every sample rate in {44100, 48000, 96000}, in exact arithmetic
`framesToTicks (ticksToFrames t) = t` for every tick `t ≥ 0`, and in `double` arithmetic
(every operation and conversion rounded with relative error at most `2 ^ -53`)
`|framesToTicks (ticksToFrames t) - t| ≤ 1` for every tick `0 ≤ t ≤ 2 ^ 51`; in both
`ticksToFrames 3840 120 48000 = 96000` and `framesToTicks 96000 120 48000 = 3840`. -/
theorem tick_frame_round_trip (fl : ℚ → ℚ) (t : Int) (bpm : ℚ) (sampleRate : Nat)
    (ht : 0 ≤ t) (hlo : 40 ≤ bpm) (hhi : bpm ≤ 300)
    (hsr : sampleRate = 44100 ∨ sampleRate = 48000 ∨ sampleRate = 96000) :
    framesToTicks (ticksToFrames t bpm sampleRate) bpm sampleRate = t ∧
    (IsDoubleRounding fl → t ≤ 2 ^ 51 →
      |Rounded.framesToTicks fl (Rounded.ticksToFrames fl t bpm sampleRate) bpm sampleRate - t|
        ≤ 1) ∧
    IsDoubleRounding roundDouble ∧
    ticksToFrames 3840 120 48000 = 96000 ∧ framesToTicks 96000 120 48000 = 3840 ∧
    Rounded.ticksToFrames roundDouble 3840 120 48000 = 96000 ∧
    Rounded.framesToTicks roundDouble 96000 120 48000 = 3840 := by
  refine ⟨?_, ?_, roundDouble_isDoubleRounding, by with_unfolding_all rfl,
    by with_unfolding_all rfl, ?_, ?_⟩
  · have hF := (framesPerTick_bounds bpm sampleRate hlo hhi hsr).1
    exact round_trip_exact t bpm sampleRate ht (by linarith)
  · intro H ht1
    exact round_trip_rounded_core H t _ ht ht1
      (rounded_framesPerTick_ge H bpm sampleRate hlo hhi hsr)
  · rw [rounded_ticksToFrames_of 3840 3840 0 (by decide) (by decide)
      (by rw [roundDouble_int _ (by decide)]; norm_num)]
    decide
  · have h := rounded_framesToTicks_of 3840 0 (by decide) (by decide)
    have e : (25 * 3840 * 2 ^ 0 : Int).toNat = 96000 := by decide
    rw [e] at h
    rw [h]
    decide

/-- One 4/4 bar at 120 BPM and 48 kHz, converted with `double` rounding and back. -/
theorem tick_frame_round_trip_witness :
    (0 : Int) ≤ 3840 ∧ (40 : ℚ) ≤ 120 ∧ (120 : ℚ) ≤ 300 ∧ (3840 : Int) ≤ 2 ^ 51 ∧
    framesToTicks (ticksToFrames 3840 120 48000) 120 48000 = 3840 ∧
    |Rounded.framesToTicks roundDouble (Rounded.ticksToFrames roundDouble 3840 120 48000) 120
        48000 - 3840| ≤ 1 :=
  ⟨by decide, by norm_num, by norm_num, by decide,
    (tick_frame_round_trip roundDouble 3840 120 48000 (by decide) (by norm_num) (by norm_num)
      (Or.inr (Or.inl rfl))).1,
    (tick_frame_round_trip roundDouble 3840 120 48000 (by decide) (by norm_num) (by norm_num)
      (Or.inr (Or.inl rfl))).2.1 roundDouble_isDoubleRounding (by decide)⟩

/-- The scan over a sorted list returns the start value when no change is at or before the
tick, and otherwise the value of a change with the greatest tick at or before it. -/
theorem scanBpm_sorted (t : Int) :
    ∀ (l : List TempoChange) (b : ℚ), l.Pairwise (fun a c => a.atTick ≤ c.atTick) →
      ((∀ c ∈ l, t < c.atTick) ∧ scanBpm t l b = b) ∨
      (∃ c ∈ l, c.atTick ≤ t ∧ (∀ d ∈ l, d.atTick ≤ t → d.atTick ≤ c.atTick) ∧
        scanBpm t l b = c.bpm) := by
  intro l
  induction l with
  | nil => intro b _; exact Or.inl ⟨by simp, rfl⟩
  | cons x rest ih =>
    intro b hs
    rw [List.pairwise_cons] at hs
    unfold scanBpm
    by_cases hx : x.atTick ≤ t
    · rw [if_pos hx]
      rcases ih x.bpm hs.2 with ⟨hall, hval⟩ | ⟨c, hc, hct, hmax, hval⟩
      · refine Or.inr ⟨x, List.mem_cons_self _ _, hx, ?_, hval⟩
        intro d hd hdt
        rcases List.mem_cons.mp hd with rfl | hd'
        · exact le_refl _
        · have := hall d hd'
          omega
      · refine Or.inr ⟨c, List.mem_cons_of_mem _ hc, hct, ?_, hval⟩
        intro d hd hdt
        rcases List.mem_cons.mp hd with rfl | hd'
        · exact hs.1 c hc
        · exact hmax d hd' hdt
    · rw [if_neg hx]
      refine Or.inl ⟨?_, rfl⟩
      intro c hc
      rcases List.mem_cons.mp hc with rfl | hc'
      · omega
      · have := hs.1 c hc'
        omega

theorem scanSignature_sorted (t : Int) :
    ∀ (l : List MeterChange) (b : TimeSignature), l.Pairwise (fun a c => a.atTick ≤ c.atTick) →
      ((∀ c ∈ l, t < c.atTick) ∧ scanSignature t l b = b) ∨
      (∃ c ∈ l, c.atTick ≤ t ∧ (∀ d ∈ l, d.atTick ≤ t → d.atTick ≤ c.atTick) ∧
        scanSignature t l b = c.signature) := by
  intro l
  induction l with
  | nil => intro b _; exact Or.inl ⟨by simp, rfl⟩
  | cons x rest ih =>
    intro b hs
    rw [List.pairwise_cons] at hs
    unfold scanSignature
    by_cases hx : x.atTick ≤ t
    · rw [if_pos hx]
      rcases ih x.signature hs.2 with ⟨hall, hval⟩ | ⟨c, hc, hct, hmax, hval⟩
      · refine Or.inr ⟨x, List.mem_cons_self _ _, hx, ?_, hval⟩
        intro d hd hdt
        rcases List.mem_cons.mp hd with rfl | hd'
        · exact le_refl _
        · have := hall d hd'
          omega
      · refine Or.inr ⟨c, List.mem_cons_of_mem _ hc, hct, ?_, hval⟩
        intro d hd hdt
        rcases List.mem_cons.mp hd with rfl | hd'
        · exact hs.1 c hc
        · exact hmax d hd' hdt
    · rw [if_neg hx]
      refine Or.inl ⟨?_, rfl⟩
      intro c hc
      rcases List.mem_cons.mp hc with rfl | hc'
      · omega
      · have := hs.1 c hc'
        omega

theorem getBpmAt_eq_scan (m : TempoMap) (t : Int) (h : m.changes_ ≠ []) :
    ∃ b, m.getBpmAt t = scanBpm t m.changes_ b ∧
      ((∀ c ∈ m.changes_, t < c.atTick) → ∃ first rest, m.changes_ = first :: rest ∧ b = first.bpm) := by
  unfold TempoMap.getBpmAt
  cases hm : m.changes_ with
  | nil => exact absurd hm h
  | cons first rest => exact ⟨first.bpm, rfl, fun _ => ⟨first, rest, rfl, rfl⟩⟩

theorem getSignatureAt_eq_scan (m : MeterMap) (t : Int) (h : m.changes_ ≠ []) :
    ∃ b, m.getSignatureAt t = scanSignature t m.changes_ b ∧
      ((∀ c ∈ m.changes_, t < c.atTick) →
        ∃ first rest, m.changes_ = first :: rest ∧ b = first.signature) := by
  unfold MeterMap.getSignatureAt
  cases hm : m.changes_ with
  | nil => exact absurd hm h
  | cons first rest => exact ⟨first.signature, rfl, fun _ => ⟨first, rest, rfl, rfl⟩⟩

/-- Lookup in a sorted tempo map with an entry at or before the tick. -/
theorem getBpmAt_sorted (m : TempoMap) (t : Int) (hs : m.Sorted)
    (hex : ∃ c ∈ m.changes_, c.atTick ≤ t) :
    ∃ c ∈ m.changes_, c.atTick ≤ t ∧ (∀ d ∈ m.changes_, d.atTick ≤ t → d.atTick ≤ c.atTick) ∧
      m.getBpmAt t = c.bpm := by
  obtain ⟨c0, hc0, hc0t⟩ := hex
  obtain ⟨b, hb, _⟩ := getBpmAt_eq_scan m t (List.ne_nil_of_mem hc0)
  rcases scanBpm_sorted t m.changes_ b hs with ⟨hall, _⟩ | ⟨c, hc, hct, hmax, hval⟩
  · have := hall c0 hc0
    omega
  · exact ⟨c, hc, hct, hmax, by rw [hb, hval]⟩

theorem getSignatureAt_sorted (m : MeterMap) (t : Int) (hs : m.Sorted)
    (hex : ∃ c ∈ m.changes_, c.atTick ≤ t) :
    ∃ c ∈ m.changes_, c.atTick ≤ t ∧ (∀ d ∈ m.changes_, d.atTick ≤ t → d.atTick ≤ c.atTick) ∧
      m.getSignatureAt t = c.signature := by
  obtain ⟨c0, hc0, hc0t⟩ := hex
  obtain ⟨b, hb, _⟩ := getSignatureAt_eq_scan m t (List.ne_nil_of_mem hc0)
  rcases scanSignature_sorted t m.changes_ b hs with ⟨hall, _⟩ | ⟨c, hc, hct, hmax, hval⟩
  · have := hall c0 hc0
    omega
  · exact ⟨c, hc, hct, hmax, by rw [hb, hval]⟩

/-- In a list with strictly ascending ticks two entries with the same tick are the same. -/
theorem eq_of_atTick_eq {α : Type} (key : α → Int) (l : List α)
    (h : l.Pairwise (fun a b => key a < key b)) (c d : α) (hc : c ∈ l) (hd : d ∈ l)
    (hk : key c = key d) : c = d := by
  induction l with
  | nil => simp at hc
  | cons x rest ih =>
    rw [List.pairwise_cons] at h
    rcases List.mem_cons.mp hc with rfl | hc'
    · rcases List.mem_cons.mp hd with rfl | hd'
      · rfl
      · have := h.1 d hd'
        omega
    · rcases List.mem_cons.mp hd with rfl | hd'
      · have := h.1 c hc'
        omega
      · exact ih h.2 hc' hd'


theorem tempo_mem_addChange (m : TempoMap) (atTick : Int) (bpm : ℚ) (c : TempoChange) :
    c ∈ (m.addChange atTick bpm).changes_ ↔
      (c ∈ m.changes_ ∧ c.atTick ≠ atTick) ∨ c = { atTick := atTick, bpm := bpm } := by
  unfold TempoMap.addChange TempoMap.sortChanges TempoMap.removeChangeAt
  simp only [List.mem_insertionSort, List.mem_append, List.mem_filter, List.mem_singleton,
    Bool.not_eq_true', decide_eq_false_iff_not]

theorem meter_mem_addChange (m : MeterMap) (atTick : Int) (signature : TimeSignature)
    (c : MeterChange) :
    c ∈ (m.addChange atTick signature).changes_ ↔
      (c ∈ m.changes_ ∧ c.atTick ≠ atTick) ∨ c = { atTick := atTick, signature := signature } := by
  unfold MeterMap.addChange MeterMap.sortChanges MeterMap.removeChangeAt
  simp only [List.mem_insertionSort, List.mem_append, List.mem_filter, List.mem_singleton,
    Bool.not_eq_true', decide_eq_false_iff_not]

theorem tempo_apply_keeps_origin (m : TempoMap) (op : TempoOp) (hop : op.KeepsOrigin = true)
    (h : ∃ c ∈ m.changes_, c.atTick = 0) : ∃ c ∈ (m.apply op).changes_, c.atTick = 0 := by
  obtain ⟨c, hc, hc0⟩ := h
  cases op with
  | addChange atTick bpm =>
    by_cases ht : atTick = 0
    · exact ⟨{ atTick := atTick, bpm := bpm }, (tempo_mem_addChange m atTick bpm _).mpr (Or.inr rfl), ht⟩
    · exact ⟨c, (tempo_mem_addChange m atTick bpm c).mpr (Or.inl ⟨hc, by omega⟩), hc0⟩
  | removeChangeAt tick =>
    have ht : tick ≠ 0 := by simpa [TempoOp.KeepsOrigin] using hop
    refine ⟨c, ?_, hc0⟩
    simp only [TempoMap.apply, TempoMap.removeChangeAt, List.mem_filter, Bool.not_eq_true',
      decide_eq_false_iff_not]
    exact ⟨hc, by omega⟩
  | clear => simp [TempoOp.KeepsOrigin] at hop
  | setConstantTempo bpm => exact ⟨{ atTick := 0, bpm := bpm }, List.mem_singleton.mpr rfl, rfl⟩

theorem meter_apply_keeps_origin (m : MeterMap) (op : MeterOp) (hop : op.KeepsOrigin = true)
    (h : ∃ c ∈ m.changes_, c.atTick = 0) : ∃ c ∈ (m.apply op).changes_, c.atTick = 0 := by
  obtain ⟨c, hc, hc0⟩ := h
  cases op with
  | addChange atTick signature =>
    by_cases ht : atTick = 0
    · exact ⟨{ atTick := atTick, signature := signature },
        (meter_mem_addChange m atTick signature _).mpr (Or.inr rfl), ht⟩
    · exact ⟨c, (meter_mem_addChange m atTick signature c).mpr (Or.inl ⟨hc, by omega⟩), hc0⟩
  | removeChangeAt tick =>
    have ht : tick ≠ 0 := by simpa [MeterOp.KeepsOrigin] using hop
    refine ⟨c, ?_, hc0⟩
    simp only [MeterMap.apply, MeterMap.removeChangeAt, List.mem_filter, Bool.not_eq_true',
      decide_eq_false_iff_not]
    exact ⟨hc, by omega⟩
  | clear => simp [MeterOp.KeepsOrigin] at hop
  | setConstantMeter signature =>
    exact ⟨{ atTick := 0, signature := signature }, List.mem_singleton.mpr rfl, rfl⟩

theorem tempo_foldl_keeps_origin (ops : List TempoOp) :
    ∀ m : TempoMap, (∀ op ∈ ops, op.KeepsOrigin = true) → (∃ c ∈ m.changes_, c.atTick = 0) →
      ∃ c ∈ (ops.foldl TempoMap.apply m).changes_, c.atTick = 0 := by
  induction ops with
  | nil => intro m _ h; exact h
  | cons op rest ih =>
    intro m hops h
    exact ih _ (fun o ho => hops o (List.mem_cons_of_mem _ ho))
      (tempo_apply_keeps_origin m op (hops op (List.mem_cons_self _ _)) h)

theorem meter_foldl_keeps_origin (ops : List MeterOp) :
    ∀ m : MeterMap, (∀ op ∈ ops, op.KeepsOrigin = true) → (∃ c ∈ m.changes_, c.atTick = 0) →
      ∃ c ∈ (ops.foldl MeterMap.apply m).changes_, c.atTick = 0 := by
  induction ops with
  | nil => intro m _ h; exact h
  | cons op rest ih =>
    intro m hops h
    exact ih _ (fun o ho => hops o (List.mem_cons_of_mem _ ho))
      (meter_apply_keeps_origin m op (hops op (List.mem_cons_self _ _)) h)


theorem floor_div_eq_tdiv (a b : Int) (ha : 0 ≤ a) (hb : 0 < b) :
    ⌊((a : Int) : ℚ) / ((b : Int) : ℚ)⌋ = a.tdiv b := by
  rw [Int.tdiv_eq_ediv ha hb.le]
  obtain ⟨d, rfl⟩ : ∃ d : Nat, b = (d : Int) := ⟨b.toNat, by omega⟩
  have := Rat.floor_intCast_div_natCast a d
  simpa using this

theorem segmentBars_cons_succ (c : MeterChange) (rest : List MeterChange) (t : Int) (j : Nat) :
    segmentBars (c :: rest) t (j + 1) = segmentBars rest t j := by
  unfold segmentBars segmentEnd segmentStart segmentSignature
  rfl

theorem barsUpTo_cons_succ (c : MeterChange) (rest : List MeterChange) (t : Int) (i : Nat) :
    barsUpTo (c :: rest) t (i + 1) = segmentBars (c :: rest) t 0 + barsUpTo rest t i := by
  unfold barsUpTo
  rw [List.range_succ_eq_map (i + 1), List.map_cons, List.sum_cons, List.map_map]
  rfl

/-- The walk of `getBarStartAt` over a sorted list reaches the segment that holds the tick. -/
theorem barStartWalk_segment (t fb : Int) :
    ∀ (l : List MeterChange) (i : Nat), l.Pairwise (fun a b => a.atTick ≤ b.atTick) →
      InSegment l t i →
      barStartWalk t fb l
        = segmentStart l i
          + ((t - segmentStart l i).tdiv (ticksPerBar (segmentSignature l i)))
            * ticksPerBar (segmentSignature l i) := by
  intro l
  induction l with
  | nil => intro i _ h; exact absurd h.1 (by simp)
  | cons c rest ih =>
    intro i hs hin
    rw [List.pairwise_cons] at hs
    obtain ⟨hi, hstart, hend⟩ := hin
    cases i with
    | zero =>
      have hstart' : c.atTick ≤ t := by simpa [segmentStart] using hstart
      have hre : t < rangeEndOf t rest := by
        cases rest with
        | nil => simp [rangeEndOf]
        | cons next more => exact hend next.atTick (by simp [segmentEnd])
      unfold barStartWalk
      simp only [segmentStart, segmentSignature, List.getD_cons_zero]
      rw [if_neg (by omega), if_pos ⟨hstart', hre⟩]
    | succ i' =>
      cases rest with
      | nil => simp at hi
      | cons next more =>
        have hi' : i' < (next :: more).length := by simpa using hi
        have hin' : InSegment (next :: more) t i' := by
          refine ⟨hi', ?_, ?_⟩
          · simpa [segmentStart] using hstart
          · intro e he
            exact hend e (by simpa [segmentEnd] using he)
        have hnext : next.atTick ≤ t := by
          have htarget : ((next :: more).getD i' {}).atTick ≤ t := hin'.2.1
          have hmem : (next :: more).getD i' {} ∈ next :: more := by
            rw [List.getD_eq_getElem _ _ hi']
            exact List.getElem_mem _
          have hsorted := hs.2
          rw [List.pairwise_cons] at hsorted
          rcases List.mem_cons.mp hmem with h | h
          · rw [h] at htarget
            exact htarget
          · have := hsorted.1 _ h
            omega
        have hc : c.atTick ≤ t := by
          have := hs.1 next (List.mem_cons_self _ _)
          omega
        have hstep : barStartWalk t fb (c :: next :: more) = barStartWalk t fb (next :: more) := by
          rw [barStartWalk]
          simp only [rangeEndOf]
          rw [if_neg (by omega), if_neg (by omega)]
        rw [hstep, ih i' hs.2 hin']
        simp [segmentStart, segmentSignature]

theorem barsUpTo_zero (l : List MeterChange) (t : Int) : barsUpTo l t 0 = segmentBars l t 0 := by
  have h : List.range (0 + 1) = [0] := rfl
  rw [barsUpTo, h]
  simp

/-- In a sorted map, when the tick lies in segment `i + 1`, the first segment ends at or
before the tick and counts the whole bars between its two changes. -/
theorem segmentBars_head_full (c next : MeterChange) (more : List MeterChange) (t : Int)
    (hle : c.atTick ≤ next.atTick) (hnext : next.atTick ≤ t)
    (hB : 0 < ticksPerBar c.signature) :
    segmentBars (c :: next :: more) t 0
      = (next.atTick - c.atTick).tdiv (ticksPerBar c.signature) ∧
    0 ≤ (next.atTick - c.atTick).tdiv (ticksPerBar c.signature) := by
  have h0 : 0 ≤ next.atTick - c.atTick := by omega
  refine ⟨?_, ?_⟩
  · simp only [segmentBars, segmentEnd, segmentStart, segmentSignature, List.get?_cons_succ,
      List.get?_cons_zero, Option.map_some', List.getD_cons_zero, min_eq_left hnext]
    exact floor_div_eq_tdiv _ _ h0 hB
  · rw [Int.tdiv_eq_ediv h0 hB.le]
    exact Int.ediv_nonneg h0 hB.le

/-- The segment that holds the tick counts the whole bars from its start to the tick. -/
theorem segmentBars_head_holding (c : MeterChange) (rest : List MeterChange) (t : Int)
    (hin : InSegment (c :: rest) t 0) (hB : 0 < ticksPerBar c.signature) :
    segmentBars (c :: rest) t 0 = (t - c.atTick).tdiv (ticksPerBar c.signature) ∧
    0 ≤ (t - c.atTick).tdiv (ticksPerBar c.signature) ∧ c.atTick ≤ t ∧ t < rangeEndOf t rest := by
  obtain ⟨_, hstart, hend⟩ := hin
  have hstart' : c.atTick ≤ t := by simpa [segmentStart] using hstart
  have h0 : 0 ≤ t - c.atTick := by omega
  refine ⟨?_, ?_, hstart', ?_⟩
  · cases rest with
    | nil =>
      simp only [segmentBars, segmentEnd, segmentStart, segmentSignature, List.get?_cons_succ,
        List.get?_nil, Option.map_none', List.getD_cons_zero]
      exact floor_div_eq_tdiv _ _ h0 hB
    | cons next more =>
      have hlt : t < next.atTick := hend next.atTick (by simp [segmentEnd])
      simp only [segmentBars, segmentEnd, segmentStart, segmentSignature, List.get?_cons_succ,
        List.get?_cons_zero, Option.map_some', List.getD_cons_zero, min_eq_right hlt.le]
      exact floor_div_eq_tdiv _ _ h0 hB
  · rw [Int.tdiv_eq_ediv h0 hB.le]
    exact Int.ediv_nonneg h0 hB.le
  · cases rest with
    | nil => simp [rangeEndOf]
    | cons next more => exact hend next.atTick (by simp [segmentEnd])

/-- Facts about the step from segment `i + 1` of `c :: next :: more` to segment `i` of
`next :: more` in a sorted map. -/
theorem inSegment_tail (c next : MeterChange) (more : List MeterChange) (t : Int) (i : Nat)
    (hs : (c :: next :: more).Pairwise (fun a b => a.atTick ≤ b.atTick))
    (hin : InSegment (c :: next :: more) t (i + 1)) :
    InSegment (next :: more) t i ∧ c.atTick ≤ next.atTick ∧ next.atTick ≤ t := by
  rw [List.pairwise_cons] at hs
  obtain ⟨hi, hstart, hend⟩ := hin
  have hi' : i < (next :: more).length := by simpa using hi
  have hin' : InSegment (next :: more) t i := by
    refine ⟨hi', ?_, ?_⟩
    · simpa [segmentStart] using hstart
    · intro e he
      exact hend e (by simpa [segmentEnd] using he)
  refine ⟨hin', hs.1 next (List.mem_cons_self _ _), ?_⟩
  have htarget : ((next :: more).getD i {}).atTick ≤ t := hin'.2.1
  have hmem : (next :: more).getD i {} ∈ next :: more := by
    rw [List.getD_eq_getElem _ _ hi']
    exact List.getElem_mem _
  have hsorted := hs.2
  rw [List.pairwise_cons] at hsorted
  rcases List.mem_cons.mp hmem with h | h
  · rw [h] at htarget
    exact htarget
  · have := hsorted.1 _ h
    omega

theorem barsUpTo_nonneg (t : Int) :
    ∀ (l : List MeterChange) (i : Nat), l.Pairwise (fun a b => a.atTick ≤ b.atTick) →
      InSegment l t i → (∀ j, j ≤ i → 0 < ticksPerBar (segmentSignature l j)) →
      0 ≤ barsUpTo l t i := by
  intro l
  induction l with
  | nil => intro i _ h; exact absurd h.1 (by simp)
  | cons c rest ih =>
    intro i hs hin hB
    have hBc : 0 < ticksPerBar c.signature := by
      simpa [segmentSignature] using hB 0 (Nat.zero_le _)
    cases i with
    | zero =>
      rw [barsUpTo_zero, (segmentBars_head_holding c rest t hin hBc).1]
      exact (segmentBars_head_holding c rest t hin hBc).2.1
    | succ i' =>
      cases rest with
      | nil => exact absurd hin.1 (by simp)
      | cons next more =>
        obtain ⟨hin', hle, hnext⟩ := inSegment_tail c next more t i' hs hin
        have hfull := segmentBars_head_full c next more t hle hnext hBc
        rw [barsUpTo_cons_succ, hfull.1]
        have := ih i' (List.pairwise_cons.mp hs).2 hin'
          (fun j hj => by simpa [segmentSignature] using hB (j + 1) (by omega))
        omega

/-- The walk of `getBarIndexAt` over a sorted list adds up the whole bars of the segments up
to the one that holds the tick, as long as the count stays within `int`. -/
theorem barIndexWalk_segment (t : Int) :
    ∀ (l : List MeterChange) (i : Nat) (acc : Int),
      l.Pairwise (fun a b => a.atTick ≤ b.atTick) → InSegment l t i →
      (∀ j, j ≤ i → 0 < ticksPerBar (segmentSignature l j)) → 0 ≤ acc →
      acc + barsUpTo l t i < 2 ^ 31 →
      barIndexWalk t l acc = acc + barsUpTo l t i := by
  intro l
  induction l with
  | nil => intro i _ _ h; exact absurd h.1 (by simp)
  | cons c rest ih =>
    intro i acc hs hin hB hacc hfit
    have hBc : 0 < ticksPerBar c.signature := by
      simpa [segmentSignature] using hB 0 (Nat.zero_le _)
    cases i with
    | zero =>
      obtain ⟨hseg, hq0, hstart, hre⟩ := segmentBars_head_holding c rest t hin hBc
      rw [barsUpTo_zero, hseg] at hfit ⊢
      rw [barIndexWalk]
      simp only
      rw [if_neg (by omega), if_pos hre, if_pos hre,
        wrapInt32_of_fits _ hq0 (by omega), wrapInt32_of_fits _ (by omega) hfit]
    | succ i' =>
      cases rest with
      | nil => exact absurd hin.1 (by simp)
      | cons next more =>
        obtain ⟨hin', hle, hnext⟩ := inSegment_tail c next more t i' hs hin
        obtain ⟨hseg, hq0⟩ := segmentBars_head_full c next more t hle hnext hBc
        have hB' : ∀ j, j ≤ i' → 0 < ticksPerBar (segmentSignature (next :: more) j) :=
          fun j hj => by simpa [segmentSignature] using hB (j + 1) (by omega)
        have hnn := barsUpTo_nonneg t (next :: more) i' (List.pairwise_cons.mp hs).2 hin' hB'
        rw [barsUpTo_cons_succ, hseg] at hfit ⊢
        rw [barIndexWalk]
        simp only [rangeEndOf]
        rw [if_neg (by omega), if_neg (by omega), if_neg (by omega),
          wrapInt32_of_fits _ hq0 (by omega), wrapInt32_of_fits _ (by omega) (by omega),
          ih i' _ (List.pairwise_cons.mp hs).2 hin' hB' (by omega) (by omega)]
        omega


/-- The floor of `5 / -3840` is -1. -/
theorem floor_five_over_neg_bar : ⌊(((5 - 0 : Int) : Int) : ℚ) / (((-3840 : Int) : Int) : ℚ)⌋ = -1 := by
  rw [Int.floor_eq_iff]
  norm_num

/-! ## Tempo and meter lookup: claims -/

/-- C21. Tempo/meter lookup: in a map with sorted entries, whenever some entry lies at or
before the tick `t`, `getBpmAt t` (resp. `getSignatureAt t`) returns the value of an entry
with the greatest `atTick ≤ t`; when the ticks are strictly ascending it is the value of
every entry that has the greatest `atTick ≤ t`, so of the one such entry; and a map with no
entries returns the fallback default (120 BPM, resp. 4/4). -/
theorem tempo_meter_lookup :
    (∀ (m : TempoMap) (t : Int), m.Sorted → (∃ c ∈ m.changes_, c.atTick ≤ t) →
      ∃ c ∈ m.changes_, c.atTick ≤ t ∧
        (∀ d ∈ m.changes_, d.atTick ≤ t → d.atTick ≤ c.atTick) ∧ m.getBpmAt t = c.bpm) ∧
    (∀ (m : TempoMap) (t : Int) (c : TempoChange), m.StrictlyAscending → c ∈ m.changes_ →
      c.atTick ≤ t → (∀ d ∈ m.changes_, d.atTick ≤ t → d.atTick ≤ c.atTick) →
      m.getBpmAt t = c.bpm) ∧
    (∀ (m : TempoMap) (t : Int), m.changes_ = [] → m.getBpmAt t = 120) ∧
    (∀ (m : MeterMap) (t : Int), m.Sorted → (∃ c ∈ m.changes_, c.atTick ≤ t) →
      ∃ c ∈ m.changes_, c.atTick ≤ t ∧
        (∀ d ∈ m.changes_, d.atTick ≤ t → d.atTick ≤ c.atTick) ∧
        m.getSignatureAt t = c.signature) ∧
    (∀ (m : MeterMap) (t : Int) (c : MeterChange), m.StrictlyAscending → c ∈ m.changes_ →
      c.atTick ≤ t → (∀ d ∈ m.changes_, d.atTick ≤ t → d.atTick ≤ c.atTick) →
      m.getSignatureAt t = c.signature) ∧
    (∀ (m : MeterMap) (t : Int), m.changes_ = [] →
      m.getSignatureAt t = { numerator := 4, denominator := 4 }) := by
  refine ⟨getBpmAt_sorted, ?_, ?_, getSignatureAt_sorted, ?_, ?_⟩
  · intro m t c hasc hc hct hmax
    obtain ⟨c', hc', hct', hmax', hval⟩ :=
      getBpmAt_sorted m t (hasc.imp (fun h => le_of_lt h)) ⟨c, hc, hct⟩
    have hk : c.atTick = c'.atTick := le_antisymm (hmax' c hc hct) (hmax c' hc' hct')
    rw [hval, eq_of_atTick_eq (fun x : TempoChange => x.atTick) m.changes_ hasc c c' hc hc' hk]
  · intro m t hm
    unfold TempoMap.getBpmAt
    rw [hm]
  · intro m t c hasc hc hct hmax
    obtain ⟨c', hc', hct', hmax', hval⟩ :=
      getSignatureAt_sorted m t (hasc.imp (fun h => le_of_lt h)) ⟨c, hc, hct⟩
    have hk : c.atTick = c'.atTick := le_antisymm (hmax' c hc hct) (hmax c' hc' hct')
    rw [hval, eq_of_atTick_eq (fun x : MeterChange => x.atTick) m.changes_ hasc c c' hc hc' hk]
  · intro m t hm
    unfold MeterMap.getSignatureAt
    rw [hm]

/-- At tick 1000 the three-entry tempo map answers with the change made at tick 960, and at
tick 8000 the three-entry meter map answers with the change made at tick 7680. -/
theorem tempo_meter_lookup_witness :
    threeTempoMap.StrictlyAscending ∧ threeTempoMap.getBpmAt 1000 = 90 ∧
    threeMeterMap.StrictlyAscending ∧ threeMeterMap.getSignatureAt 8000 = sig_3_4 :=
  have ht : threeTempoMap.StrictlyAscending := by
    unfold TempoMap.StrictlyAscending threeTempoMap
    decide
  have hm : threeMeterMap.StrictlyAscending := by
    unfold MeterMap.StrictlyAscending threeMeterMap
    decide
  ⟨ht,
    tempo_meter_lookup.2.1 threeTempoMap 1000 { atTick := 960, bpm := 90 } ht
      (List.mem_cons_of_mem _ (List.mem_cons_self _ _)) (by decide)
      (by
        intro d hd hdt
        simp only [threeTempoMap, List.mem_cons, List.mem_singleton, List.not_mem_nil,
          or_false] at hd
        rcases hd with rfl | rfl | rfl
        · decide
        · decide
        · exact absurd hdt (by decide)),
    hm,
    tempo_meter_lookup.2.2.2.2.1 threeMeterMap 8000 { atTick := 7680, signature := sig_3_4 } hm
      (List.mem_cons_of_mem _ (List.mem_cons_self _ _)) (by decide)
      (by
        intro d hd hdt
        simp only [threeMeterMap, List.mem_cons, List.mem_singleton, List.not_mem_nil,
          or_false] at hd
        rcases hd with rfl | rfl | rfl
        · decide
        · decide
        · exact absurd hdt (by decide))⟩

/-- C22, as stated, fails: a freshly constructed tempo map holds its entry at tick 0, but
after `clear()` the map is empty, and after `removeChangeAt(0)` the entry at tick 0 is gone
(here a change at tick 960 is all that is left); the same holds for the meter map. -/
theorem origin_entry_counterexample :
    ({} : TempoMap).changes_ = [{ atTick := 0, bpm := 120 }] ∧
    ([TempoOp.clear].foldl TempoMap.apply {}).changes_ = [] ∧
    ([TempoOp.addChange 960 90, TempoOp.removeChangeAt 0].foldl TempoMap.apply {}).changes_
      = [{ atTick := 960, bpm := 90 }] ∧
    (¬ ∃ c ∈ ([TempoOp.addChange 960 90, TempoOp.removeChangeAt 0].foldl
        TempoMap.apply {}).changes_, c.atTick = 0) ∧
    ({} : MeterMap).changes_ = [{ atTick := 0, signature := { numerator := 4, denominator := 4 } }] ∧
    ([MeterOp.clear].foldl MeterMap.apply {}).changes_ = [] ∧
    ([MeterOp.addChange 3840 sig_3_4, MeterOp.removeChangeAt 0].foldl MeterMap.apply {}).changes_
      = [{ atTick := 3840, signature := sig_3_4 }] ∧
    (¬ ∃ c ∈ ([MeterOp.addChange 3840 sig_3_4, MeterOp.removeChangeAt 0].foldl
        MeterMap.apply {}).changes_, c.atTick = 0) := by
  have h1 : ([TempoOp.addChange 960 90, TempoOp.removeChangeAt 0].foldl TempoMap.apply {}).changes_
      = [{ atTick := 960, bpm := 90 }] := by rfl
  have h2 : ([MeterOp.addChange 3840 sig_3_4, MeterOp.removeChangeAt 0].foldl MeterMap.apply {}).changes_
      = [{ atTick := 3840, signature := sig_3_4 }] := by rfl
  refine ⟨rfl, rfl, h1, ?_, rfl, rfl, h2, ?_⟩
  · rw [h1]
    rintro ⟨c, hc, hc0⟩
    rw [List.mem_singleton] at hc
    rw [hc] at hc0
    exact absurd hc0 (by decide)
  · rw [h2]
    rintro ⟨c, hc, hc0⟩
    rw [List.mem_singleton] at hc
    rw [hc] at hc0
    exact absurd hc0 (by decide)

/-- C22, amended. A tempo map (and analogously a meter map) contains an entry at tick 0 after
construction (120 BPM, resp. 4/4, or the value passed to the constructor) and after every
sequence of `addChange`, `setConstantTempo`/`setConstantMeter` and `removeChangeAt(tick)` calls
with `tick ≠ 0`; `clear` and `removeChangeAt(0)` are the calls that remove it. -/
theorem origin_entry_kept (initialBpm : ℚ) (initialSignature : TimeSignature)
    (tempoOps : List TempoOp) (meterOps : List MeterOp)
    (htempo : ∀ op ∈ tempoOps, op.KeepsOrigin = true)
    (hmeter : ∀ op ∈ meterOps, op.KeepsOrigin = true) :
    ({} : TempoMap) = TempoMap.withBpm 120 ∧
    ({} : MeterMap) = MeterMap.withSignature { numerator := 4, denominator := 4 } ∧
    (∃ c ∈ (tempoOps.foldl TempoMap.apply (TempoMap.withBpm initialBpm)).changes_, c.atTick = 0) ∧
    (∃ c ∈ (meterOps.foldl MeterMap.apply (MeterMap.withSignature initialSignature)).changes_,
      c.atTick = 0) :=
  ⟨rfl, rfl,
    tempo_foldl_keeps_origin tempoOps _ htempo
      ⟨{ atTick := 0, bpm := initialBpm }, List.mem_singleton.mpr rfl, rfl⟩,
    meter_foldl_keeps_origin meterOps _ hmeter
      ⟨{ atTick := 0, signature := initialSignature }, List.mem_singleton.mpr rfl, rfl⟩⟩

/-- Adding a change at tick 960, removing it and replacing the change at tick 0 keeps an entry
at tick 0. -/
theorem origin_entry_kept_witness :
    (∀ op ∈ [TempoOp.addChange 960 90, TempoOp.removeChangeAt 960, TempoOp.addChange 0 100],
      op.KeepsOrigin = true) ∧
    (∀ op ∈ [MeterOp.addChange 3840 sig_3_4, MeterOp.setConstantMeter sig_6_8],
      op.KeepsOrigin = true) ∧
    (∃ c ∈ ([TempoOp.addChange 960 90, TempoOp.removeChangeAt 960, TempoOp.addChange 0 100].foldl
        TempoMap.apply (TempoMap.withBpm 120)).changes_, c.atTick = 0) ∧
    (∃ c ∈ ([MeterOp.addChange 3840 sig_3_4, MeterOp.setConstantMeter sig_6_8].foldl
        MeterMap.apply (MeterMap.withSignature sig_4_4)).changes_, c.atTick = 0) :=
  have h1 : ∀ op ∈ [TempoOp.addChange 960 90, TempoOp.removeChangeAt 960, TempoOp.addChange 0 100],
      op.KeepsOrigin = true := by
    intro op hop
    simp only [List.mem_cons, List.mem_singleton, List.not_mem_nil, or_false] at hop
    rcases hop with rfl | rfl | rfl <;> rfl
  have h2 : ∀ op ∈ [MeterOp.addChange 3840 sig_3_4, MeterOp.setConstantMeter sig_6_8],
      op.KeepsOrigin = true := by
    intro op hop
    simp only [List.mem_cons, List.mem_singleton, List.not_mem_nil, or_false] at hop
    rcases hop with rfl | rfl <;> rfl
  ⟨h1, h2, (origin_entry_kept 120 sig_4_4 _ _ h1 h2).2.2.1,
    (origin_entry_kept 120 sig_4_4 _ _ h1 h2).2.2.2⟩


/-- C23, as stated, fails for a signature with a negative bar length: in the map with the
single entry -1/1 at tick 0 the tick 5 lies in the only segment, the source returns
`0 + (5 / -3840) * -3840 = 0` with the truncating quotient, and the stated formula gives
`0 + ⌊5 / -3840⌋ * -3840 = 3840`. -/
theorem bar_start_in_segment_counterexample :
    negativeBarMap.Sorted ∧ InSegment negativeBarMap.changes_ 5 0 ∧
    ticksPerBar (segmentSignature negativeBarMap.changes_ 0) = -3840 ∧
    negativeBarMap.getBarStartAt 5 = 0 ∧
    segmentStart negativeBarMap.changes_ 0
        + ⌊(((5 - segmentStart negativeBarMap.changes_ 0 : Int) : ℚ))
            / ((ticksPerBar (segmentSignature negativeBarMap.changes_ 0) : Int) : ℚ)⌋
          * ticksPerBar (segmentSignature negativeBarMap.changes_ 0) = 3840 := by
  have hB : ticksPerBar (segmentSignature negativeBarMap.changes_ 0) = -3840 := by decide
  have hS : segmentStart negativeBarMap.changes_ 0 = 0 := by decide
  refine ⟨by simp [MeterMap.Sorted, negativeBarMap], ⟨by decide, by decide, ?_⟩, hB, by decide, ?_⟩
  · intro e he
    simp [segmentEnd, negativeBarMap] at he
  · rw [hB, hS, floor_five_over_neg_bar]
    decide

/-- C23, amended. `MeterMap.getBarStartAt`: for every meter map with sorted entries and every
tick `t` lying in the meter segment `[rangeStart, rangeEnd)` with signature `sig` (segment
`i`, the last segment having no end) whose bar length `ticksPerBar sig` is positive,
`getBarStartAt t = rangeStart + ⌊(t - rangeStart) / ticksPerBar sig⌋ * ticksPerBar sig`. -/
theorem bar_start_in_segment (m : MeterMap) (t : Int) (i : Nat) (hs : m.Sorted)
    (hin : InSegment m.changes_ t i)
    (hB : 0 < ticksPerBar (segmentSignature m.changes_ i)) :
    m.getBarStartAt t
      = segmentStart m.changes_ i
        + ⌊(((t - segmentStart m.changes_ i : Int) : ℚ))
            / ((ticksPerBar (segmentSignature m.changes_ i) : Int) : ℚ)⌋
          * ticksPerBar (segmentSignature m.changes_ i) := by
  rw [floor_div_eq_tdiv _ _ (by have := hin.2.1; omega) hB]
  unfold MeterMap.getBarStartAt
  unfold MeterMap.Sorted at hs
  cases hm : m.changes_ with
  | nil => rw [hm] at hin; exact absurd hin.1 (by simp)
  | cons first rest =>
    rw [hm] at hs hin
    exact barStartWalk_segment t _ (first :: rest) i hs hin

/-- Tick 11000 lies in the 3/4 segment that starts at tick 7680; its bar starts at 10560. -/
theorem bar_start_in_segment_witness :
    threeMeterMap.Sorted ∧ InSegment threeMeterMap.changes_ 11000 1 ∧
    segmentStart threeMeterMap.changes_ 1 = 7680 ∧
    ticksPerBar (segmentSignature threeMeterMap.changes_ 1) = 2880 ∧
    threeMeterMap.getBarStartAt 11000 = 10560 ∧
    threeMeterMap.getBarStartAt 11000
      = segmentStart threeMeterMap.changes_ 1
        + ⌊(((11000 - segmentStart threeMeterMap.changes_ 1 : Int) : ℚ))
            / ((ticksPerBar (segmentSignature threeMeterMap.changes_ 1) : Int) : ℚ)⌋
          * ticksPerBar (segmentSignature threeMeterMap.changes_ 1) :=
  have hs : threeMeterMap.Sorted := by
    unfold MeterMap.Sorted threeMeterMap
    decide
  have hin : InSegment threeMeterMap.changes_ 11000 1 :=
    ⟨by decide, by decide, fun e he => by
      have : e = 13440 := by
        simpa [segmentEnd, threeMeterMap] using he.symm
      omega⟩
  ⟨hs, hin, by decide, by decide, by decide,
    bar_start_in_segment threeMeterMap 11000 1 hs hin (by decide)⟩

/-- C24, as stated, fails in three ways.  A map emptied by `clear()` has no segment, so the
stated sum is empty, yet `getBarIndexAt 7680` is 2 under the 4/4 fallback.  With the bar
length -3840 the source adds the truncated quotient `5 / -3840 = 0` where the stated term is
`⌊5 / -3840⌋ = -1`.  And with a bar length of one tick the `int` result at tick `2^31` is
`-2^31`, where the stated sum is `2^31`. -/
theorem bar_index_sums_segments_counterexample :
    (({} : MeterMap).clear.changes_ = [] ∧ ({} : MeterMap).clear.Sorted ∧
      (∀ i, ¬ InSegment ({} : MeterMap).clear.changes_ 7680 i) ∧
      ({} : MeterMap).clear.getBarIndexAt 7680 = 2) ∧
    (negativeBarMap.Sorted ∧ InSegment negativeBarMap.changes_ 5 0 ∧
      negativeBarMap.getBarIndexAt 5 = 0 ∧
      ((List.range (0 + 1)).map (segmentBars negativeBarMap.changes_ 5)).sum = -1) ∧
    (oneTickBarMap.Sorted ∧ InSegment oneTickBarMap.changes_ (2 ^ 31) 0 ∧
      ticksPerBar (segmentSignature oneTickBarMap.changes_ 0) = 1 ∧
      oneTickBarMap.getBarIndexAt (2 ^ 31) = -2 ^ 31 ∧
      ((List.range (0 + 1)).map (segmentBars oneTickBarMap.changes_ (2 ^ 31))).sum = 2 ^ 31) := by
  refine ⟨⟨rfl, by simp [MeterMap.Sorted, MeterMap.clear], ?_, by decide⟩,
    ⟨by simp [MeterMap.Sorted, negativeBarMap], ⟨by decide, by decide, ?_⟩, by decide, ?_⟩,
    ⟨by simp [MeterMap.Sorted, oneTickBarMap], ⟨by decide, by decide, ?_⟩, by decide, by decide,
      ?_⟩⟩
  · intro i h
    exact absurd h.1 (by simp [MeterMap.clear])
  · intro e he
    simp [segmentEnd, negativeBarMap] at he
  · have h : segmentBars negativeBarMap.changes_ 5 0 = -1 := by
      have hB : ticksPerBar (segmentSignature negativeBarMap.changes_ 0) = -3840 := by decide
      have hS : segmentStart negativeBarMap.changes_ 0 = 0 := by decide
      have hE : segmentEnd negativeBarMap.changes_ 0 = none := by decide
      unfold segmentBars
      rw [hB, hS, hE]
      exact floor_five_over_neg_bar
    have hr : List.range (0 + 1) = [0] := rfl
    rw [hr, List.map_cons, List.map_nil, List.sum_cons, List.sum_nil, h]
    rfl
  · intro e he
    simp [segmentEnd, oneTickBarMap] at he
  · have h : segmentBars oneTickBarMap.changes_ (2 ^ 31) 0 = 2 ^ 31 := by
      have hB : ticksPerBar (segmentSignature oneTickBarMap.changes_ 0) = 1 := by decide
      have hS : segmentStart oneTickBarMap.changes_ 0 = 0 := by decide
      have hE : segmentEnd oneTickBarMap.changes_ 0 = none := by decide
      unfold segmentBars
      rw [hB, hS, hE]
      simp only [sub_zero, Int.cast_one, div_one]
      exact Int.floor_intCast _
    have hr : List.range (0 + 1) = [0] := rfl
    rw [hr, List.map_cons, List.map_nil, List.sum_cons, List.sum_nil, h]
    rfl

/-- C24, amended. `MeterMap.getBarIndexAt`: for every meter map with sorted entries and every
tick `t` lying in meter segment `i`, when the bar lengths of the segments up to `i` are
positive and the total fits the `int` result, `getBarIndexAt t` is the sum over the segments
`[rangeStart, rangeEnd)` with index `0, ..., i` (those preceding and including the one that
contains `t`) of `⌊(min(rangeEnd, t) - rangeStart) / ticksPerBar sig⌋`; when `t` lies before
the first entry, so that no segment contains it, the result is 0; and a map without entries
answers with the 4/4 fallback `t / 3840`, narrowed to `int`. -/
theorem bar_index_sums_segments (m : MeterMap) (t : Int) (i : Nat) (hs : m.Sorted)
    (hin : InSegment m.changes_ t i)
    (hB : ∀ j, j ≤ i → 0 < ticksPerBar (segmentSignature m.changes_ j))
    (hfit : barsUpTo m.changes_ t i < 2 ^ 31) :
    m.getBarIndexAt t = ((List.range (i + 1)).map (segmentBars m.changes_ t)).sum ∧
    (∀ (m' : MeterMap) (first : MeterChange) (rest : List MeterChange),
      m'.changes_ = first :: rest → t < first.atTick → m'.getBarIndexAt t = 0) ∧
    (∀ m' : MeterMap, m'.changes_ = [] → m'.getBarIndexAt t = wrapInt32 (t.tdiv 3840)) := by
  refine ⟨?_, ?_, ?_⟩
  · unfold MeterMap.getBarIndexAt
    unfold MeterMap.Sorted at hs
    cases hm : m.changes_ with
    | nil => rw [hm] at hin; exact absurd hin.1 (by simp)
    | cons first rest =>
      rw [hm] at hs hin hB hfit
      have h := barIndexWalk_segment t (first :: rest) i 0 hs hin hB (le_refl _) (by omega)
      simp only
      rw [h, Int.zero_add]
      rfl
  · intro m' first rest hm hlt
    unfold MeterMap.getBarIndexAt
    rw [hm]
    simp only
    rw [barIndexWalk, if_pos hlt]
  · intro m' hm
    unfold MeterMap.getBarIndexAt
    rw [hm]
    rfl

/-- Tick 11000 in the three-segment meter map: two 4/4 bars fit the first segment
`[0, 7680)` and one 3/4 bar has elapsed in the second, so the bar index is 3. -/
theorem bar_index_sums_segments_witness :
    threeMeterMap.Sorted ∧ InSegment threeMeterMap.changes_ 11000 1 ∧
    segmentBars threeMeterMap.changes_ 11000 0 = 2 ∧
    segmentBars threeMeterMap.changes_ 11000 1 = 1 ∧
    threeMeterMap.getBarIndexAt 11000 = 3 ∧
    threeMeterMap.getBarIndexAt 11000
      = ((List.range (1 + 1)).map (segmentBars threeMeterMap.changes_ 11000)).sum :=
  have hs : threeMeterMap.Sorted := by
    unfold MeterMap.Sorted threeMeterMap
    decide
  have hin : InSegment threeMeterMap.changes_ 11000 1 :=
    ⟨by decide, by decide, fun e he => by
      have : e = 13440 := by
        simpa [segmentEnd, threeMeterMap] using he.symm
      omega⟩
  have h0 : segmentBars threeMeterMap.changes_ 11000 0 = 2 := by with_unfolding_all rfl
  have h1 : segmentBars threeMeterMap.changes_ 11000 1 = 1 := by with_unfolding_all rfl
  have hB : ∀ j, j ≤ 1 → 0 < ticksPerBar (segmentSignature threeMeterMap.changes_ j) := by
    intro j hj
    interval_cases j <;> decide
  have hsum : barsUpTo threeMeterMap.changes_ 11000 1 = 3 := by with_unfolding_all rfl
  ⟨hs, hin, h0, h1, by decide,
    (bar_index_sums_segments threeMeterMap 11000 1 hs hin hB (by rw [hsum]; decide)).1⟩


theorem addNote_perm (p : Pattern) (note : StepNote) :
    (p.addNote note).notes.Perm (p.notes ++ [note]) :=
  List.perm_insertionSort noteLe _

theorem addNote_sorted (p : Pattern) (note : StepNote) :
    (p.addNote note).notes.Pairwise (fun a b => a.offsetTick ≤ b.offsetTick) :=
  List.sorted_insertionSort noteLe _

/-- After a run of `addNote` calls the notes are a permutation of the old notes followed by
the added ones, and they are sorted if they were sorted before or a note was added. -/
theorem addNotes_spec (added : List StepNote) :
    ∀ p : Pattern, (p.addNotes added).notes.Perm (p.notes ++ added) ∧
      (p.notes.Pairwise (fun a b => a.offsetTick ≤ b.offsetTick) ∨ added ≠ [] →
        (p.addNotes added).notes.Pairwise (fun a b => a.offsetTick ≤ b.offsetTick)) ∧
      (p.addNotes added).id = p.id ∧ (p.addNotes added).lengthTicks = p.lengthTicks := by
  induction added with
  | nil =>
    intro p
    refine ⟨by simp [Pattern.addNotes], ?_, rfl, rfl⟩
    rintro (h | h)
    · exact h
    · exact absurd rfl h
  | cons note rest ih =>
    intro p
    obtain ⟨hperm, hsorted, hid, hlen⟩ := ih (p.addNote note)
    have hunfold : p.addNotes (note :: rest) = (p.addNote note).addNotes rest := rfl
    rw [hunfold]
    refine ⟨?_, fun _ => hsorted (Or.inl (addNote_sorted p note)), hid, hlen⟩
    refine hperm.trans ?_
    have := (addNote_perm p note).append_right rest
    simpa using this


theorem getPattern_removePattern_self (lib : PatternLibrary) (id : String) :
    (lib.removePattern id).getPattern id = none := by
  unfold PatternLibrary.getPattern PatternLibrary.removePattern
  rw [List.find?_eq_none]
  intro p hp
  simp only [List.mem_filter, Bool.not_eq_true', beq_eq_false_iff_ne] at hp
  simpa using hp.2

theorem getPattern_removePattern_other (lib : PatternLibrary) (id other : String)
    (h : other ≠ id) : (lib.removePattern id).getPattern other = lib.getPattern other := by
  unfold PatternLibrary.getPattern PatternLibrary.removePattern
  simp only
  rw [List.find?_filter]
  congr 1
  funext p
  by_cases ho : p.id = other
  · have hne : p.id ≠ id := by rw [ho]; exact h
    simp [ho, hne, h]
  · simp [ho]

theorem getPattern_addPattern_self (lib : PatternLibrary) (p : Pattern) :
    (lib.addPattern p).getPattern p.id = some p := by
  have h := getPattern_removePattern_self lib p.id
  unfold PatternLibrary.getPattern at h ⊢
  unfold PatternLibrary.addPattern
  simp only [List.find?_append, h]
  simp

theorem getPattern_addPattern_other (lib : PatternLibrary) (p : Pattern) (other : String)
    (h : other ≠ p.id) : (lib.addPattern p).getPattern other = lib.getPattern other := by
  have h' := getPattern_removePattern_other lib p.id other h
  unfold PatternLibrary.getPattern at h' ⊢
  unfold PatternLibrary.addPattern
  simp only [List.find?_append, h']
  have : (p.id == other) = false := by simpa using fun e => h e.symm
  simp [List.find?_cons, this]

theorem removePattern_nodup (lib : PatternLibrary) (id : String)
    (h : (lib.patterns.map Pattern.id).Nodup) :
    ((lib.removePattern id).patterns.map Pattern.id).Nodup :=
  (List.Sublist.map Pattern.id (List.filter_sublist lib.patterns)).nodup h

theorem addPattern_nodup (lib : PatternLibrary) (p : Pattern)
    (h : (lib.patterns.map Pattern.id).Nodup) :
    ((lib.addPattern p).patterns.map Pattern.id).Nodup := by
  unfold PatternLibrary.addPattern
  rw [List.map_append, List.nodup_append]
  refine ⟨removePattern_nodup lib p.id h, by simp, ?_⟩
  intro a ha hb
  simp only [List.map_cons, List.map_nil, List.mem_singleton] at hb
  simp only [PatternLibrary.removePattern, List.mem_map, List.mem_filter, Bool.not_eq_true',
    beq_eq_false_iff_ne] at ha
  obtain ⟨q, ⟨_, hq⟩, rfl⟩ := ha
  exact hq hb

theorem library_foldl_nodup (ops : List LibraryOp) :
    ∀ lib : PatternLibrary, (lib.patterns.map Pattern.id).Nodup →
      ((ops.foldl PatternLibrary.apply lib).patterns.map Pattern.id).Nodup := by
  induction ops with
  | nil => intro lib h; exact h
  | cons op rest ih =>
    intro lib h
    apply ih
    cases op with
    | addPattern p => exact addPattern_nodup lib p h
    | removePattern id => exact removePattern_nodup lib id h

theorem addPattern_others (lib : PatternLibrary) (p : Pattern) :
    (lib.addPattern p).patterns.filter (fun q => !(q.id == p.id))
      = lib.patterns.filter (fun q => !(q.id == p.id)) := by
  unfold PatternLibrary.addPattern PatternLibrary.removePattern
  simp [List.filter_append, List.filter_filter]


theorem addRegion_perm (t : Track) (r : Region) : (t.addRegion r).regions.Perm (t.regions ++ [r]) :=
  List.perm_insertionSort regionLe _

theorem addRegion_sorted (t : Track) (r : Region) :
    (t.addRegion r).regions.Pairwise (fun a b => a.startTick ≤ b.startTick) :=
  List.sorted_insertionSort regionLe _

theorem track_apply_sorted (t : Track) (op : TrackOp)
    (h : t.regions.Pairwise (fun a b => a.startTick ≤ b.startTick)) :
    (t.apply op).regions.Pairwise (fun a b => a.startTick ≤ b.startTick) := by
  cases op with
  | addRegion r => exact addRegion_sorted t r
  | removeRegion id => exact List.Pairwise.sublist (List.filter_sublist _) h

theorem track_foldl_sorted (ops : List TrackOp) :
    ∀ t : Track, t.regions.Pairwise (fun a b => a.startTick ≤ b.startTick) →
      (ops.foldl Track.apply t).regions.Pairwise (fun a b => a.startTick ≤ b.startTick) := by
  induction ops with
  | nil => intro t h; exact h
  | cons op rest ih => intro t h; exact ih _ (track_apply_sorted t op h)

/-- After a run of calls the track holds its old regions that no call removed, and the
regions the run added and did not remove later. -/
theorem track_foldl_perm (ops : List TrackOp) :
    ∀ t : Track, (ops.foldl Track.apply t).regions.Perm
      (t.regions.filter (fun r => !ops.any (fun op => decide (op = TrackOp.removeRegion r.id)))
        ++ survivingRegions ops) := by
  induction ops with
  | nil => intro t; simp [survivingRegions]
  | cons op rest ih =>
    intro t
    rw [List.foldl_cons]
    refine (ih (t.apply op)).trans ?_
    cases op with
    | addRegion r =>
      have hp := ((addRegion_perm t r).filter
        (fun x => !rest.any (fun op => decide (op = TrackOp.removeRegion x.id)))).append_right
        (survivingRegions rest)
      refine hp.trans ?_
      rw [List.filter_append, List.append_assoc]
      have hf : ∀ x : Region,
          (TrackOp.addRegion r :: rest).any (fun op => decide (op = TrackOp.removeRegion x.id))
            = rest.any (fun op => decide (op = TrackOp.removeRegion x.id)) := by
        intro x
        simp [List.any_cons]
      simp only [hf, survivingRegions]
      apply List.Perm.append_left
      by_cases hany : rest.any (fun op => decide (op = TrackOp.removeRegion r.id)) = true
      · simp [List.filter_cons, hany]
      · simp [List.filter_cons, hany]
    | removeRegion id =>
      have hf : ∀ x : Region,
          (!(TrackOp.removeRegion id :: rest).any (fun op => decide (op = TrackOp.removeRegion x.id)))
            = ((!(x.id == id)) && !rest.any (fun op => decide (op = TrackOp.removeRegion x.id))) := by
        intro x
        by_cases hx : x.id = id
        · simp [List.any_cons, hx]
        · have : ¬ id = x.id := fun e => hx e.symm
          simp [List.any_cons, hx, this]
      simp only [Track.apply, Track.removeRegion, survivingRegions, List.filter_filter, hf]
      apply List.Perm.of_eq
      congr 2
      funext x
      exact Bool.and_comm _ _

theorem wouldOverlap_iff (t : Track) (r : Region) :
    t.wouldOverlap r = true ↔ ∃ x ∈ t.regions, x.overlaps r = true := by
  unfold Track.wouldOverlap
  rw [List.any_eq_true]
  constructor
  · rintro ⟨x, hx, h⟩
    refine ⟨x, hx, ?_⟩
    unfold Region.overlaps at h ⊢
    rw [decide_eq_true_iff] at h ⊢
    exact ⟨h.2, h.1⟩
  · rintro ⟨x, hx, h⟩
    refine ⟨x, hx, ?_⟩
    unfold Region.overlaps at h ⊢
    rw [decide_eq_true_iff] at h ⊢
    exact ⟨h.2, h.1⟩

theorem overlaps_comm (a b : Region) : a.overlaps b = b.overlaps a := by
  unfold Region.overlaps
  rw [decide_eq_decide]
  exact and_comm

/-- A guarded insertion keeps the regions of a track pairwise disjoint. -/
theorem addRegionIfFree_disjoint (t : Track) (r : Region)
    (h : t.regions.Pairwise (fun a b => a.overlaps b = false)) :
    (t.addRegionIfFree r).regions.Pairwise (fun a b => a.overlaps b = false) := by
  unfold Track.addRegionIfFree
  by_cases hw : t.wouldOverlap r = true
  · rw [if_pos hw]; exact h
  · rw [if_neg hw]
    have hsymm : Symmetric (fun a b : Region => a.overlaps b = false) := by
      intro a b hab
      rw [overlaps_comm]
      exact hab
    rw [(addRegion_perm t r).pairwise_iff (fun {a b} hab => hsymm hab), List.pairwise_append]
    refine ⟨h, List.pairwise_singleton _ _, ?_⟩
    intro a ha b hb
    rw [List.mem_singleton] at hb
    subst hb
    by_contra hov
    exact hw ((wouldOverlap_iff t b).mpr ⟨a, ha, by simpa using hov⟩)

theorem addRegionIfFree_foldl_disjoint (rs : List Region) :
    ∀ t : Track, t.regions.Pairwise (fun a b => a.overlaps b = false) →
      (rs.foldl Track.addRegionIfFree t).regions.Pairwise (fun a b => a.overlaps b = false) := by
  induction rs with
  | nil => intro t h; exact h
  | cons r rest ih => intro t h; exact ih _ (addRegionIfFree_disjoint t r h)


theorem addRegionIfFree_foldl_mem (rs : List Region) :
    ∀ (t : Track) (r : Region), r ∈ (rs.foldl Track.addRegionIfFree t).regions →
      r ∈ t.regions ∨ r ∈ rs := by
  induction rs with
  | nil => intro t r h; exact Or.inl h
  | cons x rest ih =>
    intro t r h
    rcases ih (t.addRegionIfFree x) r h with h1 | h1
    · unfold Track.addRegionIfFree at h1
      split at h1
      · exact Or.inl h1
      · rw [(addRegion_perm t x).mem_iff, List.mem_append, List.mem_singleton] at h1
        rcases h1 with h2 | h2
        · exact Or.inl h2
        · exact Or.inr (by rw [h2]; exact List.mem_cons_self _ _)
    · exact Or.inr (List.mem_cons_of_mem _ h1)


/-! ## Patterns, regions and tracks: claims -/

/-- C25. Sorted notes: for every pattern, after any sequence of `addNote` calls (at least
one call, or none on a pattern whose notes are sorted, as they are after construction) the
notes list is non-decreasing in `offsetTick` and holds exactly the notes it held before
together with the added notes (as a multiset, so each as often as it was added); the id and
the length are untouched. -/
theorem sorted_notes (p : Pattern) (added : List StepNote)
    (hsorted : p.notes.Pairwise (fun a b => a.offsetTick ≤ b.offsetTick) ∨ added ≠ []) :
    (p.addNotes added).notes.Pairwise (fun a b => a.offsetTick ≤ b.offsetTick) ∧
    (p.addNotes added).notes.Perm (p.notes ++ added) ∧
    (∀ note : StepNote,
      (p.addNotes added).notes.count note = p.notes.count note + added.count note) ∧
    (p.addNotes added).id = p.id ∧ (p.addNotes added).lengthTicks = p.lengthTicks := by
  obtain ⟨hperm, hs, hid, hlen⟩ := addNotes_spec added p
  refine ⟨hs hsorted, hperm, ?_, hid, hlen⟩
  intro note
  rw [hperm.count_eq, List.count_append]

/-- Adding the kick at 0, the snare at 960 and the hi-hat at 480 to a fresh pattern yields
kick, hi-hat, snare. -/
theorem sorted_notes_witness :
    (({ id := "pat_1", name := "Test", lengthTicks := 3840 } : Pattern).addNotes
        [kickNote, snareNote, hatNote]).notes = [kickNote, hatNote, snareNote] ∧
    (({ id := "pat_1", name := "Test", lengthTicks := 3840 } : Pattern).addNotes
        [kickNote, snareNote, hatNote]).notes.Pairwise (fun a b => a.offsetTick ≤ b.offsetTick) ∧
    (({ id := "pat_1", name := "Test", lengthTicks := 3840 } : Pattern).addNotes
        [kickNote, snareNote, hatNote]).notes.Perm ([] ++ [kickNote, snareNote, hatNote]) :=
  ⟨by rfl,
    (sorted_notes { id := "pat_1", name := "Test", lengthTicks := 3840 }
      [kickNote, snareNote, hatNote] (Or.inl List.Pairwise.nil)).1,
    (sorted_notes { id := "pat_1", name := "Test", lengthTicks := 3840 }
      [kickNote, snareNote, hatNote] (Or.inl List.Pairwise.nil)).2.1⟩


/-- C26. PatternLibrary keeps pattern ids unique: after any sequence of
`addPattern`/`removePattern` calls on an empty library no two stored patterns share an id;
after `addPattern p`, `getPattern p.id` returns `p` (a prior entry with that id is gone), the
lookup of every other id and the stored patterns with other ids are unchanged; after
`removePattern id`, `hasPattern id` is false and the lookup of every other id is unchanged. -/
theorem pattern_ids_unique :
    (∀ ops : List LibraryOp,
      ((ops.foldl PatternLibrary.apply {}).patterns.map Pattern.id).Nodup) ∧
    (∀ (lib : PatternLibrary) (p : Pattern), (lib.addPattern p).getPattern p.id = some p) ∧
    (∀ (lib : PatternLibrary) (p : Pattern) (other : String), other ≠ p.id →
      (lib.addPattern p).getPattern other = lib.getPattern other) ∧
    (∀ (lib : PatternLibrary) (p : Pattern),
      (lib.addPattern p).patterns.filter (fun q => !(q.id == p.id))
        = lib.patterns.filter (fun q => !(q.id == p.id))) ∧
    (∀ (lib : PatternLibrary) (p : Pattern),
      (lib.addPattern p).patterns.filter (fun q => q.id == p.id) = [p]) ∧
    (∀ (lib : PatternLibrary) (id : String), (lib.removePattern id).hasPattern id = false) ∧
    (∀ (lib : PatternLibrary) (id other : String), other ≠ id →
      (lib.removePattern id).getPattern other = lib.getPattern other) := by
  refine ⟨fun ops => library_foldl_nodup ops {} List.nodup_nil, getPattern_addPattern_self,
    getPattern_addPattern_other, addPattern_others, ?_, ?_, getPattern_removePattern_other⟩
  · intro lib p
    unfold PatternLibrary.addPattern PatternLibrary.removePattern
    simp [List.filter_append, List.filter_filter]
  · intro lib id
    unfold PatternLibrary.hasPattern
    rw [getPattern_removePattern_self]
    rfl

/-- The library test: two patterns are added, `pat_1` is replaced by a pattern of the same
id and then removed. -/
theorem pattern_ids_unique_witness :
    (({} : PatternLibrary).addPattern { id := "pat_1", name := "Pattern 1", lengthTicks := 3840 }
      |>.addPattern { id := "pat_2", name := "Pattern 2", lengthTicks := 1920 }
      |>.addPattern { id := "pat_1", name := "Replacement", lengthTicks := 960 }).patterns
      = [{ id := "pat_2", name := "Pattern 2", lengthTicks := 1920 },
         { id := "pat_1", name := "Replacement", lengthTicks := 960 }] ∧
    ((({} : PatternLibrary).addPattern { id := "pat_1", name := "Pattern 1", lengthTicks := 3840 }
      |>.addPattern { id := "pat_2", name := "Pattern 2", lengthTicks := 1920 }).addPattern
        { id := "pat_1", name := "Replacement", lengthTicks := 960 }).getPattern "pat_2"
      = (({} : PatternLibrary).addPattern { id := "pat_1", name := "Pattern 1", lengthTicks := 3840 }
      |>.addPattern { id := "pat_2", name := "Pattern 2", lengthTicks := 1920 }).getPattern "pat_2" ∧
    ((({} : PatternLibrary).addPattern { id := "pat_1", name := "Pattern 1", lengthTicks := 3840 }
      |>.addPattern { id := "pat_2", name := "Pattern 2", lengthTicks := 1920 }).removePattern
        "pat_1").getPattern "pat_2"
      = (({} : PatternLibrary).addPattern { id := "pat_1", name := "Pattern 1", lengthTicks := 3840 }
      |>.addPattern { id := "pat_2", name := "Pattern 2", lengthTicks := 1920 }).getPattern "pat_2" :=
  ⟨by decide,
    pattern_ids_unique.2.2.1 _ { id := "pat_1", name := "Replacement", lengthTicks := 960 }
      "pat_2" (by decide),
    pattern_ids_unique.2.2.2.2.2.2 _ "pat_1" "pat_2" (by decide)⟩

/-- C27. Region overlap is symmetric and excludes adjacency: for all regions `a` and `b`,
`a.overlaps b = b.overlaps a`, `a.overlaps b` is true iff
`a.start < b.end ∧ b.start < a.end`, and whenever `a.end = b.start`, `a.overlaps b` is
false. -/
theorem region_overlap_symmetric (a b : Region) :
    a.overlaps b = b.overlaps a ∧
    (a.overlaps b = true ↔ a.startTick < b.getEndTick ∧ b.startTick < a.getEndTick) ∧
    (a.getEndTick = b.startTick → a.overlaps b = false) := by
  refine ⟨?_, ?_, ?_⟩
  · unfold Region.overlaps
    rw [decide_eq_decide]
    exact and_comm
  · unfold Region.overlaps
    exact decide_eq_true_iff
  · intro h
    unfold Region.overlaps
    rw [decide_eq_false_iff_not]
    omega

/-- The overlap test: `[0,1000)` and `[500,1500)` overlap both ways, and `[0,1000)` does not
overlap the adjacent `[1000,2000)`. -/
theorem region_overlap_symmetric_witness :
    (Region.groove "r1" 0 1000).overlaps (Region.groove "r2" 500 1000) = true ∧
    (Region.groove "r2" 500 1000).overlaps (Region.groove "r1" 0 1000) = true ∧
    (Region.groove "r1" 0 1000).getEndTick = (Region.groove "r3" 1000 1000).startTick ∧
    (Region.groove "r1" 0 1000).overlaps (Region.groove "r3" 1000 1000) = false :=
  ⟨by decide, by decide, by decide,
    (region_overlap_symmetric (Region.groove "r1" 0 1000) (Region.groove "r3" 1000 1000)).2.2
      (by decide)⟩


/-- C28. Track regions stay sorted: after any sequence of `addRegion` and `removeRegion`
calls on a track that starts without regions, the regions are in non-decreasing `startTick`
order and are exactly the regions added and not removed by a later call (as a multiset). -/
theorem track_regions_sorted (t : Track) (ops : List TrackOp) (hfresh : t.regions = []) :
    (ops.foldl Track.apply t).regions.Pairwise (fun a b => a.startTick ≤ b.startTick) ∧
    (ops.foldl Track.apply t).regions.Perm (survivingRegions ops) ∧
    (∀ r : Region, (ops.foldl Track.apply t).regions.count r = (survivingRegions ops).count r) := by
  have hperm : (ops.foldl Track.apply t).regions.Perm (survivingRegions ops) := by
    have h := track_foldl_perm ops t
    rw [hfresh] at h
    simpa using h
  refine ⟨track_foldl_sorted ops t (by rw [hfresh]; exact List.Pairwise.nil), hperm, ?_⟩
  intro r
  exact hperm.count_eq r

/-- The track test: adding the region that starts at 3840 and then the one that starts at 0
yields 0, 3840; removing `r1` afterwards leaves only `r2`. -/
theorem track_regions_sorted_witness :
    ([TrackOp.addRegion (Region.groove "r1" 3840 3840),
      TrackOp.addRegion (Region.groove "r2" 0 3840)].foldl Track.apply
        { id := "track_1", name := "Test Track" }).regions
      = [Region.groove "r2" 0 3840, Region.groove "r1" 3840 3840] ∧
    ([TrackOp.addRegion (Region.groove "r1" 3840 3840),
      TrackOp.addRegion (Region.groove "r2" 0 3840),
      TrackOp.removeRegion "r1"].foldl Track.apply
        { id := "track_1", name := "Test Track" }).regions.Perm
      (survivingRegions [TrackOp.addRegion (Region.groove "r1" 3840 3840),
        TrackOp.addRegion (Region.groove "r2" 0 3840), TrackOp.removeRegion "r1"]) ∧
    survivingRegions [TrackOp.addRegion (Region.groove "r1" 3840 3840),
        TrackOp.addRegion (Region.groove "r2" 0 3840), TrackOp.removeRegion "r1"]
      = [Region.groove "r2" 0 3840] :=
  ⟨by decide,
    (track_regions_sorted { id := "track_1", name := "Test Track" }
      [TrackOp.addRegion (Region.groove "r1" 3840 3840),
        TrackOp.addRegion (Region.groove "r2" 0 3840), TrackOp.removeRegion "r1"] rfl).2.1,
    by decide⟩

/-- C29. `Track.getRegionsInRange s e` returns exactly the regions `r` of the track with
`r.start < e ∧ s < r.end`, each as often as the track holds it and in the order of the track;
with regions `[0,1000)`, `[2000,3000)`, `[4000,5000)` the query `[1500,2500)` returns only the
second, `[0,5000)` returns all three and `[5000,6000)` returns none. -/
theorem regions_in_range (t : Track) (s e : Int) :
    (∀ r : Region, r ∈ t.getRegionsInRange s e ↔
      r ∈ t.regions ∧ r.startTick < e ∧ s < r.getEndTick) ∧
    (∀ r : Region, (t.getRegionsInRange s e).count r
      = if r.startTick < e ∧ s < r.getEndTick then t.regions.count r else 0) ∧
    (t.getRegionsInRange s e).Sublist t.regions ∧
    rangeTestTrack.regions
      = [Region.groove "r1" 0 1000, Region.groove "r2" 2000 1000, Region.groove "r3" 4000 1000] ∧
    rangeTestTrack.getRegionsInRange 1500 2500 = [Region.groove "r2" 2000 1000] ∧
    rangeTestTrack.getRegionsInRange 0 5000 = rangeTestTrack.regions ∧
    rangeTestTrack.getRegionsInRange 5000 6000 = [] := by
  refine ⟨?_, ?_, List.filter_sublist _, by decide, by decide, by decide, by decide⟩
  · intro r
    unfold Track.getRegionsInRange
    rw [List.mem_filter, decide_eq_true_iff]
  · intro r
    unfold Track.getRegionsInRange
    by_cases hr : r.startTick < e ∧ s < r.getEndTick
    · rw [if_pos hr, List.count_filter (by simpa using hr)]
    · rw [if_neg hr, List.count_eq_zero]
      intro hmem
      rw [List.mem_filter, decide_eq_true_iff] at hmem
      exact hr hmem.2

/-- C30. Non-overlap within a track under the `wouldOverlap` guard: `wouldOverlap r` is true
iff some region already in the track overlaps `r`; therefore, starting from a track without
regions, if each region is passed to `addRegion` only when `wouldOverlap` returned false for
it, no two regions of the track overlap after any number of insertions. -/
theorem would_overlap_guard (t : Track) (rs : List Region) (hfresh : t.regions = []) :
    (∀ (u : Track) (r : Region),
      u.wouldOverlap r = true ↔ ∃ x ∈ u.regions, x.overlaps r = true) ∧
    (rs.foldl Track.addRegionIfFree t).regions.Pairwise (fun a b => a.overlaps b = false) ∧
    (∀ r ∈ (rs.foldl Track.addRegionIfFree t).regions, r ∈ rs) := by
  refine ⟨wouldOverlap_iff, ?_, ?_⟩
  · exact addRegionIfFree_foldl_disjoint rs t (by rw [hfresh]; exact List.Pairwise.nil)
  · intro r hr
    rcases addRegionIfFree_foldl_mem rs t r hr with h | h
    · rw [hfresh] at h
      exact absurd h (List.not_mem_nil r)
    · exact h

/-- The overlap test: with `[1000,2000)` and `[3000,4000)` in the track, `[1500,2500)` would
overlap and `[2000,2500)` would not; offering all four to the guarded insertion leaves three
pairwise disjoint regions. -/
theorem would_overlap_guard_witness :
    (([Region.groove "r1" 1000 1000, Region.groove "r2" 3000 1000].foldl Track.addRegionIfFree
        { id := "track_1", name := "Test Track" }).wouldOverlap (Region.groove "r3" 1500 1000)
      = true) ∧
    (([Region.groove "r1" 1000 1000, Region.groove "r2" 3000 1000].foldl Track.addRegionIfFree
        { id := "track_1", name := "Test Track" }).wouldOverlap (Region.groove "r4" 2000 500)
      = false) ∧
    ([Region.groove "r1" 1000 1000, Region.groove "r2" 3000 1000, Region.groove "r3" 1500 1000,
        Region.groove "r4" 2000 500].foldl Track.addRegionIfFree
        { id := "track_1", name := "Test Track" }).regions
      = [Region.groove "r1" 1000 1000, Region.groove "r4" 2000 500,
         Region.groove "r2" 3000 1000] ∧
    ([Region.groove "r1" 1000 1000, Region.groove "r2" 3000 1000, Region.groove "r3" 1500 1000,
        Region.groove "r4" 2000 500].foldl Track.addRegionIfFree
        { id := "track_1", name := "Test Track" }).regions.Pairwise
      (fun a b => a.overlaps b = false) :=
  ⟨by decide, by decide, by decide,
    (would_overlap_guard { id := "track_1", name := "Test Track" }
      [Region.groove "r1" 1000 1000, Region.groove "r2" 3000 1000, Region.groove "r3" 1500 1000,
        Region.groove "r4" 2000 500] rfl).2.1⟩


theorem ticksPerBar_lt_of_pos_den (ts : TimeSignature) (hden : 0 < ts.denominator) :
    ticksPerBar ts < 2 ^ 31 := by
  rw [ticksPerBar_eq]
  have hw : wrapInt32 (ts.numerator * 3840) < 2 ^ 31 := by unfold wrapInt32; omega
  by_cases h0 : 0 ≤ wrapInt32 (ts.numerator * 3840)
  · have : (wrapInt32 (ts.numerator * 3840)).tdiv ts.denominator
        ≤ wrapInt32 (ts.numerator * 3840) := by
      rw [Int.tdiv_eq_ediv h0 hden.le]
      exact Int.ediv_le_self _ h0
    omega
  · have : (wrapInt32 (ts.numerator * 3840)).tdiv ts.denominator ≤ 0 := by
      obtain ⟨w, hw'⟩ : ∃ w : Int, wrapInt32 (ts.numerator * 3840) = -w := ⟨-_, by ring⟩
      rw [hw', Int.neg_tdiv, Int.tdiv_eq_ediv (by omega) hden.le]
      have := Int.ediv_nonneg (show 0 ≤ w by omega) hden.le
      omega
    omega

theorem den_pos_of_ticksPerBeat_pos (ts : TimeSignature) (hb : 0 < ticksPerBeat ts) :
    0 < ts.denominator := by
  rw [ticksPerBeat_eq] at hb
  by_contra hneg
  have hle : ts.denominator ≤ 0 := by omega
  rcases eq_or_lt_of_le hle with h0 | hlt
  · rw [h0] at hb; simp at hb
  · obtain ⟨d, hd⟩ : ∃ d : Int, ts.denominator = -d := ⟨-ts.denominator, by ring⟩
    rw [hd, Int.tdiv_neg, Int.tdiv_eq_ediv (by omega) (by omega)] at hb
    have : 0 ≤ (3840 : Int) / d := Int.ediv_nonneg (by omega) (by omega)
    omega

theorem abs_tdiv_le (a b : Int) (hb : 0 < b) : |a.tdiv b| ≤ |a| := by
  rcases le_or_lt 0 a with ha | ha
  · rw [Int.tdiv_eq_ediv ha hb.le, abs_of_nonneg ha, abs_of_nonneg (Int.ediv_nonneg ha hb.le)]
    exact Int.ediv_le_self _ ha
  · obtain ⟨w, rfl⟩ : ∃ w : Int, a = -w := ⟨-a, by ring⟩
    have hw : 0 ≤ w := by omega
    rw [Int.neg_tdiv, abs_neg, abs_neg, Int.tdiv_eq_ediv hw hb.le, abs_of_nonneg hw,
      abs_of_nonneg (Int.ediv_nonneg hw hb.le)]
    exact Int.ediv_le_self _ hw

theorem abs_tmod_lt (a b : Int) (hb : 0 < b) : |a.tmod b| < b := by
  rcases le_or_lt 0 a with ha | ha
  · rw [abs_of_nonneg (Int.tmod_nonneg b ha)]
    exact Int.tmod_lt_of_pos a hb
  · obtain ⟨w, rfl⟩ : ∃ w : Int, a = -w := ⟨-a, by ring⟩
    have hw : 0 ≤ w := by omega
    have hneg : (-w).tmod b = -(w.tmod b) := by
      have e1 := Int.tdiv_add_tmod (-w) b
      have e2 := Int.tdiv_add_tmod w b
      rw [Int.neg_tdiv, Int.mul_neg] at e1
      omega
    rw [hneg, abs_neg, abs_of_nonneg (Int.tmod_nonneg b hw)]
    exact Int.tmod_lt_of_pos w hb


/-- The body shared by the three snapping functions returns a multiple of the unit, and
returns a multiple unchanged when the unit is at least 2. -/
theorem snap_multiple (u t : Int) :
    u ∣ (if t.tmod u < u.tdiv 2 then t - t.tmod u else t + (u - t.tmod u)) ∧
    (2 ≤ u → u ∣ t →
      (if t.tmod u < u.tdiv 2 then t - t.tmod u else t + (u - t.tmod u)) = t) := by
  have e := Int.tdiv_add_tmod t u
  constructor
  · split
    · exact ⟨t.tdiv u, by omega⟩
    · exact ⟨t.tdiv u + 1, by rw [Int.mul_add]; omega⟩
  · intro h2 hdvd
    have h0 : t.tmod u = 0 := Int.tmod_eq_zero_of_dvd hdvd
    have hhalf : 0 < u.tdiv 2 := by
      rw [Int.tdiv_eq_ediv (by omega) (by omega)]
      omega
    rw [h0, if_pos hhalf]
    omega


theorem regionNoteEvents_nil_of_disjoint (notes : List StepNote) (rs re s e base : Int)
    (h : ∀ n ∈ notes, ¬ (s ≤ base + n.offsetTick ∧ base + n.offsetTick < e ∧
      rs ≤ base + n.offsetTick ∧ base + n.offsetTick < re)) :
    regionNoteEvents notes rs re s e base = [] := by
  unfold regionNoteEvents
  rw [List.filterMap_eq_nil_iff]
  intro n hn
  simp only
  rw [if_neg (h n hn)]


theorem loopTicks_eq (L : Int) (hL : 0 < L) :
    ∀ (fuel : Nat) (t : Int),
      loopTicks L (t + fuel * L) fuel t
        = some ((List.range fuel).map (fun (i : Nat) => t + (i : Int) * L)) := by
  intro fuel
  induction fuel with
  | zero => intro t; simp [loopTicks]
  | succ n ih =>
    intro t
    have hlt : t < t + ((n + 1 : Nat) : Int) * L := by
      have : 0 < ((n + 1 : Nat) : Int) * L := by positivity
      omega
    have hend : t + ((n + 1 : Nat) : Int) * L = (t + L) + (n : Int) * L := by push_cast; ring
    rw [loopTicks, if_pos hlt, hend, ih (t + L)]
    simp only [Option.map_some', List.range_succ_eq_map, List.map_cons, List.map_map]
    congr 2
    · simp
    · apply List.map_congr_left
      intro i _
      simp only [Function.comp, Nat.succ_eq_add_one]
      push_cast
      ring

/-- The event loop and the tick loop run in lockstep: the events are those of the visited
loop ticks, in order. -/
theorem loopIterations_eq_loopTicks (notes : List StepNote) (L s e loopEnd : Int) :
    ∀ (fuel : Nat) (t : Int),
      loopIterations notes L s e loopEnd fuel t
        = (loopTicks L loopEnd fuel t).map
            (fun ticks => ticks.flatMap (fun base => patternNoteEvents notes s e base)) := by
  intro fuel
  induction fuel with
  | zero =>
    intro t
    unfold loopIterations loopTicks
    split <;> rfl
  | succ n ih =>
    intro t
    unfold loopIterations loopTicks
    split
    · rw [ih (t + L)]
      cases loopTicks L loopEnd n (t + L) <;> rfl
    · rfl

theorem singlePatternLoopTicks_eq (L s e : Int) (hL : 0 < L) :
    singlePatternLoopTicks L s e
      = some ((List.range ((e + L - 1).tdiv L - s.tdiv L).toNat).map
          (fun (i : Nat) => s.tdiv L * L + (i : Int) * L)) := by
  unfold singlePatternLoopTicks
  simp only
  have hL0 : ¬ L = 0 := by omega
  have hfuel : ((e + L - 1).tdiv L * L - s.tdiv L * L).tdiv L = (e + L - 1).tdiv L - s.tdiv L := by
    rw [← sub_mul, Int.mul_tdiv_cancel _ hL0]
  rw [hfuel]
  by_cases hk : 0 ≤ (e + L - 1).tdiv L - s.tdiv L
  · have hend : (e + L - 1).tdiv L * L
        = s.tdiv L * L + (((e + L - 1).tdiv L - s.tdiv L).toNat : Int) * L := by
      rw [Int.toNat_of_nonneg hk]
      ring
    rw [hend]
    exact loopTicks_eq L hL _ _
  · have hz : ((e + L - 1).tdiv L - s.tdiv L).toNat = 0 := by
      rw [Int.toNat_eq_zero]
      omega
    rw [hz]
    have hnot : ¬ s.tdiv L * L < (e + L - 1).tdiv L * L := by
      have : (e + L - 1).tdiv L * L ≤ s.tdiv L * L :=
        mul_le_mul_of_nonneg_right (by omega) hL.le
      omega
    simp [loopTicks, hnot]

theorem getEventsFromSinglePattern_eq_loopTicks (pattern : Pattern) (L s e : Int) (hL : 0 < L) :
    getEventsFromSinglePattern pattern L true s e
      = (singlePatternLoopTicks L s e).map (fun ticks =>
          sortEvents (ticks.flatMap (fun base => patternNoteEvents pattern.notes s e base))) := by
  by_cases hn : pattern.notes.isEmpty = true
  · have hnil : pattern.notes = [] := List.isEmpty_iff.mp hn
    rw [singlePatternLoopTicks_eq L s e hL]
    unfold getEventsFromSinglePattern
    rw [if_pos hn, Option.map_some', flatMap_nil_of_forall]
    · rfl
    · intro base _
      simp [hnil, patternNoteEvents]
  · unfold getEventsFromSinglePattern singlePatternLoopTicks
    simp only [if_neg (by omega : ¬ L = 0), if_true]
    rw [loopIterations_eq_loopTicks, if_neg hn, Option.map_map]
    rfl


theorem applyEdit_revision (p : Project) (edit : ProjectEdit) :
    (p.applyEdit edit).revision = p.revision := by
  cases edit with
  | addTrack track => rfl
  | removeTrack trackId => rfl
  | addPattern pattern => rfl
  | removePattern id => rfl
  | addInstrument instrument => rfl
  | removeInstrument id => rfl
  | addRegion trackId region =>
    simp only [Project.applyEdit, Project.editTrack]
    split <;> rfl
  | removeRegion trackId regionId =>
    simp only [Project.applyEdit, Project.editTrack]
    split <;> rfl

theorem applyEdits_revision (edits : List ProjectEdit) :
    ∀ p : Project, (edits.foldl Project.applyEdit p).revision = p.revision := by
  induction edits with
  | nil => intro p; rfl
  | cons edit rest ih => intro p; rw [List.foldl_cons, ih, applyEdit_revision]


theorem getSample_assign_self (m : List (Int × Sample)) (id : Int) (s : Sample) :
    getSampleForInstrument (assignSample m id s) id = some s := by
  simp [getSampleForInstrument, assignSample]

theorem getSample_assign_other (m : List (Int × Sample)) (id other : Int) (s : Sample)
    (h : other ≠ id) :
    getSampleForInstrument (assignSample m id s) other = getSampleForInstrument m other := by
  unfold getSampleForInstrument assignSample
  have hne : ¬ id = other := fun e => h e.symm
  rw [List.find?_cons]
  simp only [hne, decide_False]
  rw [List.find?_filter]
  congr 2
  funext entry
  by_cases he : entry.1 = other
  · simp [he, h]
  · simp [he]

/-- The entry of an id after the loading loop: the sample of the last instrument with that id
and a non-empty path among those reached before the first failure, or the earlier entry of
the map when there is none. -/
theorem loadSamplesLoop_lookup (load : String → Option Sample) (id : Int) :
    ∀ (l : List Instrument) (m : List (Int × Sample)),
      getSampleForInstrument (loadSamplesLoop load l m).1 id
        = match ((instrumentsBeforeFailure load l).filter
              (fun i => decide (i.id = id) && !i.samplePath.isEmpty)).getLast? with
          | some inst => load inst.samplePath
          | none => getSampleForInstrument m id := by
  intro l
  induction l with
  | nil => intro m; rfl
  | cons inst rest ih =>
    intro m
    unfold loadSamplesLoop
    by_cases hp : inst.samplePath.isEmpty = true
    · rw [if_pos hp, ih m]
      simp [instrumentsBeforeFailure, List.takeWhile_cons, hp, List.filter_cons]
    · rw [if_neg hp]
      cases hl : load inst.samplePath with
      | none =>
        simp [instrumentsBeforeFailure, List.takeWhile_cons, hp, hl]
      | some s =>
        simp only
        rw [ih (assignSample m inst.id s)]
        have hpre : instrumentsBeforeFailure load (inst :: rest)
            = inst :: instrumentsBeforeFailure load rest := by
          simp [instrumentsBeforeFailure, List.takeWhile_cons, hl]
        rw [hpre]
        by_cases hid : inst.id = id
        · have hkeep : (decide (inst.id = id) && !inst.samplePath.isEmpty) = true := by
            simp [hid, hp]
          rw [List.filter_cons, if_pos hkeep]
          cases hrest : (instrumentsBeforeFailure load rest).filter
              (fun i => decide (i.id = id) && !i.samplePath.isEmpty) with
          | nil =>
            simp only [List.getLast?_nil, List.getLast?_singleton]
            rw [← hid, getSample_assign_self, hl]
          | cons x xs =>
            rw [List.getLast?_cons_cons]
            have hsome : (x :: xs).getLast? = some ((x :: xs).getLast (List.cons_ne_nil x xs)) :=
              List.getLast?_eq_getLast _ _
            rw [hsome]
        · have hdrop : ¬ (decide (inst.id = id) && !inst.samplePath.isEmpty) = true := by
            simp [hid]
          rw [List.filter_cons, if_neg hdrop]
          rw [getSample_assign_other m inst.id id s (fun e => hid e.symm)]

theorem loadSamplesLoop_flag (load : String → Option Sample) :
    ∀ (l : List Instrument) (m : List (Int × Sample)),
      ((loadSamplesLoop load l m).2 = true ↔ instrumentsBeforeFailure load l = l) := by
  intro l
  induction l with
  | nil => intro m; simp [loadSamplesLoop, instrumentsBeforeFailure]
  | cons inst rest ih =>
    intro m
    unfold loadSamplesLoop
    by_cases hp : inst.samplePath.isEmpty = true
    · rw [if_pos hp, ih m]
      simp [instrumentsBeforeFailure, List.takeWhile_cons, hp]
    · rw [if_neg hp]
      cases hl : load inst.samplePath with
      | none => simp [instrumentsBeforeFailure, List.takeWhile_cons, hp, hl]
      | some s =>
        simp only
        rw [ih]
        simp [instrumentsBeforeFailure, List.takeWhile_cons, hl]

/-- Every instrument reached before the first failure that has a sample path loads. -/
theorem beforeFailure_loads (load : String → Option Sample) (l : List Instrument)
    (i : Instrument) (hi : i ∈ instrumentsBeforeFailure load l)
    (hp : i.samplePath.isEmpty = false) : (load i.samplePath).isSome = true := by
  have h := List.mem_takeWhile_imp hi
  simpa [hp] using h

/-! ### Sampler bounds -/

/-- The buffers the frame loop leaves are the accesses applied in order. -/
theorem renderFrames_eq_accesses (smp : Sample) (gL gR : ℚ) :
    ∀ (count i : Nat) (voice : Voice) (outL outR : List ℚ),
      (renderFrames smp gL gR count i voice outL outR).2
        = (renderFramesAccesses smp gL gR count i voice).foldl applyAccess (outL, outR) := by
  intro count
  induction count with
  | zero => intro i voice outL outR; rfl
  | succ k ih =>
    intro i voice outL outR
    unfold renderFrames renderFramesAccesses
    by_cases h : smp.lengthFrames ≤ voice.playbackPosition
    · simp only [if_pos h, List.foldl_nil]
    · simp only [if_neg h, List.foldl_cons]
      rw [ih]
      rfl

theorem renderVoice_eq_accesses (voice : Voice) (outL outR : List ℚ) (start n : Nat) :
    (renderVoice voice outL outR start n).2
      = (renderVoiceAccesses voice start n).foldl applyAccess (outL, outR) := by
  unfold renderVoice renderVoiceAccesses
  by_cases ha : voice.active = false
  · simp only [if_pos ha, List.foldl_nil]
  · simp only [if_neg ha]
    cases hs : voice.sample with
    | none => rfl
    | some smp => exact renderFrames_eq_accesses _ _ _ _ _ _ _ _

theorem renderVoices_eq_accesses :
    ∀ (vs : List Voice) (outL outR : List ℚ) (n : Nat),
      (renderVoices vs outL outR n).2 = (renderVoicesAccesses vs n).foldl applyAccess (outL, outR) := by
  intro vs
  induction vs with
  | nil => intro outL outR n; rfl
  | cons v rest ih =>
    intro outL outR n
    unfold renderVoices renderVoicesAccesses
    simp only [List.foldl_append]
    by_cases ha : v.active = true
    · simp only [if_pos ha]
      rw [← renderVoice_eq_accesses]
      exact ih _ _ _
    · simp only [if_neg ha, List.foldl_nil]
      exact ih _ _ _

/-- The buffers `Sampler::render` leaves are its accesses applied in order. -/
theorem render_eq_accesses (s : Sampler) (outL outR : List ℚ) (n : Nat) :
    (s.render outL outR n).2 = (s.renderAccesses n).foldl applyAccess (outL, outR) := by
  unfold Sampler.render Sampler.renderAccesses
  exact renderVoices_eq_accesses _ _ _ _

theorem renderFramesAccesses_bound (smp : Sample) (gL gR : ℚ) :
    ∀ (count i : Nat) (voice : Voice) (a : FrameAccess),
      a ∈ renderFramesAccesses smp gL gR count i voice →
        a.sample = smp ∧ a.readIndex < smp.lengthFrames ∧ i ≤ a.writeIndex ∧
          a.writeIndex < i + count := by
  intro count
  induction count with
  | zero => intro i voice a ha; simp [renderFramesAccesses] at ha
  | succ k ih =>
    intro i voice a ha
    unfold renderFramesAccesses at ha
    by_cases h : smp.lengthFrames ≤ voice.playbackPosition
    · simp [if_pos h] at ha
    · rw [if_neg h] at ha
      rcases List.mem_cons.mp ha with rfl | hrest
      · exact ⟨rfl, by simpa using h, le_refl _, by simp⟩
      · have := ih _ _ _ hrest
        exact ⟨this.1, this.2.1, by omega, by omega⟩

theorem renderVoiceAccesses_bound (voice : Voice) (n : Nat) (a : FrameAccess)
    (ha : a ∈ renderVoiceAccesses voice 0 n) :
    a.readIndex < a.sample.lengthFrames ∧ a.writeIndex < n := by
  unfold renderVoiceAccesses at ha
  by_cases hact : voice.active = false
  · simp [if_pos hact] at ha
  · rw [if_neg hact] at ha
    cases hs : voice.sample with
    | none => simp [hs] at ha
    | some smp =>
      simp only [hs] at ha
      have := renderFramesAccesses_bound _ _ _ _ _ _ _ ha
      rw [this.1]
      exact ⟨this.2.1, by omega⟩

theorem renderVoicesAccesses_bound :
    ∀ (vs : List Voice) (n : Nat) (a : FrameAccess), a ∈ renderVoicesAccesses vs n →
      a.readIndex < a.sample.lengthFrames ∧ a.writeIndex < n := by
  intro vs
  induction vs with
  | nil => intro n a ha; simp [renderVoicesAccesses] at ha
  | cons v rest ih =>
    intro n a ha
    unfold renderVoicesAccesses at ha
    rcases List.mem_append.mp ha with h | h
    · by_cases hact : v.active = true
      · rw [if_pos hact] at h
        exact renderVoiceAccesses_bound _ _ _ h
      · simp [if_neg hact] at h
    · exact ih _ _ h

theorem inBounds_default : Voice.inBounds {} = true := rfl

theorem inBounds_start (smp : Sample) (velocity gain pan : ℚ) :
    (Voice.start smp velocity gain pan).inBounds = true := by
  simp [Voice.inBounds, Voice.start]

theorem inBounds_advance (v : Voice) (n : Nat) (h : v.inBounds = true) :
    (advanceVoice v n).inBounds = true := by
  unfold advanceVoice
  by_cases ha : v.active = false
  · rw [if_pos ha]; exact h
  · rw [if_neg ha]
    cases hs : v.sample with
    | none => exact h
    | some smp =>
      simp only
      by_cases hc : v.playbackPosition + n ≤ smp.lengthFrames ∨ n = 0
      · rw [if_pos hc]
        have hact : v.active = true := by simpa using ha
        simp only [Voice.inBounds, hact, hs, Bool.not_true, Bool.false_or, decide_eq_true_eq] at h ⊢
        omega
      · rw [if_neg hc]; rfl

theorem fresh_inBounds : ({} : Sampler).inBounds = true := by
  simp only [Sampler.inBounds, List.all_eq_true]
  intro v hv
  rw [(List.mem_replicate.mp hv).2]
  rfl

theorem noteOn_inBounds (s : Sampler) (sample : Option Sample) (velocity gain pan : ℚ)
    (offsetFrames : Nat) (h : s.inBounds = true) :
    (s.noteOn sample velocity gain pan offsetFrames).inBounds = true := by
  unfold Sampler.noteOn
  cases sample with
  | none => exact h
  | some smp =>
    simp only
    by_cases h0 : smp.lengthFrames = 0
    · rw [if_pos h0]; exact h
    · rw [if_neg h0]
      cases hal : s.allocateVoice with
      | none => exact h
      | some i =>
        simp only [Sampler.inBounds, List.all_eq_true] at h ⊢
        intro v hv
        rcases List.mem_or_eq_of_mem_set hv with hm | he
        · exact h v hm
        · rw [he]; exact inBounds_start _ _ _ _

theorem render_inBounds (s : Sampler) (outL outR : List ℚ) (n : Nat) (h : s.inBounds = true) :
    (s.render outL outR n).1.inBounds = true := by
  simp only [Sampler.inBounds, List.all_eq_true, render_voices, List.mem_map] at h ⊢
  rintro v ⟨w, hw, rfl⟩
  exact inBounds_advance _ _ (h w hw)

theorem allNotesOff_inBounds (s : Sampler) : s.allNotesOff.inBounds = true := by
  simp only [Sampler.inBounds, List.all_eq_true, Sampler.allNotesOff, List.mem_map]
  rintro v ⟨w, _, rfl⟩
  rfl

/-! ### Bar start and bar index in one segment -/

/-- A tick at or after the first change lies in some segment. -/
theorem exists_inSegment (t : Int) :
    ∀ (rest : List MeterChange) (first : MeterChange), first.atTick ≤ t →
      ∃ i, InSegment (first :: rest) t i := by
  intro rest
  induction rest with
  | nil =>
    intro first h
    exact ⟨0, by simp, by simpa [segmentStart] using h, by simp [segmentEnd]⟩
  | cons next more ih =>
    intro first h
    by_cases hn : next.atTick ≤ t
    · obtain ⟨j, hj, hstart, hend⟩ := ih next hn
      refine ⟨j + 1, by simpa using hj, ?_, ?_⟩
      · simpa [segmentStart] using hstart
      · intro e he
        exact hend e (by simpa [segmentEnd] using he)
    · refine ⟨0, by simp, by simpa [segmentStart] using h, ?_⟩
      intro e he
      have : next.atTick = e := by simpa [segmentEnd] using he
      omega

/-- In a sorted map the scan of `getSignatureAt` returns the signature of the segment of the
tick. -/
theorem scanSignature_segment (t : Int) :
    ∀ (l : List MeterChange) (i : Nat) (b : TimeSignature),
      l.Pairwise (fun a c => a.atTick ≤ c.atTick) → InSegment l t i →
      scanSignature t l b = segmentSignature l i := by
  intro l
  induction l with
  | nil => intro i b _ h; exact absurd h.1 (by simp)
  | cons c rest ih =>
    intro i b hs hin
    cases i with
    | zero =>
      obtain ⟨_, hstart, hend⟩ := hin
      have hstart' : c.atTick ≤ t := by simpa [segmentStart] using hstart
      unfold scanSignature
      rw [if_pos hstart']
      cases rest with
      | nil => simp [scanSignature, segmentSignature]
      | cons next more =>
        have hlt : t < next.atTick := hend next.atTick (by simp [segmentEnd])
        unfold scanSignature
        rw [if_neg (by omega)]
        simp [segmentSignature]
    | succ j =>
      cases rest with
      | nil => exact absurd hin.1 (by simp)
      | cons next more =>
        obtain ⟨hin', hle, hnext⟩ := inSegment_tail c next more t j hs hin
        rw [List.pairwise_cons] at hs
        unfold scanSignature
        rw [if_pos (by omega), ih j c.signature hs.2 hin']
        simp [segmentSignature]

/-- Two ticks of the same segment with the same number of full bars since the segment start
have the same bar index. -/
theorem barIndexWalk_congr (t s : Int) :
    ∀ (l : List MeterChange) (i : Nat) (acc : Int),
      l.Pairwise (fun a b => a.atTick ≤ b.atTick) → InSegment l t i → InSegment l s i →
      (s - segmentStart l i).tdiv (ticksPerBar (segmentSignature l i))
        = (t - segmentStart l i).tdiv (ticksPerBar (segmentSignature l i)) →
      barIndexWalk s l acc = barIndexWalk t l acc := by
  intro l
  induction l with
  | nil => intro i acc _ h; exact absurd h.1 (by simp)
  | cons c rest ih =>
    intro i acc hs hint hins hq
    cases i with
    | zero =>
      have ht : c.atTick ≤ t ∧ t < rangeEndOf t rest := by
        obtain ⟨_, hstart, hend⟩ := hint
        refine ⟨by simpa [segmentStart] using hstart, ?_⟩
        cases rest with
        | nil => simp [rangeEndOf]
        | cons next more => exact hend next.atTick (by simp [segmentEnd])
      have hs' : c.atTick ≤ s ∧ s < rangeEndOf s rest := by
        obtain ⟨_, hstart, hend⟩ := hins
        refine ⟨by simpa [segmentStart] using hstart, ?_⟩
        cases rest with
        | nil => simp [rangeEndOf]
        | cons next more => exact hend next.atTick (by simp [segmentEnd])
      simp only [segmentStart, segmentSignature, List.getD_cons_zero] at hq
      have hhold : ∀ u : Int, c.atTick ≤ u → u < rangeEndOf u rest →
          barIndexWalk u (c :: rest) acc
            = wrapInt32 (acc + wrapInt32 ((u - c.atTick).tdiv (ticksPerBar c.signature))) := by
        intro u hu hlt
        rw [barIndexWalk]
        simp only
        rw [if_neg (by omega), if_pos hlt, if_pos hlt]
      rw [hhold s hs'.1 hs'.2, hhold t ht.1 ht.2, hq]
    | succ j =>
      cases rest with
      | nil => exact absurd hint.1 (by simp)
      | cons next more =>
        obtain ⟨hint', hle, hnt⟩ := inSegment_tail c next more t j hs hint
        obtain ⟨hins', _, hns⟩ := inSegment_tail c next more s j hs hins
        rw [List.pairwise_cons] at hs
        have hq' : (s - segmentStart (next :: more) j).tdiv
              (ticksPerBar (segmentSignature (next :: more) j))
            = (t - segmentStart (next :: more) j).tdiv
              (ticksPerBar (segmentSignature (next :: more) j)) := by
          simpa [segmentStart, segmentSignature] using hq
        have hstep : ∀ u : Int, next.atTick ≤ u →
            barIndexWalk u (c :: next :: more) acc
              = barIndexWalk u (next :: more)
                  (wrapInt32 (acc + wrapInt32 ((next.atTick - c.atTick).tdiv
                    (ticksPerBar c.signature)))) := by
          intro u hu
          rw [barIndexWalk]
          simp only [rangeEndOf]
          rw [if_neg (by omega), if_neg (by omega), if_neg (by omega)]
        rw [hstep s hns, hstep t hnt]
        exact ih j _ hs.2 hint' hins' hq'

/-- The bracket of a truncated quotient of a non-negative offset. -/
theorem tdiv_bracket (a b : Int) (ha : 0 ≤ a) (hb : 0 < b) :
    0 ≤ a.tdiv b * b ∧ a.tdiv b * b ≤ a ∧ a < a.tdiv b * b + b := by
  have h1 := Int.tdiv_add_tmod a b
  have h2 : 0 ≤ a.tmod b := Int.tmod_nonneg b ha
  have h3 : a.tmod b < b := Int.tmod_lt_of_pos a hb
  have h4 : 0 ≤ a.tdiv b := by
    rw [Int.tdiv_eq_ediv ha hb.le]
    exact Int.ediv_nonneg ha hb.le
  have h5 : 0 ≤ a.tdiv b * b := Int.mul_nonneg h4 hb.le
  have h6 : b * a.tdiv b = a.tdiv b * b := Int.mul_comm _ _
  refine ⟨h5, by omega, by omega⟩

/-! ## Transport, positions, snapping and overlap: claims -/

/-- C31. `Transport.updateInternal nframes sampleRate`: if the transport is not rolling the
whole transport state is unchanged; if it is rolling (and the 64-bit frame counter does not
wrap), `frame` increases by exactly `nframes`, `tick` becomes
`framesToTicks (new frame) bpm sampleRate`, and `rolling`, `bpm` and `signature` are
unchanged (the stored sample rate becomes the argument). -/
theorem update_internal_effect (st : TransportState) (nframes sampleRate : Nat) :
    (st.rolling = false → Transport.updateInternal st nframes sampleRate = st) ∧
    (st.rolling = true → st.frame + nframes < 2 ^ 64 →
      (Transport.updateInternal st nframes sampleRate).frame = st.frame + nframes ∧
      (Transport.updateInternal st nframes sampleRate).tick
        = framesToTicks (st.frame + nframes) st.bpm sampleRate ∧
      (Transport.updateInternal st nframes sampleRate).rolling = true ∧
      (Transport.updateInternal st nframes sampleRate).bpm = st.bpm ∧
      (Transport.updateInternal st nframes sampleRate).signature = st.signature ∧
      (Transport.updateInternal st nframes sampleRate).sampleRate = sampleRate) := by
  constructor
  · intro h
    unfold Transport.updateInternal
    rw [if_pos h]
  · intro h hfit
    unfold Transport.updateInternal
    rw [if_neg (by simp [h]), Nat.mod_eq_of_lt hfit]
    exact ⟨rfl, rfl, h, rfl, rfl, rfl⟩

/-- A rolling transport at 120 BPM and 48 kHz advanced by a block of 12000 frames is at frame
12000 and tick 480; a stopped one stays where it is. -/
theorem update_internal_effect_witness :
    (Transport.updateInternal { rolling := true } 12000 48000).frame = 12000 ∧
    (Transport.updateInternal { rolling := true } 12000 48000).tick
      = framesToTicks (0 + 12000) 120 48000 ∧
    framesToTicks (0 + 12000) 120 48000 = 480 ∧
    Transport.updateInternal { rolling := false } 12000 48000 = { rolling := false } :=
  ⟨((update_internal_effect { rolling := true } 12000 48000).2 rfl (by decide)).1,
    ((update_internal_effect { rolling := true } 12000 48000).2 rfl (by decide)).2.1,
    by with_unfolding_all rfl,
    (update_internal_effect { rolling := false } 12000 48000).1 rfl⟩

/-- C37. `tickToPosition` loses no information: for every tick `t` (of either sign) and every
meter with `ticksPerBar ts > 0` and `ticksPerBeat ts > 0`, when the bar index
`t / ticksPerBar ts` is within the `int` range of the `bar` field,
`positionToTick (tickToPosition t ts) ts = t`. -/
theorem tick_position_round_trip (t : Int) (ts : TimeSignature) (hB : 0 < ticksPerBar ts)
    (hb : 0 < ticksPerBeat ts) (hbar : FitsInt32 (t.tdiv (ticksPerBar ts))) :
    positionToTick (tickToPosition t ts) ts = t := by
  have hden := den_pos_of_ticksPerBeat_pos ts hb
  have hBlt := ticksPerBar_lt_of_pos_den ts hden
  unfold positionToTick tickToPosition
  simp only
  generalize ticksPerBar ts = B at *
  generalize ticksPerBeat ts = b at *
  have hrem := abs_tmod_lt t B hB
  have hq := abs_tdiv_le (t.tmod B) b hb
  have hfit2 : FitsInt32 ((t.tmod B).tdiv b) := by
    unfold FitsInt32
    rw [abs_le] at hq
    constructor <;> omega
  rw [wrapInt32_fits _ hbar, wrapInt32_fits _ hfit2]
  have e1 := Int.tdiv_add_tmod' t B
  have e2 := Int.tdiv_add_tmod' (t.tmod B) b
  omega

/-- Tick -5000 in 4/4 is bar -1, beat -1, tick -200 and converts back to -5000; tick 10660 is
bar 2, beat 3, tick 100. -/
theorem tick_position_round_trip_witness :
    tickToPosition (-5000) sig_4_4 = { bar := -1, beat := -1, tick := -200 } ∧
    tickToPosition 10660 sig_4_4 = { bar := 2, beat := 3, tick := 100 } ∧
    positionToTick (tickToPosition (-5000) sig_4_4) sig_4_4 = -5000 :=
  ⟨by decide, by decide,
    tick_position_round_trip (-5000) sig_4_4 (by decide) (by decide) (by decide)⟩


/-- C38 (evaluation at the failing input): with subdivision 960 the grid is `960 / 960 = 1`,
so every tick is a grid line; the remainder is always 0 and the half is 0, the test
`remainder < gridSize / 2` fails, and the function commented "Round to nearest grid line"
moves the tick up by one: `snapToGrid 5 960 = 6`, and snapping the result again gives 7.
The same happens with a one-tick beat (denominator 3840). -/
theorem snap_unit_one_moves_tick :
    PPQ.tdiv 960 = 1 ∧ snapToGrid 5 960 = 6 ∧ snapToGrid (snapToGrid 5 960) 960 = 7 ∧
    snapToGrid (snapToGrid 5 960) 960 ≠ snapToGrid 5 960 ∧
    ticksPerBeat { numerator := 4, denominator := 3840 } = 1 ∧
    snapToBeat (snapToBeat 5 { numerator := 4, denominator := 3840 })
        { numerator := 4, denominator := 3840 }
      ≠ snapToBeat 5 { numerator := 4, denominator := 3840 } := by
  decide

/-- Where snapping is idempotent: for every tick `t` (of either sign) and every meter or
subdivision, the result of `snapToBar`, `snapToBeat` and `snapToGrid` is an exact multiple of
the unit whenever the unit is positive, and whenever the unit is at least 2 snapping the
result again returns it unchanged. -/
theorem snap_idempotent (t : Int) (ts : TimeSignature) (subdivision : Int) :
    (0 < ticksPerBar ts → ticksPerBar ts ∣ snapToBar t ts) ∧
    (0 < ticksPerBeat ts → ticksPerBeat ts ∣ snapToBeat t ts) ∧
    (0 < PPQ.tdiv subdivision → PPQ.tdiv subdivision ∣ snapToGrid t subdivision) ∧
    (2 ≤ ticksPerBar ts → snapToBar (snapToBar t ts) ts = snapToBar t ts) ∧
    (2 ≤ ticksPerBeat ts → snapToBeat (snapToBeat t ts) ts = snapToBeat t ts) ∧
    (2 ≤ PPQ.tdiv subdivision →
      snapToGrid (snapToGrid t subdivision) subdivision = snapToGrid t subdivision) := by
  refine ⟨fun _ => (snap_multiple _ t).1, fun _ => (snap_multiple _ t).1,
    fun _ => (snap_multiple _ t).1, ?_, ?_, ?_⟩
  · intro h
    exact (snap_multiple (ticksPerBar ts) (snapToBar t ts)).2 h (snap_multiple _ t).1
  · intro h
    exact (snap_multiple (ticksPerBeat ts) (snapToBeat t ts)).2 h (snap_multiple _ t).1
  · intro h
    exact (snap_multiple (PPQ.tdiv subdivision) (snapToGrid t subdivision)).2 h
      (snap_multiple _ t).1

/-- Tick -3000 in 4/4 snaps to bar line 0 and tick 600 to the eighth-note line 480; both
results stay put when snapped again. -/
theorem snap_idempotent_witness :
    snapToBar (-3000) sig_4_4 = 0 ∧ snapToGrid 600 2 = 480 ∧
    snapToBar (snapToBar (-3000) sig_4_4) sig_4_4 = snapToBar (-3000) sig_4_4 ∧
    snapToGrid (snapToGrid 600 2) 2 = snapToGrid 600 2 ∧
    ticksPerBar sig_4_4 ∣ snapToBar (-3000) sig_4_4 :=
  ⟨by decide, by decide,
    (snap_idempotent (-3000) sig_4_4 2).2.2.2.1 (by decide),
    (snap_idempotent 600 sig_4_4 2).2.2.2.2.2 (by decide),
    (snap_idempotent (-3000) sig_4_4 2).1 (by decide)⟩

/-- C39. `Region.overlaps` agrees with `Region.contains`: for all regions `a` and `b` with
`lengthTicks > 0`, `a.overlaps b` holds iff there is some tick `t` with `a.contains t` and
`b.contains t`, where `contains t` is `startTick ≤ t < startTick + lengthTicks`. -/
theorem overlaps_iff_common_tick (a b : Region) (ha : 0 < a.lengthTicks)
    (hb : 0 < b.lengthTicks) :
    (∀ (r : Region) (t : Int),
      r.contains t = true ↔ r.startTick ≤ t ∧ t < r.startTick + r.lengthTicks) ∧
    (a.overlaps b = true ↔ ∃ t : Int, a.contains t = true ∧ b.contains t = true) := by
  constructor
  · intro r t
    unfold Region.contains Region.getEndTick
    exact decide_eq_true_iff
  · unfold Region.overlaps Region.contains Region.getEndTick
    simp only [decide_eq_true_iff]
    constructor
    · intro h
      refine ⟨max a.startTick b.startTick, ?_, ?_⟩
      · constructor
        · exact le_max_left _ _
        · rcases max_cases a.startTick b.startTick with ⟨h1, _⟩ | ⟨h1, _⟩ <;> rw [h1] <;> omega
      · constructor
        · exact le_max_right _ _
        · rcases max_cases a.startTick b.startTick with ⟨h1, _⟩ | ⟨h1, _⟩ <;> rw [h1] <;> omega
    · rintro ⟨t, ⟨h1, h2⟩, ⟨h3, h4⟩⟩
      constructor <;> omega

/-- The regions `[0,1000)` and `[500,1500)` overlap and share tick 500; `[1000,3000)` contains
tick 1000 and 2000 but neither 999 nor 3000. -/
theorem overlaps_iff_common_tick_witness :
    ((Region.groove "r1" 0 1000).overlaps (Region.groove "r2" 500 1000) = true ↔
      ∃ t : Int, (Region.groove "r1" 0 1000).contains t = true ∧
        (Region.groove "r2" 500 1000).contains t = true) ∧
    (Region.groove "r1" 0 1000).contains 500 = true ∧
    (Region.groove "r2" 500 1000).contains 500 = true ∧
    (Region.groove "reg_1" 1000 2000).contains 999 = false ∧
    (Region.groove "reg_1" 1000 2000).contains 1000 = true ∧
    (Region.groove "reg_1" 1000 2000).contains 2000 = true ∧
    (Region.groove "reg_1" 1000 2000).contains 3000 = false :=
  ⟨(overlaps_iff_common_tick (Region.groove "r1" 0 1000) (Region.groove "r2" 500 1000)
      (by decide) (by decide)).2,
    by decide, by decide, by decide, by decide, by decide, by decide⟩


/-! ## Scheduler refinement and termination: claims -/

/-- C35. The scheduler's skip tests are a pure optimisation: for every region, window and
pattern with `patternLength > 0` whose notes all satisfy `0 ≤ offsetTick < patternLength`,
`getEventsFromRegion` returns the same list as the naive enumeration that visits every
repetition in `[0, numRepeats)` and every note and keeps an event iff its tick lies in
`[startTick, endTick)` and in `[regionStart, regionEnd)`. -/
theorem skip_tests_pure_optimisation (region : Region) (pattern : Pattern) (s e : Int)
    (hP : 0 < pattern.lengthTicks) (hn : NotesWithin pattern.notes pattern.lengthTicks) :
    getEventsFromRegion region pattern s e = naiveRegionEvents region pattern s e := by
  unfold getEventsFromRegion naiveRegionEvents
  simp only
  rw [if_neg (by omega : ¬ pattern.lengthTicks = 0)]
  by_cases hov : region.startTick + region.lengthTicks ≤ s ∨ e ≤ region.startTick
  · rw [if_pos hov]
    symm
    apply flatMap_nil_of_forall
    intro rep _
    apply regionNoteEvents_nil_of_disjoint
    intro n _
    omega
  · rw [if_neg hov]
    apply flatMap_congr_mem
    intro rep _
    by_cases hskip : region.startTick + (rep : Int) * pattern.lengthTicks + pattern.lengthTicks ≤ s
        ∨ e ≤ region.startTick + (rep : Int) * pattern.lengthTicks
    · rw [if_pos hskip]
      symm
      apply regionNoteEvents_nil_of_disjoint
      intro n hmem
      have := hn n hmem
      omega
    · rw [if_neg hskip]
      rfl

/-- The groove region `[0, 3·3840)` queried over `[3000, 4500)`: the scheduler and the naive
enumeration return the same list, with events at ticks 3360, 3840, 3840 and 4320. -/
theorem skip_tests_pure_optimisation_witness :
    0 < groovePattern.lengthTicks ∧ NotesWithin groovePattern.notes groovePattern.lengthTicks ∧
    getEventsFromRegion grooveRegion groovePattern 3000 4500
      = naiveRegionEvents grooveRegion groovePattern 3000 4500 ∧
    (getEventsFromRegion grooveRegion groovePattern 3000 4500).map (fun ev => ev.tick)
      = [3360, 3840, 3840, 4320] :=
  have hn : NotesWithin groovePattern.notes groovePattern.lengthTicks := by
    unfold NotesWithin
    decide
  ⟨by decide, hn, skip_tests_pure_optimisation grooveRegion groovePattern 3000 4500 (by decide) hn,
    by rfl⟩


/-- C36 (evaluation at the failing input): with `L = 10` and the window `[-5, 5)` the C++
quotient `-5 / 10` is 0, not `⌊-5/10⌋ = -1`, so the loop commented "Calculate which loop
iterations overlap with [startTick, endTick)" starts at tick 0 and not at
`⌊startTick/L⌋·L = -10`; the iteration that starts at -10 overlaps the window but is never
run, and its note at offset 7 (tick -3, inside the window) is not returned. -/
theorem loop_skips_iteration_below_zero :
    singlePatternLoopTicks 10 (-5) 5 = some [0] ∧
    ⌊((-5 : Int) : ℚ) / ((10 : Int) : ℚ)⌋ * 10 = -10 ∧
    getEventsFromSinglePattern offbeatPattern 10 true (-5) 5 = some [] ∧
    patternNoteEvents offbeatPattern.notes (-5) 5 (-10)
      = [{ tick := -3, instrumentId := 1, velocity := 1 }] := by
  refine ⟨by decide, ?_, by decide, by decide⟩
  have h : ⌊((-5 : Int) : ℚ) / ((10 : Int) : ℚ)⌋ = -1 := by
    rw [Int.floor_eq_iff]
    norm_num
  rw [h]
  rfl

/-- Termination of the looping scheduler: for every pattern, every `loopLengthTicks = L > 0`
and every window, the loop over iterations in `getEventsFromSinglePattern` ends: it runs from
`(startTick / L)·L` in steps of `L` while the loop tick is below `((endTick + L - 1) / L)·L`,
with the truncating quotients of the source, and the call returns the events of the visited
loop ticks in ascending tick order.  For `0 ≤ startTick ≤ endTick` the loop starts at
`⌊startTick/L⌋·L`, stops at the first multiple of `L` at or above `endTick`, and makes fewer
than `(endTick - startTick)/L + 2` iterations.  With `L = 0` the call returns the empty list
before any division. -/
theorem looping_terminates (pattern : Pattern) (L s e : Int) (hL : 0 < L) :
    singlePatternLoopTicks L s e
      = some ((List.range ((e + L - 1).tdiv L - s.tdiv L).toNat).map
          (fun (i : Nat) => s.tdiv L * L + (i : Int) * L)) ∧
    (∃ out, getEventsFromSinglePattern pattern L true s e = some out ∧
      out.Perm (((List.range ((e + L - 1).tdiv L - s.tdiv L).toNat).map
          (fun (i : Nat) => s.tdiv L * L + (i : Int) * L)).flatMap
            (fun base => patternNoteEvents pattern.notes s e base)) ∧
      out.Pairwise (fun e1 e2 => e1.tick ≤ e2.tick)) ∧
    (0 ≤ s → s ≤ e →
      s.tdiv L * L = ⌊(s : ℚ) / (L : ℚ)⌋ * L ∧
      (e + L - 1).tdiv L * L = ⌈(e : ℚ) / (L : ℚ)⌉ * L ∧
      ((((e + L - 1).tdiv L - s.tdiv L).toNat : Nat) : ℚ) < ((e : ℚ) - (s : ℚ)) / (L : ℚ) + 2) ∧
    (∀ looping : Bool, getEventsFromSinglePattern pattern 0 looping s e = some []) := by
  refine ⟨singlePatternLoopTicks_eq L s e hL, ?_, ?_, ?_⟩
  · refine ⟨_, ?_, sortEvents_perm _, sortEvents_sorted _⟩
    rw [getEventsFromSinglePattern_eq_loopTicks pattern L s e hL, singlePatternLoopTicks_eq L s e hL]
    rfl
  · intro hs hse
    have hk0 : s.tdiv L = s / L := Int.tdiv_eq_ediv hs hL.le
    have hk1 : (e + L - 1).tdiv L = (e + L - 1) / L := Int.tdiv_eq_ediv (by omega) hL.le
    refine ⟨?_, ?_, ?_⟩
    · rw [floor_div_eq_tdiv s L hs hL]
    · rw [ceil_div_eq e L hL, hk1]
    · rw [hk0, hk1]
      have a1 := Int.ediv_mul_le (e + L - 1) (ne_of_gt hL)
      have a2 := Int.lt_ediv_add_one_mul_self s hL
      have hmono : s / L ≤ (e + L - 1) / L := Int.ediv_le_ediv hL (by omega)
      have hLq : (0 : ℚ) < (L : ℚ) := by exact_mod_cast hL
      have hcast : ((((e + L - 1) / L - s / L).toNat : Nat) : ℚ)
          = (((e + L - 1) / L - s / L : Int) : ℚ) := by
        have := Int.toNat_of_nonneg (show 0 ≤ (e + L - 1) / L - s / L by omega)
        exact_mod_cast this
      rw [hcast]
      have hgoal : (((e + L - 1) / L - s / L : Int) : ℚ) * (L : ℚ)
          < ((e : ℚ) - (s : ℚ)) + 2 * (L : ℚ) := by
        have hint : ((e + L - 1) / L - s / L) * L < (e - s) + 2 * L := by
          have e1 : ((e + L - 1) / L - s / L) * L
              = (e + L - 1) / L * L - (s / L + 1) * L + L := by ring
          omega
        exact_mod_cast hint
      have hsplit : ((e : ℚ) - (s : ℚ)) / (L : ℚ) + 2
          = (((e : ℚ) - (s : ℚ)) + 2 * (L : ℚ)) / (L : ℚ) := by
        field_simp
      rw [hsplit, lt_div_iff₀ hLq]
      exact hgoal
  · intro looping
    unfold getEventsFromSinglePattern
    by_cases hn : pattern.notes.isEmpty = true
    · rw [if_pos hn]
    · rw [if_neg hn, if_pos rfl]

/-- With a 3840-tick loop the window `[3000, 8000)` visits the loop ticks 0, 3840 and 7680. -/
theorem looping_terminates_witness :
    singlePatternLoopTicks 3840 3000 8000 = some [0, 3840, 7680] ∧
    singlePatternLoopTicks 3840 3000 8000
      = some ((List.range ((8000 + 3840 - 1 : Int).tdiv 3840 - (3000 : Int).tdiv 3840).toNat).map
          (fun (i : Nat) => (3000 : Int).tdiv 3840 * 3840 + (i : Int) * 3840)) ∧
    (∀ looping : Bool, getEventsFromSinglePattern groovePattern 0 looping 3000 8000 = some []) :=
  ⟨by decide, (looping_terminates groovePattern 3840 3000 8000 (by decide)).1,
    (looping_terminates groovePattern 3840 3000 8000 (by decide)).2.2.2⟩


/-! ## Project and engine glue: claims -/

/-- C33, as stated, fails: adding a track to a freshly constructed project leaves the revision
at 0, and so does every other editing operation (here: removing the track, adding and
removing a pattern, an instrument, and a region on `track_0`). -/
theorem revision_bumped_counterexample :
    defaultProject.getRevision = 0 ∧
    (defaultProject.addTrack { id := "track_1", name := "Percussion" }).getRevision = 0 ∧
    (defaultProject.addTrack { id := "track_1", name := "Percussion" }).tracks.length = 2 ∧
    ¬ defaultProject.getRevision
        < (defaultProject.addTrack { id := "track_1", name := "Percussion" }).getRevision ∧
    ([ProjectEdit.addTrack { id := "track_1", name := "Percussion" },
      ProjectEdit.addPattern { id := "pat_1", name := "Pattern 1", lengthTicks := 3840 },
      ProjectEdit.addInstrument { id := 4, name := "Crash" },
      ProjectEdit.removeInstrument 4,
      ProjectEdit.addRegion "track_0" (Region.groove "r1" 0 3840),
      ProjectEdit.removeRegion "track_0" "r1",
      ProjectEdit.removePattern "pat_1",
      ProjectEdit.removeTrack "track_1"].foldl Project.applyEdit defaultProject).getRevision
      = 0 := by
  decide

/-- C33, amended. The project's revision counter changes only through `incrementRevision`:
`addTrack`, `removeTrack` and the edits of patterns, instruments and regions made through
`getPatternLibrary()`, `getInstrumentRack()` and `getTrack()` leave `getRevision()` as it
was, after one edit and after any sequence of edits; `incrementRevision` raises it by one
(below the 64-bit limit). -/
theorem revision_changes_only_by_increment (p : Project) (edits : List ProjectEdit) :
    (∀ edit : ProjectEdit, (p.applyEdit edit).getRevision = p.getRevision) ∧
    (edits.foldl Project.applyEdit p).getRevision = p.getRevision ∧
    (p.getRevision + 1 < 2 ^ 64 → p.incrementRevision.getRevision = p.getRevision + 1) ∧
    p.incrementRevision.tracks = p.tracks ∧ p.incrementRevision.patterns = p.patterns := by
  refine ⟨fun edit => applyEdit_revision p edit, applyEdits_revision edits p, ?_, rfl, rfl⟩
  intro h
  unfold Project.incrementRevision Project.getRevision at *
  exact Nat.mod_eq_of_lt h

/-- On the default project an added track leaves the revision at 0 and an explicit
`incrementRevision` raises it to 1. -/
theorem revision_changes_only_by_increment_witness :
    (defaultProject.applyEdit (ProjectEdit.addTrack { id := "track_1" })).getRevision
      = defaultProject.getRevision ∧
    defaultProject.getRevision + 1 < 2 ^ 64 ∧
    defaultProject.incrementRevision.getRevision = defaultProject.getRevision + 1 :=
  ⟨(revision_changes_only_by_increment defaultProject []).1 _, by decide,
    (revision_changes_only_by_increment defaultProject []).2.2.1 (by decide)⟩


/-- C32, as stated, fails: the first instrument of the rack points to a file that cannot be
read and the second one to a file that loads; `loadInstrumentSamples` returns false at the
first instrument and leaves the map empty, so the second instrument has no entry although its
sample loads. -/
theorem load_continues_counterexample :
    onlySnareLoads "missing.wav" = none ∧ onlySnareLoads "snare.wav" = some clickSample ∧
    loadProjectSamples onlySnareLoads brokenKickProject = ([], false) ∧
    getSampleForInstrument (loadProjectSamples onlySnareLoads brokenKickProject).1 2 = none ∧
    (({} : Engine).loadInstrumentSamples onlySnareLoads brokenKickProject).1.instrumentSamples
      = [] := by
  refine ⟨by decide, by decide, by rfl, by rfl, by rfl⟩

/-- C32, amended. `loadInstrumentSamples` skips instruments without a sample path and stops at
the first instrument whose sample fails to load: the call returns true iff every non-empty
path of the rack loads; after the call an id has an entry in the instrument→sample map iff
some instrument with that id and a non-empty path comes before the first failing instrument;
with distinct ids the entry of such an instrument is its loaded sample; and when no load
fails every instrument with a non-empty path has an entry. -/
theorem load_stops_at_first_failure (loadSample : String → Option Sample) (project : Project) :
    ((loadProjectSamples loadSample project).2 = true ↔
      ∀ i ∈ project.instruments.instruments, i.samplePath.isEmpty = false →
        (loadSample i.samplePath).isSome = true) ∧
    (∀ id : Int,
      (getSampleForInstrument (loadProjectSamples loadSample project).1 id).isSome = true ↔
        ∃ i ∈ instrumentsBeforeFailure loadSample project.instruments.instruments,
          i.id = id ∧ i.samplePath.isEmpty = false) ∧
    ((project.instruments.instruments.map (fun i => i.id)).Nodup →
      ∀ i ∈ instrumentsBeforeFailure loadSample project.instruments.instruments,
        i.samplePath.isEmpty = false →
        getSampleForInstrument (loadProjectSamples loadSample project).1 i.id
          = loadSample i.samplePath) ∧
    ((loadProjectSamples loadSample project).2 = true →
      ∀ i ∈ project.instruments.instruments, i.samplePath.isEmpty = false →
        (getSampleForInstrument (loadProjectSamples loadSample project).1 i.id).isSome = true) := by
  have hflag : (loadProjectSamples loadSample project).2 = true ↔
      ∀ i ∈ project.instruments.instruments, i.samplePath.isEmpty = false →
        (loadSample i.samplePath).isSome = true := by
    unfold loadProjectSamples
    rw [loadSamplesLoop_flag, instrumentsBeforeFailure, List.takeWhile_eq_self_iff]
    constructor
    · intro h i hi hp
      have := h i hi
      simpa [hp] using this
    · intro h i hi
      by_cases hp : i.samplePath.isEmpty = true
      · simp [hp]
      · have := h i hi (by simpa using hp)
        simp [this]
  have hkeys : ∀ id : Int,
      (getSampleForInstrument (loadProjectSamples loadSample project).1 id).isSome = true ↔
        ∃ i ∈ instrumentsBeforeFailure loadSample project.instruments.instruments,
          i.id = id ∧ i.samplePath.isEmpty = false := by
    intro id
    unfold loadProjectSamples
    rw [loadSamplesLoop_lookup]
    cases hlast : ((instrumentsBeforeFailure loadSample project.instruments.instruments).filter
        (fun i => decide (i.id = id) && !i.samplePath.isEmpty)).getLast? with
    | none =>
      simp only [getSampleForInstrument, List.find?_nil, Option.map_none', Option.isSome_none,
        Bool.false_eq_true, false_iff]
      rintro ⟨i, hi, hid, hp⟩
      rw [List.getLast?_eq_none_iff, List.filter_eq_nil_iff] at hlast
      have := hlast i hi
      simp [hid, hp] at this
    | some inst =>
      have hmem := List.mem_of_getLast?_eq_some hlast
      rw [List.mem_filter] at hmem
      have hcond : inst.id = id ∧ inst.samplePath.isEmpty = false := by simpa using hmem.2
      simp only
      constructor
      · intro _
        exact ⟨inst, hmem.1, hcond.1, hcond.2⟩
      · intro _
        exact beforeFailure_loads loadSample _ inst hmem.1 hcond.2
  refine ⟨hflag, hkeys, ?_, ?_⟩
  · intro hnodup i hi hp
    unfold loadProjectSamples
    rw [loadSamplesLoop_lookup]
    have hfilter : i ∈ (instrumentsBeforeFailure loadSample project.instruments.instruments).filter
        (fun j => decide (j.id = i.id) && !j.samplePath.isEmpty) := by
      rw [List.mem_filter]
      exact ⟨hi, by simp [hp]⟩
    cases hlast : ((instrumentsBeforeFailure loadSample project.instruments.instruments).filter
        (fun j => decide (j.id = i.id) && !j.samplePath.isEmpty)).getLast? with
    | none =>
      rw [List.getLast?_eq_none_iff] at hlast
      rw [hlast] at hfilter
      exact absurd hfilter (List.not_mem_nil i)
    | some inst =>
      have hmem := List.mem_of_getLast?_eq_some hlast
      rw [List.mem_filter] at hmem
      have hid : inst.id = i.id := by
        have : inst.id = i.id ∧ inst.samplePath.isEmpty = false := by simpa using hmem.2
        exact this.1
      have hsub := List.takeWhile_sublist
        (fun (j : Instrument) => j.samplePath.isEmpty || (loadSample j.samplePath).isSome)
        (l := project.instruments.instruments)
      have heq : inst = i :=
        List.inj_on_of_nodup_map hnodup (hsub.subset hmem.1) (hsub.subset hi) hid
      simp only
      rw [heq]
  · intro hok i hi hp
    rw [hkeys]
    refine ⟨i, ?_, rfl, hp⟩
    have hall : instrumentsBeforeFailure loadSample project.instruments.instruments
        = project.instruments.instruments := by
      unfold loadProjectSamples at hok
      exact (loadSamplesLoop_flag loadSample _ _).mp hok
    rw [hall]
    exact hi

/-- With a rack whose snare comes first and the unreadable kick second, the snare is loaded
before the call fails. -/
theorem load_stops_at_first_failure_witness :
    (getSampleForInstrument (loadProjectSamples onlySnareLoads
        { instruments := { instruments :=
            [{ id := 2, name := "Snare", samplePath := "snare.wav" },
             { id := 1, name := "Kick", samplePath := "missing.wav" }] } }).1 2).isSome = true ∧
    (loadProjectSamples onlySnareLoads
        { instruments := { instruments :=
            [{ id := 2, name := "Snare", samplePath := "snare.wav" },
             { id := 1, name := "Kick", samplePath := "missing.wav" }] } }).2 = false :=
  ⟨((load_stops_at_first_failure onlySnareLoads
        { instruments := { instruments :=
            [{ id := 2, name := "Snare", samplePath := "snare.wav" },
             { id := 1, name := "Kick", samplePath := "missing.wav" }] } }).2.1 2).mpr
      ⟨{ id := 2, name := "Snare", samplePath := "snare.wav" }, by
        simp [instrumentsBeforeFailure, onlySnareLoads, List.takeWhile_cons], rfl, by decide⟩,
    by rfl⟩

/-- C34. The sampler stays in bounds: a fresh sampler satisfies "every active voice has a
non-null sample and `playbackPosition ≤ lengthFrames`"; `noteOn`, `render` and `allNotesOff`
preserve it; and every iteration `render` executes reads `sampleL`/`sampleR` at an index below
`lengthFrames`, hence inside `dataLeft` and `dataRight` when both have `lengthFrames` entries,
and writes `outL`/`outR` at an index below `nframes`. -/
theorem sampler_reads_in_bounds (s : Sampler) (sample : Option Sample) (velocity gain pan : ℚ)
    (offsetFrames : Nat) (outL outR : List ℚ) (nframes : Nat) :
    ({} : Sampler).inBounds = true ∧
    (s.inBounds = true →
      (s.noteOn sample velocity gain pan offsetFrames).inBounds = true ∧
      (s.render outL outR nframes).1.inBounds = true ∧
      s.allNotesOff.inBounds = true) ∧
    (s.render outL outR nframes).2 = (s.renderAccesses nframes).foldl applyAccess (outL, outR) ∧
    (∀ a ∈ s.renderAccesses nframes,
      a.readIndex < a.sample.lengthFrames ∧ a.writeIndex < nframes ∧
      (a.sample.dataLeft.length = a.sample.lengthFrames →
        a.sample.dataRight.length = a.sample.lengthFrames →
          a.readIndex < a.sample.dataLeft.length ∧ a.readIndex < a.sample.dataRight.length)) := by
  refine ⟨fresh_inBounds, fun h => ⟨noteOn_inBounds _ _ _ _ _ _ h, render_inBounds _ _ _ _ h,
    allNotesOff_inBounds _⟩, render_eq_accesses _ _ _ _, ?_⟩
  intro a ha
  have hb := renderVoicesAccesses_bound _ _ _ ha
  exact ⟨hb.1, hb.2, fun hl hr => ⟨by omega, by omega⟩⟩

/-- One click voice rendered over two frames: the sampler is in bounds before and after, and
the only iteration reads index 0 of the one-frame sample and writes index 0 of the block. -/
theorem sampler_reads_in_bounds_witness :
    (({} : Sampler).noteOn (some clickSample) 1 1 0 0).inBounds = true ∧
    ((({} : Sampler).noteOn (some clickSample) 1 1 0 0).render [0, 0] [0, 0] 2).1.inBounds = true ∧
    (({} : Sampler).noteOn (some clickSample) 1 1 0 0).renderAccesses 2
      = [{ sample := clickSample, readIndex := 0, writeIndex := 0, gainL := 1, gainR := 1 }] ∧
    (0 < clickSample.dataLeft.length ∧ 0 < clickSample.dataRight.length) :=
  ⟨by rfl,
   ((sampler_reads_in_bounds (({} : Sampler).noteOn (some clickSample) 1 1 0 0) none 1 1 0 0
      [0, 0] [0, 0] 2).2.1 (by rfl)).2.1,
   by with_unfolding_all rfl,
   ((sampler_reads_in_bounds (({} : Sampler).noteOn (some clickSample) 1 1 0 0) none 1 1 0 0
      [0, 0] [0, 0] 2).2.2.2
      { sample := clickSample, readIndex := 0, writeIndex := 0, gainL := 1, gainR := 1 }
      (by rw [show (({} : Sampler).noteOn (some clickSample) 1 1 0 0).renderAccesses 2
            = [{ sample := clickSample, readIndex := 0, writeIndex := 0, gainL := 1, gainR := 1 }]
            from by with_unfolding_all rfl]
          exact List.mem_singleton.mpr rfl)).2.2 rfl rfl⟩

/-- C40. `getBarStartAt` brackets its argument: in a meter map whose entries are sorted, whose
first entry (if any) is at tick 0 and whose signatures have positive bar lengths, every tick
`t ≥ 0` satisfies `getBarStartAt t ≤ t < getBarStartAt t + ticksPerBar (getSignatureAt t)`, and
the bar start has the bar index of `t`. -/
theorem bar_start_brackets (m : MeterMap) (t : Int) (hs : m.Sorted)
    (h0 : ∀ first, m.changes_.head? = some first → first.atTick = 0)
    (hB : ∀ c ∈ m.changes_, 0 < ticksPerBar c.signature) (ht : 0 ≤ t) :
    m.getBarStartAt t ≤ t ∧
    t < m.getBarStartAt t + ticksPerBar (m.getSignatureAt t) ∧
    m.getBarIndexAt (m.getBarStartAt t) = m.getBarIndexAt t := by
  cases hm : m.changes_ with
  | nil =>
    have hb : (0 : Int) < ticksPerBar { numerator := 4, denominator := 4 } := by decide
    have hbr := tdiv_bracket t _ ht hb
    simp only [MeterMap.getBarStartAt, MeterMap.getSignatureAt, MeterMap.getBarIndexAt, hm]
    refine ⟨hbr.2.1, hbr.2.2, ?_⟩
    rw [Int.mul_tdiv_cancel _ (by omega)]
  | cons first rest =>
    have hfirst : first.atTick = 0 := h0 first (by rw [hm]; rfl)
    have hsorted : (first :: rest).Pairwise (fun a b => a.atTick ≤ b.atTick) := by
      have := hs
      unfold MeterMap.Sorted at this
      rwa [hm] at this
    obtain ⟨i, hin⟩ := exists_inSegment t rest first (by omega)
    have hmem : (first :: rest).getD i {} ∈ m.changes_ := by
      rw [hm, List.getD_eq_getElem _ _ hin.1]
      exact List.getElem_mem _
    have hb : 0 < ticksPerBar (segmentSignature (first :: rest) i) := hB _ hmem
    have hoff : 0 ≤ t - segmentStart (first :: rest) i := by
      have := hin.2.1
      omega
    have hbr := tdiv_bracket _ _ hoff hb
    have hstart : m.getBarStartAt t
        = segmentStart (first :: rest) i
          + ((t - segmentStart (first :: rest) i).tdiv
              (ticksPerBar (segmentSignature (first :: rest) i)))
            * ticksPerBar (segmentSignature (first :: rest) i) := by
      simp only [MeterMap.getBarStartAt, hm]
      exact barStartWalk_segment t _ _ i hsorted hin
    have hsig : m.getSignatureAt t = segmentSignature (first :: rest) i := by
      simp only [MeterMap.getSignatureAt, hm]
      exact scanSignature_segment t _ i _ hsorted hin
    have hin' : InSegment (first :: rest) (m.getBarStartAt t) i := by
      refine ⟨hin.1, by rw [hstart]; omega, ?_⟩
      intro e he
      have := hin.2.2 e he
      rw [hstart]
      omega
    refine ⟨by rw [hstart]; omega, by rw [hstart, hsig]; omega, ?_⟩
    simp only [MeterMap.getBarIndexAt, hm]
    apply barIndexWalk_congr t _ _ i 0 hsorted hin (by simpa only [hm] using hin')
    rw [hstart]
    have : segmentStart (first :: rest) i
          + (t - segmentStart (first :: rest) i).tdiv
              (ticksPerBar (segmentSignature (first :: rest) i))
            * ticksPerBar (segmentSignature (first :: rest) i)
          - segmentStart (first :: rest) i
        = (t - segmentStart (first :: rest) i).tdiv
              (ticksPerBar (segmentSignature (first :: rest) i))
            * ticksPerBar (segmentSignature (first :: rest) i) := by ring
    rw [this, Int.mul_tdiv_cancel _ (by omega)]

/-- Tick 11000 of the three-meter map lies in the 3/4 section from 7680: its bar starts at
10560, is 2880 ticks long and has index 3. -/
theorem bar_start_brackets_witness :
    threeMeterMap.Sorted ∧ (0 : Int) ≤ 11000 ∧
    threeMeterMap.getBarStartAt 11000 = 10560 ∧
    ticksPerBar (threeMeterMap.getSignatureAt 11000) = 2880 ∧
    threeMeterMap.getBarIndexAt 11000 = 3 ∧
    (threeMeterMap.getBarStartAt 11000 ≤ 11000 ∧
     11000 < threeMeterMap.getBarStartAt 11000
        + ticksPerBar (threeMeterMap.getSignatureAt 11000) ∧
     threeMeterMap.getBarIndexAt (threeMeterMap.getBarStartAt 11000)
        = threeMeterMap.getBarIndexAt 11000) :=
  ⟨by simp [MeterMap.Sorted, threeMeterMap], by decide, by decide, by decide, by decide,
   bar_start_brackets threeMeterMap 11000 (by simp [MeterMap.Sorted, threeMeterMap])
     (by intro first h; simp [threeMeterMap] at h; rw [← h])
     (by intro c hc; simp [threeMeterMap] at hc; rcases hc with rfl | rfl | rfl <;> decide)
     (by decide)⟩
end Beater
